import Mathlib

/-!
# Sistema de archivos jerárquico (fs.h / main.cpp): modelo y verificación

The C++ program keeps a first-child/next-sibling pointer tree of `Nodo` records.
The embedding below keeps the pointer structure that the claims talk about:

* memory is an arena `Mem = List Nodo`; a pointer is an index into it, `new` appends;
* a non-null `Nodo*` is a `Nat`, a nullable one an `Option Nat`, a nullable `const char*` an `Option Cadena`;
* a C string is the list of its characters before the terminating NUL;
* the two intrusive singly linked lists (`primerHijo`/`siguienteHermano` and
  `primeraLinea`/`siguiente`) are stored as Lean lists in the owning node, in chain order;
* `ostream& out` is modelled by the text a call writes to it, an `istream` by its unread
  characters and a failure flag;
* loops that walk pointers (`padre` chains, the DFS stack) take fuel bounded by the size of
  the arena and return `none` when they do not finish within it; loops that consume text
  take fuel above the length of the text, which is never used up;
* the `int` counters (`cnt`, `N`) are natural numbers; the theorems that depend on them
  assume that line counts stay below `2^31`.

Root of every tree is node 0, as allocated first by `main`.
-/

namespace FS

/-! ## Data model -/

/-- Node kinds, `enum TipoNodo`. -/
inductive TipoNodo where
  | NODO_DIR
  | NODO_ARCHIVO
  deriving DecidableEq, Repr

/-- A C string: its characters before the NUL terminator. -/
abbrev Cadena := List Char

/-- The record `struct Nodo`. `hijos` is the chain `primerHijo`, `siguienteHermano`, ...;
`lineas` is the chain `primeraLinea`, `siguiente`, ... of `texto` fields. -/
structure Nodo where
  tipo : TipoNodo
  nombre : Cadena
  padre : Option Nat
  hijos : List Nat
  lineas : List Cadena
  deriving DecidableEq, Repr

/-- The arena of allocated nodes. -/
abbrev Mem := List Nodo

/-- What a mutating call leaves behind: the memory, the returned value and the text written
to `out`. -/
structure Res (α : Type) where
  mem : Mem
  val : α
  out : Cadena
  deriving DecidableEq, Repr

/-- Contents read through a dangling pointer (never the case in a well-formed arena). -/
def nodoNulo : Nodo := ⟨TipoNodo.NODO_DIR, [], none, [], []⟩

/-- Dereference `p`. -/
def leer (h : Mem) (p : Nat) : Nodo := h.getD p nodoNulo

/-! ## String utilities -/

/-- Source `str_longitud`. -/
def str_longitud : Option Cadena → Nat
  | none => 0
  | some s => s.length

/-- The comparison loop of `str_igual`, both strings non-null. -/
def str_igual_desde : Cadena → Cadena → Bool
  | [], [] => true
  | [], _ :: _ => false
  | _ :: _, [] => false
  | x :: xs, y :: ys => if x ≠ y then false else str_igual_desde xs ys

/-- Source `str_igual`. -/
def str_igual : Option Cadena → Option Cadena → Bool
  | none, none => true
  | some a, some b => str_igual_desde a b
  | _, _ => false

/-- Source `nombre_valido`: non-null, non-empty, without a slash. -/
def nombre_valido (s : Option Cadena) : Bool :=
  match s with
  | none => false
  | some cs => if str_longitud (some cs) = 0 then false else !(cs.any (fun c => c == '/'))

/-! ## Node helpers -/

/-- Source `crear_nodo`: allocate a node without linking it. -/
def crear_nodo (h : Mem) (t : TipoNodo) (nombre : Option Cadena) (padre : Option Nat) :
    Mem × Nat :=
  (h ++ [⟨t, nombre.getD [], padre, [], []⟩], h.length)

/-- The scan of `buscar_hijo` along a sibling chain. -/
def buscar_en (h : Mem) (nombre : Option Cadena) : List Nat → Option Nat
  | [] => none
  | c :: cs => if str_igual (some (leer h c).nombre) nombre then some c else buscar_en h nombre cs

/-- Source `buscar_hijo`. -/
def buscar_hijo (h : Mem) (dir : Option Nat) (nombre : Option Cadena) : Option Nat :=
  match dir with
  | none => none
  | some d =>
    if (leer h d).tipo ≠ TipoNodo.NODO_DIR then none
    else buscar_en h nombre (leer h d).hijos

/-- Source `tiene_hijo_llamado`. -/
def tiene_hijo_llamado (h : Mem) (dir : Option Nat) (nombre : Option Cadena) : Bool :=
  (buscar_hijo h dir nombre).isSome

/-- Source `enlazar_hijo_al_frente`. -/
def enlazar_hijo_al_frente (h : Mem) (padre hijo : Nat) : Mem :=
  let h1 := h.set hijo { leer h hijo with padre := some padre }
  h1.set padre { leer h1 padre with hijos := hijo :: (leer h1 padre).hijos }

/-- Source `desvincular_de_padre`: splice `n` out of its parent's chain; `n->padre` is kept. -/
def desvincular_de_padre (h : Mem) (n : Option Nat) : Mem :=
  match n with
  | none => h
  | some x =>
    match (leer h x).padre with
    | none => h
    | some p => h.set p { leer h p with hijos := (leer h p).hijos.erase x }

/-! ## File-system operations -/

/-- Source `crear_directorio`. -/
def crear_directorio (h : Mem) (cwd : Option Nat) (nombre : Option Cadena) :
    Res (Option Nat) :=
  match cwd with
  | none => ⟨h, none, "Error: directorio actual inválido\n".toList⟩
  | some c =>
    if (leer h c).tipo ≠ TipoNodo.NODO_DIR then
      ⟨h, none, "Error: directorio actual inválido\n".toList⟩
    else if !nombre_valido nombre then ⟨h, none, "Error: nombre inválido\n".toList⟩
    else if tiene_hijo_llamado h cwd nombre then
      ⟨h, none, "Error: ya existe en el directorio\n".toList⟩
    else
      let r := crear_nodo h TipoNodo.NODO_DIR nombre cwd
      ⟨enlazar_hijo_al_frente r.1 c r.2, some r.2, []⟩

/-- Source `crear_archivo`. -/
def crear_archivo (h : Mem) (cwd : Option Nat) (nombre : Option Cadena) :
    Res (Option Nat) :=
  match cwd with
  | none => ⟨h, none, "Error: directorio actual inválido\n".toList⟩
  | some c =>
    if (leer h c).tipo ≠ TipoNodo.NODO_DIR then
      ⟨h, none, "Error: directorio actual inválido\n".toList⟩
    else if !nombre_valido nombre then ⟨h, none, "Error: nombre inválido\n".toList⟩
    else
      match buscar_hijo h cwd nombre with
      | some existente =>
        if (leer h existente).tipo = TipoNodo.NODO_ARCHIVO then ⟨h, some existente, []⟩
        else ⟨h, none, "Error: existe una carpeta con ese nombre\n".toList⟩
      | none =>
        let r := crear_nodo h TipoNodo.NODO_ARCHIVO nombre cwd
        ⟨enlazar_hijo_al_frente r.1 c r.2, some r.2, []⟩

/-- The loop of `es_ancestro`, with fuel. -/
def es_ancestro_desde (h : Mem) (ancestro : Option Nat) : Nat → Option Nat → Option Bool
  | _, none => some false
  | 0, some _ => none
  | f + 1, some c =>
    if some c = ancestro then some true else es_ancestro_desde h ancestro f (leer h c).padre

/-- Source `es_ancestro`; `none` when the parent chain does not end within the arena size. -/
def es_ancestro (h : Mem) (ancestro n : Option Nat) : Option Bool :=
  es_ancestro_desde h ancestro (h.length + 1) n

/-- Source `mover_nodo`; `none` only when `es_ancestro` does not return. -/
def mover_nodo (h : Mem) (item nuevoPadre : Option Nat) (nuevoNombre : Option Cadena) :
    Option (Res Bool) :=
  match item, nuevoPadre with
  | some it, some np =>
    if (leer h np).tipo ≠ TipoNodo.NODO_DIR then
      some ⟨h, false, "Error: destino inválido\n".toList⟩
    else
      match es_ancestro h item nuevoPadre with
      | none => none
      | some true => some ⟨h, false, "Error: no se puede mover dentro de su subárbol\n".toList⟩
      | some false =>
        let nombreFinal : Option Cadena :=
          if nuevoNombre.isSome && nombre_valido nuevoNombre then nuevoNombre
          else some (leer h it).nombre
        if !nombre_valido nombreFinal then
          some ⟨h, false, "Error: nombre destino inválido\n".toList⟩
        else if tiene_hijo_llamado h nuevoPadre nombreFinal then
          some ⟨h, false, "Error: colisión de nombre en destino\n".toList⟩
        else
          let h1 := desvincular_de_padre h item
          let h2 :=
            if nuevoNombre.isSome && !str_igual nuevoNombre (some (leer h1 it).nombre) then
              h1.set it { leer h1 it with nombre := nuevoNombre.getD [] }
            else h1
          some ⟨enlazar_hijo_al_frente h2 np it, true, []⟩
  | _, _ => some ⟨h, false, "Error: destino inválido\n".toList⟩

/-! ## Path resolution -/

/-- The loop `while (ruta[i] == '/') ++i;`. -/
def saltar_barras : Cadena → Cadena
  | [] => []
  | c :: r => if c = '/' then saltar_barras r else c :: r

/-- The token copy loop `while (ruta[i] != 0 && ruta[i] != '/' && tlen < 255)`: the token and
the text left after it. The first argument is the room left in `token`. -/
def leer_token : Nat → Cadena → Cadena × Cadena
  | 0, r => ([], r)
  | _ + 1, [] => ([], [])
  | n + 1, c :: r =>
    if c = '/' then ([], c :: r)
    else
      let q := leer_token n r
      (c :: q.1, q.2)

/-- Source `resolver_inicio`. -/
def resolver_inicio (raiz cwd : Option Nat) (ruta : Option Cadena) : Option Nat :=
  match ruta with
  | none => cwd
  | some [] => cwd
  | some (c :: _) => if c = '/' then raiz else cwd

/-- The main loop of `resolver_ruta` from position `i` (the text still to read) and node
`cur`. Every round consumes at least one character, so fuel above the length of the text is
never used up. The result is the returned pointer and the text written to `out`. -/
def resolver_bucle (h : Mem) : Nat → Nat → Cadena → Option Nat × Cadena
  | 0, cur, _ => (some cur, [])
  | f + 1, cur, r =>
    match saltar_barras r with
    | [] => (some cur, [])
    | c :: r1 =>
      let q := leer_token 255 (c :: r1)
      if q.1.length = 0 then resolver_bucle h f cur q.2
      else if str_igual (some q.1) (some ['.']) then resolver_bucle h f cur q.2
      else if str_igual (some q.1) (some ['.', '.']) then
        match (leer h cur).padre with
        | some p => resolver_bucle h f p q.2
        | none => resolver_bucle h f cur q.2
      else if (leer h cur).tipo ≠ TipoNodo.NODO_DIR then
        (none, "Error: ruta atraviesa archivo\n".toList)
      else
        match buscar_hijo h (some cur) (some q.1) with
        | none => (none, "Error: elemento no encontrado: ".toList ++ q.1 ++ ['\n'])
        | some nxt => resolver_bucle h f nxt q.2

/-- Source `resolver_ruta`. -/
def resolver_ruta (h : Mem) (raiz cwd : Option Nat) (ruta : Option Cadena) :
    Option Nat × Cadena :=
  match resolver_inicio raiz cwd ruta with
  | none => (none, "Error: punto de inicio inválido\n".toList)
  | some cur =>
    match ruta with
    | none => (some cur, [])
    | some [] => (some cur, [])
    | some (c :: r) =>
      if c = '/' then resolver_bucle h (r.length + 1) cur r
      else resolver_bucle h (r.length + 2) cur (c :: r)

/-- The walk `while (cur && cur->padre)` of `construir_ruta_absoluta`, filling `arr` from its
end: the nodes from below the root down to `n`. -/
def cadena_hasta_raiz (h : Mem) : Nat → Nat → List Nat → Option (List Nat)
  | 0, _, _ => none
  | f + 1, cur, arr =>
    match (leer h cur).padre with
    | none => some arr
    | some p => cadena_hasta_raiz h f p (cur :: arr)

/-- The copy loop of `construir_ruta_absoluta`: names separated by single slashes. -/
def unir_nombres (h : Mem) : List Nat → Cadena
  | [] => []
  | [x] => (leer h x).nombre
  | x :: y :: r => (leer h x).nombre ++ '/' :: unir_nombres h (y :: r)

/-- Source `construir_ruta_absoluta`; `none` when the parent walk does not end. -/
def construir_ruta_absoluta (h : Mem) (n : Option Nat) : Option Cadena :=
  match n with
  | none => some ['/']
  | some x =>
    match cadena_hasta_raiz h (h.length + 1) x [] with
    | none => none
    | some [] => some ['/']
    | some (a :: arr) => some ('/' :: unir_nombres h (a :: arr))

/-! ## Input streams -/

/-- An `istream`: the unread characters and whether a previous extraction failed. -/
structure Flujo where
  resto : Cadena
  falla : Bool
  deriving DecidableEq, Repr

/-- The extraction loop of `istream::getline(buf, n)` with room for `cap` characters: stop at
end of input, then at the delimiter (consumed, not stored), then when the buffer is full
(failure). Gives the stored characters, the unread text and the failure flag. -/
def extraer : Nat → Cadena → Cadena × Cadena × Bool
  | _, [] => ([], [], false)
  | cap, c :: r =>
    if c = '\n' then ([], r, false)
    else
      match cap with
      | 0 => ([], c :: r, true)
      | k + 1 =>
        let q := extraer k r
        (c :: q.1, q.2.1, q.2.2)

/-- A character buffer seen as a C string: up to the first NUL. -/
def c_str (buf : Cadena) : Cadena := buf.takeWhile (fun c => c ≠ Char.ofNat 0)

/-- Library `in.getline(buf, n)`: the line as a C string, or `none` when the call fails. -/
def getline (s : Flujo) (n : Nat) : Option Cadena × Flujo :=
  if s.falla then (none, s)
  else
    match s.resto with
    | [] => (none, ⟨[], true⟩)
    | c :: r =>
      let q := extraer (n - 1) (c :: r)
      if q.2.2 then (none, ⟨q.2.1, true⟩) else (some (c_str q.1), ⟨q.2.1, false⟩)

/-- Source `leer_linea_alloc`: a line without its final carriage return, `none` at EOF. -/
def leer_linea_alloc (s : Flujo) (maxLen : Nat) : Option Cadena × Flujo :=
  match getline s maxLen with
  | (none, s1) => (none, s1)
  | (some buf, s1) =>
    if 0 < str_longitud (some buf) ∧ buf.getLast? = some '\r' then (some buf.dropLast, s1)
    else (some buf, s1)

/-- The append at the end of the line chain, as in `:a` and in the loader. -/
def anexar_linea (h : Mem) (f : Nat) (t : Cadena) : Mem :=
  h.set f { leer h f with lineas := (leer h f).lineas ++ [t] }

/-! ## Persistence -/

/-- The loop of `asegurar_directorio_absoluto`. -/
def asegurar_bucle : Nat → Mem → Nat → Cadena → Mem × Nat
  | 0, h, cur, _ => (h, cur)
  | f + 1, h, cur, r =>
    match saltar_barras r with
    | [] => (h, cur)
    | c :: r1 =>
      let q := leer_token 255 (c :: r1)
      if q.1.length = 0 then asegurar_bucle f h cur q.2
      else
        match buscar_hijo h (some cur) (some q.1) with
        | some nxt => asegurar_bucle f h nxt q.2
        | none =>
          let a := crear_nodo h TipoNodo.NODO_DIR (some q.1) (some cur)
          asegurar_bucle f (enlazar_hijo_al_frente a.1 cur a.2) a.2 q.2

/-- Source `asegurar_directorio_absoluto`. -/
def asegurar_directorio_absoluto (h : Mem) (raiz : Option Nat) (rutaAbs : Option Cadena) :
    Mem × Option Nat :=
  match raiz, rutaAbs with
  | some rz, some (c :: r) =>
    if c ≠ '/' then (h, none)
    else
      let q := asegurar_bucle (r.length + 1) h rz r
      (q.1, some q.2)
  | _, _ => (h, none)

/-- Library `out << cnt` for a non-negative `int`: decimal digits. -/
def decimal (n : Nat) : Cadena := Nat.toDigits 10 n

/-- The text emitted for a file's lines, each followed by a newline. -/
def volcar_lineas : List Cadena → Cadena
  | [] => []
  | l :: ls => l ++ '\n' :: volcar_lineas ls

/-- The record emitted for node `n` whose absolute path is `p`. -/
def registro (h : Mem) (n : Nat) (p : Cadena) : Cadena :=
  if (leer h n).tipo = TipoNodo.NODO_DIR then 'D' :: ' ' :: p ++ ['\n']
  else
    'F' :: ' ' :: p ++ ' ' :: decimal (leer h n).lineas.length ++ '\n' ::
      volcar_lineas (leer h n).lineas

/-- The loop `while (c) { push(c); c = c->siguienteHermano; }`. -/
def apilar : List Nat → List Nat → List Nat
  | [], st => st
  | c :: cs, st => apilar cs (c :: st)

/-- The DFS loop of `serializar_arbol` over the explicit stack `st`, appending to `out`. -/
def serializar_bucle (h : Mem) (raiz : Nat) : Nat → List Nat → Cadena → Option Cadena
  | _, [], out => some out
  | 0, _ :: _, _ => none
  | f + 1, n :: st, out =>
    if n ≠ raiz then
      match construir_ruta_absoluta h (some n) with
      | none => none
      | some p => serializar_bucle h raiz f (apilar (leer h n).hijos st) (out ++ registro h n p)
    else serializar_bucle h raiz f (apilar (leer h n).hijos st) out

/-- Source `serializar_arbol`: the returned flag and the text written; `none` when the
traversal does not end within the arena size. -/
def serializar_arbol (h : Mem) (raiz : Option Nat) : Option (Bool × Cadena) :=
  match raiz with
  | none => some (false, [])
  | some rz => (serializar_bucle h rz (h.length + 1) [rz] []).map (fun o => (true, o))

/-- The path copy loop `while (line[i] && line[i] != ' ' && plen < 511)`. -/
def leer_ruta : Nat → Cadena → Cadena × Cadena
  | 0, r => ([], r)
  | _ + 1, [] => ([], [])
  | n + 1, c :: r =>
    if c = ' ' then ([], c :: r)
    else
      let q := leer_ruta n r
      (c :: q.1, q.2)

/-- The loop `while (line[i] == ' ') ++i;`. -/
def saltar_espacios : Cadena → Cadena
  | [] => []
  | c :: r => if c = ' ' then saltar_espacios r else c :: r

/-- The loop `while (line[i] >= '0' && line[i] <= '9') N = N*10 + (line[i]-'0')`, on
unbounded naturals. -/
def leer_numero : Nat → Cadena → Nat
  | acc, [] => acc
  | acc, c :: r =>
    if '0'.toNat ≤ c.toNat ∧ c.toNat ≤ '9'.toNat then leer_numero (acc * 10 + (c.toNat - '0'.toNat)) r
    else acc

/-- The search `for (k = plen-1; k >= 0; --k) if (path[k] == '/')`, started at `k + 1`. -/
def buscar_ultima_barra (path : Cadena) : Nat → Option Nat
  | 0 => none
  | k + 1 => if path.getD k ' ' = '/' then some k else buscar_ultima_barra path k

/-- The loop `for (j = 0; j < N; ++j)` that reads the content lines of an `F` record. -/
def leer_lineas : Nat → Mem → Nat → Flujo → Mem × Flujo
  | 0, h, _, s => (h, s)
  | j + 1, h, f, s =>
    let q := leer_linea_alloc s 1024
    leer_lineas j (anexar_linea h f (q.1.getD [])) f q.2

/-- The body of the loader for an `F` record with path `path`, the rest `r` of its header
line, and the stream `s` after the header: the memory and stream after the record, or `none`
for "Padre inválido". -/
def cargar_archivo (h : Mem) (raiz : Nat) (path r : Cadena) (s : Flujo) : Option (Mem × Flujo) :=
  let n := leer_numero 0 (saltar_espacios r)
  let parentPath : Cadena :=
    match buscar_ultima_barra path path.length with
    | none => ['/']
    | some 0 => ['/']
    | some (k + 1) => path.take (k + 1)
  let a := asegurar_directorio_absoluto h (some raiz) (some parentPath)
  let nombre : Cadena :=
    match buscar_ultima_barra path path.length with
    | none => path.take 255
    | some k => (path.drop (k + 1)).take 255
  match a.2 with
  | none => none
  | some padre =>
    match buscar_hijo a.1 (some padre) (some nombre) with
    | some f => some (leer_lineas n a.1 f s)
    | none =>
      let c := crear_nodo a.1 TipoNodo.NODO_ARCHIVO (some nombre) (some padre)
      some (leer_lineas n (enlazar_hijo_al_frente c.1 padre c.2) c.2 s)

/-- The main loop of `deserializar_arbol`. Every round consumes input or ends the loop, so
fuel above the length of the unread text is never used up. -/
def deserializar_bucle (raiz : Nat) : Nat → Mem → Flujo → Res Bool
  | 0, h, _ => ⟨h, true, []⟩
  | f + 1, h, s =>
    match getline s 1024 with
    | (none, _) => ⟨h, true, []⟩
    | (some [], s1) => deserializar_bucle raiz f h s1
    | (some (type :: l), s1) =>
      if ¬ (type = 'D' ∨ type = 'F') then deserializar_bucle raiz f h s1
      else if l.head? ≠ some ' ' then ⟨h, false, "Formato inválido\n".toList⟩
      else
        let q := leer_ruta 511 l.tail
        if q.1.head? ≠ some '/' then ⟨h, false, "Ruta inválida\n".toList⟩
        else if type = 'D' then
          deserializar_bucle raiz f (asegurar_directorio_absoluto h (some raiz) (some q.1)).1 s1
        else
          match cargar_archivo h raiz q.1 q.2 s1 with
          | none => ⟨h, false, "Padre inválido\n".toList⟩
          | some a => deserializar_bucle raiz f a.1 a.2

/-- Source `deserializar_arbol`. -/
def deserializar_arbol (h : Mem) (raiz : Option Nat) (s : Flujo) : Res Bool :=
  match raiz with
  | none => ⟨h, false, []⟩
  | some rz => deserializar_bucle rz (s.resto.length + 1) h s

/-- The tree `main` starts from: `crear_nodo(NODO_DIR, "", nullptr)` in an empty arena. -/
def memInicial : Mem := (crear_nodo [] TipoNodo.NODO_DIR (some []) none).1

/-! ## Specification vocabulary -/

/-- No directory holds two children with the same name. -/
def SinDuplicados (h : Mem) : Prop :=
  ∀ p, p < h.length → ((leer h p).hijos.map (fun c => (leer h c).nombre)).Nodup

instance (h : Mem) : Decidable (SinDuplicados h) := by
  unfold SinDuplicados; infer_instance

/-- The tree after `mkdir d; touch a; touch b` in the root: nodes 1, 2 and 3. -/
def arbolDAB : Mem :=
  let h1 := (crear_directorio memInicial (some 0) (some "d".toList)).mem
  let h2 := (crear_archivo h1 (some 0) (some "a".toList)).mem
  (crear_archivo h2 (some 0) (some "b".toList)).mem

/-- The tree `arbolDAB` after `mover_nodo(a, d, "x/y")`. -/
def arbolDABmovido : Mem :=
  match mover_nodo arbolDAB (some 2) (some 1) (some "x/y".toList) with
  | some r => r.mem
  | none => arbolDAB

/-- The tree after `mkdir a` in the root: node 1 is the directory `a`. -/
def arbolA : Mem := (crear_directorio memInicial (some 0) (some "a".toList)).mem

/-- The node reached from `n` by following `padre` exactly `k` times, if the chain is that
long. -/
def subir (h : Mem) : Nat → Nat → Option Nat
  | 0, n => some n
  | k + 1, n =>
    match (leer h n).padre with
    | none => none
    | some p => subir h k p

/-- Node `n` is `a` itself or a descendant of `a`: the parent chain of `n` passes through `a`. -/
def Desciende (h : Mem) (a n : Nat) : Prop := ∃ k, subir h k n = some a

/-- The tree after `touch f` in the root: node 1 is the file `f`. -/
def arbolF : Mem := (crear_archivo memInicial (some 0) (some "f".toList)).mem

/-- The segments of a path: the non-empty pieces between slashes. -/
def segmentos (ruta : Cadena) : List Cadena := (ruta.splitOn '/').filter (fun s => s ≠ [])

/-- What a dot segment does to the current node: `..` moves to the parent unless the node is
the root (or has no parent); `.` stays. -/
def paso_punto (h : Mem) (raiz cur : Nat) (seg : Cadena) : Nat :=
  if seg = ['.', '.'] then (if cur = raiz then cur else (leer h cur).padre.getD cur) else cur

/-- Trees built from the empty root by successful `crear_directorio`, `crear_archivo` and
`mover_nodo` calls on allocated nodes, the new name of a move being absent or valid, and by
appending to a file a line read with `leer_linea_alloc` (the editor's `:a`). The root is
node 0. -/
inductive Construible : Mem → Prop
  | inicial : Construible memInicial
  | mkdir (h : Mem) (cwd : Nat) (nombre : Option Cadena) (n : Nat) :
      Construible h → cwd < h.length →
      (crear_directorio h (some cwd) nombre).val = some n →
      Construible (crear_directorio h (some cwd) nombre).mem
  | touch (h : Mem) (cwd : Nat) (nombre : Option Cadena) (n : Nat) :
      Construible h → cwd < h.length →
      (crear_archivo h (some cwd) nombre).val = some n →
      Construible (crear_archivo h (some cwd) nombre).mem
  | mover (h : Mem) (item nuevoPadre : Nat) (nuevoNombre : Option Cadena) (r : Res Bool) :
      Construible h → item < h.length → nuevoPadre < h.length →
      (nuevoNombre = none ∨ nombre_valido nuevoNombre = true) →
      mover_nodo h (some item) (some nuevoPadre) nuevoNombre = some r → r.val = true →
      Construible r.mem
  | anexar (h : Mem) (f : Nat) (s : Flujo) (t : Cadena) :
      Construible h → f < h.length → (leer h f).tipo = TipoNodo.NODO_ARCHIVO →
      (leer_linea_alloc s 1024).1 = some t →
      Construible (anexar_linea h f t)

/-- The structural invariant of the pointer tree with root 0: parent and child links agree,
every node hangs from the root, sibling names are distinct, names are valid, only
directories have children and only files have lines. -/
structure Bien (h : Mem) : Prop where
  raiz_len : 0 < h.length
  raiz_padre : (leer h 0).padre = none
  raiz_tipo : (leer h 0).tipo = TipoNodo.NODO_DIR
  raiz_nombre : (leer h 0).nombre = []
  padre_ok : ∀ n p, n < h.length → (leer h n).padre = some p →
    p < h.length ∧ n ∈ (leer h p).hijos ∧ (leer h p).tipo = TipoNodo.NODO_DIR
  hijo_ok : ∀ p c, p < h.length → c ∈ (leer h p).hijos →
    c < h.length ∧ (leer h c).padre = some p
  nombres : ∀ p, p < h.length → ((leer h p).hijos.map (fun c => (leer h c).nombre)).Nodup
  a_raiz : ∀ n, n < h.length → Desciende h 0 n
  validos : ∀ n, n < h.length → n ≠ 0 → nombre_valido (some (leer h n).nombre) = true
  sin_lineas : ∀ n, n < h.length → (leer h n).tipo = TipoNodo.NODO_DIR → (leer h n).lineas = []

/-- The pair `crear_nodo` then `enlazar_hijo_al_frente` used by every creating path: a fresh
node of kind `t` named `s` becomes the first child of `c`. -/
def insertar (h : Mem) (t : TipoNodo) (s : Cadena) (c : Nat) : Mem :=
  enlazar_hijo_al_frente (crear_nodo h t (some s) (some c)).1 c
    (crear_nodo h t (some s) (some c)).2

/-- The contents of node `q` after a successful move of `it` from its parent `op` to the front
of `np` under the final name `nf`. -/
def leer_movido (h : Mem) (it np op : Nat) (nf : Cadena) (q : Nat) : Nodo :=
  if q = np then
    { leer h np with
      hijos := it :: (if op = np then (leer h np).hijos.erase it else (leer h np).hijos) }
  else if q = it then { leer h it with nombre := nf, padre := some np }
  else if q = op then { leer h op with hijos := (leer h op).hijos.erase it }
  else leer h q

/-- A name that the resolver reads back as one ordinary segment: not `.`, not `..`, and
short enough for the 255-character token buffer. -/
def NombreResoluble (s : Cadena) : Prop := s ≠ ['.'] ∧ s ≠ ['.', '.'] ∧ s.length ≤ 255

instance (s : Cadena) : Decidable (NombreResoluble s) := by
  unfold NombreResoluble; infer_instance

/-- The list `arr` is a downward path of nodes starting just below `cur`. -/
def EsCamino (h : Mem) : Nat → List Nat → Prop
  | _, [] => True
  | cur, y :: rest => (leer h y).padre = some cur ∧ EsCamino h y rest

/-- The nodes met when climbing `k` steps from `n`, listed top-down and ending in `n`. -/
def camino (h : Mem) : Nat → Nat → List Nat
  | 0, _ => []
  | k + 1, n =>
    match (leer h n).padre with
    | none => []
    | some p => camino h k p ++ [n]

/-- The tree after `mkdir ..` in the root: node 1 is a directory called `..`. -/
def arbolPP : Mem := (crear_directorio memInicial (some 0) (some "..".toList)).mem

/-- The tree after `mkdir a; mkdir b` in the root: nodes 1 and 2. -/
def arbolAB : Mem := (crear_directorio arbolA (some 0) (some "b".toList)).mem

/-- The tree after `mkdir ..; mkdir b` in the root: nodes 1 and 2. -/
def arbolPPB : Mem := (crear_directorio arbolPP (some 0) (some "b".toList)).mem

/-- A forest in first-child/next-sibling form, each node carrying its pointer: the shape of
a chain of siblings together with everything below them. -/
inductive Bosque where
  | vacio : Bosque
  | nodo (id : Nat) (tipo : TipoNodo) (nombre : Cadena) (lineas : List Cadena)
      (hijos hermanos : Bosque) : Bosque
  deriving DecidableEq, Repr

/-- The pointers of the top-level siblings, in chain order. -/
def Bosque.cimas : Bosque → List Nat
  | .vacio => []
  | .nodo id _ _ _ _ hm => id :: hm.cimas

/-- All pointers of the forest. -/
def Bosque.ids : Bosque → List Nat
  | .vacio => []
  | .nodo id _ _ _ hj hm => id :: (hj.ids ++ hm.ids)

/-- Number of nodes. -/
def Bosque.tam : Bosque → Nat
  | .vacio => 0
  | .nodo _ _ _ _ hj hm => 1 + hj.tam + hm.tam

/-- The forest with its pointers forgotten. -/
def Bosque.forma : Bosque → Bosque
  | .vacio => .vacio
  | .nodo _ t nm ls hj hm => .nodo 0 t nm ls hj.forma hm.forma

/-- The memory `h` holds the forest `b` as the children chain of `p`. -/
def Representa (h : Mem) : Nat → Bosque → Prop
  | _, .vacio => True
  | p, .nodo id t nm ls hj hm =>
    id < h.length ∧ leer h id = ⟨t, nm, some p, hj.cimas, ls⟩ ∧
      Representa h id hj ∧ Representa h p hm

/-- The record of a node of kind `t` with absolute path `p` and lines `ls`. -/
def registro_de (t : TipoNodo) (p : Cadena) (ls : List Cadena) : Cadena :=
  if t = TipoNodo.NODO_DIR then 'D' :: ' ' :: p ++ ['\n']
  else 'F' :: ' ' :: p ++ ' ' :: decimal ls.length ++ '\n' :: volcar_lineas ls

/-- The text that the traversal emits for a forest whose parent has path prefix `pre`: later
siblings first, each node followed by its own children. -/
def serializar_bosque (pre : Cadena) : Bosque → Cadena
  | .vacio => []
  | .nodo _ t nm ls hj hm =>
    serializar_bosque pre hm ++
      (registro_de t (pre ++ '/' :: nm) ls ++ serializar_bosque (pre ++ '/' :: nm) hj)

/-- The path prefix that the children of `p` share: empty for the root, otherwise the
absolute path of `p`. -/
def prefijo (h : Mem) (p : Nat) : Cadena :=
  if p = 0 then [] else (construir_ruta_absoluta h (some p)).getD []

/-- The children forests of the siblings `l`, given the forest below each node. -/
def hermanos_de (h : Mem) (abajo : List Nat → Bosque) : List Nat → Bosque
  | [] => .vacio
  | c :: cs =>
    .nodo c (leer h c).tipo (leer h c).nombre (leer h c).lineas (abajo (leer h c).hijos)
      (hermanos_de h abajo cs)

/-- The forest read off the memory below the sibling chain `l`, to depth `f`. -/
def arbol_de (h : Mem) : Nat → List Nat → Bosque
  | 0 => fun _ => .vacio
  | f + 1 => hermanos_de h (arbol_de h f)

/-- The NUL character, which no C string contains. -/
def NUL : Char := Char.ofNat 0

/-- A text free of the characters that the persisted format cannot carry inside a path or a
line header: space, newline and NUL. -/
def TextoLimpio (s : Cadena) : Prop := ∀ c ∈ s, c ≠ ' ' ∧ c ≠ '\n' ∧ c ≠ NUL

/-- A name that survives the persisted format: valid (non-empty, no slash), at most 255
characters, without space, newline or NUL. -/
def Portable (s : Cadena) : Prop :=
  s ≠ [] ∧ s.length ≤ 255 ∧ '/' ∉ s ∧ TextoLimpio s

/-- A file line that survives the persisted format: at most 1022 characters, without newline
or NUL, and not ending in a carriage return. -/
def LineaOK (l : Cadena) : Prop :=
  l.length ≤ 1022 ∧ (∀ c ∈ l, c ≠ '\n' ∧ c ≠ NUL) ∧ l.getLast? ≠ some '\r'

/-- Every non-root node has a portable name. -/
def TodoPortable (h : Mem) : Prop :=
  ∀ q, q < h.length → q ≠ 0 → Portable (leer h q).nombre

/-- The names of the top-level siblings of a forest. -/
def Bosque.nombres : Bosque → List Cadena
  | .vacio => []
  | .nodo _ _ nm _ _ hm => nm :: hm.nombres

/-- The forest fits the persisted format below the path prefix `pre`: portable names that
are distinct among siblings, absolute paths of at most 511 characters, clean lines whose
count fits an `int`, children only under directories and lines only in files. -/
def BosqueCabe (pre : Cadena) : Bosque → Prop
  | .vacio => True
  | .nodo _ t nm ls hj hm =>
    Portable nm ∧ (pre ++ '/' :: nm).length ≤ 511 ∧
      (t = TipoNodo.NODO_DIR → ls = []) ∧ (t = TipoNodo.NODO_ARCHIVO → hj = .vacio) ∧
      (∀ l ∈ ls, LineaOK l) ∧ ls.length < 2 ^ 31 ∧ nm ∉ hm.nombres ∧
      BosqueCabe (pre ++ '/' :: nm) hj ∧ BosqueCabe pre hm

/-- The bounds of the persisted format on a name: at most 255 characters, without space,
newline or NUL. -/
def NombreCabe (s : Cadena) : Prop := s.length ≤ 255 ∧ TextoLimpio s

/-- The bounds of the persisted format on a file line: at most 1022 characters and not ending
in a carriage return. -/
def LineaCabe (l : Cadena) : Prop := l.length ≤ 1022 ∧ l.getLast? ≠ some '\r'

/-- A line without newline or NUL, as every line read by `getline` is. -/
def LineaLimpia (l : Cadena) : Prop := ∀ c ∈ l, c ≠ '\n' ∧ c ≠ NUL

/-- The tree fits the persisted format: names within `NombreCabe`, absolute paths of at most
511 characters, lines within `LineaCabe`, and line counts that fit an `int`. -/
def ArbolCabe (h : Mem) : Prop :=
  (∀ n, n < h.length → n ≠ 0 → NombreCabe (leer h n).nombre) ∧
  (∀ n, n < h.length → ((construir_ruta_absoluta h (some n)).getD []).length ≤ 511) ∧
  (∀ n, n < h.length → ∀ l ∈ (leer h n).lineas, LineaCabe l) ∧
  (∀ n, n < h.length → (leer h n).lineas.length < 2 ^ 31)

instance (s : Cadena) : Decidable (TextoLimpio s) := by
  unfold TextoLimpio; infer_instance

instance (s : Cadena) : Decidable (NombreCabe s) := by
  unfold NombreCabe; infer_instance

instance (l : Cadena) : Decidable (LineaCabe l) := by
  unfold LineaCabe; infer_instance

instance (h : Mem) : Decidable (ArbolCabe h) := by
  unfold ArbolCabe; infer_instance

/-- The absolute path, kind and lines of every node of a forest below the prefix `pre`. -/
def rutas_bosque (pre : Cadena) : Bosque → List (Cadena × TipoNodo × List Cadena)
  | .vacio => []
  | .nodo _ t nm ls hj hm =>
    (pre ++ '/' :: nm, t, ls) :: (rutas_bosque (pre ++ '/' :: nm) hj ++ rutas_bosque pre hm)

/-- The entry of the tree for node `n`: its absolute path, kind and lines. -/
def EntradaDe (h : Mem) (n : Nat) (e : Cadena × TipoNodo × List Cadena) : Prop :=
  n < h.length ∧ construir_ruta_absoluta h (some n) = some e.1 ∧ (leer h n).tipo = e.2.1 ∧
    (leer h n).lineas = e.2.2

/-- The tree after `mkdir "a b"` in the root. -/
def arbolEspacio : Mem := (crear_directorio memInicial (some 0) (some "a b".toList)).mem

/-- The tree after creating a directory whose name is `a`, a newline and `b`. -/
def arbolSalto : Mem := (crear_directorio memInicial (some 0) (some ['a', '\n', 'b'])).mem

/-- The tree after `touch f` and appending the lines `x` and `y` to `f`. -/
def arbolFXY : Mem := anexar_linea (anexar_linea arbolF 1 "x".toList) 1 "y".toList

/-- The tree obtained by loading the text `txt` into a fresh empty root. -/
def recargado (txt : Cadena) : Res Bool := deserializar_arbol memInicial (some 0) ⟨txt, false⟩

/-- The tokens that the loop of `resolver_ruta` cuts out of the text `r` with fuel `f`: runs
of slashes are skipped and a token stops at a slash, at the end, or after 255 characters. -/
def trocear_con : Nat → Cadena → List Cadena
  | 0, _ => []
  | f + 1, r =>
    match saltar_barras r with
    | [] => []
    | c :: r1 => (leer_token 255 (c :: r1)).1 :: trocear_con f (leer_token 255 (c :: r1)).2

/-- The tokens of a whole path. -/
def trocear (r : Cadena) : List Cadena := trocear_con (r.length + 1) r

/-- Follows the spec's words (path resolution, step 3): the segments are consumed left to
right from the node `cur`; `.` stays, `..` moves to the parent (a node without parent stays),
any other segment needs `cur` to be a directory and moves to its child of that name. The
result is the node reached, or no node and the error text. -/
def recorrer (h : Mem) : Nat → List Cadena → Option Nat × Cadena
  | cur, [] => (some cur, [])
  | cur, s :: rest =>
    if s = ['.'] then recorrer h cur rest
    else if s = ['.', '.'] then recorrer h ((leer h cur).padre.getD cur) rest
    else if (leer h cur).tipo ≠ TipoNodo.NODO_DIR then
      (none, "Error: ruta atraviesa archivo\n".toList)
    else
      match buscar_hijo h (some cur) (some s) with
      | none => (none, "Error: elemento no encontrado: ".toList ++ s ++ ['\n'])
      | some nxt => recorrer h nxt rest

/-- The path `q` is the path `p` with extra slashes: any slash of `p` may have become a run
of several slashes, and slashes may have been added at the end. -/
inductive Engrosada : Cadena → Cadena → Prop
  | fin (k : Nat) : Engrosada [] (List.replicate k '/')
  | letra (c : Char) (p q : Cadena) : c ≠ '/' → Engrosada p q → Engrosada (c :: p) (c :: q)
  | barra (k : Nat) (p q : Cadena) :
      Engrosada p q → Engrosada ('/' :: p) ('/' :: (List.replicate k '/' ++ q))

/-- A name of 255 letters, the longest that fits the token buffer of the resolver. -/
def nombreLargo : Cadena := List.replicate 255 'a'

/-- The tree after `mkdir` of the 255-letter name in the root and `mkdir b` inside it: nodes
1 and 2. -/
def arbolLargo : Mem :=
  (crear_directorio (crear_directorio memInicial (some 0) (some nombreLargo)).mem (some 1)
    (some "b".toList)).mem

/-- The tree after `mkdir a; touch a/b.txt`: node 1 is the directory `a`, node 2 the file
`b.txt` inside it. -/
def arbolABtxt : Mem := (crear_archivo arbolA (some 1) (some "b.txt".toList)).mem

/-- The pointers of a forest in the order of the text `serializar_bosque`: the later siblings
with everything below them first, then the node, then everything below the node. -/
def Bosque.orden : Bosque → List Nat
  | .vacio => []
  | .nodo id _ _ _ hj hm => hm.orden ++ id :: hj.orden

/-- The record that the traversal emits for node `n`, with the absolute path of `n`. -/
def registro_nodo (h : Mem) (n : Nat) : Cadena :=
  registro_de (leer h n).tipo ((construir_ruta_absoluta h (some n)).getD []) (leer h n).lineas

/-- In the list `l`, `x` stands somewhere before `y`. -/
def Antes (l : List Nat) (x y : Nat) : Prop := ∃ a b c, l = a ++ x :: (b ++ y :: c)

/-- The loader, started on the tree `h0` with root `raiz`, reads the text `pre` as complete
records whatever follows it, and then stands at a record position with the tree `h`: loading
`pre` followed by any text `x` goes on as loading `x` into `h`. -/
def EnPosicion (raiz : Nat) (h0 : Mem) (pre : Cadena) (h : Mem) : Prop :=
  ∀ x : Cadena,
    deserializar_arbol h0 (some raiz) ⟨pre ++ x, false⟩ =
      deserializar_arbol h (some raiz) ⟨x, false⟩

/-- A line of 1024 characters, one more than the line buffer of the loader holds. -/
def lineaLarga : Cadena := List.replicate 1024 '#'

/-! ## The rename command (main.cpp) -/

/-- Source `main`, the branch of the command `rename <arg1> <arg2>`: the target is resolved
from `cwd`, the new name must be valid and must not be the name of a child of the target's
parent (of the root when the target has no parent), and then replaces the target's name. The
automatic save that follows writes the serialization to a file and leaves the tree as it
is. -/
def comando_rename (h : Mem) (raiz cwd : Nat) (arg1 arg2 : Cadena) : Res Unit :=
  if arg1 = [] ∨ arg2 = [] then ⟨h, (), "Uso: rename <ruta> <nuevo_nombre>\n".toList⟩
  else
    match resolver_ruta h (some raiz) (some cwd) (some arg1) with
    | (none, out) => ⟨h, (), out⟩
    | (some tgt, out) =>
      if ¬ nombre_valido (some arg2) then ⟨h, (), out ++ "Nombre inválido\n".toList⟩
      else if tiene_hijo_llamado h
          (match (leer h tgt).padre with
            | some p => some p
            | none => some raiz) (some arg2) then
        ⟨h, (), out ++ "Colisión de nombre\n".toList⟩
      else ⟨h.set tgt { leer h tgt with nombre := arg2 }, (), out⟩

/-- The invariant of names: the root's name is empty and the name of every other node is
non-empty and has no slash. -/
def NombresValidos (h : Mem) : Prop :=
  (leer h 0).nombre = [] ∧
    ∀ n, n < h.length → n ≠ 0 → ((leer h n).nombre ≠ [] ∧ '/' ∉ (leer h n).nombre)

instance (h : Mem) : Decidable (NombresValidos h) := by
  unfold NombresValidos; infer_instance

/-- The absolute path text of a list of names: every name preceded by a slash. -/
def ruta_de : List Cadena → Cadena
  | [] => []
  | s :: rest => '/' :: s ++ ruta_de rest

/-- The walk of `asegurar_directorio_absoluto` told by names instead of text: from `cur`,
each name moves to the child found by `buscar_hijo`, or creates a directory of that name as
first child and moves into it. -/
def asegurar_nombres : Mem → Nat → List Cadena → Mem × Nat
  | h, cur, [] => (h, cur)
  | h, cur, s :: rest =>
    match buscar_hijo h (some cur) (some s) with
    | some nxt => asegurar_nombres h nxt rest
    | none => asegurar_nombres (insertar h TipoNodo.NODO_DIR s cur) h.length rest

/-- A line as `leer_linea_alloc` stores it: without its final carriage return. -/
def quitar_cr (t : Cadena) : Cadena := if t.getLast? = some '\r' then t.dropLast else t

/-- The tree after `touch "a b"` in the root: node 1 is a file whose name has a space. -/
def arbolFEspacio : Mem := (crear_archivo memInicial (some 0) (some "a b".toList)).mem

/-- What every load keeps of the invariant of names: the root's name is empty and no other
name has a slash. -/
def NombresSinBarra (h : Mem) : Prop :=
  (leer h 0).nombre = [] ∧ ∀ n, n < h.length → n ≠ 0 → '/' ∉ (leer h n).nombre

/-- Node kinds are consistent: only directories have children and only files have lines. -/
def TiposConsistentes (h : Mem) : Prop :=
  ∀ n, n < h.length →
    ((leer h n).hijos ≠ [] → (leer h n).tipo = TipoNodo.NODO_DIR) ∧
      ((leer h n).lineas ≠ [] → (leer h n).tipo = TipoNodo.NODO_ARCHIVO)

instance (h : Mem) : Decidable (TiposConsistentes h) := by
  unfold TiposConsistentes; infer_instance

/-- The loop `while (i >= 0 && ruta[i] == '/') --i;` of `resolver_padre_para_nuevo`, on
`j = i + 1`: the number of characters left once the final slashes are dropped. -/
def retroceder_barras (ruta : Cadena) : Nat → Nat
  | 0 => 0
  | j + 1 => if ruta.getD j ' ' = '/' then retroceder_barras ruta j else j + 1

/-- The loop `while (i >= 0 && ruta[i] != '/') --i;` of `resolver_padre_para_nuevo`, on
`j = i + 1`: the position where the last component starts. -/
def retroceder_nombre (ruta : Cadena) : Nat → Nat
  | 0 => 0
  | j + 1 => if ruta.getD j ' ' ≠ '/' then retroceder_nombre ruta j else j + 1

/-- Source `resolver_padre_para_nuevo` (main.cpp): the result of `resolver_ruta` on the parent
path (node and text written to `out`) and the text left in `nombreSalida`. With
`j = i + 1`, the test `i <= 0` is `j ≤ 1`, the name has `fin - inicioNombre + 1` characters
of which at most 255 are copied, and at most 511 characters of the parent path are
copied. -/
def resolver_padre_para_nuevo (h : Mem) (raiz cwd : Option Nat) (ruta : Cadena) :
    (Option Nat × Cadena) × Cadena :=
  let fin := retroceder_barras ruta ruta.length
  let j := retroceder_nombre ruta fin
  let lenNombre := fin - j
  let nombreSalida := (ruta.drop j).take (min lenNombre 255)
  let parentBuf : Cadena := if j ≤ 1 then ['/'] else ruta.take (min (j - 1) 511)
  (resolver_ruta h raiz cwd (some parentBuf), nombreSalida)

/-- Source `main`, the branch of the command `mv <arg1> <arg2>` (main.cpp): the source is
resolved; a destination that resolves must be a directory and receives the node under its
own name; otherwise the node goes under the parent given by `resolver_padre_para_nuevo` with
the name left in `nombre`. `none` only when `mover_nodo` does not return. The automatic save
leaves the tree as it is. -/
def comando_mv (h : Mem) (raiz cwd : Nat) (arg1 arg2 : Cadena) : Option (Res Unit) :=
  if arg1 = [] ∨ arg2 = [] then some ⟨h, (), "Uso: mv <origen> <destino>\n".toList⟩
  else
    match resolver_ruta h (some raiz) (some cwd) (some arg1) with
    | (none, o1) => some ⟨h, (), o1⟩
    | (some src, o1) =>
      match resolver_ruta h (some raiz) (some cwd) (some arg2) with
      | (some dst, o2) =>
        if (leer h dst).tipo ≠ TipoNodo.NODO_DIR then
          some ⟨h, (), o1 ++ o2 ++ "Error: destino no es directorio\n".toList⟩
        else
          (mover_nodo h (some src) (some dst) none).map
            (fun r => ⟨r.mem, (), o1 ++ o2 ++ r.out⟩)
      | (none, o2) =>
        let q := resolver_padre_para_nuevo h (some raiz) (some cwd) arg2
        match q.1.1 with
        | none => some ⟨h, (), o1 ++ o2 ++ q.1.2 ++ "Error: destino inválido\n".toList⟩
        | some padre =>
          (mover_nodo h (some src) (some padre) (some q.2)).map
            (fun r => ⟨r.mem, (), o1 ++ o2 ++ q.1.2 ++ r.out⟩)

/-! ## The line editor -/

/-- The state of the loop of `editar_archivo`: the memory, the array `buf` as its characters
lie in it (the C string in it ends at the first NUL), the input stream and the text written
to `out` so far. -/
structure Editor where
  mem : Mem
  buf : Cadena
  flujo : Flujo
  out : Cadena
  deriving DecidableEq, Repr

/-- Library `in.getline(buf, n)` seen on the array: the extracted characters and the NUL
after them overwrite the start of `buf`, what lies behind them stays. `none` when the call
fails. -/
def getline_buf (s : Flujo) (n : Nat) (buf : Cadena) : Option Cadena × Flujo :=
  if s.falla then (none, s)
  else
    match s.resto with
    | [] => (none, ⟨[], true⟩)
    | c :: r =>
      let q := extraer (n - 1) (c :: r)
      if q.2.2 then (none, ⟨q.2.1, true⟩)
      else (some (q.1 ++ NUL :: buf.drop (q.1.length + 1)), ⟨q.2.1, false⟩)

/-- The loop `while (l) { out << i << ": " << l->texto << "\n"; ++i; }` of
`imprimir_archivo`. -/
def imprimir_lineas : Nat → List Cadena → Cadena
  | _, [] => []
  | i, l :: ls => decimal i ++ ": ".toList ++ l ++ "\n".toList ++ imprimir_lineas (i + 1) ls

/-- Source `imprimir_archivo`: the text written to `out`. -/
def imprimir_archivo (h : Mem) (f : Option Nat) : Cadena :=
  match f with
  | none => "Error: no es archivo\n".toList
  | some f =>
    if (leer h f).tipo ≠ TipoNodo.NODO_ARCHIVO then "Error: no es archivo\n".toList
    else imprimir_lineas 1 (leer h f).lineas

/-- The walk of `obtener_linea_en` from the counter `i` at the position `pos` of the chain:
`while (cur && i < idx)` advances, then `(i == idx) ? cur : nullptr`. -/
def obtener_linea_desde (idx : Nat) : Nat → Nat → List Cadena → Option Nat
  | _, _, [] => none
  | i, pos, _ :: ls =>
    if i < idx then obtener_linea_desde idx (i + 1) (pos + 1) ls
    else if i = idx then some pos else none

/-- Source `obtener_linea_en`: the position in the chain of the line numbered `idx` (from
1), `none` for `nullptr`. -/
def obtener_linea_en (ls : List Cadena) (idx : Nat) : Option Nat :=
  obtener_linea_desde idx 1 0 ls

/-- The loop `for (int i = 3; buf[i]; ++i) if (buf[i] >= '0' && buf[i] <= '9')
N = N*10 + (buf[i]-'0')` of the commands `:i`, `:r` and `:d`, run on the array from index 3
on: every decimal digit before the NUL counts, any other character is passed over. On
unbounded naturals. -/
def numero_de_comando : Nat → Cadena → Nat
  | acc, [] => acc
  | acc, c :: r =>
    if c = NUL then acc
    else if '0'.toNat ≤ c.toNat ∧ c.toNat ≤ '9'.toNat then
      numero_de_comando (acc * 10 + (c.toNat - '0'.toNat)) r
    else numero_de_comando acc r

/-- The walk `while (prev && i < N-1) prev = prev->siguiente` of `:i N` with `k` steps left,
and the link of the new line `t` after `prev`; `none` when `prev` ends as `nullptr`. -/
def insertar_tras : Nat → List Cadena → Cadena → Option (List Cadena)
  | _, [], _ => none
  | 0, l :: ls, t => some (l :: t :: ls)
  | k + 1, l :: ls, t => (insertar_tras k ls t).map (fun r => l :: r)

/-- The walk `while (prev && i2 < N-1) prev = prev->siguiente` of `:d N` with `k` steps
left, and the removal of the line after `prev`; `none` when `prev` or `prev->siguiente` is
`nullptr`. -/
def eliminar_tras : Nat → List Cadena → Option (List Cadena)
  | _, [] => none
  | 0, [_] => none
  | 0, l :: _ :: ls => some (l :: ls)
  | k + 1, l :: ls => (eliminar_tras k ls).map (fun r => l :: r)

/-- The line chain of the node `f` replaced by `ls`. -/
def poner_lineas (h : Mem) (f : Nat) (ls : List Cadena) : Mem :=
  h.set f { leer h f with lineas := ls }

/-- The command `:a` of `editar_archivo`, after the command line has been read: the next
line of the stream is appended to the chain. -/
def comando_a (f : Nat) (e : Editor) : Editor :=
  match leer_linea_alloc e.flujo 1024 with
  | (none, s2) => ⟨e.mem, e.buf, s2, e.out ++ "texto: ".toList ++ "EOF\n".toList⟩
  | (some t, s2) => ⟨anexar_linea e.mem f t, e.buf, s2, e.out ++ "texto: ".toList⟩

/-- The command `:i N` of `editar_archivo`, after the command line has been read: `N` is
taken from the array, `N <= 0` is refused before any text is read, otherwise the next line
of the stream is linked in front of the chain (`N == 1`) or after the line `N - 1`. -/
def comando_i (f : Nat) (e : Editor) : Editor :=
  let N := numero_de_comando 0 (e.buf.drop 3)
  if N = 0 then ⟨e.mem, e.buf, e.flujo, e.out ++ "N inválido\n".toList⟩
  else
    match leer_linea_alloc e.flujo 1024 with
    | (none, s2) => ⟨e.mem, e.buf, s2, e.out ++ "texto: ".toList⟩
    | (some t, s2) =>
      if N = 1 then
        ⟨poner_lineas e.mem f (t :: (leer e.mem f).lineas), e.buf, s2,
          e.out ++ "texto: ".toList⟩
      else
        match insertar_tras (N - 2) (leer e.mem f).lineas t with
        | none =>
          ⟨e.mem, e.buf, s2, e.out ++ "texto: ".toList ++ "línea fuera de rango\n".toList⟩
        | some ls => ⟨poner_lineas e.mem f ls, e.buf, s2, e.out ++ "texto: ".toList⟩

/-- The command `:r N` of `editar_archivo`, after the command line has been read: the text
of the line `N`, when there is one, is replaced by the next line of the stream. -/
def comando_r (f : Nat) (e : Editor) : Editor :=
  let N := numero_de_comando 0 (e.buf.drop 3)
  match obtener_linea_en (leer e.mem f).lineas N with
  | none => ⟨e.mem, e.buf, e.flujo, e.out ++ "línea no existe\n".toList⟩
  | some pos =>
    match leer_linea_alloc e.flujo 1024 with
    | (none, s2) => ⟨e.mem, e.buf, s2, e.out ++ "texto: ".toList⟩
    | (some t, s2) =>
      ⟨poner_lineas e.mem f ((leer e.mem f).lineas.set pos t), e.buf, s2,
        e.out ++ "texto: ".toList⟩

/-- The command `:d N` of `editar_archivo`, after the command line has been read: the line
`N` is taken out of the chain. -/
def comando_d (f : Nat) (e : Editor) : Editor :=
  let N := numero_de_comando 0 (e.buf.drop 3)
  if N = 0 then ⟨e.mem, e.buf, e.flujo, e.out ++ "N inválido\n".toList⟩
  else if N = 1 then ⟨poner_lineas e.mem f (leer e.mem f).lineas.tail, e.buf, e.flujo, e.out⟩
  else
    match eliminar_tras (N - 2) (leer e.mem f).lineas with
    | none => ⟨e.mem, e.buf, e.flujo, e.out ++ "línea no existe\n".toList⟩
    | some ls => ⟨poner_lineas e.mem f ls, e.buf, e.flujo, e.out⟩

/-- The body of the loop of `editar_archivo` after the command line has been read into
`buf`: the choice of the command. Gives the state after it and `some b` when the editor
returns `b`, `none` when the loop goes on. -/
def ejecutar_comando (f : Nat) (e : Editor) : Editor × Option Bool :=
  if e.buf.getD 0 NUL = ':' then
    if str_igual (some (c_str e.buf)) (some ":p".toList) then
      (⟨e.mem, e.buf, e.flujo, e.out ++ imprimir_archivo e.mem (some f)⟩, none)
    else if str_igual (some (c_str e.buf)) (some ":wq".toList) then (e, some true)
    else if str_igual (some (c_str e.buf)) (some ":q!".toList) then (e, some false)
    else if e.buf.getD 1 NUL = 'a' then (comando_a f e, none)
    else if e.buf.getD 1 NUL = 'i' then (comando_i f e, none)
    else if e.buf.getD 1 NUL = 'r' then (comando_r f e, none)
    else if e.buf.getD 1 NUL = 'd' then (comando_d f e, none)
    else (⟨e.mem, e.buf, e.flujo, e.out ++ "Comando desconocido\n".toList⟩, none)
  else (⟨e.mem, e.buf, e.flujo, e.out ++ "Use comandos \x27:\x27\n".toList⟩, none)

/-- One turn of the loop `while (true)` of `editar_archivo` on the File `f`: the prompt, the
command line read into `buf` (a failed read returns `false`), and the command. -/
def editar_paso (f : Nat) (e : Editor) : Editor × Option Bool :=
  match getline_buf e.flujo 1024 e.buf with
  | (none, s1) => (⟨e.mem, e.buf, s1, e.out ++ "> ".toList⟩, some false)
  | (some buf, s1) => ejecutar_comando f ⟨e.mem, buf, s1, e.out ++ "> ".toList⟩

/-- The loop `while (true)` of `editar_archivo`, with fuel: each turn that goes on has taken
at least one character from the stream. -/
def editar_bucle (f : Nat) : Nat → Editor → Editor × Bool
  | 0, e => (e, false)
  | k + 1, e =>
    match editar_paso f e with
    | (e1, some b) => (e1, b)
    | (e1, none) => editar_bucle f k e1

/-- Source `editar_archivo`; `buf0` is what the array `buf` holds when it is declared. -/
def editar_archivo (h : Mem) (f : Option Nat) (buf0 : Cadena) (s : Flujo) : Editor × Bool :=
  match f with
  | none => (⟨h, buf0, s, "Error: no es archivo\n".toList⟩, false)
  | some f =>
    if (leer h f).tipo ≠ TipoNodo.NODO_ARCHIVO then
      (⟨h, buf0, s, "Error: no es archivo\n".toList⟩, false)
    else
      editar_bucle f (s.resto.length + 1)
        ⟨h, buf0, s,
          "Editor (:p mostrar, :a append, :i N, :r N, :d N, :wq guardar, :q! salir)\n".toList⟩

/-- The path of the line `l` read as an `F` record, as the loader cuts it: the text after the
two characters `F ` up to the first space or NUL, at most 511 characters. -/
def ruta_de_linea (l : Cadena) : Cadena :=
  ((l.drop 2).takeWhile (fun c => c ≠ ' ' ∧ c ≠ NUL)).take 511

/-- No line of the text `s` that begins with `F ` has a path ending in a slash, that is, an
empty file name. -/
def SinNombreVacio (s : Cadena) : Prop :=
  ∀ l ∈ s.splitOn '\n', l.take 2 = "F ".toList → (ruta_de_linea l).getLast? ≠ some '/'

instance (s : Cadena) : Decidable (SinNombreVacio s) := by
  unfold SinNombreVacio; infer_instance

/-! # Theorems -/

/-! ## Memory and strings -/

theorem leer_set (h : Mem) (p q : Nat) (v : Nodo) :
    leer (h.set p v) q = if p = q ∧ p < h.length then v else leer h q := by
  unfold leer
  by_cases hpq : p = q
  · subst hpq
    by_cases hp : p < h.length
    · simp [List.getD_eq_getElem?_getD, List.getElem?_set, hp]
    · have : h.set p v = h := List.set_eq_of_length_le (Nat.le_of_not_lt hp)
      simp [this, hp]
  · simp [List.getD_eq_getElem?_getD, List.getElem?_set, hpq]

theorem leer_set_ne (h : Mem) (p q : Nat) (v : Nodo) (hpq : p ≠ q) :
    leer (h.set p v) q = leer h q := by
  simp [leer_set, hpq]

theorem leer_set_eq (h : Mem) (p : Nat) (v : Nodo) (hp : p < h.length) :
    leer (h.set p v) p = v := by
  simp [leer_set, hp]

theorem leer_append_lt (h : Mem) (v : Nodo) (q : Nat) (hq : q < h.length) :
    leer (h ++ [v]) q = leer h q := by
  unfold leer
  simp [List.getD_eq_getElem?_getD, List.getElem?_append_left hq]

theorem leer_append_length (h : Mem) (v : Nodo) : leer (h ++ [v]) h.length = v := by
  unfold leer
  simp [List.getD_eq_getElem?_getD]

theorem leer_fuera (h : Mem) (q : Nat) (hq : h.length ≤ q) : leer h q = nodoNulo := by
  unfold leer
  simp [List.getD_eq_getElem?_getD, List.getElem?_eq_none hq]

theorem str_igual_desde_iff (a b : Cadena) : str_igual_desde a b = true ↔ a = b := by
  induction a generalizing b with
  | nil => cases b <;> simp [str_igual_desde]
  | cons x xs ih =>
    cases b with
    | nil => simp [str_igual_desde]
    | cons y ys =>
      by_cases hxy : x = y
      · simp [str_igual_desde, hxy, ih]
      · simp [str_igual_desde, hxy]

theorem str_igual_some (a b : Cadena) : str_igual (some a) (some b) = decide (a = b) := by
  have := str_igual_desde_iff a b
  by_cases hab : a = b
  · subst hab
    simp [str_igual, (str_igual_desde_iff a a).2 rfl]
  · have hne : str_igual_desde a b ≠ true := fun hh => hab (this.1 hh)
    simp [str_igual, hab, hne]

theorem str_igual_some_none (a : Cadena) : str_igual (some a) none = false := rfl

theorem nombre_valido_some (s : Cadena) :
    nombre_valido (some s) = true ↔ s ≠ [] ∧ '/' ∉ s := by
  unfold nombre_valido str_longitud
  cases s with
  | nil => simp
  | cons c r =>
    simp only [List.length_cons, Nat.add_one_ne_zero, if_false, ne_eq, reduceCtorEq,
      not_false_eq_true, true_and, Bool.not_eq_true', List.any_eq_false, beq_iff_eq]
    constructor
    · intro hx hm
      exact hx _ hm rfl
    · intro hx c hc hce
      exact hx (hce ▸ hc)

theorem buscar_en_none_iff (h : Mem) (s : Cadena) (l : List Nat) :
    buscar_en h (some s) l = none ↔ ∀ c ∈ l, (leer h c).nombre ≠ s := by
  induction l with
  | nil => simp [buscar_en]
  | cons c cs ih =>
    by_cases hc : (leer h c).nombre = s
    · simp [buscar_en, str_igual_some, hc]
    · simp [buscar_en, str_igual_some, hc, ih]

theorem buscar_en_some (h : Mem) (s : Cadena) (l : List Nat) (c : Nat)
    (hb : buscar_en h (some s) l = some c) : c ∈ l ∧ (leer h c).nombre = s := by
  induction l with
  | nil => simp [buscar_en] at hb
  | cons d ds ih =>
    by_cases hd : (leer h d).nombre = s
    · simp [buscar_en, str_igual_some, hd] at hb
      subst hb
      exact ⟨List.mem_cons_self _ _, hd⟩
    · simp [buscar_en, str_igual_some, hd] at hb
      exact ⟨List.mem_cons_of_mem _ (ih hb).1, (ih hb).2⟩

theorem buscar_en_nulo (h : Mem) (l : List Nat) : buscar_en h none l = none := by
  induction l with
  | nil => rfl
  | cons d ds ih => simp [buscar_en, str_igual, ih]

theorem arbolDAB_eval : arbolDAB =
    [⟨TipoNodo.NODO_DIR, [], none, [3, 2, 1], []⟩,
     ⟨TipoNodo.NODO_DIR, "d".toList, some 0, [], []⟩,
     ⟨TipoNodo.NODO_ARCHIVO, "a".toList, some 0, [], []⟩,
     ⟨TipoNodo.NODO_ARCHIVO, "b".toList, some 0, [], []⟩] := by decide

/-- C8 (failing input): on the tree `mkdir d; touch a; touch b`, `mover_nodo(a, d, "x/y")`
succeeds although `"x/y"` is not a valid name, and the node is then called `"x/y"`, not `"a"`. -/
theorem C8_nombre_invalido_aplicado :
    nombre_valido (some "x/y".toList) = false ∧
    (leer arbolDAB 2).nombre = "a".toList ∧
    (mover_nodo arbolDAB (some 2) (some 1) (some "x/y".toList)).map
        (fun r => (r.val, (leer r.mem 2).nombre, (leer r.mem 2).padre)) =
      some (true, "x/y".toList, some 1) := by decide

/-- C3 (failing input): after `mover_nodo(a, d, "x/y")` no directory holds two children with
one name; `mover_nodo(b, d, "x/y")` then succeeds and leaves `d` with two children called
`"x/y"`. -/
theorem C3_duplicado_tras_mover :
    SinDuplicados arbolDABmovido ∧
    (mover_nodo arbolDABmovido (some 3) (some 1) (some "x/y".toList)).map
        (fun r => (r.val, (leer r.mem 1).hijos.map (fun c => (leer r.mem c).nombre),
          decide (SinDuplicados r.mem))) =
      some (true, ["x/y".toList, "x/y".toList], false) := by decide

theorem buscar_hijo_dir (h : Mem) (d : Nat) (nm : Option Cadena)
    (hd : (leer h d).tipo = TipoNodo.NODO_DIR) :
    buscar_hijo h (some d) nm = buscar_en h nm (leer h d).hijos := by
  simp [buscar_hijo, hd]

theorem buscar_hijo_no_dir (h : Mem) (d : Nat) (nm : Option Cadena)
    (hd : (leer h d).tipo ≠ TipoNodo.NODO_DIR) : buscar_hijo h (some d) nm = none := by
  simp [buscar_hijo, hd]

/-- What `crear_nodo` followed by `enlazar_hijo_al_frente` does to memory. -/
theorem leer_crear_enlazar (h : Mem) (t : TipoNodo) (s : Cadena) (c : Nat) (hc : c < h.length)
    (q : Nat) :
    leer (enlazar_hijo_al_frente (crear_nodo h t (some s) (some c)).1 c
        (crear_nodo h t (some s) (some c)).2) q =
      if q = h.length then ⟨t, s, some c, [], []⟩
      else if q = c then { leer h c with hijos := h.length :: (leer h c).hijos }
      else leer h q := by
  have hne : h.length ≠ c := by omega
  simp only [enlazar_hijo_al_frente, crear_nodo, Option.getD_some]
  rw [leer_set]
  by_cases hqc : q = c
  · subst hqc
    have h1 : ¬ (q = h.length) := by omega
    simp [leer_set, leer_append_lt, leer_append_length, hc, hne, h1]
    omega
  · by_cases hql : q = h.length
    · subst hql
      simp [leer_set, leer_append_length, hne.symm]
    · have : ¬ (c = q) := fun e => hqc e.symm
      simp only [this, false_and, if_false, hql, hqc]
      rw [leer_set]
      have : ¬ (h.length = q) := fun e => hql e.symm
      simp only [this, false_and, if_false]
      by_cases hq : q < h.length
      · exact leer_append_lt _ _ _ hq
      · rw [leer_fuera _ _ (by simp; omega), leer_fuera _ _ (by omega)]

theorem length_enlazar (h : Mem) (p c : Nat) : (enlazar_hijo_al_frente h p c).length = h.length := by
  simp [enlazar_hijo_al_frente]

/-- C9: `crear_directorio` fails exactly when `cwd` is absent or not a directory, the name is
empty or has a slash, or `cwd` already has a child of that name; a failure leaves the memory
as it was; a success allocates one new empty directory with that name and parent `cwd`, puts
it in front of the former children of `cwd`, and changes nothing else. -/
theorem C9_crear_directorio (h : Mem) (cwd : Option Nat) (nombre : Option Cadena)
    (hcwd : ∀ c, cwd = some c → c < h.length) :
    ((crear_directorio h cwd nombre).val = none ↔
      ((cwd = none ∨ ∃ c, cwd = some c ∧ (leer h c).tipo ≠ TipoNodo.NODO_DIR) ∨
       (str_longitud nombre = 0 ∨ ∃ s, nombre = some s ∧ '/' ∈ s) ∨
       (∃ c d, cwd = some c ∧ d ∈ (leer h c).hijos ∧ some (leer h d).nombre = nombre))) ∧
    ((crear_directorio h cwd nombre).val = none → (crear_directorio h cwd nombre).mem = h) ∧
    (∀ n, (crear_directorio h cwd nombre).val = some n →
      ∃ c s, cwd = some c ∧ nombre = some s ∧ n = h.length ∧
        (crear_directorio h cwd nombre).mem.length = h.length + 1 ∧
        leer (crear_directorio h cwd nombre).mem n = ⟨TipoNodo.NODO_DIR, s, some c, [], []⟩ ∧
        leer (crear_directorio h cwd nombre).mem c =
          { leer h c with hijos := n :: (leer h c).hijos } ∧
        ∀ q, q ≠ c → q ≠ n → leer (crear_directorio h cwd nombre).mem q = leer h q) := by
  cases cwd with
  | none => simp [crear_directorio]
  | some c =>
    have hc : c < h.length := hcwd c rfl
    by_cases hd : (leer h c).tipo = TipoNodo.NODO_DIR
    swap
    · simp [crear_directorio, hd]
    cases nombre with
    | none => simp [crear_directorio, hd, nombre_valido, str_longitud]
    | some s =>
      by_cases hv : nombre_valido (some s) = true
      swap
      · have hv2 : s = [] ∨ '/' ∈ s := by
          by_contra hcon
          push_neg at hcon
          exact hv ((nombre_valido_some s).2 ⟨hcon.1, hcon.2⟩)
        have hv3 : str_longitud (some s) = 0 ∨ '/' ∈ s := by
          rcases hv2 with h0 | h1
          · left; simp [str_longitud, h0]
          · right; exact h1
        simp [crear_directorio, hd, hv, hv3]
      have hv2 := (nombre_valido_some s).1 hv
      have hlen : ¬ (str_longitud (some s) = 0) := by
        simp [str_longitud]; exact hv2.1
      have hsl : ¬ ∃ s1, some s = some s1 ∧ '/' ∈ s1 := by
        rintro ⟨s1, he, hm⟩
        cases he
        exact hv2.2 hm
      cases hb : buscar_en h (some s) (leer h c).hijos with
      | some d =>
        have hd2 := buscar_en_some h s _ d hb
        have hex : ∃ x ∈ (leer h c).hijos, (leer h x).nombre = s := ⟨d, hd2.1, hd2.2⟩
        simp [crear_directorio, hd, hv, tiene_hijo_llamado, buscar_hijo_dir, hb, hex]
      | none =>
        have hn := (buscar_en_none_iff h s _).1 hb
        have hex : ¬ ∃ c1 d1, some c = some c1 ∧ d1 ∈ (leer h c1).hijos ∧
            some (leer h d1).nombre = some s := by
          rintro ⟨c1, d1, he, hm, hnm⟩
          cases he
          exact hn d1 hm (Option.some.inj hnm)
        have hmem : (crear_directorio h (some c) (some s)) =
            ⟨enlazar_hijo_al_frente (crear_nodo h TipoNodo.NODO_DIR (some s) (some c)).1 c
              (crear_nodo h TipoNodo.NODO_DIR (some s) (some c)).2, some h.length, []⟩ := by
          simp [crear_directorio, hd, hv, tiene_hijo_llamado, buscar_hijo_dir, hb, crear_nodo]
        rw [hmem]
        refine ⟨?_, ?_, ?_⟩
        · simp only [reduceCtorEq, false_iff, not_or, not_exists, not_and]
          refine ⟨⟨by simp, ?_⟩, ⟨hlen, ?_⟩, ?_⟩
          · intro c1 he
            cases he
            simp [hd]
          · intro s1 he
            cases he
            exact hv2.2
          · intro c1 d1 he hm hnm
            exact hex ⟨c1, d1, he, hm, hnm⟩
        · simp
        · intro n hn2
          simp only [Option.some.injEq] at hn2
          subst hn2
          refine ⟨c, s, rfl, rfl, rfl, ?_, ?_, ?_, ?_⟩
          · simp [length_enlazar, crear_nodo]
          · rw [leer_crear_enlazar h _ s c hc]; simp
          · rw [leer_crear_enlazar h _ s c hc]
            have : c ≠ h.length := by omega
            simp [this]
          · intro q hq1 hq2
            rw [leer_crear_enlazar h _ s c hc]
            simp [hq1, hq2]

/-- C9 (witness): `mkdir a` in the empty root. -/
theorem C9_crear_directorio_testigo :
    (∀ c, some 0 = some c → c < memInicial.length) ∧
    ∃ c s, some 0 = some c ∧ some "a".toList = some s ∧ 1 = memInicial.length ∧
        (crear_directorio memInicial (some 0) (some "a".toList)).mem.length =
          memInicial.length + 1 ∧
        leer (crear_directorio memInicial (some 0) (some "a".toList)).mem 1 =
          ⟨TipoNodo.NODO_DIR, s, some c, [], []⟩ ∧
        leer (crear_directorio memInicial (some 0) (some "a".toList)).mem c =
          { leer memInicial c with hijos := 1 :: (leer memInicial c).hijos } ∧
        ∀ q, q ≠ c → q ≠ 1 → leer (crear_directorio memInicial (some 0) (some "a".toList)).mem q
          = leer memInicial q :=
  ⟨by decide, (C9_crear_directorio memInicial (some 0) (some "a".toList) (by decide)).2.2 1
    (by decide)⟩

/-- C5 (counterexample): in the tree `mkdir a`, the root is a directory and `"a"` is a valid
name, yet `crear_archivo(root, "a")` returns no node: a directory of that name exists. -/
theorem C5_contraejemplo :
    (leer arbolA 0).tipo = TipoNodo.NODO_DIR ∧ nombre_valido (some "a".toList) = true ∧
    (crear_archivo arbolA (some 0) (some "a".toList)).val = none ∧
    (crear_archivo (crear_archivo arbolA (some 0) (some "a".toList)).mem (some 0)
      (some "a".toList)).val = none := by decide

/-- C5 (amended): whenever `crear_archivo(dir, s)` returns a node `f`, a second call right
after returns the same `f`, writes nothing and leaves the memory exactly as the first call
left it; `f` is a file and occurs exactly once among the children of `dir`. -/
theorem C5_touch_idempotente (h : Mem) (d : Nat) (s : Cadena) (f : Nat)
    (hd : d < h.length) (hnd : (leer h d).hijos.Nodup)
    (hval : ∀ c ∈ (leer h d).hijos, c < h.length)
    (h1 : (crear_archivo h (some d) (some s)).val = some f) :
    crear_archivo (crear_archivo h (some d) (some s)).mem (some d) (some s) =
      ⟨(crear_archivo h (some d) (some s)).mem, some f, []⟩ ∧
    (leer (crear_archivo h (some d) (some s)).mem f).tipo = TipoNodo.NODO_ARCHIVO ∧
    (leer (crear_archivo h (some d) (some s)).mem d).hijos.count f = 1 := by
  by_cases hdir : (leer h d).tipo = TipoNodo.NODO_DIR
  swap
  · simp [crear_archivo, hdir] at h1
  by_cases hv : nombre_valido (some s) = true
  swap
  · simp [crear_archivo, hdir, hv] at h1
  cases hb : buscar_en h (some s) (leer h d).hijos with
  | some e =>
    by_cases he : (leer h e).tipo = TipoNodo.NODO_ARCHIVO
    · have hr : crear_archivo h (some d) (some s) = ⟨h, some e, []⟩ := by
        simp [crear_archivo, hdir, hv, buscar_hijo_dir, hb, he]
      rw [hr] at h1
      simp only [Option.some.injEq] at h1
      subst h1
      rw [hr]
      refine ⟨hr, he, ?_⟩
      exact List.count_eq_one_of_mem hnd (buscar_en_some h s _ e hb).1
    · simp [crear_archivo, hdir, hv, buscar_hijo_dir, hb, he] at h1
  | none =>
    have hr : crear_archivo h (some d) (some s) =
        ⟨enlazar_hijo_al_frente (crear_nodo h TipoNodo.NODO_ARCHIVO (some s) (some d)).1 d
          (crear_nodo h TipoNodo.NODO_ARCHIVO (some s) (some d)).2, some h.length, []⟩ := by
      simp [crear_archivo, hdir, hv, buscar_hijo_dir, hb, crear_nodo]
    rw [hr] at h1
    simp only [Option.some.injEq] at h1
    subst h1
    rw [hr]
    simp only
    have hne : d ≠ h.length := by omega
    have hL : ∀ q, leer (enlazar_hijo_al_frente
        (crear_nodo h TipoNodo.NODO_ARCHIVO (some s) (some d)).1 d
        (crear_nodo h TipoNodo.NODO_ARCHIVO (some s) (some d)).2) q = _ :=
      leer_crear_enlazar h TipoNodo.NODO_ARCHIVO s d hd
    refine ⟨?_, ?_, ?_⟩
    · have hd2 : (leer (enlazar_hijo_al_frente
          (crear_nodo h TipoNodo.NODO_ARCHIVO (some s) (some d)).1 d
          (crear_nodo h TipoNodo.NODO_ARCHIVO (some s) (some d)).2) d).tipo =
          TipoNodo.NODO_DIR := by
        rw [hL]; simp [hne, hdir]
      unfold crear_archivo
      simp only [hd2, ne_eq, not_true_eq_false, if_false, hv, Bool.not_true, Bool.false_eq_true]
      rw [buscar_hijo_dir _ _ _ hd2, hL d]
      simp only [hne, if_false, if_true, buscar_en, hL h.length, str_igual_some, decide_True]
    · rw [hL]; simp
    · rw [hL]
      simp only [hne, if_false, if_true, List.count_cons_self]
      have : h.length ∉ (leer h d).hijos := fun hm => Nat.lt_irrefl _ (hval _ hm)
      simp [List.count_eq_zero_of_not_mem this]

/-- C5 (witness): `touch a` twice in the empty root. -/
theorem C5_touch_idempotente_testigo :
    crear_archivo (crear_archivo memInicial (some 0) (some "a".toList)).mem (some 0)
        (some "a".toList) =
      ⟨(crear_archivo memInicial (some 0) (some "a".toList)).mem, some 1, []⟩ ∧
    (leer (crear_archivo memInicial (some 0) (some "a".toList)).mem 1).tipo =
      TipoNodo.NODO_ARCHIVO ∧
    (leer (crear_archivo memInicial (some 0) (some "a".toList)).mem 0).hijos.count 1 = 1 :=
  C5_touch_idempotente memInicial 0 "a".toList 1 (by decide) (by decide) (by decide)
    (by decide)

theorem subir_add (h : Mem) (i j n : Nat) :
    subir h (i + j) n = (subir h i n).bind (subir h j) := by
  induction i generalizing n with
  | zero => simp [subir]
  | succ i ih =>
    rw [Nat.succ_add]
    simp only [subir]
    cases (leer h n).padre with
    | none => rfl
    | some p => exact ih p

theorem subir_lt (h : Mem) (i n x : Nat) (y : Nat) (hx : subir h i n = some x)
    (hy : subir h (i + 1) n = some y) : x < h.length := by
  rw [subir_add, hx] at hy
  simp only [Option.some_bind, subir] at hy
  by_contra hge
  rw [leer_fuera h x (Nat.le_of_not_lt hge)] at hy
  simp [nodoNulo] at hy

theorem subir_previo (h : Mem) (k n a : Nat) (hk : subir h k n = some a) (i : Nat)
    (hi : i ≤ k) : ∃ x, subir h i n = some x := by
  obtain ⟨j, rfl⟩ := Nat.exists_eq_add_of_le hi
  rw [subir_add] at hk
  cases hs : subir h i n with
  | none => rw [hs] at hk; simp at hk
  | some x => exact ⟨x, rfl⟩

/-- A parent chain that reaches `a` reaches it within as many steps as there are nodes. -/
theorem subir_corto (h : Mem) (a n : Nat) :
    ∀ k, subir h k n = some a → ∃ k1, k1 ≤ h.length ∧ subir h k1 n = some a := by
  intro k
  induction k using Nat.strong_induction_on with
  | _ k ih =>
    intro hk
    by_cases hle : k ≤ h.length
    · exact ⟨k, hle, hk⟩
    · have hlt : h.length < k := Nat.lt_of_not_le hle
      have hval : ∀ i : Fin k, (subir h i.1 n).getD 0 < h.length := by
        intro i
        obtain ⟨x, hx⟩ := subir_previo h k n a hk i.1 (Nat.le_of_lt i.2)
        obtain ⟨y, hy⟩ := subir_previo h k n a hk (i.1 + 1) i.2
        rw [hx]
        exact subir_lt h i.1 n x y hx hy
      let g : Fin k → Fin h.length := fun i => ⟨(subir h i.1 n).getD 0, hval i⟩
      have hcard : Fintype.card (Fin h.length) < Fintype.card (Fin k) := by
        simpa using hlt
      obtain ⟨i, j, hij, hg⟩ := Fintype.exists_ne_map_eq_of_card_lt g hcard
      have key : ∀ i j : Fin k, i.1 < j.1 → g i = g j →
          ∃ k1, k1 ≤ h.length ∧ subir h k1 n = some a := by
        intro i j hlt2 hg2
        obtain ⟨x, hx⟩ := subir_previo h k n a hk i.1 (Nat.le_of_lt i.2)
        obtain ⟨y, hy⟩ := subir_previo h k n a hk j.1 (Nat.le_of_lt j.2)
        have hxy : x = y := by
          have := congrArg Fin.val hg2
          simpa [g, hx, hy] using this
        subst hxy
        have hk2 : subir h (i.1 + (k - j.1)) n = some a := by
          rw [subir_add, hx]
          have : k = j.1 + (k - j.1) := by have := j.2; omega
          rw [this, subir_add, hy] at hk
          exact hk
        exact ih (i.1 + (k - j.1)) (by have := j.2; omega) hk2
      rcases Nat.lt_or_gt_of_ne (fun e => hij (Fin.ext e)) with h1 | h1
      · exact key i j h1 hg
      · exact key j i h1 hg.symm

theorem es_ancestro_desde_true (h : Mem) (a : Nat) :
    ∀ (k f n : Nat), k < f → subir h k n = some a →
      es_ancestro_desde h (some a) f (some n) = some true := by
  intro k
  induction k with
  | zero =>
    intro f n hf hk
    cases f with
    | zero => omega
    | succ f =>
      simp only [subir, Option.some.injEq] at hk
      simp [es_ancestro_desde, hk]
  | succ k ih =>
    intro f n hf hk
    cases f with
    | zero => omega
    | succ f =>
      simp only [es_ancestro_desde]
      by_cases hna : n = a
      · simp [hna]
      · simp only [Option.some.injEq, hna, if_false]
        simp only [subir] at hk
        cases hp : (leer h n).padre with
        | none => rw [hp] at hk; simp at hk
        | some p =>
          rw [hp] at hk
          exact ih f p (by omega) hk

theorem es_ancestro_desciende (h : Mem) (a n : Nat) (hd : Desciende h a n) :
    es_ancestro h (some a) (some n) = some true := by
  obtain ⟨k, hk⟩ := hd
  obtain ⟨k1, hk1, hs⟩ := subir_corto h a n k hk
  exact es_ancestro_desde_true h a k1 (h.length + 1) n (by omega) hs

/-- C4 (counterexample): in the tree `touch f`, moving the file `f` into itself fails with
"destino inválido", not with the cyclic-move message. -/
theorem C4_contraejemplo :
    Desciende arbolF 1 1 ∧
    mover_nodo arbolF (some 1) (some 1) none =
      some ⟨arbolF, false, "Error: destino inválido\n".toList⟩ ∧
    mover_nodo arbolF (some 1) (some 1) none ≠
      some ⟨arbolF, false, "Error: no se puede mover dentro de su subárbol\n".toList⟩ :=
  ⟨⟨0, rfl⟩, by decide, by decide⟩

/-- C4 (amended): when `dest` is `item` or a descendant of `item`, `mover_nodo(item, dest, _)`
returns false and leaves the whole memory unchanged; the message is the cyclic-move one when
`dest` is a directory and "destino inválido" when it is a file. -/
theorem C4_mover_a_subarbol (h : Mem) (item dest : Nat) (nuevoNombre : Option Cadena)
    (hdesc : Desciende h item dest) :
    ((leer h dest).tipo = TipoNodo.NODO_DIR →
      mover_nodo h (some item) (some dest) nuevoNombre =
        some ⟨h, false, "Error: no se puede mover dentro de su subárbol\n".toList⟩) ∧
    ((leer h dest).tipo ≠ TipoNodo.NODO_DIR →
      mover_nodo h (some item) (some dest) nuevoNombre =
        some ⟨h, false, "Error: destino inválido\n".toList⟩) := by
  constructor
  · intro hdir
    simp [mover_nodo, hdir, es_ancestro_desciende h item dest hdesc]
  · intro hdir
    simp [mover_nodo, hdir]

/-- C4 (witness): `mkdir a; mv a a` fails with the cyclic-move message. -/
theorem C4_mover_a_subarbol_testigo :
    Desciende arbolA 1 1 ∧
    mover_nodo arbolA (some 1) (some 1) none =
      some ⟨arbolA, false, "Error: no se puede mover dentro de su subárbol\n".toList⟩ :=
  ⟨⟨0, rfl⟩, (C4_mover_a_subarbol arbolA 1 1 none ⟨0, rfl⟩).1 (by decide)⟩

theorem segmentos_nil : segmentos [] = [] := by
  simp [segmentos, List.splitOn]

theorem segmentos_barra (r : Cadena) : segmentos ('/' :: r) = segmentos r := by
  simp [segmentos, List.splitOn, List.splitOnP_cons]

theorem segmentos_sin_barra (t : Cadena) (ht : t ≠ []) (hs : '/' ∉ t) : segmentos t = [t] := by
  have : t.splitOn '/' = [t] := by
    unfold List.splitOn
    apply List.splitOnP_eq_single
    intro x hx hxe
    simp only [beq_iff_eq] at hxe
    exact hs (hxe ▸ hx)
  simp [segmentos, this, ht]

theorem segmentos_primero (t r : Cadena) (ht : t ≠ []) (hs : '/' ∉ t) :
    segmentos (t ++ '/' :: r) = t :: segmentos r := by
  have : (t ++ '/' :: r).splitOn '/' = t :: r.splitOn '/' := by
    unfold List.splitOn
    apply List.splitOnP_first
    · intro x hx hxe
      simp only [beq_iff_eq] at hxe
      exact hs (hxe ▸ hx)
    · simp
  simp [segmentos, this, ht]

/-- The piece of `r` before its first slash and what follows it. -/
theorem partir_en_barra (r : Cadena) :
    ∃ t d, r = t ++ d ∧ '/' ∉ t ∧ (d = [] ∨ ∃ d1, d = '/' :: d1) := by
  induction r with
  | nil => exact ⟨[], [], rfl, by simp, Or.inl rfl⟩
  | cons c r ih =>
    by_cases hc : c = '/'
    · exact ⟨[], c :: r, rfl, by simp, Or.inr ⟨r, by rw [hc]⟩⟩
    · obtain ⟨t, d, he, hs, hd⟩ := ih
      refine ⟨c :: t, d, by rw [he]; rfl, ?_, hd⟩
      simp only [List.mem_cons, not_or]
      exact ⟨fun e => hc e.symm, hs⟩

theorem segmentos_partido (t d : Cadena) (ht : t ≠ []) (hs : '/' ∉ t)
    (hd : d = [] ∨ ∃ d1, d = '/' :: d1) : segmentos (t ++ d) = t :: segmentos d := by
  rcases hd with rfl | ⟨d1, rfl⟩
  · simp [segmentos_sin_barra t ht hs, segmentos_nil]
  · rw [segmentos_primero t d1 ht hs, segmentos_barra]

theorem leer_token_partido (n : Nat) (t d : Cadena) (hs : '/' ∉ t)
    (hd : d = [] ∨ ∃ d1, d = '/' :: d1) (hn : t.length ≤ n) :
    leer_token n (t ++ d) = (t, d) := by
  induction t generalizing n with
  | nil =>
    rcases hd with rfl | ⟨d1, rfl⟩
    · cases n <;> simp [leer_token]
    · cases n <;> simp [leer_token]
  | cons c t ih =>
    cases n with
    | zero => simp at hn
    | succ n =>
      simp only [List.mem_cons, not_or] at hs
      have hc : ¬ (c = '/') := fun e => hs.1 e.symm
      have hi := ih n hs.2 (by simpa using hn)
      show leer_token (n + 1) (c :: (t ++ d)) = (c :: t, d)
      simp only [leer_token, hc, if_false, hi]

theorem saltar_barras_segmentos (r : Cadena) : segmentos (saltar_barras r) = segmentos r := by
  induction r with
  | nil => rfl
  | cons c r ih =>
    by_cases hc : c = '/'
    · simp [saltar_barras, hc, ih, segmentos_barra]
    · simp [saltar_barras, hc]

theorem saltar_barras_length (r : Cadena) : (saltar_barras r).length ≤ r.length := by
  induction r with
  | nil => simp [saltar_barras]
  | cons c r ih =>
    by_cases hc : c = '/'
    · simp [saltar_barras, hc]; omega
    · simp [saltar_barras, hc]

theorem saltar_barras_cabeza (r : Cadena) (c : Char) (r1 : Cadena)
    (hr : saltar_barras r = c :: r1) : c ≠ '/' := by
  induction r with
  | nil => simp [saltar_barras] at hr
  | cons x r ih =>
    by_cases hx : x = '/'
    · simp [saltar_barras, hx] at hr
      exact ih hr
    · simp [saltar_barras, hx] at hr
      rw [← hr.1]; exact hx

/-- The text after skipped slashes splits into its first segment and a rest. -/
theorem primer_segmento (r : Cadena) (c : Char) (r1 : Cadena)
    (hr : saltar_barras r = c :: r1) :
    ∃ t d, c :: r1 = t ++ d ∧ t ≠ [] ∧ '/' ∉ t ∧ (d = [] ∨ ∃ d1, d = '/' :: d1) ∧
      segmentos r = t :: segmentos d ∧ d.length < r.length := by
  obtain ⟨t, d, he, hs, hd⟩ := partir_en_barra (c :: r1)
  have hc := saltar_barras_cabeza r c r1 hr
  have ht : t ≠ [] := by
    rintro rfl
    rcases hd with rfl | ⟨d1, rfl⟩
    · simp at he
    · simp at he; exact hc he.1
  refine ⟨t, d, he, ht, hs, hd, ?_, ?_⟩
  · rw [← saltar_barras_segmentos, hr, he]
    exact segmentos_partido t d ht hs hd
  · have h1 := saltar_barras_length r
    rw [hr, he] at h1
    have : 0 < t.length := List.length_pos.2 ht
    simp at h1
    omega

theorem resolver_bucle_puntos (h : Mem) (raiz : Nat) (hraiz : (leer h raiz).padre = none) :
    ∀ (f : Nat) (cur : Nat) (r : Cadena), r.length < f →
      (∀ s ∈ segmentos r, s = ['.'] ∨ s = ['.', '.']) →
      resolver_bucle h f cur r = (some ((segmentos r).foldl (paso_punto h raiz) cur), []) := by
  intro f
  induction f with
  | zero => intro cur r hf; omega
  | succ f ih =>
    intro cur r hf hseg
    unfold resolver_bucle
    cases hr : saltar_barras r with
    | nil =>
      have : segmentos r = [] := by rw [← saltar_barras_segmentos, hr, segmentos_nil]
      simp [this]
    | cons c r1 =>
      obtain ⟨t, d, he, ht, hs, hd, hsg, hlen⟩ := primer_segmento r c r1 hr
      have htd : t = ['.'] ∨ t = ['.', '.'] := hseg t (by rw [hsg]; exact List.mem_cons_self _ _)
      have htl : t.length ≤ 255 := by rcases htd with rfl | rfl <;> simp
      have hq : leer_token 255 (c :: r1) = (t, d) := by
        rw [he]; exact leer_token_partido 255 t d hs hd htl
      have hseg2 : ∀ s ∈ segmentos d, s = ['.'] ∨ s = ['.', '.'] := by
        intro s hm
        exact hseg s (by rw [hsg]; exact List.mem_cons_of_mem _ hm)
      have hrec := fun cur1 => ih cur1 d (by omega) hseg2
      simp only [hq, hsg, List.foldl_cons]
      rcases htd with rfl | rfl
      · simp [str_igual_some, hrec, paso_punto]
      · simp only [List.length_cons, List.length_nil, str_igual_some]
        simp only [Nat.reduceAdd, OfNat.ofNat_ne_zero, if_false]
        have e1 : decide (['.', '.'] = ['.']) = false := by decide
        simp only [e1, Bool.false_eq_true, if_false, decide_True, if_true]
        cases hp : (leer h cur).padre with
        | none => simp [hrec, paso_punto, hp]
        | some p =>
          have hne : cur ≠ raiz := by
            rintro rfl
            rw [hraiz] at hp; cases hp
          simp [hrec, paso_punto, hp, hne]

/-- C10: on a path whose segments are all `.` or `..` (the empty path and `/` included),
`resolver_ruta` writes no error and returns the node reached from the start node (the root
when the path begins with a slash, otherwise `cwd`) by moving to the parent once per `..`,
staying put at the root, and staying put on `.`. -/
theorem C10_segmentos_punto (h : Mem) (raiz cwd : Nat) (ruta : Cadena)
    (hraiz : (leer h raiz).padre = none)
    (hseg : ∀ s ∈ segmentos ruta, s = ['.'] ∨ s = ['.', '.']) :
    resolver_ruta h (some raiz) (some cwd) (some ruta) =
      (some ((segmentos ruta).foldl (paso_punto h raiz)
        (if ruta.head? = some '/' then raiz else cwd)), []) := by
  cases ruta with
  | nil => simp [resolver_ruta, resolver_inicio, segmentos_nil]
  | cons c r =>
    by_cases hc : c = '/'
    · subst hc
      rw [segmentos_barra] at hseg
      simp only [resolver_ruta, resolver_inicio, if_true, List.head?_cons, segmentos_barra]
      exact resolver_bucle_puntos h raiz hraiz _ raiz r (by omega) hseg
    · simp only [resolver_ruta, resolver_inicio, hc, if_false, List.head?_cons,
        Option.some.injEq]
      exact resolver_bucle_puntos h raiz hraiz _ cwd (c :: r) (by simp) hseg

/-- C10 (witness): the path `..//./..` from the directory `a`. -/
theorem C10_segmentos_punto_testigo :
    resolver_ruta arbolA (some 0) (some 1) (some "..//./..".toList) =
      (some ((segmentos "..//./..".toList).foldl (paso_punto arbolA 0)
        (if "..//./..".toList.head? = some '/' then 0 else 1)), []) :=
  C10_segmentos_punto arbolA 0 1 "..//./..".toList (by decide) (by decide)

theorem desciende_refl (h : Mem) (n : Nat) : Desciende h n n := ⟨0, rfl⟩

theorem subir_succ (h : Mem) (k n p : Nat) (hp : (leer h n).padre = some p) :
    subir h (k + 1) n = subir h k p := by
  simp [subir, hp]

theorem subir_succ_none (h : Mem) (k n : Nat) (hp : (leer h n).padre = none) :
    subir h (k + 1) n = none := by
  simp [subir, hp]

theorem desciende_padre (h : Mem) (a n p : Nat) (hp : (leer h n).padre = some p)
    (hd : Desciende h a p) : Desciende h a n := by
  obtain ⟨k, hk⟩ := hd
  exact ⟨k + 1, by rw [subir_succ h k n p hp]; exact hk⟩

theorem desciende_trans (h : Mem) (a b n : Nat) (h1 : Desciende h a b) (h2 : Desciende h b n) :
    Desciende h a n := by
  obtain ⟨i, hi⟩ := h1
  obtain ⟨j, hj⟩ := h2
  exact ⟨j + i, by rw [subir_add, hj]; exact hi⟩

/-- Parent chains that avoid the nodes whose `padre` field differs are the same. -/
theorem subir_evita (h h1 : Mem) (P : Nat → Prop)
    (hp : ∀ q, ¬ P q → (leer h1 q).padre = (leer h q).padre) :
    ∀ k m, (∀ j x, subir h j m = some x → ¬ P x) → subir h1 k m = subir h k m := by
  intro k
  induction k with
  | zero => intro m _; rfl
  | succ k ih =>
    intro m hev
    have hm : ¬ P m := hev 0 m rfl
    simp only [subir]
    rw [hp m hm]
    cases hpm : (leer h m).padre with
    | none => rfl
    | some p =>
      simp only
      apply ih
      intro j x hj
      exact hev (j + 1) x (by rw [subir_succ h j m p hpm]; exact hj)

theorem Bien.hijos_nodup {h : Mem} (hb : Bien h) (p : Nat) (hp : p < h.length) :
    (leer h p).hijos.Nodup :=
  List.Nodup.of_map _ (hb.nombres p hp)

theorem Bien.subir_dentro {h : Mem} (hb : Bien h) :
    ∀ k n x, n < h.length → subir h k n = some x → x < h.length := by
  intro k
  induction k with
  | zero =>
    intro n x hn hk
    simp only [subir, Option.some.injEq] at hk
    omega
  | succ k ih =>
    intro n x hn hk
    cases hp : (leer h n).padre with
    | none => rw [subir_succ_none h k n hp] at hk; cases hk
    | some p =>
      rw [subir_succ h k n p hp] at hk
      exact ih p x (hb.padre_ok n p hn hp).1 hk

theorem Bien.con_padre {h : Mem} (hb : Bien h) (n : Nat) (hn : n < h.length) (h0 : n ≠ 0) :
    ∃ p, (leer h n).padre = some p := by
  obtain ⟨k, hk⟩ := hb.a_raiz n hn
  cases k with
  | zero => simp only [subir, Option.some.injEq] at hk; exact absurd hk h0
  | succ k =>
    cases hp : (leer h n).padre with
    | none => rw [subir_succ_none h k n hp] at hk; cases hk
    | some p => exact ⟨p, rfl⟩

theorem Bien.sin_hijos {h : Mem} (hb : Bien h) (n : Nat) (hn : n < h.length)
    (ht : (leer h n).tipo = TipoNodo.NODO_ARCHIVO) : (leer h n).hijos = [] := by
  cases hh : (leer h n).hijos with
  | nil => rfl
  | cons c cs =>
    have h1 := hb.hijo_ok n c hn (by rw [hh]; exact List.mem_cons_self _ _)
    have h2 := hb.padre_ok c n h1.1 h1.2
    rw [ht] at h2
    cases h2.2.2

theorem bien_inicial : Bien memInicial := by
  have hl : memInicial.length = 1 := rfl
  have h0 : ∀ n, n < memInicial.length → n = 0 := by intro n hn; rw [hl] at hn; omega
  refine ⟨by decide, by decide, by decide, by decide, ?_, ?_, ?_, ?_, ?_, ?_⟩
  · intro n p hn hp
    rw [h0 n hn] at hp
    have : (leer memInicial 0).padre = none := by decide
    rw [this] at hp; cases hp
  · intro p c hp hc
    rw [h0 p hp] at hc
    revert hc; simp [memInicial, crear_nodo, leer]
  · intro p hp
    rw [h0 p hp]; decide
  · intro n hn
    rw [h0 n hn]; exact desciende_refl _ _
  · intro n hn hne
    exact absurd (h0 n hn) hne
  · intro n hn _
    rw [h0 n hn]; decide

theorem leer_insertar (h : Mem) (t : TipoNodo) (s : Cadena) (c : Nat) (hc : c < h.length)
    (q : Nat) :
    leer (insertar h t s c) q =
      if q = h.length then ⟨t, s, some c, [], []⟩
      else if q = c then { leer h c with hijos := h.length :: (leer h c).hijos }
      else leer h q :=
  leer_crear_enlazar h t s c hc q

theorem length_insertar (h : Mem) (t : TipoNodo) (s : Cadena) (c : Nat) :
    (insertar h t s c).length = h.length + 1 := by
  simp [insertar, length_enlazar, crear_nodo]

theorem leer_insertar_viejo (h : Mem) (t : TipoNodo) (s : Cadena) (c : Nat) (hc : c < h.length)
    (q : Nat) (hq : q < h.length) :
    (leer (insertar h t s c) q).tipo = (leer h q).tipo ∧
    (leer (insertar h t s c) q).nombre = (leer h q).nombre ∧
    (leer (insertar h t s c) q).padre = (leer h q).padre ∧
    (leer (insertar h t s c) q).lineas = (leer h q).lineas ∧
    (leer (insertar h t s c) q).hijos =
      if q = c then h.length :: (leer h q).hijos else (leer h q).hijos := by
  rw [leer_insertar h t s c hc]
  have h1 : q ≠ h.length := by omega
  by_cases hqc : q = c
  · subst hqc; simp [h1]
  · simp [h1, hqc]

theorem leer_insertar_nuevo (h : Mem) (t : TipoNodo) (s : Cadena) (c : Nat) (hc : c < h.length) :
    leer (insertar h t s c) h.length = ⟨t, s, some c, [], []⟩ := by
  rw [leer_insertar h t s c hc]; simp

/-- Inserting a fresh, validly named node under a directory keeps the invariant. -/
theorem bien_insertar (h : Mem) (hb : Bien h) (t : TipoNodo) (s : Cadena) (c : Nat)
    (hc : c < h.length) (hdir : (leer h c).tipo = TipoNodo.NODO_DIR)
    (hv : nombre_valido (some s) = true)
    (hno : ∀ d ∈ (leer h c).hijos, (leer h d).nombre ≠ s) :
    Bien (insertar h t s c) := by
  have hlen := length_insertar h t s c
  have hv1 := leer_insertar_viejo h t s c hc
  have hn1 := leer_insertar_nuevo h t s c hc
  have h0 : 0 < h.length := hb.raiz_len
  have hsub : ∀ k n, n < h.length → subir (insertar h t s c) k n = subir h k n := by
    intro k n hn
    apply subir_evita h (insertar h t s c) (fun q => ¬ q < h.length)
    · intro q hq
      simp only [not_not] at hq
      exact (hv1 q hq).2.2.1
    · intro j x hj
      simp only [not_not]
      exact hb.subir_dentro j n x hn hj
  have hnom : ∀ l : List Nat, (∀ x ∈ l, x < h.length) →
      l.map (fun x => (leer (insertar h t s c) x).nombre) =
        l.map (fun x => (leer h x).nombre) := by
    intro l hl
    apply List.map_congr_left
    intro x hx
    exact (hv1 x (hl x hx)).2.1
  refine ⟨by omega, ?_, ?_, ?_, ?_, ?_, ?_, ?_, ?_, ?_⟩
  · rw [(hv1 0 h0).2.2.1]; exact hb.raiz_padre
  · rw [(hv1 0 h0).1]; exact hb.raiz_tipo
  · rw [(hv1 0 h0).2.1]; exact hb.raiz_nombre
  · intro n p hn hp
    by_cases hnl : n = h.length
    · subst hnl
      rw [hn1] at hp
      simp only [Option.some.injEq] at hp
      subst hp
      refine ⟨by omega, ?_, ?_⟩
      · rw [(hv1 c hc).2.2.2.2]; simp
      · rw [(hv1 c hc).1]; exact hdir
    · have hn2 : n < h.length := by omega
      rw [(hv1 n hn2).2.2.1] at hp
      obtain ⟨a1, a2, a3⟩ := hb.padre_ok n p hn2 hp
      refine ⟨by omega, ?_, ?_⟩
      · rw [(hv1 p a1).2.2.2.2]
        split
        · exact List.mem_cons_of_mem _ a2
        · exact a2
      · rw [(hv1 p a1).1]; exact a3
  · intro p x hp hx
    by_cases hpl : p = h.length
    · subst hpl
      rw [hn1] at hx
      simp at hx
    · have hp2 : p < h.length := by omega
      rw [(hv1 p hp2).2.2.2.2] at hx
      by_cases hpc : p = c
      · subst hpc
        simp only [if_true, List.mem_cons] at hx
        rcases hx with rfl | hx
        · exact ⟨by omega, by rw [hn1]⟩
        · obtain ⟨a1, a2⟩ := hb.hijo_ok p x hp2 hx
          exact ⟨by omega, by rw [(hv1 x a1).2.2.1]; exact a2⟩
      · simp only [hpc, if_false] at hx
        obtain ⟨a1, a2⟩ := hb.hijo_ok p x hp2 hx
        exact ⟨by omega, by rw [(hv1 x a1).2.2.1]; exact a2⟩
  · intro p hp
    by_cases hpl : p = h.length
    · subst hpl
      rw [hn1]; simp
    · have hp2 : p < h.length := by omega
      have hkids : ∀ x ∈ (leer h p).hijos, x < h.length :=
        fun x hx => (hb.hijo_ok p x hp2 hx).1
      rw [(hv1 p hp2).2.2.2.2]
      by_cases hpc : p = c
      · subst hpc
        simp only [if_true, List.map_cons, hn1]
        rw [hnom _ hkids]
        refine List.nodup_cons.2 ⟨?_, hb.nombres p hp2⟩
        intro hm
        obtain ⟨d, hd, hde⟩ := List.mem_map.1 hm
        exact hno d hd hde
      · simp only [hpc, if_false]
        rw [hnom _ hkids]
        exact hb.nombres p hp2
  · intro n hn
    by_cases hnl : n = h.length
    · subst hnl
      apply desciende_padre _ 0 _ c (by rw [hn1])
      obtain ⟨k, hk⟩ := hb.a_raiz c hc
      exact ⟨k, by rw [hsub k c hc]; exact hk⟩
    · have hn2 : n < h.length := by omega
      obtain ⟨k, hk⟩ := hb.a_raiz n hn2
      exact ⟨k, by rw [hsub k n hn2]; exact hk⟩
  · intro n hn hne
    by_cases hnl : n = h.length
    · subst hnl
      rw [hn1]; exact hv
    · have hn2 : n < h.length := by omega
      rw [(hv1 n hn2).2.1]; exact hb.validos n hn2 hne
  · intro n hn ht
    by_cases hnl : n = h.length
    · subst hnl
      rw [hn1]
    · have hn2 : n < h.length := by omega
      rw [(hv1 n hn2).1] at ht
      rw [(hv1 n hn2).2.2.2.1]; exact hb.sin_lineas n hn2 ht

theorem crear_directorio_exito (h : Mem) (c : Nat) (nm : Option Cadena) (n : Nat)
    (hs : (crear_directorio h (some c) nm).val = some n) :
    ∃ s, nm = some s ∧ nombre_valido (some s) = true ∧
      (leer h c).tipo = TipoNodo.NODO_DIR ∧
      (∀ d ∈ (leer h c).hijos, (leer h d).nombre ≠ s) ∧
      (crear_directorio h (some c) nm).mem = insertar h TipoNodo.NODO_DIR s c ∧
      n = h.length := by
  by_cases hd : (leer h c).tipo = TipoNodo.NODO_DIR
  swap
  · simp [crear_directorio, hd] at hs
  cases nm with
  | none => simp [crear_directorio, hd, nombre_valido] at hs
  | some s =>
    by_cases hv : nombre_valido (some s) = true
    swap
    · simp [crear_directorio, hd, hv] at hs
    cases hb : buscar_en h (some s) (leer h c).hijos with
    | some d => simp [crear_directorio, hd, hv, tiene_hijo_llamado, buscar_hijo_dir, hb] at hs
    | none =>
      simp [crear_directorio, hd, hv, tiene_hijo_llamado, buscar_hijo_dir, hb, crear_nodo] at hs
      refine ⟨s, rfl, hv, hd, (buscar_en_none_iff h s _).1 hb, ?_, hs.symm⟩
      simp [crear_directorio, hd, hv, tiene_hijo_llamado, buscar_hijo_dir, hb, insertar]

theorem crear_archivo_exito (h : Mem) (c : Nat) (nm : Option Cadena) (n : Nat)
    (hs : (crear_archivo h (some c) nm).val = some n) :
    ∃ s, nm = some s ∧ nombre_valido (some s) = true ∧
      (leer h c).tipo = TipoNodo.NODO_DIR ∧
      (((crear_archivo h (some c) nm).mem = h ∧ n ∈ (leer h c).hijos ∧
          (leer h n).nombre = s ∧ (leer h n).tipo = TipoNodo.NODO_ARCHIVO) ∨
       ((∀ d ∈ (leer h c).hijos, (leer h d).nombre ≠ s) ∧
        (crear_archivo h (some c) nm).mem = insertar h TipoNodo.NODO_ARCHIVO s c ∧
        n = h.length)) := by
  by_cases hd : (leer h c).tipo = TipoNodo.NODO_DIR
  swap
  · simp [crear_archivo, hd] at hs
  cases nm with
  | none => simp [crear_archivo, hd, nombre_valido] at hs
  | some s =>
    by_cases hv : nombre_valido (some s) = true
    swap
    · simp [crear_archivo, hd, hv] at hs
    refine ⟨s, rfl, hv, hd, ?_⟩
    cases hb : buscar_en h (some s) (leer h c).hijos with
    | some d =>
      by_cases he : (leer h d).tipo = TipoNodo.NODO_ARCHIVO
      · simp [crear_archivo, hd, hv, buscar_hijo_dir, hb, he] at hs
        subst hs
        left
        have := buscar_en_some h s _ d hb
        refine ⟨?_, this.1, this.2, he⟩
        simp [crear_archivo, hd, hv, buscar_hijo_dir, hb, he]
      · simp [crear_archivo, hd, hv, buscar_hijo_dir, hb, he] at hs
    | none =>
      simp [crear_archivo, hd, hv, buscar_hijo_dir, hb, crear_nodo] at hs
      right
      refine ⟨(buscar_en_none_iff h s _).1 hb, ?_, hs.symm⟩
      simp [crear_archivo, hd, hv, buscar_hijo_dir, hb, insertar]

theorem bien_crear_directorio (h : Mem) (hb : Bien h) (c : Nat) (hc : c < h.length)
    (nm : Option Cadena) (n : Nat) (hs : (crear_directorio h (some c) nm).val = some n) :
    Bien (crear_directorio h (some c) nm).mem := by
  obtain ⟨s, _, hv, hd, hno, hm, _⟩ := crear_directorio_exito h c nm n hs
  rw [hm]
  exact bien_insertar h hb _ s c hc hd hv hno

theorem bien_crear_archivo (h : Mem) (hb : Bien h) (c : Nat) (hc : c < h.length)
    (nm : Option Cadena) (n : Nat) (hs : (crear_archivo h (some c) nm).val = some n) :
    Bien (crear_archivo h (some c) nm).mem := by
  obtain ⟨s, _, hv, hd, hcase⟩ := crear_archivo_exito h c nm n hs
  rcases hcase with ⟨hm, _⟩ | ⟨hno, hm, _⟩
  · rw [hm]; exact hb
  · rw [hm]; exact bien_insertar h hb _ s c hc hd hv hno

theorem leer_anexar (h : Mem) (f : Nat) (t : Cadena) (q : Nat) :
    (leer (anexar_linea h f t) q).tipo = (leer h q).tipo ∧
    (leer (anexar_linea h f t) q).nombre = (leer h q).nombre ∧
    (leer (anexar_linea h f t) q).padre = (leer h q).padre ∧
    (leer (anexar_linea h f t) q).hijos = (leer h q).hijos ∧
    (leer (anexar_linea h f t) q).lineas =
      if q = f ∧ f < h.length then (leer h q).lineas ++ [t] else (leer h q).lineas := by
  unfold anexar_linea
  rw [leer_set]
  by_cases hq : f = q ∧ f < h.length
  · obtain ⟨rfl, hf⟩ := hq
    simp [hf]
  · have : ¬ (q = f ∧ f < h.length) := fun ⟨a, b⟩ => hq ⟨a.symm, b⟩
    simp [hq, this]

theorem length_anexar (h : Mem) (f : Nat) (t : Cadena) :
    (anexar_linea h f t).length = h.length := by
  simp [anexar_linea]

theorem subir_anexar (h : Mem) (f : Nat) (t : Cadena) (k n : Nat) :
    subir (anexar_linea h f t) k n = subir h k n := by
  apply subir_evita h _ (fun _ => False)
  · intro q _; exact (leer_anexar h f t q).2.2.1
  · intro j x _ hF; exact hF

theorem bien_anexar (h : Mem) (hb : Bien h) (f : Nat) (t : Cadena)
    (hf : (leer h f).tipo = TipoNodo.NODO_ARCHIVO) : Bien (anexar_linea h f t) := by
  have hl := length_anexar h f t
  have hr := leer_anexar h f t
  have hnom : ∀ l : List Nat, l.map (fun x => (leer (anexar_linea h f t) x).nombre) =
      l.map (fun x => (leer h x).nombre) := by
    intro l
    apply List.map_congr_left
    intro x _
    exact (hr x).2.1
  refine ⟨by rw [hl]; exact hb.raiz_len, by rw [(hr 0).2.2.1]; exact hb.raiz_padre,
    by rw [(hr 0).1]; exact hb.raiz_tipo, by rw [(hr 0).2.1]; exact hb.raiz_nombre,
    ?_, ?_, ?_, ?_, ?_, ?_⟩
  · intro n p hn hp
    rw [hl] at hn
    rw [(hr n).2.2.1] at hp
    rw [hl, (hr p).2.2.2.1, (hr p).1]
    exact hb.padre_ok n p hn hp
  · intro p c hp hc
    rw [hl] at hp
    rw [(hr p).2.2.2.1] at hc
    rw [hl, (hr c).2.2.1]
    exact hb.hijo_ok p c hp hc
  · intro p hp
    rw [hl] at hp
    rw [(hr p).2.2.2.1, hnom]
    exact hb.nombres p hp
  · intro n hn
    rw [hl] at hn
    obtain ⟨k, hk⟩ := hb.a_raiz n hn
    exact ⟨k, by rw [subir_anexar]; exact hk⟩
  · intro n hn hne
    rw [hl] at hn
    rw [(hr n).2.1]
    exact hb.validos n hn hne
  · intro n hn ht
    rw [hl] at hn
    rw [(hr n).1] at ht
    rw [(hr n).2.2.2.2]
    have hnf : ¬ (n = f ∧ f < h.length) := by
      rintro ⟨rfl, _⟩
      rw [hf] at ht; cases ht
    simp only [hnf, if_false]
    exact hb.sin_lineas n hn ht

theorem es_ancestro_desde_false (h : Mem) (a : Nat) :
    ∀ f n, es_ancestro_desde h (some a) f (some n) = some false → ∀ k, subir h k n ≠ some a := by
  intro f
  induction f with
  | zero => intro n hf; simp [es_ancestro_desde] at hf
  | succ f ih =>
    intro n hf k
    simp only [es_ancestro_desde, Option.some.injEq] at hf
    by_cases hna : n = a
    · simp [hna] at hf
    · simp only [hna, if_false] at hf
      cases k with
      | zero => simp [subir, hna]
      | succ k =>
        cases hp : (leer h n).padre with
        | none => rw [subir_succ_none h k n hp]; simp
        | some p =>
          rw [subir_succ h k n p hp]
          rw [hp] at hf
          exact ih p hf k

theorem Bien.padre_ne {h : Mem} (hb : Bien h) (n p : Nat) (hn : n < h.length)
    (hp : (leer h n).padre = some p) : p ≠ n := by
  rintro rfl
  have hall : ∀ k, subir h k p = some p := by
    intro k
    induction k with
    | zero => rfl
    | succ k ih => rw [subir_succ h k p p hp]; exact ih
  obtain ⟨k, hk⟩ := hb.a_raiz p hn
  rw [hall k] at hk
  simp only [Option.some.injEq] at hk
  subst hk
  rw [hb.raiz_padre] at hp
  cases hp

theorem length_desvincular (h : Mem) (n : Option Nat) :
    (desvincular_de_padre h n).length = h.length := by
  unfold desvincular_de_padre
  cases n with
  | none => rfl
  | some x =>
    simp only
    cases (leer h x).padre with
    | none => rfl
    | some p => simp

/-- What a successful `mover_nodo` with an absent or valid new name does. -/
theorem mover_exito (h : Mem) (hb : Bien h) (it np : Nat) (hit : it < h.length)
    (hnp : np < h.length) (nn : Option Cadena)
    (hnn : nn = none ∨ nombre_valido nn = true) (r : Res Bool)
    (hm : mover_nodo h (some it) (some np) nn = some r) (hv : r.val = true) :
    ∃ op, (leer h it).padre = some op ∧ op < h.length ∧ op ≠ it ∧ it ≠ np ∧ it ≠ 0 ∧
      (leer h np).tipo = TipoNodo.NODO_DIR ∧
      (∀ k, subir h k np ≠ some it) ∧
      nombre_valido (some (nn.getD (leer h it).nombre)) = true ∧
      (∀ d ∈ (leer h np).hijos, (leer h d).nombre ≠ nn.getD (leer h it).nombre) ∧
      r.out = [] ∧
      r.mem.length = h.length ∧
      ∀ q, leer r.mem q = leer_movido h it np op (nn.getD (leer h it).nombre) q := by
  unfold mover_nodo at hm
  simp only at hm
  by_cases hdir : (leer h np).tipo = TipoNodo.NODO_DIR
  swap
  · simp only [ne_eq, hdir, not_false_eq_true, if_true, Option.some.injEq] at hm
    rw [← hm] at hv; cases hv
  simp only [ne_eq, hdir, not_true_eq_false, if_false] at hm
  cases hea : es_ancestro h (some it) (some np) with
  | none => rw [hea] at hm; cases hm
  | some b =>
    rw [hea] at hm
    cases b with
    | true =>
      simp only [Option.some.injEq] at hm
      rw [← hm] at hv; cases hv
    | false =>
      simp only at hm
      have hav : ∀ k, subir h k np ≠ some it := es_ancestro_desde_false h it _ np hea
      have hne : it ≠ np := fun e => hav 0 (by rw [e]; rfl)
      have hne0 : it ≠ 0 := by
        rintro rfl
        obtain ⟨k, hk⟩ := hb.a_raiz np hnp
        exact hav k hk
      obtain ⟨op, hop⟩ := hb.con_padre it hit hne0
      have hopl := (hb.padre_ok it op hit hop).1
      have hopne : op ≠ it := hb.padre_ne it op hit hop
      have hnf : (if nn.isSome && nombre_valido nn then nn else some (leer h it).nombre) =
          some (nn.getD (leer h it).nombre) := by
        rcases hnn with rfl | hval
        · simp
        · cases nn with
          | none => simp [nombre_valido] at hval
          | some s => simp [hval]
      rw [hnf] at hm
      by_cases hval : nombre_valido (some (nn.getD (leer h it).nombre)) = true
      swap
      · simp only [hval, Bool.not_false, if_true, Option.some.injEq] at hm
        rw [← hm] at hv; cases hv
      simp only [hval, Bool.not_true, Bool.false_eq_true, if_false] at hm
      cases hbus : buscar_en h (some (nn.getD (leer h it).nombre)) (leer h np).hijos with
      | some d =>
        simp only [tiene_hijo_llamado, buscar_hijo_dir h np _ hdir, hbus, Option.isSome_some,
          if_true, Option.some.injEq] at hm
        rw [← hm] at hv; cases hv
      | none =>
        simp only [tiene_hijo_llamado, buscar_hijo_dir h np _ hdir, hbus, Option.isSome_none,
          Bool.false_eq_true, if_false, Option.some.injEq] at hm
        have hno := (buscar_en_none_iff h _ _).1 hbus
        refine ⟨op, hop, hopl, hopne, hne, hne0, hdir, hav, hval, hno, ?_, ?_, ?_⟩
        · rw [← hm]
        · rw [← hm]
          simp only [length_enlazar]
          split <;> simp [length_desvincular]
        · intro q
          rw [← hm]
          simp only
          have hd1 : desvincular_de_padre h (some it) =
              h.set op { leer h op with hijos := (leer h op).hijos.erase it } := by
            simp [desvincular_de_padre, hop]
          have h1it : leer (desvincular_de_padre h (some it)) it = leer h it := by
            rw [hd1, leer_set_ne _ _ _ _ hopne]
          -- the memory after the optional rename
          have h2 : ∀ x, leer (if nn.isSome &&
                !str_igual nn (some (leer (desvincular_de_padre h (some it)) it).nombre) then
                (desvincular_de_padre h (some it)).set it
                  { leer (desvincular_de_padre h (some it)) it with nombre := nn.getD [] }
              else desvincular_de_padre h (some it)) x =
              if x = it then { leer h it with nombre := nn.getD (leer h it).nombre }
              else leer (desvincular_de_padre h (some it)) x := by
            intro x
            rw [h1it]
            cases nn with
            | none =>
              simp only [Option.isSome_none, Bool.false_and, Bool.false_eq_true, if_false,
                Option.getD_none]
              by_cases hx : x = it
              · subst hx; simp [h1it]
              · simp [hx]
            | some s =>
              simp only [Option.isSome_some, Bool.true_and, str_igual_some, Option.getD_some]
              by_cases hs : s = (leer h it).nombre
              · simp only [hs, decide_True, Bool.not_true, Bool.false_eq_true, if_false]
                by_cases hx : x = it
                · subst hx; simp [h1it]
                · simp [hx]
              · simp only [hs, decide_False, Bool.not_false, if_true]
                rw [leer_set]
                have hl : it < (desvincular_de_padre h (some it)).length := by
                  rw [length_desvincular]; exact hit
                by_cases hx : x = it
                · subst hx; simp [hl]
                · have : ¬ (it = x) := fun e => hx e.symm
                  simp [hx, this]
          have hl2 : ∀ m : Mem, m.length = h.length → it < m.length ∧ np < m.length := by
            intro m hmm; rw [hmm]; exact ⟨hit, hnp⟩
          generalize hm2 : (if nn.isSome &&
                !str_igual nn (some (leer (desvincular_de_padre h (some it)) it).nombre) then
                (desvincular_de_padre h (some it)).set it
                  { leer (desvincular_de_padre h (some it)) it with nombre := nn.getD [] }
              else desvincular_de_padre h (some it)) = m2 at h2
          have hm2l : m2.length = h.length := by
            rw [← hm2]; split <;> simp [length_desvincular]
          unfold enlazar_hijo_al_frente leer_movido
          simp only
          rw [leer_set]
          have hne' : ¬ (np = it) := fun e => hne e.symm
          by_cases hq1 : q = np
          · subst hq1
            have : q < (m2.set it { leer m2 it with padre := some q }).length := by
              simp [hm2l, hnp]
            simp only [this, and_self, if_true]
            rw [leer_set_ne _ _ _ _ hne, h2 q]
            simp only [hne', if_false]
            rw [hd1, leer_set]
            by_cases ho : op = q
            · subst ho; simp [hopl]
            · simp [ho]
          · have : ¬ (np = q) := fun e => hq1 e.symm
            simp only [this, false_and, if_false, hq1]
            rw [leer_set]
            by_cases hq2 : q = it
            · subst hq2
              simp only [hm2l, hit, and_self, if_true]
              rw [h2 q]; simp
            · have : ¬ (it = q) := fun e => hq2 e.symm
              simp only [this, false_and, if_false, hq2]
              rw [h2 q]
              simp only [hq2, if_false]
              rw [hd1, leer_set]
              by_cases ho : q = op
              · subst ho; simp [hopl]
              · have : ¬ (op = q) := fun e => ho e.symm
                simp [ho, this]

theorem leer_movido_campos (h : Mem) (it np op : Nat) (nf : Cadena) (hne : it ≠ np)
    (hopne : op ≠ it) (q : Nat) :
    (leer_movido h it np op nf q).tipo = (leer h q).tipo ∧
    (leer_movido h it np op nf q).lineas = (leer h q).lineas ∧
    (leer_movido h it np op nf q).nombre = (if q = it then nf else (leer h q).nombre) ∧
    (leer_movido h it np op nf q).padre = (if q = it then some np else (leer h q).padre) ∧
    (leer_movido h it np op nf q).hijos =
      (if q = np then it :: (if op = np then (leer h np).hijos.erase it else (leer h np).hijos)
       else if q = op then (leer h op).hijos.erase it else (leer h q).hijos) := by
  unfold leer_movido
  by_cases h1 : q = np
  · subst h1
    have : ¬ (q = it) := fun e => hne e.symm
    simp [this]
  · by_cases h2 : q = it
    · subst h2
      have h3 : ¬ (q = op) := fun e => hopne e.symm
      simp [h1, h3]
    · by_cases h3 : q = op
      · subst h3; simp [h1, h2]
      · simp [h1, h2, h3]

/-- A move described by `leer_movido` keeps the invariant. -/
theorem bien_movido (h h1 : Mem) (hb : Bien h) (it np op : Nat) (nf : Cadena)
    (hit : it < h.length) (hnp : np < h.length)
    (hop : (leer h it).padre = some op) (hne : it ≠ np) (hne0 : it ≠ 0)
    (hdir : (leer h np).tipo = TipoNodo.NODO_DIR)
    (hav : ∀ k, subir h k np ≠ some it)
    (hval : nombre_valido (some nf) = true)
    (hno : ∀ d ∈ (leer h np).hijos, (leer h d).nombre ≠ nf)
    (hlen : h1.length = h.length)
    (hleer : ∀ q, leer h1 q = leer_movido h it np op nf q) : Bien h1 := by
  have hopne0 : op ≠ it := hb.padre_ne it op hit hop
  have hc := fun q => leer_movido_campos h it np op nf hne hopne0 q
  have htipo : ∀ q, (leer h1 q).tipo = (leer h q).tipo := fun q => by rw [hleer]; exact (hc q).1
  have hlin : ∀ q, (leer h1 q).lineas = (leer h q).lineas :=
    fun q => by rw [hleer]; exact (hc q).2.1
  have hnomb : ∀ q, (leer h1 q).nombre = (if q = it then nf else (leer h q).nombre) :=
    fun q => by rw [hleer]; exact (hc q).2.2.1
  have hpad : ∀ q, (leer h1 q).padre = (if q = it then some np else (leer h q).padre) :=
    fun q => by rw [hleer]; exact (hc q).2.2.2.1
  have hhij : ∀ q, (leer h1 q).hijos =
      (if q = np then it :: (if op = np then (leer h np).hijos.erase it else (leer h np).hijos)
       else if q = op then (leer h op).hijos.erase it else (leer h q).hijos) :=
    fun q => by rw [hleer]; exact (hc q).2.2.2.2
  obtain ⟨hopl, hitop, hopdir⟩ := hb.padre_ok it op hit hop
  have hopne : op ≠ it := hb.padre_ne it op hit hop
  have hnd := fun p hp => hb.hijos_nodup p hp
  -- membership in the new child lists
  have hmem : ∀ p x, p < h.length → x ≠ it → x ∈ (leer h p).hijos → x ∈ (leer h1 p).hijos := by
    intro p x hp hx hm
    rw [hhij]
    by_cases h1 : p = np
    · subst h1
      simp only [if_true]
      apply List.mem_cons_of_mem
      split
      · exact (List.mem_erase_of_ne hx).2 hm
      · exact hm
    · simp only [h1, if_false]
      split
      · rename_i h2; subst h2; exact (List.mem_erase_of_ne hx).2 hm
      · exact hm
  have hmem2 : ∀ p x, p < h.length → x ∈ (leer h1 p).hijos →
      (x = it ∧ p = np) ∨ (x ≠ it ∧ x ∈ (leer h p).hijos) := by
    intro p x hp hm
    rw [hhij] at hm
    by_cases h1 : p = np
    · subst h1
      simp only [if_true, List.mem_cons] at hm
      rcases hm with rfl | hm
      · left; exact ⟨rfl, rfl⟩
      · right
        by_cases h2 : op = p
        · subst h2
          simp only [if_true] at hm
          refine ⟨?_, List.mem_of_mem_erase hm⟩
          rintro rfl
          exact (List.Nodup.not_mem_erase (hnd op hopl)) hm
        · simp only [h2, if_false] at hm
          refine ⟨?_, hm⟩
          rintro rfl
          have := (hb.hijo_ok p x hp hm).2
          rw [hop] at this
          exact h2 (Option.some.inj this)
    · simp only [h1, if_false] at hm
      right
      by_cases h2 : p = op
      · subst h2
        simp only [if_true] at hm
        refine ⟨?_, List.mem_of_mem_erase hm⟩
        rintro rfl
        exact (List.Nodup.not_mem_erase (hnd p hopl)) hm
      · simp only [h2, if_false] at hm
        refine ⟨?_, hm⟩
        rintro rfl
        have := (hb.hijo_ok p x hp hm).2
        rw [hop] at this
        exact h2 (Option.some.inj this).symm
  have hsub : ∀ k, subir h1 k np = subir h k np := by
    intro k
    apply subir_evita h h1 (fun q => q = it)
    · intro q hq
      rw [hpad]; simp [hq]
    · intro j x hj hx
      subst hx
      exact hav j hj
  have hdesc_np : Desciende h1 0 np := by
    obtain ⟨k, hk⟩ := hb.a_raiz np hnp
    exact ⟨k, by rw [hsub]; exact hk⟩
  have hdesc : ∀ k n, n < h.length → subir h k n = some 0 → Desciende h1 0 n := by
    intro k
    induction k with
    | zero =>
      intro n _ hk
      simp only [subir, Option.some.injEq] at hk
      subst hk
      exact desciende_refl _ _
    | succ k ih =>
      intro n hn hk
      by_cases hni : n = it
      · subst hni
        exact desciende_padre h1 0 n np (by rw [hpad]; simp) hdesc_np
      · cases hp : (leer h n).padre with
        | none => rw [subir_succ_none h k n hp] at hk; cases hk
        | some p =>
          rw [subir_succ h k n p hp] at hk
          exact desciende_padre h1 0 n p (by rw [hpad]; simp [hni, hp])
            (ih p (hb.padre_ok n p hn hp).1 hk)
  refine ⟨by rw [hlen]; exact hb.raiz_len, ?_, by rw [htipo]; exact hb.raiz_tipo, ?_,
    ?_, ?_, ?_, ?_, ?_, ?_⟩
  · rw [hpad]
    have : ¬ (0 = it) := fun e => hne0 e.symm
    simp only [this, if_false]; exact hb.raiz_padre
  · rw [hnomb]
    have : ¬ (0 = it) := fun e => hne0 e.symm
    simp only [this, if_false]; exact hb.raiz_nombre
  · intro n p hn hp
    rw [hlen] at hn
    rw [hpad] at hp
    by_cases hni : n = it
    · subst hni
      simp only [if_true, Option.some.injEq] at hp
      subst hp
      refine ⟨by rw [hlen]; exact hnp, ?_, by rw [htipo]; exact hdir⟩
      rw [hhij]; simp
    · simp only [hni, if_false] at hp
      obtain ⟨a1, a2, a3⟩ := hb.padre_ok n p hn hp
      exact ⟨by rw [hlen]; exact a1, hmem p n a1 hni a2, by rw [htipo]; exact a3⟩
  · intro p x hp hx
    rw [hlen] at hp
    rcases hmem2 p x hp hx with ⟨rfl, rfl⟩ | ⟨hxi, hxm⟩
    · exact ⟨by rw [hlen]; exact hit, by rw [hpad]; simp⟩
    · obtain ⟨a1, a2⟩ := hb.hijo_ok p x hp hxm
      exact ⟨by rw [hlen]; exact a1, by rw [hpad]; simp [hxi, a2]⟩
  · intro p hp
    rw [hlen] at hp
    have hcong : ∀ l : List Nat, it ∉ l →
        l.map (fun x => (leer h1 x).nombre) = l.map (fun x => (leer h x).nombre) := by
      intro l hl
      apply List.map_congr_left
      intro x hx
      rw [hnomb]
      have : x ≠ it := fun e => hl (e ▸ hx)
      simp [this]
    have herase : ∀ q, q < h.length →
        (((leer h q).hijos.erase it).map (fun x => (leer h1 x).nombre)).Nodup := by
      intro q hq
      rw [hcong _ (List.Nodup.not_mem_erase (hnd q hq))]
      exact List.Nodup.sublist (List.Sublist.map _ (List.erase_sublist _ _)) (hb.nombres q hq)
    have hnotin : ∀ q, q < h.length → q ≠ op → it ∉ (leer h q).hijos := by
      intro q hq hqo hm
      have := (hb.hijo_ok q it hq hm).2
      rw [hop] at this
      exact hqo (Option.some.inj this).symm
    rw [hhij]
    by_cases h1 : p = np
    · subst h1
      simp only [if_true, List.map_cons]
      rw [hnomb it]
      simp only [if_true]
      by_cases h2 : op = p
      · subst h2
        simp only [if_true]
        refine List.nodup_cons.2 ⟨?_, herase op hp⟩
        intro hm
        obtain ⟨d, hd, hde⟩ := List.mem_map.1 hm
        have hdi : d ≠ it := fun e => (List.Nodup.not_mem_erase (hnd op hp)) (e ▸ hd)
        rw [hnomb] at hde
        simp only [hdi, if_false] at hde
        exact hno d (List.mem_of_mem_erase hd) hde
      · simp only [h2, if_false]
        have hni := hnotin p hp (fun e => h2 e.symm)
        rw [hcong _ hni]
        refine List.nodup_cons.2 ⟨?_, hb.nombres p hp⟩
        intro hm
        obtain ⟨d, hd, hde⟩ := List.mem_map.1 hm
        exact hno d hd hde
    · simp only [h1, if_false]
      by_cases h2 : p = op
      · subst h2
        simp only [if_true]
        exact herase p hp
      · simp only [h2, if_false]
        rw [hcong _ (hnotin p hp h2)]
        exact hb.nombres p hp
  · intro n hn
    rw [hlen] at hn
    obtain ⟨k, hk⟩ := hb.a_raiz n hn
    exact hdesc k n hn hk
  · intro n hn hn0
    rw [hlen] at hn
    rw [hnomb]
    by_cases hni : n = it
    · simp [hni, hval]
    · simp only [hni, if_false]; exact hb.validos n hn hn0
  · intro n hn ht
    rw [hlen] at hn
    rw [htipo] at ht
    rw [hlin]; exact hb.sin_lineas n hn ht

theorem bien_mover (h : Mem) (hb : Bien h) (it np : Nat) (hit : it < h.length)
    (hnp : np < h.length) (nn : Option Cadena)
    (hnn : nn = none ∨ nombre_valido nn = true) (r : Res Bool)
    (hm : mover_nodo h (some it) (some np) nn = some r) (hv : r.val = true) : Bien r.mem := by
  obtain ⟨op, hop, _, _, hne, hne0, hdir, hav, hval, hno, _, hlen, hleer⟩ :=
    mover_exito h hb it np hit hnp nn hnn r hm hv
  exact bien_movido h r.mem hb it np op _ hit hnp hop hne hne0 hdir hav hval hno hlen hleer

/-- Every constructible tree satisfies the structural invariant. -/
theorem construible_bien (h : Mem) (hc : Construible h) : Bien h := by
  induction hc with
  | inicial => exact bien_inicial
  | mkdir h cwd nombre n _ hcwd hs ih => exact bien_crear_directorio h ih cwd hcwd nombre n hs
  | touch h cwd nombre n _ hcwd hs ih => exact bien_crear_archivo h ih cwd hcwd nombre n hs
  | mover h item np nn r _ hit hnp hnn hm hv ih => exact bien_mover h ih item np hit hnp nn hnn r hm hv
  | anexar h f s t _ _ hf _ ih => exact bien_anexar h ih f t hf

theorem buscar_en_unico (h : Mem) (l : List Nat) (y : Nat)
    (hnd : (l.map (fun c => (leer h c).nombre)).Nodup) (hy : y ∈ l) :
    buscar_en h (some (leer h y).nombre) l = some y := by
  induction l with
  | nil => cases hy
  | cons c cs ih =>
    simp only [List.map_cons, List.nodup_cons] at hnd
    by_cases hcy : c = y
    · subst hcy
      simp [buscar_en, str_igual_some]
    · have hy2 : y ∈ cs := by
        rcases List.mem_cons.1 hy with e | e
        · exact absurd e.symm hcy
        · exact e
      have hname : (leer h c).nombre ≠ (leer h y).nombre := by
        intro e
        exact hnd.1 (List.mem_map.2 ⟨y, hy2, e.symm⟩)
      simp [buscar_en, str_igual_some, hname, ih hnd.2 hy2]

theorem Bien.buscar_hijo_padre {h : Mem} (hb : Bien h) (y p : Nat) (hy : y < h.length)
    (hp : (leer h y).padre = some p) :
    buscar_hijo h (some p) (some (leer h y).nombre) = some y := by
  obtain ⟨a1, a2, a3⟩ := hb.padre_ok y p hy hp
  rw [buscar_hijo_dir h p _ a3]
  exact buscar_en_unico h _ y (hb.nombres p a1) a2

theorem resolver_bucle_barra (h : Mem) (f cur : Nat) (r : Cadena) :
    resolver_bucle h (f + 1) cur ('/' :: r) = resolver_bucle h (f + 1) cur r := by
  simp [resolver_bucle, saltar_barras]

theorem saltar_barras_no_barra (c : Char) (r : Cadena) (hc : c ≠ '/') :
    saltar_barras (c :: r) = c :: r := by
  simp [saltar_barras, hc]

theorem unir_nombres_cons (h : Mem) (y : Nat) (rest : List Nat) :
    ∃ d, unir_nombres h (y :: rest) = (leer h y).nombre ++ d ∧
      (d = [] ∨ ∃ d1, d = '/' :: d1) ∧
      (rest = [] → d = []) ∧ (rest ≠ [] → d = '/' :: unir_nombres h rest) := by
  cases rest with
  | nil => exact ⟨[], by simp [unir_nombres], Or.inl rfl, fun _ => rfl, fun hh => absurd rfl hh⟩
  | cons z zs =>
    exact ⟨'/' :: unir_nombres h (z :: zs), by simp [unir_nombres], Or.inr ⟨_, rfl⟩,
      fun hh => absurd hh (List.cons_ne_nil _ _), fun _ => rfl⟩

/-- Walking the joined names of a downward path resolves to the end of the path. -/
theorem resolver_bucle_camino (h : Mem) (hb : Bien h) :
    ∀ (arr : List Nat) (cur f : Nat), EsCamino h cur arr →
      (∀ y ∈ arr, y < h.length ∧ y ≠ 0 ∧ NombreResoluble (leer h y).nombre) →
      (unir_nombres h arr).length < f →
      resolver_bucle h f cur (unir_nombres h arr) =
        (some ((cur :: arr).getLast (List.cons_ne_nil _ _)), []) := by
  intro arr
  induction arr with
  | nil =>
    intro cur f _ _ hf
    cases f with
    | zero => omega
    | succ f => simp [unir_nombres, resolver_bucle, saltar_barras]
  | cons y rest ih =>
    intro cur f hcam hnom hf
    obtain ⟨hpy, hcam2⟩ := hcam
    obtain ⟨hyl, hy0, hres⟩ := hnom y (List.mem_cons_self _ _)
    have hval := (nombre_valido_some _).1 (hb.validos y hyl hy0)
    obtain ⟨d, hd, hdform, hd1, hd2⟩ := unir_nombres_cons h y rest
    rw [hd] at hf ⊢
    cases f with
    | zero => omega
    | succ f =>
      obtain ⟨c, t, hct⟩ := List.exists_cons_of_ne_nil hval.1
      have hcne : c ≠ '/' := by
        intro e
        apply hval.2
        rw [hct, e]; exact List.mem_cons_self _ _
      have hq : leer_token 255 ((leer h y).nombre ++ d) = ((leer h y).nombre, d) :=
        leer_token_partido 255 _ d hval.2 hdform hres.2.2
      unfold resolver_bucle
      have hsb : saltar_barras ((leer h y).nombre ++ d) = c :: (t ++ d) := by
        rw [hct]; exact saltar_barras_no_barra c _ hcne
      rw [hsb]
      simp only
      have hcd : c :: (t ++ d) = (leer h y).nombre ++ d := by rw [hct]; rfl
      rw [hcd, hq]
      simp only [str_igual_some]
      have e0 : ¬ ((leer h y).nombre.length = 0) := by
        rw [hct]; simp
      have e1 : decide ((leer h y).nombre = ['.']) = false := by simp [hres.1]
      have e2 : decide ((leer h y).nombre = ['.', '.']) = false := by simp [hres.2.1]
      have hdir := (hb.padre_ok y cur hyl hpy).2.2
      simp only [e0, e1, e2, if_false, Bool.false_eq_true, hdir, ne_eq, not_true_eq_false,
        hb.buscar_hijo_padre y cur hyl hpy]
      have hlen : d.length ≤ f := by
        simp only [List.length_append] at hf
        have : 0 < (leer h y).nombre.length := by rw [hct]; simp
        omega
      cases rest with
      | nil =>
        rw [hd1 rfl]
        cases f with
        | zero => simp [resolver_bucle]
        | succ f => simp [resolver_bucle, saltar_barras]
      | cons z zs =>
        have hdz := hd2 (by simp)
        rw [hdz] at hlen ⊢
        cases f with
        | zero => simp at hlen
        | succ f =>
          rw [resolver_bucle_barra]
          rw [ih y (f + 1) hcam2 (fun w hw => hnom w (List.mem_cons_of_mem _ hw))
            (by simp at hlen; omega)]
          simp [List.getLast_cons]

theorem cadena_hasta_raiz_camino (h : Mem) (r : Nat) (hr : (leer h r).padre = none) :
    ∀ (k f n : Nat) (arr : List Nat), subir h k n = some r → k < f →
      cadena_hasta_raiz h f n arr = some (camino h k n ++ arr) := by
  intro k
  induction k with
  | zero =>
    intro f n arr hk hf
    simp only [subir, Option.some.injEq] at hk
    subst hk
    cases f with
    | zero => omega
    | succ f => simp [cadena_hasta_raiz, hr, camino]
  | succ k ih =>
    intro f n arr hk hf
    cases f with
    | zero => omega
    | succ f =>
      cases hp : (leer h n).padre with
      | none => rw [subir_succ_none h k n hp] at hk; cases hk
      | some p =>
        rw [subir_succ h k n p hp] at hk
        simp only [cadena_hasta_raiz, hp, camino]
        rw [ih f p (n :: arr) hk (by omega)]
        simp

theorem esCamino_append (h : Mem) (n : Nat) :
    ∀ (xs : List Nat) (cur : Nat), EsCamino h cur xs →
      (leer h n).padre = some ((cur :: xs).getLast (List.cons_ne_nil _ _)) →
      EsCamino h cur (xs ++ [n]) := by
  intro xs
  induction xs with
  | nil => intro cur _ hp; exact ⟨by simpa using hp, trivial⟩
  | cons y ys ih =>
    intro cur hc hp
    refine ⟨hc.1, ih y hc.2 ?_⟩
    rw [List.getLast_cons (List.cons_ne_nil _ _)] at hp
    exact hp

theorem camino_esCamino (h : Mem) (r : Nat) :
    ∀ (k n : Nat), subir h k n = some r →
      EsCamino h r (camino h k n) ∧
      (r :: camino h k n).getLast (List.cons_ne_nil _ _) = n := by
  intro k
  induction k with
  | zero =>
    intro n hk
    simp only [subir, Option.some.injEq] at hk
    subst hk
    exact ⟨trivial, rfl⟩
  | succ k ih =>
    intro n hk
    cases hp : (leer h n).padre with
    | none => rw [subir_succ_none h k n hp] at hk; cases hk
    | some p =>
      rw [subir_succ h k n p hp] at hk
      obtain ⟨h1, h2⟩ := ih p hk
      simp only [camino, hp]
      refine ⟨esCamino_append h n _ r h1 (by rw [h2]; exact hp), ?_⟩
      rw [List.getLast_cons (by simp)]
      simp

theorem camino_mem (h : Mem) :
    ∀ (k n y : Nat), y ∈ camino h k n →
      Desciende h y n ∧ (leer h y).padre ≠ none := by
  intro k
  induction k with
  | zero => intro n y hy; simp [camino] at hy
  | succ k ih =>
    intro n y hy
    cases hp : (leer h n).padre with
    | none => simp [camino, hp] at hy
    | some p =>
      simp only [camino, hp, List.mem_append, List.mem_singleton] at hy
      rcases hy with hy | rfl
      · obtain ⟨a, b⟩ := ih p y hy
        exact ⟨desciende_padre h y n p hp a, b⟩
      · exact ⟨desciende_refl _ _, by rw [hp]; simp⟩

theorem Bien.desciende_lt {h : Mem} (hb : Bien h) (a n : Nat) (hn : n < h.length)
    (hd : Desciende h a n) : a < h.length := by
  obtain ⟨k, hk⟩ := hd
  exact hb.subir_dentro k n a hn hk

/-- The absolute path of a node of a well-formed tree, through its chain of ancestors. -/
theorem construir_ruta_camino (h : Mem) (hb : Bien h) (n : Nat) (hn : n < h.length) :
    ∃ k, subir h k n = some 0 ∧
      construir_ruta_absoluta h (some n) = some ('/' :: unir_nombres h (camino h k n)) := by
  obtain ⟨k0, hk0⟩ := hb.a_raiz n hn
  obtain ⟨k, hkl, hk⟩ := subir_corto h 0 n k0 hk0
  refine ⟨k, hk, ?_⟩
  unfold construir_ruta_absoluta
  simp only
  rw [cadena_hasta_raiz_camino h 0 hb.raiz_padre k _ n [] hk (by omega)]
  simp only [List.append_nil]
  cases hc : camino h k n with
  | nil => simp [unir_nombres]
  | cons a arr => rfl

/-- C2 (counterexample): the tree `mkdir ..` is built by a successful create, node 1 hangs
from the root and has absolute path `/..`, and resolving that path from the root returns the
root (node 0), not node 1. -/
theorem C2_contraejemplo :
    Construible arbolPP ∧ Desciende arbolPP 0 1 ∧
    construir_ruta_absoluta arbolPP (some 1) = some "/..".toList ∧
    resolver_ruta arbolPP (some 0) (some 0) (some "/..".toList) = (some 0, []) :=
  ⟨Construible.mkdir memInicial 0 (some "..".toList) 1 Construible.inicial (by decide)
      (by decide),
    ⟨1, by decide⟩, by decide, by decide⟩

/-- In a well-formed tree the absolute path of a node with resolvable names resolves back to
the node. -/
theorem resolver_de_ruta_absoluta (h : Mem) (hb : Bien h) (n : Nat) (hn : n < h.length)
    (hnom : ∀ a, a ≠ 0 → Desciende h a n → NombreResoluble (leer h a).nombre) :
    ∃ p, construir_ruta_absoluta h (some n) = some p ∧
      resolver_ruta h (some 0) (some 0) (some p) = (some n, []) := by
  obtain ⟨k, hk, hp⟩ := construir_ruta_camino h hb n hn
  refine ⟨_, hp, ?_⟩
  obtain ⟨hcam, hlast⟩ := camino_esCamino h 0 k n hk
  simp only [resolver_ruta, resolver_inicio, if_true]
  rw [resolver_bucle_camino h hb (camino h k n) 0 _ hcam ?_ (by omega), hlast]
  intro y hy
  obtain ⟨hd, hpy⟩ := camino_mem h k n y hy
  have hy0 : y ≠ 0 := by
    rintro rfl
    exact hpy hb.raiz_padre
  exact ⟨hb.desciende_lt y n hn hd, hy0, hnom y hy0 hd⟩

/-- C2 (amended): in a tree built by successful creates and moves (new names absent or
valid), for every node `n` such that `n` and its ancestors below the root are not named `.`
or `..` and have names of at most 255 characters, `construir_ruta_absoluta` returns a path
and `resolver_ruta` from the root resolves that path to `n` itself without error. -/
theorem C2_resolver_inverso (h : Mem) (hc : Construible h) (n : Nat) (hn : n < h.length)
    (hnom : ∀ a, a ≠ 0 → Desciende h a n → NombreResoluble (leer h a).nombre) :
    ∃ p, construir_ruta_absoluta h (some n) = some p ∧
      resolver_ruta h (some 0) (some 0) (some p) = (some n, []) :=
  resolver_de_ruta_absoluta h (construible_bien h hc) n hn hnom

/-- C2 (witness): the directory `a` of the tree `mkdir a`. -/
theorem C2_resolver_inverso_testigo :
    ∃ p, construir_ruta_absoluta arbolA (some 1) = some p ∧
      resolver_ruta arbolA (some 0) (some 0) (some p) = (some 1, []) :=
  C2_resolver_inverso arbolA
    (Construible.mkdir memInicial 0 (some "a".toList) 1 Construible.inicial (by decide)
      (by decide))
    1 (by decide)
    (by
      intro a ha hd
      have hl : a < arbolA.length :=
        (construible_bien arbolA (Construible.mkdir memInicial 0 (some "a".toList) 1
          Construible.inicial (by decide) (by decide))).desciende_lt a 1 (by decide) hd
      have h2 : arbolA.length = 2 := by decide
      have : a = 1 := by omega
      subst this
      decide)

theorem leer_token_append (n : Nat) (r : Cadena) :
    (leer_token n r).1 ++ (leer_token n r).2 = r := by
  induction r generalizing n with
  | nil => cases n <;> simp [leer_token]
  | cons c r ih =>
    cases n with
    | zero => simp [leer_token]
    | succ n =>
      by_cases hc : c = '/'
      · simp [leer_token, hc]
      · simp [leer_token, hc, ih n]

theorem leer_token_resto_lt (n : Nat) (c : Char) (r : Cadena) (hc : c ≠ '/') :
    (leer_token (n + 1) (c :: r)).2.length < (c :: r).length := by
  have h1 := leer_token_append n r
  have h2 := congrArg List.length h1
  simp only [leer_token, hc, if_false, List.length_cons]
  simp only [List.length_append] at h2
  omega

/-- The result of the resolver loop does not depend on the fuel once it exceeds the length
of the text. -/
theorem resolver_bucle_combustible (h : Mem) :
    ∀ (f1 f2 cur : Nat) (r : Cadena), r.length < f1 → r.length < f2 →
      resolver_bucle h f1 cur r = resolver_bucle h f2 cur r := by
  intro f1
  induction f1 with
  | zero => intro f2 cur r h1; omega
  | succ f1 ih =>
    intro f2 cur r h1 h2
    cases f2 with
    | zero => omega
    | succ f2 =>
      unfold resolver_bucle
      cases hsb : saltar_barras r with
      | nil => rfl
      | cons c r1 =>
        have hc := saltar_barras_cabeza r c r1 hsb
        have hl : (leer_token 255 (c :: r1)).2.length < (c :: r1).length :=
          leer_token_resto_lt 254 c r1 hc
        have hl2 := saltar_barras_length r
        rw [hsb] at hl2
        have e := fun cur1 => ih f2 cur1 (leer_token 255 (c :: r1)).2 (by omega) (by omega)
        simp only [e]

/-- One ordinary segment: the loop checks that the current node is a directory, looks the
segment up among its children and goes on from the child. -/
theorem resolver_bucle_paso (h : Mem) (cur f : Nat) (s d : Cadena)
    (hs : s ≠ []) (hsl : '/' ∉ s) (hres : NombreResoluble s)
    (hd : d = [] ∨ ∃ d1, d = '/' :: d1) (hf : (s ++ d).length < f) :
    resolver_bucle h f cur (s ++ d) =
      if (leer h cur).tipo ≠ TipoNodo.NODO_DIR then
        (none, "Error: ruta atraviesa archivo\n".toList)
      else
        match buscar_hijo h (some cur) (some s) with
        | none => (none, "Error: elemento no encontrado: ".toList ++ s ++ ['\n'])
        | some nxt => resolver_bucle h f nxt d := by
  cases f with
  | zero => omega
  | succ f =>
    obtain ⟨c, t, hct⟩ := List.exists_cons_of_ne_nil hs
    have hcne : c ≠ '/' := by
      intro e
      apply hsl
      rw [hct, e]; exact List.mem_cons_self _ _
    have hq : leer_token 255 (s ++ d) = (s, d) := leer_token_partido 255 _ d hsl hd hres.2.2
    have hsb : saltar_barras (s ++ d) = c :: (t ++ d) := by
      rw [hct]; exact saltar_barras_no_barra c _ hcne
    have hcd : c :: (t ++ d) = s ++ d := by rw [hct]; rfl
    have e0 : ¬ (s.length = 0) := by rw [hct]; simp
    have e1 : decide (s = ['.']) = false := by simp [hres.1]
    have e2 : decide (s = ['.', '.']) = false := by simp [hres.2.1]
    have hfd : d.length < f := by
      simp only [List.length_append] at hf
      have : 0 < s.length := by rw [hct]; simp
      omega
    conv => lhs; unfold resolver_bucle
    rw [hsb]
    simp only
    rw [hcd, hq]
    simp only [str_igual_some, e0, e1, e2, if_false, Bool.false_eq_true]
    by_cases hdir : (leer h cur).tipo = TipoNodo.NODO_DIR
    · simp only [hdir, ne_eq, not_true_eq_false, if_false]
      cases buscar_hijo h (some cur) (some s) with
      | none => rfl
      | some nxt =>
        simp only
        exact resolver_bucle_combustible h f (f + 1) nxt d hfd (by omega)
    · simp [hdir]

theorem resolver_bucle_fin (h : Mem) (cur f : Nat) (hf : 0 < f) :
    resolver_bucle h f cur [] = (some cur, []) := by
  cases f with
  | zero => omega
  | succ f => simp [resolver_bucle, saltar_barras]

theorem unir_nombres_append (h : Mem) (xs : List Nat) (n : Nat) (hx : xs ≠ []) :
    unir_nombres h (xs ++ [n]) = unir_nombres h xs ++ '/' :: (leer h n).nombre := by
  induction xs with
  | nil => exact absurd rfl hx
  | cons y ys ih =>
    cases ys with
    | nil => simp [unir_nombres]
    | cons z zs =>
      have := ih (by simp)
      show (leer h y).nombre ++ '/' :: unir_nombres h (z :: zs ++ [n]) = _
      rw [this]; simp [unir_nombres]

/-- Walking the joined names of a downward path and then a rest that starts at a segment
boundary continues with the rest from the end of the path. -/
theorem resolver_bucle_camino_resto (h : Mem) (hb : Bien h) (d : Cadena)
    (hd : d = [] ∨ ∃ d1, d = '/' :: d1) :
    ∀ (arr : List Nat) (cur f : Nat), arr ≠ [] → EsCamino h cur arr →
      (∀ y ∈ arr, y < h.length ∧ y ≠ 0 ∧ NombreResoluble (leer h y).nombre) →
      (unir_nombres h arr ++ d).length < f →
      resolver_bucle h f cur (unir_nombres h arr ++ d) =
        resolver_bucle h f ((cur :: arr).getLast (List.cons_ne_nil _ _)) d := by
  intro arr
  induction arr with
  | nil => intro cur f hne; exact absurd rfl hne
  | cons y rest ih =>
    intro cur f _ hcam hnom hf
    obtain ⟨hpy, hcam2⟩ := hcam
    obtain ⟨hyl, hy0, hres⟩ := hnom y (List.mem_cons_self _ _)
    have hval := (nombre_valido_some _).1 (hb.validos y hyl hy0)
    have hdir := (hb.padre_ok y cur hyl hpy).2.2
    have hbus := hb.buscar_hijo_padre y cur hyl hpy
    cases rest with
    | nil =>
      simp only [unir_nombres] at hf ⊢
      rw [resolver_bucle_paso h cur f _ d hval.1 hval.2 hres hd hf]
      simp [hdir, hbus]
    | cons z zs =>
      have e : unir_nombres h (y :: z :: zs) ++ d =
          (leer h y).nombre ++ ('/' :: (unir_nombres h (z :: zs) ++ d)) := by
        simp [unir_nombres]
      rw [e] at hf ⊢
      rw [resolver_bucle_paso h cur f _ _ hval.1 hval.2 hres (Or.inr ⟨_, rfl⟩) hf]
      simp only [hdir, ne_eq, not_true_eq_false, if_false, hbus]
      cases f with
      | zero => omega
      | succ f =>
        rw [resolver_bucle_barra]
        rw [ih y (f + 1) (by simp) hcam2 (fun w hw => hnom w (List.mem_cons_of_mem _ hw))
          (by simp at hf ⊢; omega)]
        simp [List.getLast_cons]

theorem Bien.sin_ciclo {h : Mem} (hb : Bien h) (n p : Nat) (hn : n < h.length)
    (hp : (leer h n).padre = some p) : ¬ Desciende h n p := by
  rintro ⟨j, hj⟩
  obtain ⟨k, hk⟩ := hb.a_raiz n hn
  have h1 : subir h (j + 1) n = some n := by rw [subir_succ h j n p hp]; exact hj
  have h2 : subir h (j + 1 + k) n = some 0 := by rw [subir_add, h1]; exact hk
  have h3 : subir h (k + (j + 1)) n = none := by
    rw [subir_add, hk]
    simp only [Option.some_bind]
    exact subir_succ_none h j 0 hb.raiz_padre
  rw [Nat.add_comm] at h2
  rw [h2] at h3
  cases h3

theorem esCamino_congr (h h1 : Mem) :
    ∀ (arr : List Nat) (cur : Nat), (∀ y ∈ arr, (leer h1 y).padre = (leer h y).padre) →
      EsCamino h cur arr → EsCamino h1 cur arr := by
  intro arr
  induction arr with
  | nil => intro _ _ _; trivial
  | cons y rest ih =>
    intro cur hp hc
    exact ⟨by rw [hp y (List.mem_cons_self _ _)]; exact hc.1,
      ih y (fun w hw => hp w (List.mem_cons_of_mem _ hw)) hc.2⟩

theorem unir_nombres_congr (h h1 : Mem) :
    ∀ (arr : List Nat), (∀ y ∈ arr, (leer h1 y).nombre = (leer h y).nombre) →
      unir_nombres h1 arr = unir_nombres h arr := by
  intro arr
  induction arr with
  | nil => intro _; rfl
  | cons y rest ih =>
    intro hn
    cases rest with
    | nil => simp [unir_nombres, hn y (List.mem_cons_self _ _)]
    | cons z zs =>
      have := ih (fun w hw => hn w (List.mem_cons_of_mem _ hw))
      simp only [unir_nombres] at this ⊢
      rw [hn y (List.mem_cons_self _ _), this]

/-- A bound on every allocated name gives the hypothesis on the names along a path. -/
theorem resoluble_de_todos (h : Mem) (hb : Bien h)
    (hall : ∀ a, a < h.length → a = 0 ∨ NombreResoluble (leer h a).nombre)
    (n : Nat) (hn : n < h.length) :
    ∀ a, a ≠ 0 → Desciende h a n → NombreResoluble (leer h a).nombre := by
  intro a ha hd
  rcases hall a (hb.desciende_lt a n hn hd) with e | e
  · exact absurd e ha
  · exact e

/-- C7 (counterexample): after `mkdir ..; mkdir b`, moving the directory `..` (node 1) into
`b` (node 2) succeeds, but resolving its new absolute path `/b/..` returns the root, and
resolving its old absolute path `/..` does not fail. -/
theorem C7_contraejemplo :
    Bien arbolPPB ∧
    construir_ruta_absoluta arbolPPB (some 1) = some "/..".toList ∧
    ∃ r, mover_nodo arbolPPB (some 1) (some 2) none = some r ∧ r.val = true ∧
      construir_ruta_absoluta r.mem (some 1) = some "/b/..".toList ∧
      resolver_ruta r.mem (some 0) (some 0) (some "/b/..".toList) = (some 0, []) ∧
      resolver_ruta r.mem (some 0) (some 0) (some "/..".toList) = (some 0, []) := by
  refine ⟨?_, by decide, ?_⟩
  · apply construible_bien
    exact Construible.mkdir arbolPP 0 (some "b".toList) 2
      (Construible.mkdir memInicial 0 (some "..".toList) 1 Construible.inicial (by decide)
        (by decide)) (by decide) (by decide)
  · exact ⟨_, rfl, by decide, by decide, by decide, by decide⟩

/-- C7 (amended): when `mover_nodo(item, newParent, nullptr)` returns true in a well-formed
tree, `item` had a parent `op` different from `newParent`; afterwards `item` has parent
`newParent` and is its first child before the former children, `op` has lost `item` and
keeps its other children in order, and no other node changes. If the names of `item` and of
its new ancestors are resolvable, the new absolute path resolves to `item`; if the names of
`item` and of its old ancestors are resolvable, the old absolute path fails with "elemento
no encontrado". -/
theorem C7_efecto_mover (h : Mem) (hb : Bien h) (item np : Nat) (hit : item < h.length)
    (hnp : np < h.length) (r : Res Bool)
    (hm : mover_nodo h (some item) (some np) none = some r) (hv : r.val = true) :
    ∃ op, (leer h item).padre = some op ∧ op ≠ np ∧ r.mem.length = h.length ∧
      leer r.mem item = { leer h item with padre := some np } ∧
      leer r.mem np = { leer h np with hijos := item :: (leer h np).hijos } ∧
      leer r.mem op = { leer h op with hijos := (leer h op).hijos.erase item } ∧
      item ∉ (leer r.mem op).hijos ∧
      (∀ q, q ≠ item → q ≠ np → q ≠ op → leer r.mem q = leer h q) ∧
      ((∀ a, a ≠ 0 → Desciende r.mem a item → NombreResoluble (leer r.mem a).nombre) →
        ∃ p, construir_ruta_absoluta r.mem (some item) = some p ∧
          resolver_ruta r.mem (some 0) (some 0) (some p) = (some item, [])) ∧
      ((∀ a, a ≠ 0 → Desciende h a item → NombreResoluble (leer h a).nombre) →
        ∃ p, construir_ruta_absoluta h (some item) = some p ∧
          resolver_ruta r.mem (some 0) (some 0) (some p) =
            (none, "Error: elemento no encontrado: ".toList ++ (leer h item).nombre ++ ['\n']))
    := by
  obtain ⟨op, hop, hopl, hopne, hne, hne0, hdir, hav, hval, hno, _, hlen, hleer⟩ :=
    mover_exito h hb item np hit hnp none (Or.inl rfl) r hm hv
  simp only [Option.getD_none] at hval hno hleer
  have hb1 : Bien r.mem := bien_mover h hb item np hit hnp none (Or.inl rfl) r hm hv
  obtain ⟨_, hitop, hopdir⟩ := hb.padre_ok item op hit hop
  have hopnp : op ≠ np := by
    rintro rfl
    exact hno item hitop rfl
  have hc := fun q => leer_movido_campos h item np op (leer h item).nombre hne hopne q
  have hnpi : ¬ (np = item) := fun e => hne e.symm
  have hnpo : ¬ (np = op) := fun e => hopnp e.symm
  have e_it : leer r.mem item = { leer h item with padre := some np } := by
    rw [hleer]; simp [leer_movido, hne]
  have e_np : leer r.mem np = { leer h np with hijos := item :: (leer h np).hijos } := by
    rw [hleer]; simp [leer_movido, hopnp]
  have e_op : leer r.mem op = { leer h op with hijos := (leer h op).hijos.erase item } := by
    rw [hleer]; simp [leer_movido, hopnp, hopne]
  have e_ot : ∀ q, q ≠ item → q ≠ np → q ≠ op → leer r.mem q = leer h q := by
    intro q h1 h2 h3
    rw [hleer]; simp [leer_movido, h1, h2, h3]
  have hpad : ∀ q, q ≠ item → (leer r.mem q).padre = (leer h q).padre := by
    intro q hq; rw [hleer, (hc q).2.2.2.1]; simp [hq]
  have hnomb : ∀ q, (leer r.mem q).nombre = (leer h q).nombre := by
    intro q; rw [hleer, (hc q).2.2.1]
    by_cases hq : q = item
    · simp [hq]
    · simp [hq]
  have hnd := hb.hijos_nodup op hopl
  refine ⟨op, hop, hopnp, hlen, e_it, e_np, e_op, ?_, e_ot, ?_, ?_⟩
  · rw [e_op]; exact List.Nodup.not_mem_erase hnd
  · intro hnom
    exact resolver_de_ruta_absoluta r.mem hb1 item (by rw [hlen]; exact hit) hnom
  · intro hnom
    obtain ⟨k, hk, hp⟩ := construir_ruta_camino h hb item hit
    refine ⟨_, hp, ?_⟩
    cases k with
    | zero => simp only [subir, Option.some.injEq] at hk; exact absurd hk hne0
    | succ k =>
      rw [subir_succ h k item op hop] at hk
      obtain ⟨hcam, hlast⟩ := camino_esCamino h 0 k op hk
      have hxs : ∀ y ∈ camino h k op, y ≠ item ∧ y < h.length ∧ y ≠ 0 ∧
          NombreResoluble (leer h y).nombre := by
        intro y hy
        obtain ⟨hd, hpy⟩ := camino_mem h k op y hy
        have hy0 : y ≠ 0 := by
          rintro rfl
          exact hpy hb.raiz_padre
        refine ⟨?_, hb.desciende_lt y op hopl hd, hy0,
          hnom y hy0 (desciende_padre h y item op hop hd)⟩
        rintro rfl
        exact hb.sin_ciclo y op hit hop hd
      have hcam1 : EsCamino r.mem 0 (camino h k op) :=
        esCamino_congr h r.mem _ 0 (fun y hy => hpad y (hxs y hy).1) hcam
      have hun : unir_nombres r.mem (camino h k op) = unir_nombres h (camino h k op) :=
        unir_nombres_congr h r.mem _ (fun y _ => hnomb y)
      have hvalit := (nombre_valido_some _).1 hval
      have hresit : NombreResoluble (leer h item).nombre :=
        hnom item hne0 (desciende_refl _ _)
      have hbus : buscar_hijo r.mem (some op) (some (leer h item).nombre) = none := by
        have hd1 : (leer r.mem op).tipo = TipoNodo.NODO_DIR := by rw [e_op]; exact hopdir
        rw [buscar_hijo_dir _ _ _ hd1, e_op]
        apply (buscar_en_none_iff _ _ _).2
        intro c hcm
        rw [hnomb]
        have hc1 : c ∈ (leer h op).hijos := List.mem_of_mem_erase hcm
        intro e
        have := List.inj_on_of_nodup_map (hb.nombres op hopl) hc1 hitop e
        rw [this] at hcm
        exact List.Nodup.not_mem_erase hnd hcm
      have hdir1 : (leer r.mem op).tipo = TipoNodo.NODO_DIR := by rw [e_op]; exact hopdir
      have hfinal : ∀ f, (leer h item).nombre.length < f →
          resolver_bucle r.mem f op (leer h item).nombre =
            (none, "Error: elemento no encontrado: ".toList ++ (leer h item).nombre ++ ['\n'])
          := by
        intro f hf
        have := resolver_bucle_paso r.mem op f (leer h item).nombre [] hvalit.1 hvalit.2
          hresit (Or.inl rfl) (by simpa using hf)
        simp only [List.append_nil] at this
        rw [this]
        simp [hdir1, hbus]
      simp only [camino, hop, resolver_ruta, resolver_inicio, if_true]
      cases hxe : camino h k op with
      | nil =>
        rw [hxe] at hlast
        simp only [List.getLast_singleton] at hlast
        subst hlast
        simp only [List.nil_append, unir_nombres]
        exact hfinal _ (by omega)
      | cons x xs =>
        rw [← hxe, unir_nombres_append h _ item (by rw [hxe]; simp), ← hun]
        rw [resolver_bucle_camino_resto r.mem hb1 _ (Or.inr ⟨_, rfl⟩) (camino h k op) 0 _
          (by rw [hxe]; simp) hcam1
          (fun y hy => ⟨by rw [hlen]; exact (hxs y hy).2.1, (hxs y hy).2.2.1,
            by rw [hnomb]; exact (hxs y hy).2.2.2⟩) (by omega)]
        rw [hlast]
        rw [resolver_bucle_barra]
        exact hfinal _ (by simp; omega)

theorem bien_arbolAB : Bien arbolAB :=
  construible_bien _ (Construible.mkdir arbolA 0 (some "b".toList) 2
    (Construible.mkdir memInicial 0 (some "a".toList) 1 Construible.inicial (by decide)
      (by decide)) (by decide) (by decide))

/-- C7 (witness): `mkdir a; mkdir b; mv a b`: `/b/a` resolves to the moved node and `/a` is
not found. -/
theorem C7_efecto_mover_testigo :
    Bien arbolAB ∧
    ∃ r, mover_nodo arbolAB (some 1) (some 2) none = some r ∧ r.val = true ∧
      (leer r.mem 1).padre = some 2 ∧ (leer r.mem 2).hijos = [1] ∧ (leer r.mem 0).hijos = [2] ∧
      (∃ p, construir_ruta_absoluta r.mem (some 1) = some p ∧
        resolver_ruta r.mem (some 0) (some 0) (some p) = (some 1, [])) ∧
      (∃ p, construir_ruta_absoluta arbolAB (some 1) = some p ∧
        resolver_ruta r.mem (some 0) (some 0) (some p) =
          (none, "Error: elemento no encontrado: ".toList ++ (leer arbolAB 1).nombre ++
            ['\n'])) := by
  refine ⟨bien_arbolAB, _, rfl, by decide, by decide, by decide, by decide, ?_⟩
  obtain ⟨op, _, _, _, _, _, _, _, _, h1, h2⟩ :=
    C7_efecto_mover arbolAB bien_arbolAB 1 2 (by decide) (by decide) _ rfl (by decide)
  refine ⟨h1 ?_, h2 ?_⟩
  · exact resoluble_de_todos _
      (bien_mover arbolAB bien_arbolAB 1 2 (by decide) (by decide) none (Or.inl rfl) _ rfl
        (by decide)) (by decide) 1 (by decide)
  · exact resoluble_de_todos _ bien_arbolAB (by decide) 1 (by decide)

theorem Bien.sin_vuelta {h : Mem} (hb : Bien h) (a : Nat) (ha : a < h.length) (j : Nat) :
    subir h (j + 1) a ≠ some a := by
  intro h1
  obtain ⟨k, hk⟩ := hb.a_raiz a ha
  have h2 : subir h (j + 1 + k) a = some 0 := by rw [subir_add, h1]; exact hk
  have h3 : subir h (k + (j + 1)) a = none := by
    rw [subir_add, hk]
    simp only [Option.some_bind]
    exact subir_succ_none h j 0 hb.raiz_padre
  rw [Nat.add_comm] at h2
  rw [h2] at h3
  cases h3

/-- The number of steps from a node up to a given ancestor is unique. -/
theorem Bien.subir_unico {h : Mem} (hb : Bien h) (x a : Nat) (hx : x < h.length) (k k1 : Nat)
    (h1 : subir h k x = some a) (h2 : subir h k1 x = some a) : k = k1 := by
  have ha : a < h.length := hb.subir_dentro k x a hx h1
  have key : ∀ i j, subir h i x = some a → subir h j x = some a → ¬ i < j := by
    intro i j hi hj hlt
    obtain ⟨m, rfl⟩ : ∃ m, j = i + (m + 1) := ⟨j - i - 1, by omega⟩
    rw [subir_add, hi] at hj
    exact hb.sin_vuelta a ha m hj
  have a1 := key k k1 h1 h2
  have a2 := key k1 k h2 h1
  omega

theorem camino_no_vacio (h : Mem) (k n p : Nat) (hp : (leer h n).padre = some p) :
    camino h (k + 1) n ≠ [] := by
  simp [camino, hp]

/-- The absolute path of a child is the prefix of its parent, a slash and its name. -/
theorem construir_hijo (h : Mem) (hb : Bien h) (c p : Nat) (hc : c < h.length)
    (hp : (leer h c).padre = some p) :
    construir_ruta_absoluta h (some c) = some (prefijo h p ++ '/' :: (leer h c).nombre) := by
  obtain ⟨k, hk, hcon⟩ := construir_ruta_camino h hb c hc
  have hpl := (hb.padre_ok c p hc hp).1
  cases k with
  | zero =>
    simp only [subir, Option.some.injEq] at hk
    subst hk
    rw [hb.raiz_padre] at hp; cases hp
  | succ k =>
    rw [subir_succ h k c p hp] at hk
    obtain ⟨kp, hkp, hconp⟩ := construir_ruta_camino h hb p hpl
    have hkk : kp = k := hb.subir_unico p 0 hpl kp k hkp hk
    subst hkk
    rw [hcon]
    simp only [camino, hp]
    by_cases hp0 : p = 0
    · subst hp0
      have : kp = 0 := hb.subir_unico 0 0 hpl kp 0 hkp rfl
      subst this
      simp [camino, unir_nombres, prefijo]
    · cases kp with
      | zero =>
        simp only [subir, Option.some.injEq] at hkp
        exact absurd hkp hp0
      | succ kp =>
        obtain ⟨pp, hpp⟩ := hb.con_padre p hpl hp0
        have hne := camino_no_vacio h kp p pp hpp
        rw [unir_nombres_append h _ c hne]
        simp [prefijo, hp0, hconp]

theorem prefijo_hijo (h : Mem) (hb : Bien h) (c p : Nat) (hc : c < h.length)
    (hp : (leer h c).padre = some p) :
    prefijo h c = prefijo h p ++ '/' :: (leer h c).nombre := by
  have hc0 : c ≠ 0 := by
    rintro rfl
    rw [hb.raiz_padre] at hp; cases hp
  rw [prefijo, if_neg hc0, construir_hijo h hb c p hc hp]
  rfl

theorem registro_eq (h : Mem) (n : Nat) (p : Cadena) :
    registro h n p = registro_de (leer h n).tipo p (leer h n).lineas := rfl

/-- The stack loop, started with the siblings of a forest pushed on the stack, emits the
text of the forest and goes on with the rest of the stack. -/
theorem serializar_bucle_bosque (h : Mem) (hb : Bien h) :
    ∀ (b : Bosque) (p : Nat) (st : List Nat) (out : Cadena) (f : Nat),
      Representa h p b →
      serializar_bucle h 0 (b.tam + f) (apilar b.cimas st) out =
        serializar_bucle h 0 f st (out ++ serializar_bosque (prefijo h p) b) := by
  intro b
  induction b with
  | vacio =>
    intro p st out f _
    simp [Bosque.tam, Bosque.cimas, apilar, serializar_bosque]
  | nodo id t nm ls hj hm ihj ihm =>
    intro p st out f hr
    obtain ⟨hid, hleer, hrj, hrm⟩ := hr
    have hpad : (leer h id).padre = some p := by rw [hleer]
    have hid0 : id ≠ 0 := by
      rintro rfl
      rw [hb.raiz_padre] at hpad; cases hpad
    have hcon := construir_hijo h hb id p hid hpad
    have hpre := prefijo_hijo h hb id p hid hpad
    have hnm : (leer h id).nombre = nm := by rw [hleer]
    rw [hnm] at hcon hpre
    have e1 : (Bosque.nodo id t nm ls hj hm).tam + f = hm.tam + ((hj.tam + f) + 1) := by
      simp [Bosque.tam]; omega
    rw [e1]
    simp only [Bosque.cimas, apilar]
    rw [ihm p (id :: st) out _ hrm]
    simp only [serializar_bucle, ne_eq, hid0, not_false_eq_true, if_true, hcon]
    have hh : (leer h id).hijos = hj.cimas := by rw [hleer]
    rw [hh, ihj id st _ f hrj, hpre, registro_eq, hleer]
    simp [serializar_bosque, List.append_assoc]

/-- The serializer on a well-formed tree represented by `b` returns and emits the text of
`b`. -/
theorem serializar_arbol_bosque (h : Mem) (hb : Bien h) (b : Bosque)
    (hr : Representa h 0 b) (hc : (leer h 0).hijos = b.cimas) (ht : b.tam ≤ h.length) :
    serializar_arbol h (some 0) = some (true, serializar_bosque [] b) := by
  simp only [serializar_arbol, serializar_bucle, ne_eq, not_true_eq_false, if_false]
  rw [hc]
  obtain ⟨f, hf⟩ : ∃ f, h.length = b.tam + f := ⟨h.length - b.tam, by omega⟩
  rw [hf, serializar_bucle_bosque h hb b 0 [] [] f hr]
  have : prefijo h 0 = [] := by simp [prefijo]
  cases f <;> simp [serializar_bucle, this]

theorem Bien.prof_le {h : Mem} (hb : Bien h) (n d : Nat) (hn : n < h.length)
    (hd : subir h d n = some 0) : d ≤ h.length := by
  obtain ⟨k1, hk1, hs⟩ := subir_corto h 0 n d hd
  rw [hb.subir_unico n 0 hn d k1 hd hs]
  exact hk1

theorem cimas_hermanos_de (h : Mem) (abajo : List Nat → Bosque) (l : List Nat) :
    (hermanos_de h abajo l).cimas = l := by
  induction l with
  | nil => rfl
  | cons c cs ih => simp [hermanos_de, Bosque.cimas, ih]

/-- The forest read off a well-formed memory with enough depth represents it. -/
theorem representa_arbol_de (h : Mem) (hb : Bien h) :
    ∀ (f : Nat) (l : List Nat) (p d : Nat),
      (∀ c ∈ l, c < h.length ∧ (leer h c).padre = some p ∧ subir h d c = some 0) →
      h.length < f + d →
      Representa h p (arbol_de h f l) ∧ (arbol_de h f l).cimas = l := by
  intro f
  induction f with
  | zero =>
    intro l p d hl hf
    cases l with
    | nil => exact ⟨trivial, rfl⟩
    | cons c cs =>
      obtain ⟨hc, _, hd⟩ := hl c (List.mem_cons_self _ _)
      have := hb.prof_le c d hc hd
      omega
  | succ f ih =>
    intro l p d hl hf
    refine ⟨?_, cimas_hermanos_de h _ l⟩
    show Representa h p (hermanos_de h (arbol_de h f) l)
    induction l with
    | nil => trivial
    | cons c cs ihl =>
      obtain ⟨hc, hp, hd⟩ := hl c (List.mem_cons_self _ _)
      have hkids : ∀ x ∈ (leer h c).hijos,
          x < h.length ∧ (leer h x).padre = some c ∧ subir h (d + 1) x = some 0 := by
        intro x hx
        obtain ⟨a1, a2⟩ := hb.hijo_ok c x hc hx
        exact ⟨a1, a2, by rw [subir_succ h d x c a2]; exact hd⟩
      obtain ⟨r1, r2⟩ := ih (leer h c).hijos c (d + 1) hkids (by omega)
      refine ⟨hc, ?_, r1, ihl (fun x hx => hl x (List.mem_cons_of_mem _ hx))⟩
      rw [r2, ← hp]

theorem representa_cimas (h : Mem) :
    ∀ (b : Bosque) (p : Nat), Representa h p b →
      ∀ c ∈ b.cimas, c < h.length ∧ (leer h c).padre = some p := by
  intro b
  induction b with
  | vacio => intro p _ c hc; simp [Bosque.cimas] at hc
  | nodo id t nm ls hj hm _ ihm =>
    intro p hr c hc
    obtain ⟨hid, hleer, _, hrm⟩ := hr
    simp only [Bosque.cimas, List.mem_cons] at hc
    rcases hc with rfl | hc
    · exact ⟨hid, by rw [hleer]⟩
    · exact ihm p hrm c hc

theorem cimas_sub_ids (b : Bosque) : ∀ c ∈ b.cimas, c ∈ b.ids := by
  induction b with
  | vacio => intro c hc; simp [Bosque.cimas] at hc
  | nodo id t nm ls hj hm _ ihm =>
    intro c hc
    simp only [Bosque.cimas, List.mem_cons] at hc
    simp only [Bosque.ids, List.mem_cons, List.mem_append]
    rcases hc with rfl | hc
    · exact Or.inl rfl
    · exact Or.inr (Or.inr (ihm c hc))

theorem representa_ids (h : Mem) :
    ∀ (b : Bosque) (p : Nat), Representa h p b →
      ∀ x ∈ b.ids, x < h.length ∧ ∃ c ∈ b.cimas, ∃ k, subir h k x = some c := by
  intro b
  induction b with
  | vacio => intro p _ x hx; simp [Bosque.ids] at hx
  | nodo id t nm ls hj hm ihj ihm =>
    intro p hr x hx
    obtain ⟨hid, hleer, hrj, hrm⟩ := hr
    simp only [Bosque.ids, List.mem_cons, List.mem_append] at hx
    rcases hx with rfl | hx | hx
    · exact ⟨hid, x, by simp [Bosque.cimas], 0, rfl⟩
    · obtain ⟨a1, c, hc, k, hk⟩ := ihj id hrj x hx
      have hcp := (representa_cimas h hj id hrj c hc).2
      refine ⟨a1, id, by simp [Bosque.cimas], k + 1, ?_⟩
      rw [subir_add, hk]
      simp [subir, hcp]
    · obtain ⟨a1, c, hc, k, hk⟩ := ihm p hrm x hx
      exact ⟨a1, c, by simp [Bosque.cimas, hc], k, hk⟩

/-- In a well-formed memory the pointers of a represented forest are pairwise distinct. -/
theorem representa_nodup (h : Mem) (hb : Bien h) :
    ∀ (b : Bosque) (p : Nat), Representa h p b → b.cimas.Nodup → b.ids.Nodup := by
  intro b
  induction b with
  | vacio => intro _ _ _; simp [Bosque.ids]
  | nodo id t nm ls hj hm ihj ihm =>
    intro p hr hnd
    obtain ⟨hid, hleer, hrj, hrm⟩ := hr
    simp only [Bosque.cimas, List.nodup_cons] at hnd
    have hpad : (leer h id).padre = some p := by rw [hleer]
    have hhj : (leer h id).hijos = hj.cimas := by rw [hleer]
    have n1 : hj.ids.Nodup := ihj id hrj (by rw [← hhj]; exact hb.hijos_nodup id hid)
    have n2 : hm.ids.Nodup := ihm p hrm hnd.2
    -- every node of `hj` climbs to `id` in at least one step
    have up_j : ∀ x ∈ hj.ids, x < h.length ∧ ∃ k, subir h (k + 1) x = some id := by
      intro x hx
      obtain ⟨a1, c, hc, k, hk⟩ := representa_ids h hj id hrj x hx
      have hcp := (representa_cimas h hj id hrj c hc).2
      refine ⟨a1, k, ?_⟩
      rw [subir_add, hk]
      simp [subir, hcp]
    have up_m : ∀ x ∈ hm.ids, x < h.length ∧ ∃ c ∈ hm.cimas, ∃ k, subir h k x = some c ∧
        subir h (k + 1) x = some p := by
      intro x hx
      obtain ⟨a1, c, hc, k, hk⟩ := representa_ids h hm p hrm x hx
      have hcp := (representa_cimas h hm p hrm c hc).2
      refine ⟨a1, c, hc, k, hk, ?_⟩
      rw [subir_add, hk]
      simp [subir, hcp]
    have hidp : subir h 1 id = some p := by simp [subir, hpad]
    simp only [Bosque.ids, List.nodup_cons, List.mem_append, not_or, List.nodup_append]
    refine ⟨⟨?_, ?_⟩, n1, n2, ?_⟩
    · intro hx
      obtain ⟨_, k, hk⟩ := up_j id hx
      exact hb.sin_vuelta id hid k hk
    · intro hx
      obtain ⟨_, c, hc, k, hk, hk1⟩ := up_m id hx
      have := hb.subir_unico id p hid (k + 1) 1 hk1 hidp
      have hk0 : k = 0 := by omega
      subst hk0
      simp only [subir, Option.some.injEq] at hk
      subst hk
      exact hnd.1 hc
    · intro x hxj hxm
      obtain ⟨a1, k1, hk1⟩ := up_j x hxj
      obtain ⟨_, c, hc, k2, hk2, hk2p⟩ := up_m x hxm
      have hk1p : subir h (k1 + 1 + 1) x = some p := by
        rw [subir_add, hk1]; exact hidp
      have := hb.subir_unico x p a1 (k1 + 1 + 1) (k2 + 1) hk1p hk2p
      have hkk : k2 = k1 + 1 := by omega
      subst hkk
      rw [hk1] at hk2
      simp only [Option.some.injEq] at hk2
      subst hk2
      exact hnd.1 hc

theorem representa_hijos (h : Mem) :
    ∀ (b : Bosque) (p : Nat), Representa h p b →
      ∀ x ∈ b.ids, ∀ c ∈ (leer h x).hijos, c ∈ b.ids := by
  intro b
  induction b with
  | vacio => intro p _ x hx; simp [Bosque.ids] at hx
  | nodo id t nm ls hj hm ihj ihm =>
    intro p hr x hx c hc
    obtain ⟨hid, hleer, hrj, hrm⟩ := hr
    simp only [Bosque.ids, List.mem_cons, List.mem_append] at hx ⊢
    rcases hx with rfl | hx | hx
    · rw [hleer] at hc
      exact Or.inr (Or.inl (cimas_sub_ids hj c hc))
    · exact Or.inr (Or.inl (ihj id hrj x hx c hc))
    · exact Or.inr (Or.inr (ihm p hrm x hx c hc))

/-- A forest that represents the children of the root contains every other node. -/
theorem representa_cubre (h : Mem) (hb : Bien h) (b : Bosque) (hr : Representa h 0 b)
    (hc : (leer h 0).hijos = b.cimas) :
    ∀ (k n : Nat), n < h.length → n ≠ 0 → subir h k n = some 0 → n ∈ b.ids := by
  intro k
  induction k with
  | zero =>
    intro n _ hn0 hk
    simp only [subir, Option.some.injEq] at hk
    exact absurd hk hn0
  | succ k ih =>
    intro n hn hn0 hk
    cases hp : (leer h n).padre with
    | none => rw [subir_succ_none h k n hp] at hk; cases hk
    | some p =>
      rw [subir_succ h k n p hp] at hk
      obtain ⟨a1, a2, _⟩ := hb.padre_ok n p hn hp
      by_cases hp0 : p = 0
      · subst hp0
        rw [hc] at a2
        exact cimas_sub_ids b n a2
      · exact representa_hijos h b 0 hr p (ih p a1 hp0 hk) n a2

theorem tam_eq_length_ids (b : Bosque) : b.tam = b.ids.length := by
  induction b with
  | vacio => rfl
  | nodo id t nm ls hj hm ihj ihm =>
    simp [Bosque.tam, Bosque.ids, ihj, ihm]; omega

/-- Every well-formed memory is represented by a forest that lists each non-root node
exactly once. -/
theorem existe_bosque (h : Mem) (hb : Bien h) :
    ∃ b, Representa h 0 b ∧ (leer h 0).hijos = b.cimas ∧ b.tam ≤ h.length ∧
      b.ids.Nodup ∧ (∀ n, n < h.length → n ≠ 0 → n ∈ b.ids) ∧
      (∀ n ∈ b.ids, n < h.length ∧ n ≠ 0) := by
  have hkids : ∀ c ∈ (leer h 0).hijos,
      c < h.length ∧ (leer h c).padre = some 0 ∧ subir h 1 c = some 0 := by
    intro c hc
    obtain ⟨a1, a2⟩ := hb.hijo_ok 0 c hb.raiz_len hc
    exact ⟨a1, a2, by simp [subir, a2]⟩
  obtain ⟨r1, r2⟩ := representa_arbol_de h hb (h.length + 1) (leer h 0).hijos 0 1 hkids
    (by omega)
  have hnd : (arbol_de h (h.length + 1) (leer h 0).hijos).ids.Nodup :=
    representa_nodup h hb _ 0 r1 (by rw [r2]; exact hb.hijos_nodup 0 hb.raiz_len)
  have hin : ∀ n ∈ (arbol_de h (h.length + 1) (leer h 0).hijos).ids, n < h.length ∧ n ≠ 0 := by
    intro n hn
    obtain ⟨a1, c, hc, k, hk⟩ := representa_ids h _ 0 r1 n hn
    refine ⟨a1, ?_⟩
    rintro rfl
    cases k with
    | zero =>
      simp only [subir, Option.some.injEq] at hk
      subst hk
      have := (representa_cimas h _ 0 r1 0 hc).2
      rw [hb.raiz_padre] at this; cases this
    | succ k => rw [subir_succ_none h k 0 hb.raiz_padre] at hk; cases hk
  refine ⟨_, r1, r2.symm, ?_, hnd, ?_, hin⟩
  · rw [tam_eq_length_ids]
    have hsub : (arbol_de h (h.length + 1) (leer h 0).hijos).ids ⊆ List.range h.length := by
      intro n hn
      exact List.mem_range.2 (hin n hn).1
    have := (List.subperm_of_subset hnd hsub).length_le
    simpa using this
  · intro n hn hn0
    obtain ⟨k, hk⟩ := hb.a_raiz n hn
    exact representa_cubre h hb _ r1 r2.symm k n hn hn0 hk

theorem extraer_linea (l rest : Cadena) (hl : '\n' ∉ l) :
    ∀ cap, l.length ≤ cap → extraer cap (l ++ '\n' :: rest) = (l, rest, false) := by
  induction l with
  | nil => intro cap _; cases cap <;> simp [extraer]
  | cons c l ih =>
    intro cap hcap
    simp only [List.mem_cons, not_or] at hl
    have hc : ¬ (c = '\n') := fun e => hl.1 e.symm
    cases cap with
    | zero => simp at hcap
    | succ cap =>
      have hi := ih hl.2 cap (by simpa using hcap)
      show extraer (cap + 1) (c :: (l ++ '\n' :: rest)) = (c :: l, rest, false)
      simp only [extraer, hc, if_false, hi]

theorem c_str_limpio (l : Cadena) (hl : ∀ c ∈ l, c ≠ NUL) : c_str l = l := by
  unfold c_str
  apply List.takeWhile_eq_self_iff.2
  intro c hc
  simpa [NUL] using hl c hc

theorem getline_linea (l rest : Cadena) (hn : '\n' ∉ l) (h0 : ∀ c ∈ l, c ≠ NUL)
    (hlen : l.length ≤ 1023) :
    getline ⟨l ++ '\n' :: rest, false⟩ 1024 = (some l, ⟨rest, false⟩) := by
  unfold getline
  have he := extraer_linea l rest hn 1023 hlen
  cases hl : l ++ '\n' :: rest with
  | nil => simp at hl
  | cons c r =>
    simp only [Bool.false_eq_true, if_false]
    rw [← hl, he]
    simp [c_str_limpio l h0]

theorem leer_linea_alloc_linea (l rest : Cadena) (hl : LineaOK l) :
    leer_linea_alloc ⟨l ++ '\n' :: rest, false⟩ 1024 = (some l, ⟨rest, false⟩) := by
  obtain ⟨h1, h2, h3⟩ := hl
  unfold leer_linea_alloc
  rw [getline_linea l rest (fun hm => (h2 _ hm).1 rfl) (fun c hc => (h2 c hc).2) (by omega)]
  simp [h3]

/-- Memory after appending the lines `ls` to node `f`. -/
theorem leer_lineas_volcado (f : Nat) (resto : Cadena) :
    ∀ (ls : List Cadena) (h : Mem), (∀ l ∈ ls, LineaOK l) → f < h.length →
      ∃ h1, leer_lineas ls.length h f ⟨volcar_lineas ls ++ resto, false⟩ = (h1, ⟨resto, false⟩) ∧
        h1.length = h.length ∧
        leer h1 f = { leer h f with lineas := (leer h f).lineas ++ ls } ∧
        (∀ q, q ≠ f → leer h1 q = leer h q) := by
  intro ls
  induction ls with
  | nil =>
    intro h _ _
    exact ⟨h, by simp [leer_lineas, volcar_lineas], rfl, by simp, fun _ _ => rfl⟩
  | cons l ls ih =>
    intro h hok hf
    have hl := hok l (List.mem_cons_self _ _)
    have hf1 : f < (anexar_linea h f l).length := by rw [length_anexar]; exact hf
    obtain ⟨h1, e1, e2, e3, e4⟩ := ih (anexar_linea h f l)
      (fun x hx => hok x (List.mem_cons_of_mem _ hx)) hf1
    refine ⟨h1, ?_, by rw [e2, length_anexar], ?_, ?_⟩
    · simp only [List.length_cons, leer_lineas, volcar_lineas, List.cons_append,
        List.append_assoc]
      rw [leer_linea_alloc_linea l _ hl]
      simpa using e1
    · rw [e3]
      have := leer_anexar h f l f
      have hx : leer (anexar_linea h f l) f =
          { leer h f with lineas := (leer h f).lineas ++ [l] } := by
        unfold anexar_linea
        rw [leer_set_eq _ _ _ hf]
      rw [hx]; simp
    · intro q hq
      rw [e4 q hq]
      unfold anexar_linea
      exact leer_set_ne _ _ _ _ (fun e => hq e.symm)

theorem leer_ruta_limpia (p r : Cadena) (hp : ' ' ∉ p) (hr : r = [] ∨ ∃ r1, r = ' ' :: r1) :
    ∀ n, p.length ≤ n → leer_ruta n (p ++ r) = (p, r) := by
  induction p with
  | nil =>
    intro n _
    rcases hr with rfl | ⟨r1, rfl⟩
    · cases n <;> simp [leer_ruta]
    · cases n <;> simp [leer_ruta]
  | cons c p ih =>
    intro n hn
    simp only [List.mem_cons, not_or] at hp
    have hc : ¬ (c = ' ') := fun e => hp.1 e.symm
    cases n with
    | zero => simp at hn
    | succ n =>
      have hi := ih hp.2 n (by simpa using hn)
      show leer_ruta (n + 1) (c :: (p ++ r)) = (c :: p, r)
      simp only [leer_ruta, hc, if_false, hi]

theorem buscar_ultima_barra_eq (pre nm : Cadena) (hnm : '/' ∉ nm) :
    ∀ k, k ≤ nm.length →
      buscar_ultima_barra (pre ++ '/' :: nm) (pre.length + 1 + k) = some pre.length := by
  intro k
  induction k with
  | zero =>
    intro _
    have : (pre ++ '/' :: nm).getD pre.length ' ' = '/' := by
      rw [List.getD_eq_getElem?_getD, List.getElem?_append_right (Nat.le_refl _)]
      simp
    show buscar_ultima_barra (pre ++ '/' :: nm) (pre.length + 1) = _
    simp only [buscar_ultima_barra, this, if_true]
  | succ k ih =>
    intro hk
    have hne : (pre ++ '/' :: nm).getD (pre.length + 1 + k) ' ' ≠ '/' := by
      have hlt : k < nm.length := by omega
      have : (pre ++ '/' :: nm).getD (pre.length + 1 + k) ' ' = nm[k] := by
        rw [List.getD_eq_getElem?_getD]
        have e : pre ++ '/' :: nm = (pre ++ ['/']) ++ nm := by simp
        rw [e, List.getElem?_append_right (by simp)]
        simp [hlt]
      rw [this]
      intro e
      exact hnm (e ▸ List.getElem_mem _)
    show buscar_ultima_barra (pre ++ '/' :: nm) ((pre.length + 1 + k) + 1) = _
    simp only [buscar_ultima_barra, hne, if_false]
    exact ih (by omega)

theorem digitChar_digito (m : Nat) (hm : m < 10) :
    '0'.toNat ≤ (Nat.digitChar m).toNat ∧ (Nat.digitChar m).toNat ≤ '9'.toNat ∧
    (Nat.digitChar m).toNat - '0'.toNat = m := by
  interval_cases m <;> decide

/-- The decimal digits produced for `n`: they read back as `n`, are at most as many as the
decimal size of `n`, and are all digit characters. -/
theorem toDigitsCore_spec :
    ∀ (f n : Nat), 0 < f → n < 10 ^ f →
      ∃ dg : Cadena, (∀ ds, Nat.toDigitsCore 10 f n ds = dg ++ ds) ∧
        (∀ k, 0 < k → n < 10 ^ k → dg.length ≤ k) ∧
        (∀ c ∈ dg, '0'.toNat ≤ c.toNat ∧ c.toNat ≤ '9'.toNat) ∧
        (∀ acc rest, leer_numero acc (dg ++ rest) =
          leer_numero (acc * 10 ^ dg.length + n) rest) := by
  intro f
  induction f with
  | zero => intro n hf; omega
  | succ f ih =>
    intro n _ hn
    have hd := digitChar_digito (n % 10) (Nat.mod_lt _ (by omega))
    by_cases h0 : n / 10 = 0
    · have hn10 : n < 10 := by omega
      have hmod : n % 10 = n := Nat.mod_eq_of_lt hn10
      refine ⟨[Nat.digitChar (n % 10)], ?_, ?_, ?_, ?_⟩
      · intro ds; simp [Nat.toDigitsCore, h0]
      · intro k hk _; simpa using hk
      · intro c hc
        simp only [List.mem_singleton] at hc
        subst hc; exact ⟨hd.1, hd.2.1⟩
      · intro acc rest
        show leer_numero acc (Nat.digitChar (n % 10) :: rest) = _
        simp only [leer_numero, hd.1, hd.2.1, and_self, if_true, hd.2.2,
          List.length_singleton, pow_one]
        rw [hmod]
    · have hf : 0 < f := by
        rcases Nat.eq_zero_or_pos f with e | e
        · subst e; simp at hn; omega
        · exact e
      have hn' : n / 10 < 10 ^ f := by
        rw [Nat.div_lt_iff_lt_mul (by omega)]
        rw [pow_succ] at hn; exact hn
      obtain ⟨dg, e1, e2, e3, e4⟩ := ih (n / 10) hf hn'
      refine ⟨dg ++ [Nat.digitChar (n % 10)], ?_, ?_, ?_, ?_⟩
      · intro ds; simp [Nat.toDigitsCore, h0, e1]
      · intro k hk hnk
        have hk1 : 0 < k - 1 := by
          rcases Nat.lt_or_ge 1 k with e | e
          · omega
          · have : k = 1 := by omega
            subst this
            simp at hnk; omega
        have : n / 10 < 10 ^ (k - 1) := by
          rw [Nat.div_lt_iff_lt_mul (by omega)]
          have : k = (k - 1) + 1 := by omega
          rw [this, pow_succ] at hnk; exact hnk
        have := e2 (k - 1) hk1 this
        simp only [List.length_append, List.length_singleton]
        omega
      · intro c hc
        simp only [List.mem_append, List.mem_singleton] at hc
        rcases hc with hc | rfl
        · exact e3 c hc
        · exact ⟨hd.1, hd.2.1⟩
      · intro acc rest
        rw [List.append_assoc, e4]
        show leer_numero _ (Nat.digitChar (n % 10) :: rest) = _
        simp only [leer_numero, hd.1, hd.2.1, and_self, if_true,
          hd.2.2, List.length_append, List.length_singleton, pow_succ]
        congr 1
        have := Nat.div_add_mod n 10
        nlinarith [this]

theorem decimal_spec (n : Nat) :
    leer_numero 0 (decimal n) = n ∧
    (∀ k, 0 < k → n < 10 ^ k → (decimal n).length ≤ k) ∧
    (∀ c ∈ decimal n, '0'.toNat ≤ c.toNat ∧ c.toNat ≤ '9'.toNat) := by
  have hlt : n < 10 ^ (n + 1) :=
    Nat.lt_of_lt_of_le (Nat.lt_pow_self (by omega) n) (Nat.pow_le_pow_right (by omega) (by omega))
  obtain ⟨dg, e1, e2, e3, e4⟩ := toDigitsCore_spec (n + 1) n (by omega) hlt
  have hd : decimal n = dg := by
    unfold decimal Nat.toDigits
    rw [e1]; simp
  rw [hd]
  refine ⟨?_, e2, e3⟩
  have := e4 0 []
  simpa [leer_numero] using this

theorem decimal_limpio (n : Nat) : TextoLimpio (decimal n) := by
  intro c hc
  obtain ⟨h1, h2⟩ := (decimal_spec n).2.2 c hc
  refine ⟨?_, ?_, ?_⟩
  · rintro rfl; revert h1; decide
  · rintro rfl; revert h1; decide
  · rintro rfl; revert h1; decide

theorem decimal_corto (n : Nat) (hn : n < 2 ^ 31) : (decimal n).length ≤ 10 :=
  (decimal_spec n).2.1 10 (by omega) (by
    have : (2 : Nat) ^ 31 < 10 ^ 10 := by norm_num
    omega)

theorem decimal_no_vacio_cabeza (n : Nat) (r : Cadena) :
    saltar_espacios (' ' :: (decimal n ++ r)) = decimal n ++ r ∨ decimal n = [] := by
  cases hd : decimal n with
  | nil => right; rfl
  | cons c t =>
    left
    have hc := (decimal_limpio n) c (by rw [hd]; exact List.mem_cons_self _ _)
    simp [saltar_espacios, hc.1]

theorem asegurar_bucle_combustible :
    ∀ (f1 f2 : Nat) (h : Mem) (cur : Nat) (r : Cadena), r.length < f1 → r.length < f2 →
      asegurar_bucle f1 h cur r = asegurar_bucle f2 h cur r := by
  intro f1
  induction f1 with
  | zero => intro f2 h cur r h1; omega
  | succ f1 ih =>
    intro f2 h cur r h1 h2
    cases f2 with
    | zero => omega
    | succ f2 =>
      unfold asegurar_bucle
      cases hsb : saltar_barras r with
      | nil => rfl
      | cons c r1 =>
        have hc := saltar_barras_cabeza r c r1 hsb
        have hl : (leer_token 255 (c :: r1)).2.length < (c :: r1).length :=
          leer_token_resto_lt 254 c r1 hc
        have hl2 := saltar_barras_length r
        rw [hsb] at hl2
        have e := fun h1 cur1 =>
          ih f2 h1 cur1 (leer_token 255 (c :: r1)).2 (by omega) (by omega)
        simp only [e]

theorem asegurar_bucle_fin (h : Mem) (cur f : Nat) : asegurar_bucle f h cur [] = (h, cur) := by
  cases f <;> simp [asegurar_bucle, saltar_barras]

theorem asegurar_bucle_barra (h : Mem) (f cur : Nat) (r : Cadena) :
    asegurar_bucle (f + 1) h cur ('/' :: r) = asegurar_bucle (f + 1) h cur r := by
  simp [asegurar_bucle, saltar_barras]

/-- One segment of `asegurar_directorio_absoluto`: go to the child of that name, creating it
as a directory in front of the other children when there is none. -/
theorem asegurar_bucle_paso (h : Mem) (cur f : Nat) (s d : Cadena)
    (hs : s ≠ []) (hsl : '/' ∉ s) (hlen : s.length ≤ 255)
    (hd : d = [] ∨ ∃ d1, d = '/' :: d1) (hf : (s ++ d).length < f) :
    asegurar_bucle f h cur (s ++ d) =
      match buscar_hijo h (some cur) (some s) with
      | some nxt => asegurar_bucle f h nxt d
      | none => asegurar_bucle f (insertar h TipoNodo.NODO_DIR s cur) h.length d := by
  cases f with
  | zero => omega
  | succ f =>
    obtain ⟨c, t, hct⟩ := List.exists_cons_of_ne_nil hs
    have hcne : c ≠ '/' := by
      intro e
      apply hsl
      rw [hct, e]; exact List.mem_cons_self _ _
    have hq : leer_token 255 (s ++ d) = (s, d) := leer_token_partido 255 _ d hsl hd hlen
    have hsb : saltar_barras (s ++ d) = c :: (t ++ d) := by
      rw [hct]; exact saltar_barras_no_barra c _ hcne
    have hcd : c :: (t ++ d) = s ++ d := by rw [hct]; rfl
    have e0 : ¬ (s.length = 0) := by rw [hct]; simp
    have hfd : d.length < f := by
      simp only [List.length_append] at hf
      have : 0 < s.length := by rw [hct]; simp
      omega
    conv => lhs; unfold asegurar_bucle
    rw [hsb]
    simp only
    rw [hcd, hq]
    simp only [e0, if_false]
    cases buscar_hijo h (some cur) (some s) with
    | none =>
      simp only
      exact asegurar_bucle_combustible f (f + 1) _ _ d hfd (by omega)
    | some nxt =>
      simp only
      exact asegurar_bucle_combustible f (f + 1) _ nxt d hfd (by omega)

/-- Walking an existing downward path creates nothing and continues from its end. -/
theorem asegurar_bucle_camino_resto (h : Mem) (hb : Bien h) (d : Cadena)
    (hd : d = [] ∨ ∃ d1, d = '/' :: d1) :
    ∀ (arr : List Nat) (cur f : Nat), arr ≠ [] → EsCamino h cur arr →
      (∀ y ∈ arr, y < h.length ∧ y ≠ 0 ∧ (leer h y).nombre.length ≤ 255) →
      (unir_nombres h arr ++ d).length < f →
      asegurar_bucle f h cur (unir_nombres h arr ++ d) =
        asegurar_bucle f h ((cur :: arr).getLast (List.cons_ne_nil _ _)) d := by
  intro arr
  induction arr with
  | nil => intro cur f hne; exact absurd rfl hne
  | cons y rest ih =>
    intro cur f _ hcam hnom hf
    obtain ⟨hpy, hcam2⟩ := hcam
    obtain ⟨hyl, hy0, hres⟩ := hnom y (List.mem_cons_self _ _)
    have hval := (nombre_valido_some _).1 (hb.validos y hyl hy0)
    have hbus := hb.buscar_hijo_padre y cur hyl hpy
    cases rest with
    | nil =>
      simp only [unir_nombres] at hf ⊢
      rw [asegurar_bucle_paso h cur f _ d hval.1 hval.2 hres hd hf]
      simp [hbus]
    | cons z zs =>
      have e : unir_nombres h (y :: z :: zs) ++ d =
          (leer h y).nombre ++ ('/' :: (unir_nombres h (z :: zs) ++ d)) := by
        simp [unir_nombres]
      rw [e] at hf ⊢
      rw [asegurar_bucle_paso h cur f _ _ hval.1 hval.2 hres (Or.inr ⟨_, rfl⟩) hf]
      simp only [hbus]
      cases f with
      | zero => omega
      | succ f =>
        rw [asegurar_bucle_barra]
        rw [ih y (f + 1) (by simp) hcam2 (fun w hw => hnom w (List.mem_cons_of_mem _ hw))
          (by simp at hf ⊢; omega)]
        simp [List.getLast_cons]

theorem extraer_resto_le : ∀ (r : Cadena) (cap : Nat), (extraer cap r).2.1.length ≤ r.length := by
  intro r
  induction r with
  | nil => intro cap; simp [extraer]
  | cons c r ih =>
    intro cap
    by_cases hc : c = '\n'
    · subst hc; cases cap <;> simp [extraer]
    · cases cap with
      | zero => simp [extraer, hc]
      | succ k =>
        have := ih k
        simp only [extraer, hc, if_false, List.length_cons]
        omega

theorem extraer_resto_lt (c : Char) (r : Cadena) (cap : Nat)
    (hok : (extraer cap (c :: r)).2.2 = false) :
    (extraer cap (c :: r)).2.1.length < (c :: r).length := by
  by_cases hc : c = '\n'
  · subst hc; cases cap <;> simp [extraer]
  · cases cap with
    | zero => simp [extraer, hc] at hok
    | succ k =>
      have := extraer_resto_le r k
      simp only [extraer, hc, if_false, List.length_cons]
      omega

theorem getline_resto (s : Flujo) (n : Nat) :
    (getline s n).2.resto.length ≤ s.resto.length ∧
    (∀ x, (getline s n).1 = some x → (getline s n).2.resto.length < s.resto.length) := by
  unfold getline
  by_cases hf : s.falla = true
  · simp [hf]
  · simp only [hf, Bool.false_eq_true, if_false]
    cases hr : s.resto with
    | nil => simp
    | cons c r =>
      simp only
      by_cases hq : (extraer (n - 1) (c :: r)).2.2 = true
      · simp only [hq, if_true]
        refine ⟨extraer_resto_le _ _, ?_⟩
        intro x hx; cases hx
      · simp only [hq, Bool.false_eq_true, if_false]
        have := extraer_resto_lt c r (n - 1) (by simpa using hq)
        exact ⟨Nat.le_of_lt this, fun _ _ => this⟩

theorem leer_linea_alloc_resto (s : Flujo) (n : Nat) :
    (leer_linea_alloc s n).2.resto.length ≤ s.resto.length := by
  have hg := (getline_resto s n).1
  unfold leer_linea_alloc
  cases hq : getline s n with
  | mk a s1 =>
    rw [hq] at hg
    cases a with
    | none => exact hg
    | some buf =>
      simp only
      split <;> exact hg

theorem leer_lineas_resto :
    ∀ (n : Nat) (h : Mem) (f : Nat) (s : Flujo),
      (leer_lineas n h f s).2.resto.length ≤ s.resto.length := by
  intro n
  induction n with
  | zero => intro h f s; simp [leer_lineas]
  | succ n ih =>
    intro h f s
    simp only [leer_lineas]
    exact Nat.le_trans (ih _ _ _) (leer_linea_alloc_resto s 1024)

theorem cargar_archivo_resto (h : Mem) (raiz : Nat) (path r : Cadena) (s : Flujo)
    (a : Mem × Flujo) (ha : cargar_archivo h raiz path r s = some a) :
    a.2.resto.length ≤ s.resto.length := by
  unfold cargar_archivo at ha
  simp only at ha
  split at ha
  · cases ha
  · split at ha
    · simp only [Option.some.injEq] at ha
      rw [← ha]; exact leer_lineas_resto _ _ _ _
    · simp only [Option.some.injEq] at ha
      rw [← ha]; exact leer_lineas_resto _ _ _ _

/-- The result of the loader loop does not depend on the fuel once it exceeds the length of
the unread input. -/
theorem deserializar_bucle_combustible (raiz : Nat) :
    ∀ (f1 f2 : Nat) (h : Mem) (s : Flujo), s.resto.length < f1 → s.resto.length < f2 →
      deserializar_bucle raiz f1 h s = deserializar_bucle raiz f2 h s := by
  intro f1
  induction f1 with
  | zero => intro f2 h s h1; omega
  | succ f1 ih =>
    intro f2 h s h1 h2
    cases f2 with
    | zero => omega
    | succ f2 =>
      unfold deserializar_bucle
      have hg := (getline_resto s 1024).2
      cases hq : getline s 1024 with
      | mk a s1 =>
        rw [hq] at hg
        cases a with
        | none => rfl
        | some line =>
          have hlt : s1.resto.length < s.resto.length := hg line rfl
          have e := fun h1 => ih f2 h1 s1 (by omega) (by omega)
          cases line with
          | nil => exact e h
          | cons type l =>
            simp only
            split
            · exact e h
            · split
              · rfl
              · split
                · rfl
                · split
                  · exact e _
                  · cases hca : cargar_archivo h raiz (leer_ruta 511 l.tail).1
                        (leer_ruta 511 l.tail).2 s1 with
                    | none => rfl
                    | some a =>
                      have := cargar_archivo_resto h raiz _ _ s1 a hca
                      exact ih f2 a.1 a.2 (by omega) (by omega)

theorem prefijo_raiz (h : Mem) : prefijo h 0 = [] := by simp [prefijo]

/-- The prefix of a non-root node of a well-formed tree: a slash and the joined names of the
path from the root. -/
theorem prefijo_camino (h : Mem) (hb : Bien h) (p : Nat) (hp : p < h.length) (hp0 : p ≠ 0) :
    ∃ k, subir h k p = some 0 ∧ camino h k p ≠ [] ∧
      prefijo h p = '/' :: unir_nombres h (camino h k p) := by
  obtain ⟨k, hk, hcon⟩ := construir_ruta_camino h hb p hp
  refine ⟨k, hk, ?_, ?_⟩
  · cases k with
    | zero => simp only [subir, Option.some.injEq] at hk; exact absurd hk hp0
    | succ k =>
      obtain ⟨pp, hpp⟩ := hb.con_padre p hp hp0
      exact camino_no_vacio h k p pp hpp
  · simp [prefijo, hp0, hcon]

theorem camino_datos (h : Mem) (hb : Bien h) (p k : Nat) (hp : p < h.length) :
    ∀ y ∈ camino h k p, y < h.length ∧ y ≠ 0 := by
  intro y hy
  obtain ⟨hd, hpy⟩ := camino_mem h k p y hy
  refine ⟨hb.desciende_lt y p hp hd, ?_⟩
  rintro rfl
  exact hpy hb.raiz_padre

theorem unir_nombres_limpio (h : Mem) :
    ∀ (arr : List Nat), (∀ y ∈ arr, TextoLimpio (leer h y).nombre) →
      TextoLimpio (unir_nombres h arr) := by
  intro arr
  induction arr with
  | nil => intro _ c hc; simp [unir_nombres] at hc
  | cons y rest ih =>
    intro hy
    cases rest with
    | nil => simpa [unir_nombres] using hy y (List.mem_cons_self _ _)
    | cons z zs =>
      intro c hc
      simp only [unir_nombres, List.mem_append, List.mem_cons] at hc
      rcases hc with hc | rfl | hc
      · exact hy y (List.mem_cons_self _ _) c hc
      · exact ⟨by decide, by decide, by decide⟩
      · exact ih (fun w hw => hy w (List.mem_cons_of_mem _ hw)) c
          (by simpa [unir_nombres] using hc)

theorem prefijo_limpio (h : Mem) (hb : Bien h) (hpt : TodoPortable h) (p : Nat)
    (hp : p < h.length) : TextoLimpio (prefijo h p) := by
  by_cases hp0 : p = 0
  · subst hp0; rw [prefijo_raiz]; intro c hc; cases hc
  · obtain ⟨k, _, _, hpre⟩ := prefijo_camino h hb p hp hp0
    rw [hpre]
    intro c hc
    simp only [List.mem_cons] at hc
    rcases hc with rfl | hc
    · exact ⟨by decide, by decide, by decide⟩
    · refine unir_nombres_limpio h _ ?_ c hc
      intro y hy
      obtain ⟨a1, a2⟩ := camino_datos h hb p k hp y hy
      exact (hpt y a1 a2).2.2.2

theorem prefijo_cabeza (h : Mem) (hb : Bien h) (p : Nat) (hp : p < h.length) (nm : Cadena) :
    (prefijo h p ++ '/' :: nm).head? = some '/' := by
  by_cases hp0 : p = 0
  · subst hp0; rw [prefijo_raiz]; rfl
  · obtain ⟨k, _, _, hpre⟩ := prefijo_camino h hb p hp hp0
    rw [hpre]; rfl

/-- The parent path of an `F` record leads to the existing node without creating anything. -/
theorem asegurar_padre (h : Mem) (hb : Bien h) (hpt : TodoPortable h) (p : Nat)
    (hp : p < h.length) :
    asegurar_directorio_absoluto h (some 0)
      (some (if p = 0 then ['/'] else prefijo h p)) = (h, some p) := by
  by_cases hp0 : p = 0
  · subst hp0
    simp [asegurar_directorio_absoluto, asegurar_bucle_fin]
  · obtain ⟨k, hk, hne, hpre⟩ := prefijo_camino h hb p hp hp0
    obtain ⟨hcam, hlast⟩ := camino_esCamino h 0 k p hk
    simp only [hp0, if_false, hpre, asegurar_directorio_absoluto, ne_eq, not_true_eq_false]
    have := asegurar_bucle_camino_resto h hb [] (Or.inl rfl) (camino h k p) 0
      ((unir_nombres h (camino h k p)).length + 1) hne hcam
      (fun y hy => by
        obtain ⟨a1, a2⟩ := camino_datos h hb p k hp y hy
        exact ⟨a1, a2, (hpt y a1 a2).2.1⟩) (by simp)
    simp only [List.append_nil] at this
    rw [this, hlast, asegurar_bucle_fin]

/-- The path of a `D` record for a new name under an existing directory creates exactly that
directory. -/
theorem asegurar_nuevo (h : Mem) (hb : Bien h) (hpt : TodoPortable h) (p : Nat)
    (hp : p < h.length) (hdir : (leer h p).tipo = TipoNodo.NODO_DIR) (nm : Cadena)
    (hnm : Portable nm) (hno : ∀ c ∈ (leer h p).hijos, (leer h c).nombre ≠ nm) :
    asegurar_directorio_absoluto h (some 0) (some (prefijo h p ++ '/' :: nm)) =
      (insertar h TipoNodo.NODO_DIR nm p, some h.length) := by
  have hbus : buscar_hijo h (some p) (some nm) = none := by
    rw [buscar_hijo_dir h p _ hdir]
    exact (buscar_en_none_iff h nm _).2 hno
  have hpaso : ∀ f, nm.length < f → asegurar_bucle f h p nm =
      (insertar h TipoNodo.NODO_DIR nm p, h.length) := by
    intro f hf
    have := asegurar_bucle_paso h p f nm [] hnm.1 hnm.2.2.1 hnm.2.1 (Or.inl rfl)
      (by simpa using hf)
    simp only [List.append_nil] at this
    rw [this, hbus]
    simp [asegurar_bucle_fin]
  by_cases hp0 : p = 0
  · subst hp0
    rw [prefijo_raiz]
    simp only [List.nil_append, asegurar_directorio_absoluto, ne_eq, not_true_eq_false,
      if_false]
    rw [hpaso _ (by omega)]
  · obtain ⟨k, hk, hne, hpre⟩ := prefijo_camino h hb p hp hp0
    obtain ⟨hcam, hlast⟩ := camino_esCamino h 0 k p hk
    simp only [hpre, List.cons_append, asegurar_directorio_absoluto, ne_eq,
      not_true_eq_false, if_false]
    rw [asegurar_bucle_camino_resto h hb ('/' :: nm) (Or.inr ⟨_, rfl⟩) (camino h k p) 0 _ hne
      hcam (fun y hy => by
        obtain ⟨a1, a2⟩ := camino_datos h hb p k hp y hy
        exact ⟨a1, a2, (hpt y a1 a2).2.1⟩) (by omega)]
    rw [hlast, asegurar_bucle_barra, hpaso _ (by simp; omega)]

theorem deserializar_arbol_fin (h : Mem) : 
    deserializar_arbol h (some 0) ⟨[], false⟩ = ⟨h, true, []⟩ := by
  simp [deserializar_arbol, deserializar_bucle, getline]

/-- Loading a `D` record: the path is ensured and the loader goes on with the next line. -/
theorem cargar_registro_dir (h : Mem) (path resto : Cadena) (hl : TextoLimpio path)
    (hlen : path.length ≤ 511) (hcab : path.head? = some '/') :
    deserializar_arbol h (some 0) ⟨'D' :: ' ' :: path ++ '\n' :: resto, false⟩ =
      deserializar_arbol (asegurar_directorio_absoluto h (some 0) (some path)).1 (some 0)
        ⟨resto, false⟩ := by
  have hg : getline ⟨('D' :: ' ' :: path) ++ '\n' :: resto, false⟩ 1024 =
      (some ('D' :: ' ' :: path), ⟨resto, false⟩) := by
    apply getline_linea
    · simp only [List.mem_cons, not_or]
      exact ⟨by decide, by decide, fun hm => (hl _ hm).2.1 rfl⟩
    · intro c hc
      simp only [List.mem_cons] at hc
      rcases hc with rfl | rfl | hc
      · decide
      · decide
      · exact (hl c hc).2.2
    · simp only [List.length_cons]; omega
  have hr : leer_ruta 511 path = (path, []) := by
    have := leer_ruta_limpia path [] (fun hm => (hl _ hm).1 rfl) (Or.inl rfl) 511 hlen
    simpa using this
  simp only [deserializar_arbol]
  conv => lhs; unfold deserializar_bucle
  simp only [List.cons_append] at hg
  simp only [List.cons_append, List.length_cons, hg]
  have hD : ¬ ¬ ('D' = 'D' ∨ 'D' = 'F') := by decide
  simp only [hD, if_false, List.head?_cons, ne_eq, not_true_eq_false, List.tail_cons, hr, hcab,
    if_true]
  apply deserializar_bucle_combustible
  · simp; omega
  · simp

/-- Loading the header of an `F` record hands the rest of the stream to `cargar_archivo`. -/
theorem cargar_registro_archivo (h : Mem) (path resto : Cadena) (n : Nat)
    (hl : TextoLimpio path) (hlen : path.length ≤ 511) (hcab : path.head? = some '/')
    (hn : n < 2 ^ 31) (a : Mem × Flujo)
    (ha : cargar_archivo h 0 path (' ' :: decimal n) ⟨resto, false⟩ = some a) :
    deserializar_arbol h (some 0)
        ⟨'F' :: ' ' :: path ++ ' ' :: decimal n ++ '\n' :: resto, false⟩ =
      deserializar_arbol a.1 (some 0) a.2 := by
  have hdl := decimal_limpio n
  have hg : getline ⟨('F' :: ' ' :: path ++ ' ' :: decimal n) ++ '\n' :: resto, false⟩ 1024 =
      (some ('F' :: ' ' :: path ++ ' ' :: decimal n), ⟨resto, false⟩) := by
    apply getline_linea
    · simp only [List.cons_append, List.mem_cons, List.mem_append, not_or]
      exact ⟨by decide, by decide, fun hm => (hl _ hm).2.1 rfl, by decide,
        fun hm => (hdl _ hm).2.1 rfl⟩
    · intro c hc
      simp only [List.cons_append, List.mem_cons, List.mem_append] at hc
      rcases hc with rfl | rfl | hc | rfl | hc
      · decide
      · decide
      · exact (hl c hc).2.2
      · decide
      · exact (hdl c hc).2.2
    · have := decimal_corto n hn
      simp only [List.cons_append, List.length_cons, List.length_append]; omega
  have hr : leer_ruta 511 (path ++ ' ' :: decimal n) = (path, ' ' :: decimal n) :=
    leer_ruta_limpia path _ (fun hm => (hl _ hm).1 rfl) (Or.inr ⟨_, rfl⟩) 511 hlen
  have hres := cargar_archivo_resto h 0 _ _ _ a ha
  simp only [deserializar_arbol]
  conv => lhs; unfold deserializar_bucle
  simp only [List.cons_append, List.append_assoc] at hg
  simp only [List.cons_append, List.append_assoc, List.length_cons, hg]
  have hF : ¬ ¬ ('F' = 'D' ∨ 'F' = 'F') := by decide
  have hFD : ¬ ('F' = 'D') := by decide
  simp only [hF, if_false, List.head?_cons, ne_eq, not_true_eq_false, List.tail_cons, hr,
    hcab, hFD, ha]
  apply deserializar_bucle_combustible
  · simp at hres ⊢; omega
  · simp

/-- What `cargar_archivo` does for a new file name under an existing directory, when the
stream holds exactly the announced lines: a fresh file with those lines in front of the
other children. -/
theorem cargar_archivo_nuevo (h : Mem) (hb : Bien h) (hpt : TodoPortable h) (p : Nat)
    (hp : p < h.length) (hdir : (leer h p).tipo = TipoNodo.NODO_DIR) (nm : Cadena)
    (hnm : Portable nm) (hno : ∀ c ∈ (leer h p).hijos, (leer h c).nombre ≠ nm)
    (ls : List Cadena) (hls : ∀ l ∈ ls, LineaOK l) (resto : Cadena) :
    ∃ h1, cargar_archivo h 0 (prefijo h p ++ '/' :: nm) (' ' :: decimal ls.length)
        ⟨volcar_lineas ls ++ resto, false⟩ = some (h1, ⟨resto, false⟩) ∧
      h1.length = h.length + 1 ∧
      leer h1 h.length = ⟨TipoNodo.NODO_ARCHIVO, nm, some p, [], ls⟩ ∧
      (∀ q, q ≠ h.length → leer h1 q = leer (insertar h TipoNodo.NODO_ARCHIVO nm p) q) := by
  have hbus : buscar_hijo h (some p) (some nm) = none := by
    rw [buscar_hijo_dir h p _ hdir]
    exact (buscar_en_none_iff h nm _).2 hno
  have hnum : leer_numero 0 (saltar_espacios (' ' :: decimal ls.length)) = ls.length := by
    rcases decimal_no_vacio_cabeza ls.length [] with e | e
    · simp only [List.append_nil] at e
      rw [e]; exact (decimal_spec _).1
    · have := (decimal_spec ls.length).1
      rw [e] at this ⊢
      simpa [saltar_espacios, leer_numero] using this
  have hf : h.length < (insertar h TipoNodo.NODO_ARCHIVO nm p).length := by
    rw [length_insertar]; omega
  obtain ⟨h1, e1, e2, e3, e4⟩ := leer_lineas_volcado h.length resto ls
    (insertar h TipoNodo.NODO_ARCHIVO nm p) hls hf
  have hpadre := asegurar_padre h hb hpt p hp
  refine ⟨h1, ?_, by rw [e2, length_insertar], ?_, e4⟩
  · have hub : ∀ pre : Cadena, buscar_ultima_barra (pre ++ '/' :: nm) (pre ++ '/' :: nm).length =
        some pre.length := by
      intro pre
      have := buscar_ultima_barra_eq pre nm hnm.2.2.1 nm.length (Nat.le_refl _)
      have e : (pre ++ '/' :: nm).length = pre.length + 1 + nm.length := by
        simp; omega
      rw [e]; exact this
    have hnombre : ∀ pre : Cadena, ((pre ++ '/' :: nm).drop (pre.length + 1)).take 255 = nm := by
      intro pre
      have : (pre ++ '/' :: nm).drop (pre.length + 1) = nm := by
        have e : pre ++ '/' :: nm = (pre ++ ['/']) ++ nm := by simp
        rw [e]
        exact List.drop_left' (by simp)
      rw [this]
      exact List.take_of_length_le hnm.2.1
    by_cases hp0 : p = 0
    · subst hp0
      simp only [if_true] at hpadre
      have h0 := hub []
      have hn0 := hnombre []
      simp only [List.nil_append, List.length_nil, Nat.zero_add] at h0 hn0
      rw [prefijo_raiz]
      unfold cargar_archivo
      simp only [List.nil_append, h0, hnum, hpadre, hn0, hbus]
      rw [← e1]
      rfl
    · obtain ⟨k, _, _, hpre⟩ := prefijo_camino h hb p hp hp0
      simp only [hp0, if_false] at hpadre
      rw [hpre] at hpadre ⊢
      have h0 := hub ('/' :: unir_nombres h (camino h k p))
      have hn0 := hnombre ('/' :: unir_nombres h (camino h k p))
      simp only [List.length_cons] at h0 hn0
      have htake : List.take ((unir_nombres h (camino h k p)).length + 1)
          ('/' :: unir_nombres h (camino h k p) ++ '/' :: nm) =
          '/' :: unir_nombres h (camino h k p) := by
        exact @List.take_left' _ ('/' :: unir_nombres h (camino h k p)) ('/' :: nm)
          ((unir_nombres h (camino h k p)).length + 1) (by simp)
      unfold cargar_archivo
      simp only [h0, hnum, htake, hpadre, hn0, hbus]
      rw [← e1]
      rfl
  · rw [e3, leer_insertar_nuevo h _ nm p hp]
    simp

theorem nodo_eq (n : Nodo) (t : TipoNodo) (nm : Cadena) (p : Option Nat) (hs : List Nat)
    (ls : List Cadena) (h1 : n.tipo = t) (h2 : n.nombre = nm) (h3 : n.padre = p)
    (h4 : n.hijos = hs) (h5 : n.lineas = ls) : n = ⟨t, nm, p, hs, ls⟩ := by
  cases n
  simp only at h1 h2 h3 h4 h5
  subst h1 h2 h3 h4 h5
  rfl

/-- Changing only the lines of files keeps the invariant. -/
theorem bien_lineas (h h1 : Mem) (hb : Bien h) (hlen : h1.length = h.length)
    (hs : ∀ q, (leer h1 q).tipo = (leer h q).tipo ∧ (leer h1 q).nombre = (leer h q).nombre ∧
      (leer h1 q).padre = (leer h q).padre ∧ (leer h1 q).hijos = (leer h q).hijos)
    (hl : ∀ q, (leer h q).tipo = TipoNodo.NODO_DIR → (leer h1 q).lineas = (leer h q).lineas) :
    Bien h1 := by
  have hnom : ∀ l : List Nat, l.map (fun x => (leer h1 x).nombre) =
      l.map (fun x => (leer h x).nombre) := by
    intro l
    apply List.map_congr_left
    intro x _
    exact (hs x).2.1
  have hsub : ∀ k n, subir h1 k n = subir h k n := by
    intro k n
    apply subir_evita h _ (fun _ => False)
    · intro q _; exact (hs q).2.2.1
    · intro j x _ hF; exact hF
  refine ⟨by rw [hlen]; exact hb.raiz_len, by rw [(hs 0).2.2.1]; exact hb.raiz_padre,
    by rw [(hs 0).1]; exact hb.raiz_tipo, by rw [(hs 0).2.1]; exact hb.raiz_nombre,
    ?_, ?_, ?_, ?_, ?_, ?_⟩
  · intro n p hn hp
    rw [hlen] at hn
    rw [(hs n).2.2.1] at hp
    rw [hlen, (hs p).2.2.2, (hs p).1]
    exact hb.padre_ok n p hn hp
  · intro p c hp hc
    rw [hlen] at hp
    rw [(hs p).2.2.2] at hc
    rw [hlen, (hs c).2.2.1]
    exact hb.hijo_ok p c hp hc
  · intro p hp
    rw [hlen] at hp
    rw [(hs p).2.2.2, hnom]
    exact hb.nombres p hp
  · intro n hn
    rw [hlen] at hn
    obtain ⟨k, hk⟩ := hb.a_raiz n hn
    exact ⟨k, by rw [hsub]; exact hk⟩
  · intro n hn hne
    rw [hlen] at hn
    rw [(hs n).2.1]
    exact hb.validos n hn hne
  · intro n hn ht
    rw [hlen] at hn
    rw [(hs n).1] at ht
    rw [hl n ht]
    exact hb.sin_lineas n hn ht

theorem portable_valido (s : Cadena) (hs : Portable s) : nombre_valido (some s) = true :=
  (nombre_valido_some s).2 ⟨hs.1, hs.2.2.1⟩

theorem representa_congr (h h1 : Mem) (hlen : h.length ≤ h1.length) :
    ∀ (b : Bosque) (p : Nat), (∀ y ∈ b.ids, leer h1 y = leer h y) →
      Representa h p b → Representa h1 p b := by
  intro b
  induction b with
  | vacio => intro _ _ _; trivial
  | nodo id t nm ls hj hm ihj ihm =>
    intro p hy hr
    obtain ⟨hid, hleer, hrj, hrm⟩ := hr
    refine ⟨by omega, ?_, ?_, ?_⟩
    · rw [hy id (by simp [Bosque.ids])]; exact hleer
    · exact ihj id (fun y hm1 => hy y (by simp [Bosque.ids, hm1])) hrj
    · exact ihm p (fun y hm1 => hy y (by simp [Bosque.ids, hm1])) hrm

theorem representa_nombres (h : Mem) :
    ∀ (b : Bosque) (p : Nat), Representa h p b →
      ∀ c ∈ b.cimas, (leer h c).nombre ∈ b.nombres := by
  intro b
  induction b with
  | vacio => intro p _ c hc; simp [Bosque.cimas] at hc
  | nodo id t nm ls hj hm _ ihm =>
    intro p hr c hc
    obtain ⟨_, hleer, _, hrm⟩ := hr
    simp only [Bosque.cimas, List.mem_cons] at hc
    simp only [Bosque.nombres, List.mem_cons]
    rcases hc with rfl | hc
    · left; rw [hleer]
    · right; exact ihm p hrm c hc

theorem forma_nombres : ∀ (b b1 : Bosque), b1.forma = b.forma → b1.nombres = b.nombres := by
  intro b
  induction b with
  | vacio =>
    intro b1 hf
    cases b1 with
    | vacio => rfl
    | nodo _ _ _ _ _ _ => simp [Bosque.forma] at hf
  | nodo id t nm ls hj hm _ ihm =>
    intro b1 hf
    cases b1 with
    | vacio => simp [Bosque.forma] at hf
    | nodo id1 t1 nm1 ls1 hj1 hm1 =>
      simp only [Bosque.forma, Bosque.nodo.injEq, true_and] at hf
      simp only [Bosque.nombres, hf.2.1, ihm hm1 hf.2.2.2.2]

theorem forma_tam : ∀ (b b1 : Bosque), b1.forma = b.forma → b1.tam = b.tam := by
  intro b
  induction b with
  | vacio =>
    intro b1 hf
    cases b1 with
    | vacio => rfl
    | nodo _ _ _ _ _ _ => simp [Bosque.forma] at hf
  | nodo id t nm ls hj hm ihj ihm =>
    intro b1 hf
    cases b1 with
    | vacio => simp [Bosque.forma] at hf
    | nodo id1 t1 nm1 ls1 hj1 hm1 =>
      simp only [Bosque.forma, Bosque.nodo.injEq, true_and] at hf
      simp only [Bosque.tam, ihj hj1 hf.2.2.2.1, ihm hm1 hf.2.2.2.2]

theorem forma_serializar :
    ∀ (b b1 : Bosque) (pre : Cadena), b1.forma = b.forma →
      serializar_bosque pre b1 = serializar_bosque pre b := by
  intro b
  induction b with
  | vacio =>
    intro b1 pre hf
    cases b1 with
    | vacio => rfl
    | nodo _ _ _ _ _ _ => simp [Bosque.forma] at hf
  | nodo id t nm ls hj hm ihj ihm =>
    intro b1 pre hf
    cases b1 with
    | vacio => simp [Bosque.forma] at hf
    | nodo id1 t1 nm1 ls1 hj1 hm1 =>
      simp only [Bosque.forma, Bosque.nodo.injEq, true_and] at hf
      obtain ⟨rfl, rfl, rfl, e1, e2⟩ := hf
      simp only [serializar_bosque, ihj hj1 _ e1, ihm hm1 _ e2]

/-- The prefix of an old node depends only on the names and parents of old nodes. -/
theorem prefijo_congr (h h1 : Mem) (hb : Bien h) (hb1 : Bien h1) (hlen : h.length ≤ h1.length)
    (hs : ∀ q, q < h.length → (leer h1 q).nombre = (leer h q).nombre ∧
      (leer h1 q).padre = (leer h q).padre)
    (p : Nat) (hp : p < h.length) : prefijo h1 p = prefijo h p := by
  by_cases hp0 : p = 0
  · subst hp0; rw [prefijo_raiz, prefijo_raiz]
  · have hsub : ∀ k n, n < h.length → subir h1 k n = subir h k n := by
      intro k n hn
      apply subir_evita h h1 (fun q => ¬ q < h.length)
      · intro q hq
        simp only [not_not] at hq
        exact (hs q hq).2
      · intro j x hj
        simp only [not_not]
        exact hb.subir_dentro j n x hn hj
    have hcam : ∀ k n, n < h.length → camino h1 k n = camino h k n := by
      intro k
      induction k with
      | zero => intro n _; rfl
      | succ k ih =>
        intro n hn
        simp only [camino]
        rw [(hs n hn).2]
        cases hpn : (leer h n).padre with
        | none => rfl
        | some pp =>
          simp only
          rw [ih pp (hb.padre_ok n pp hn hpn).1]
    obtain ⟨k, hk, _, hpre⟩ := prefijo_camino h hb p hp hp0
    obtain ⟨k1, hk1, _, hpre1⟩ := prefijo_camino h1 hb1 p (by omega) hp0
    have hkk : k1 = k := by
      apply hb1.subir_unico p 0 (by omega) k1 k hk1
      rw [hsub k p hp]; exact hk
    subst hkk
    rw [hpre, hpre1, hcam k1 p hp]
    congr 1
    apply unir_nombres_congr
    intro y hy
    exact (hs y (camino_datos h hb p k1 hp y hy).1).1

theorem ruta_limpia (h : Mem) (hb : Bien h) (hpt : TodoPortable h) (p : Nat)
    (hp : p < h.length) (nm : Cadena) (hnm : Portable nm) :
    TextoLimpio (prefijo h p ++ '/' :: nm) := by
  intro c hc
  simp only [List.mem_append, List.mem_cons] at hc
  rcases hc with hc | rfl | hc
  · exact prefijo_limpio h hb hpt p hp c hc
  · exact ⟨by decide, by decide, by decide⟩
  · exact hnm.2.2.2 c hc

/-- Loading the record of one node whose parent exists and has no child of that name: a
fresh node of that kind, name and lines becomes the first child of the parent. -/
theorem cargar_nodo (h : Mem) (hb : Bien h) (hpt : TodoPortable h) (p : Nat)
    (hp : p < h.length) (hdir : (leer h p).tipo = TipoNodo.NODO_DIR) (t : TipoNodo)
    (nm : Cadena) (ls : List Cadena) (hnm : Portable nm)
    (hlen : (prefijo h p ++ '/' :: nm).length ≤ 511)
    (hdl : t = TipoNodo.NODO_DIR → ls = []) (hls : ∀ l ∈ ls, LineaOK l)
    (hcnt : ls.length < 2 ^ 31)
    (hno : ∀ c ∈ (leer h p).hijos, (leer h c).nombre ≠ nm) (resto : Cadena) :
    ∃ h2, deserializar_arbol h (some 0)
        ⟨registro_de t (prefijo h p ++ '/' :: nm) ls ++ resto, false⟩ =
        deserializar_arbol h2 (some 0) ⟨resto, false⟩ ∧
      Bien h2 ∧ TodoPortable h2 ∧ h2.length = h.length + 1 ∧
      leer h2 h.length = ⟨t, nm, some p, [], ls⟩ ∧
      (∀ q, q < h.length → leer h2 q = leer (insertar h t nm p) q) := by
  have hlimpia := ruta_limpia h hb hpt p hp nm hnm
  have hcab := prefijo_cabeza h hb p hp nm
  have hval := portable_valido nm hnm
  have hbi : ∀ t1, Bien (insertar h t1 nm p) :=
    fun t1 => bien_insertar h hb t1 nm p hp hdir hval hno
  have hport : ∀ h2 : Mem, h2.length = h.length + 1 →
      (∀ q, q < h.length → (leer h2 q).nombre = (leer h q).nombre) →
      (leer h2 h.length).nombre = nm → TodoPortable h2 := by
    intro h2 hl2 hold hnew q hq hq0
    by_cases hql : q = h.length
    · subst hql; rw [hnew]; exact hnm
    · have hq1 : q < h.length := by omega
      rw [hold q hq1]; exact hpt q hq1 hq0
  cases t with
  | NODO_DIR =>
    have hls0 : ls = [] := hdl rfl
    subst hls0
    refine ⟨insertar h TipoNodo.NODO_DIR nm p, ?_, hbi _, ?_, length_insertar _ _ _ _,
      leer_insertar_nuevo h _ nm p hp, fun _ _ => rfl⟩
    · have e : registro_de TipoNodo.NODO_DIR (prefijo h p ++ '/' :: nm) [] ++ resto =
          'D' :: ' ' :: (prefijo h p ++ '/' :: nm) ++ '\n' :: resto := by
        simp [registro_de]
      rw [e, cargar_registro_dir h _ resto hlimpia hlen hcab,
        asegurar_nuevo h hb hpt p hp hdir nm hnm hno]
    · apply hport _ (length_insertar _ _ _ _)
      · intro q hq; exact (leer_insertar_viejo h _ nm p hp q hq).2.1
      · rw [leer_insertar_nuevo h _ nm p hp]
  | NODO_ARCHIVO =>
    obtain ⟨h1, e1, e2, e3, e4⟩ :=
      cargar_archivo_nuevo h hb hpt p hp hdir nm hnm hno ls hls resto
    have hlen1 : h1.length = (insertar h TipoNodo.NODO_ARCHIVO nm p).length := by
      rw [e2, length_insertar]
    refine ⟨h1, ?_, ?_, ?_, e2, e3, fun q hq => e4 q (by omega)⟩
    · have e : registro_de TipoNodo.NODO_ARCHIVO (prefijo h p ++ '/' :: nm) ls ++ resto =
          'F' :: ' ' :: (prefijo h p ++ '/' :: nm) ++ ' ' :: decimal ls.length ++
            '\n' :: (volcar_lineas ls ++ resto) := by
        simp [registro_de]
      rw [e]
      exact cargar_registro_archivo h _ _ ls.length hlimpia hlen hcab hcnt _ e1
    · apply bien_lineas (insertar h TipoNodo.NODO_ARCHIVO nm p) h1 (hbi _) hlen1
      · intro q
        by_cases hq : q = h.length
        · subst hq
          rw [e3, leer_insertar_nuevo h _ nm p hp]
          simp
        · rw [e4 q hq]; simp
      · intro q hqd
        by_cases hq : q = h.length
        · subst hq
          rw [leer_insertar_nuevo h _ nm p hp] at hqd
          cases hqd
        · rw [e4 q hq]
    · apply hport h1 e2
      · intro q hq
        rw [e4 q (by omega)]
        exact (leer_insertar_viejo h _ nm p hp q hq).2.1
      · rw [e3]

/-- Loading the text of a forest below an existing directory `p` that has no child with any
of its top-level names: the loader builds fresh nodes of the same shape in front of the
children of `p`, touches no other old node, and goes on with the rest of the stream. -/
theorem cargar_bosque :
    ∀ (b : Bosque) (h : Mem) (p : Nat) (resto : Cadena),
      Bien h → TodoPortable h → p < h.length → (leer h p).tipo = TipoNodo.NODO_DIR →
      BosqueCabe (prefijo h p) b →
      (∀ c ∈ (leer h p).hijos, (leer h c).nombre ∉ b.nombres) →
      ∃ h1 b1,
        deserializar_arbol h (some 0) ⟨serializar_bosque (prefijo h p) b ++ resto, false⟩ =
          deserializar_arbol h1 (some 0) ⟨resto, false⟩ ∧
        Bien h1 ∧ TodoPortable h1 ∧ h1.length = h.length + b.tam ∧ b1.forma = b.forma ∧
        Representa h1 p b1 ∧ (∀ x, x ∈ b1.ids ↔ (h.length ≤ x ∧ x < h1.length)) ∧
        (leer h1 p).hijos = b1.cimas ++ (leer h p).hijos ∧
        (∀ q, q < h.length → (q ≠ p → leer h1 q = leer h q) ∧
          (leer h1 q).tipo = (leer h q).tipo ∧ (leer h1 q).nombre = (leer h q).nombre ∧
          (leer h1 q).padre = (leer h q).padre ∧ (leer h1 q).lineas = (leer h q).lineas) := by
  intro b
  induction b with
  | vacio =>
    intro h p resto hb hpt hp hdir _ _
    refine ⟨h, .vacio, by simp [serializar_bosque], hb, hpt, by simp [Bosque.tam], rfl,
      trivial, ?_, by simp [Bosque.cimas], fun q _ => ⟨fun _ => rfl, rfl, rfl, rfl, rfl⟩⟩
    intro x
    simp only [Bosque.ids, List.not_mem_nil, false_iff, not_and, not_lt]
    intro hx; exact hx
  | nodo id t nm ls hj hm ihj ihm =>
    intro h p resto hb hpt hp hdir hcabe hno
    obtain ⟨hnm, hlen, hdl, harch, hls, hcnt, hnotin, hcj, hcm⟩ := hcabe
    -- step 1: the later siblings
    obtain ⟨h1, m1, eq1, hb1, hpt1, hl1, hf1, hr1, hids1, hh1, hold1⟩ :=
      ihm h p (registro_de t (prefijo h p ++ '/' :: nm) ls ++
          (serializar_bosque (prefijo h p ++ '/' :: nm) hj ++ resto))
        hb hpt hp hdir hcm
        (fun c hc hm1 => hno c hc (by simp [Bosque.nombres, hm1]))
    have hp1 : p < h1.length := by omega
    have hpre1 : prefijo h1 p = prefijo h p :=
      prefijo_congr h h1 hb hb1 (by omega)
        (fun q hq => ⟨(hold1 q hq).2.2.1, (hold1 q hq).2.2.2.1⟩) p hp
    have hdir1 : (leer h1 p).tipo = TipoNodo.NODO_DIR := by
      rw [(hold1 p hp).2.1]; exact hdir
    have hno1 : ∀ c ∈ (leer h1 p).hijos, (leer h1 c).nombre ≠ nm := by
      intro c hc
      rw [hh1, List.mem_append] at hc
      rcases hc with hc | hc
      · intro e
        have := representa_nombres h1 m1 p hr1 c hc
        rw [forma_nombres hm m1 hf1, e] at this
        exact hnotin this
      · have hcl := (hb.hijo_ok p c hp hc).1
        rw [(hold1 c hcl).2.2.1]
        intro e
        exact hno c hc (by simp [Bosque.nombres, e])
    -- step 2: the node itself
    obtain ⟨h2, eq2, hb2, hpt2, hl2, hx2, hold2⟩ :=
      cargar_nodo h1 hb1 hpt1 p hp1 hdir1 t nm ls hnm (by rw [hpre1]; exact hlen) hdl hls hcnt
        hno1 (serializar_bosque (prefijo h p ++ '/' :: nm) hj ++ resto)
    rw [hpre1] at eq2
    have hv2 := fun q hq => leer_insertar_viejo h1 t nm p hp1 q hq
    have hpad2 : (leer h2 h1.length).padre = some p := by rw [hx2]
    have hxl2 : h1.length < h2.length := by omega
    have hpre2 : prefijo h2 h1.length = prefijo h p ++ '/' :: nm := by
      rw [prefijo_hijo h2 hb2 h1.length p hxl2 hpad2, hx2]
      simp only
      rw [prefijo_congr h1 h2 hb1 hb2 (by omega)
        (fun q hq => by rw [hold2 q hq]; exact ⟨(hv2 q hq).2.1, (hv2 q hq).2.2.1⟩) p hp1, hpre1]
    have hhp2 : (leer h2 p).hijos = h1.length :: (leer h1 p).hijos := by
      rw [hold2 p hp1, (hv2 p hp1).2.2.2.2]; simp
    have hother2 : ∀ q, q < h1.length → q ≠ p → leer h2 q = leer h1 q := by
      intro q hq hqp
      rw [hold2 q hq, leer_insertar h1 t nm p hp1]
      have : q ≠ h1.length := by omega
      simp [this, hqp]
    -- step 3: the children of the node
    have paso3 : ∃ h3 j1,
        deserializar_arbol h2 (some 0)
            ⟨serializar_bosque (prefijo h p ++ '/' :: nm) hj ++ resto, false⟩ =
          deserializar_arbol h3 (some 0) ⟨resto, false⟩ ∧
        Bien h3 ∧ TodoPortable h3 ∧ h3.length = h2.length + hj.tam ∧ j1.forma = hj.forma ∧
        Representa h3 h1.length j1 ∧ (∀ x, x ∈ j1.ids ↔ (h2.length ≤ x ∧ x < h3.length)) ∧
        (leer h3 h1.length).hijos = j1.cimas ∧
        (∀ q, q < h2.length → (q ≠ h1.length → leer h3 q = leer h2 q) ∧
          (leer h3 q).tipo = (leer h2 q).tipo ∧ (leer h3 q).nombre = (leer h2 q).nombre ∧
          (leer h3 q).padre = (leer h2 q).padre ∧
          (leer h3 q).lineas = (leer h2 q).lineas) := by
      cases t with
      | NODO_ARCHIVO =>
        have hjv : hj = .vacio := harch rfl
        subst hjv
        refine ⟨h2, .vacio, by simp [serializar_bosque], hb2, hpt2, by simp [Bosque.tam], rfl,
          trivial, ?_, by rw [hx2]; rfl, fun q _ => ⟨fun _ => rfl, rfl, rfl, rfl, rfl⟩⟩
        intro x
        simp only [Bosque.ids, List.not_mem_nil, false_iff, not_and, not_lt]
        intro hx; exact hx
      | NODO_DIR =>
        have hdx : (leer h2 h1.length).tipo = TipoNodo.NODO_DIR := by rw [hx2]
        have hkx : (leer h2 h1.length).hijos = [] := by rw [hx2]
        obtain ⟨h3, j1, eq3, hb3, hpt3, hl3, hf3, hr3, hids3, hh3, hold3⟩ :=
          ihj h2 h1.length resto hb2 hpt2 hxl2 hdx (by rw [hpre2]; exact hcj)
            (by rw [hkx]; intro c hc; cases hc)
        rw [hpre2] at eq3
        exact ⟨h3, j1, eq3, hb3, hpt3, hl3, hf3, hr3, hids3, by rw [hh3, hkx]; simp, hold3⟩
    obtain ⟨h3, j1, eq3, hb3, hpt3, hl3, hf3, hr3, hids3, hh3, hold3⟩ := paso3
    have hne_xp : p ≠ h1.length := by omega
    refine ⟨h3, .nodo h1.length t nm ls j1 m1, ?_, hb3, hpt3, ?_, ?_, ?_, ?_, ?_, ?_⟩
    · simp only [serializar_bosque, List.append_assoc]
      rw [eq1, eq2, eq3]
    · simp only [Bosque.tam]; omega
    · simp only [Bosque.forma, hf1, hf3]
    · refine ⟨by omega, ?_, hr3, ?_⟩
      · apply nodo_eq
        · rw [(hold3 _ hxl2).2.1, hx2]
        · rw [(hold3 _ hxl2).2.2.1, hx2]
        · rw [(hold3 _ hxl2).2.2.2.1, hx2]
        · exact hh3
        · rw [(hold3 _ hxl2).2.2.2.2, hx2]
      · apply representa_congr h1 h3 (by omega) m1 p _ hr1
        intro y hy
        obtain ⟨y1, y2⟩ := (hids1 y).1 hy
        rw [(hold3 y (by omega)).1 (by omega), hother2 y y2 (by omega)]
    · intro x
      simp only [Bosque.ids, List.mem_cons, List.mem_append, hids3, hids1]
      omega
    · rw [(hold3 p (by omega)).1 hne_xp, hhp2, hh1]
      simp [Bosque.cimas]
    · intro q hq
      have hq1 : q < h1.length := by omega
      have hq2 : q < h2.length := by omega
      have hqx : q ≠ h1.length := by omega
      have e32 := (hold3 q hq2).1 hqx
      have hf2 := hv2 q hq1
      refine ⟨?_, ?_, ?_, ?_, ?_⟩
      · intro hqp
        rw [e32, hother2 q hq1 hqp, (hold1 q hq).1 hqp]
      · rw [e32, hold2 q hq1, hf2.1, (hold1 q hq).2.1]
      · rw [e32, hold2 q hq1, hf2.2.1, (hold1 q hq).2.2.1]
      · rw [e32, hold2 q hq1, hf2.2.2.1, (hold1 q hq).2.2.2.1]
      · rw [e32, hold2 q hq1, hf2.2.2.2.1, (hold1 q hq).2.2.2.2]

theorem extraer_sin_salto : ∀ (r : Cadena) (cap : Nat), '\n' ∉ (extraer cap r).1 := by
  intro r
  induction r with
  | nil => intro cap; cases cap <;> simp [extraer]
  | cons c r ih =>
    intro cap
    by_cases hc : c = '\n'
    · subst hc; cases cap <;> simp [extraer]
    · cases cap with
      | zero => simp [extraer, hc]
      | succ k =>
        simp only [extraer, hc, if_false, List.mem_cons, not_or]
        exact ⟨fun e => hc e.symm, ih k⟩

theorem c_str_limpia (buf : Cadena) (hb : '\n' ∉ buf) : LineaLimpia (c_str buf) := by
  intro c hc
  unfold c_str at hc
  have h1 := List.mem_takeWhile_imp hc
  have h2 := (List.takeWhile_sublist _).subset hc
  refine ⟨?_, ?_⟩
  · rintro rfl; exact hb h2
  · simpa [NUL] using h1

theorem getline_limpia (s : Flujo) (n : Nat) (t : Cadena) (ht : (getline s n).1 = some t) :
    LineaLimpia t := by
  unfold getline at ht
  by_cases hf : s.falla = true
  · simp [hf] at ht
  · simp only [hf, Bool.false_eq_true, if_false] at ht
    cases hr : s.resto with
    | nil => rw [hr] at ht; simp at ht
    | cons c r =>
      rw [hr] at ht
      simp only at ht
      by_cases hq : (extraer (n - 1) (c :: r)).2.2 = true
      · simp [hq] at ht
      · simp only [hq, Bool.false_eq_true, if_false, Option.some.injEq] at ht
        rw [← ht]
        exact c_str_limpia _ (extraer_sin_salto _ _)

theorem leer_linea_alloc_limpia (s : Flujo) (n : Nat) (t : Cadena)
    (ht : (leer_linea_alloc s n).1 = some t) : LineaLimpia t := by
  unfold leer_linea_alloc at ht
  cases hq : getline s n with
  | mk a s1 =>
    rw [hq] at ht
    cases a with
    | none => simp at ht
    | some buf =>
      have hl := getline_limpia s n buf (by rw [hq])
      simp only at ht
      split at ht
      · simp only [Option.some.injEq] at ht
        rw [← ht]
        intro c hc
        exact hl c (List.mem_of_mem_dropLast hc)
      · simp only [Option.some.injEq] at ht
        rw [← ht]; exact hl

/-- Every line of a constructible tree is free of newlines and NUL. -/
theorem construible_lineas (h : Mem) (hc : Construible h) :
    ∀ n, ∀ l ∈ (leer h n).lineas, LineaLimpia l := by
  induction hc with
  | inicial =>
    intro n l hl
    by_cases hn : n < memInicial.length
    · have : n = 0 := by
        have : memInicial.length = 1 := rfl
        omega
      subst this
      revert hl; simp [memInicial, crear_nodo, leer]
    · rw [leer_fuera _ _ (Nat.le_of_not_lt hn)] at hl
      simp [nodoNulo] at hl
  | mkdir h cwd nombre n hc0 hcwd hs ih =>
    obtain ⟨s, _, _, _, _, hm, _⟩ := crear_directorio_exito h cwd nombre n hs
    intro q l hl
    rw [hm, leer_insertar h _ s cwd hcwd] at hl
    split at hl
    · simp at hl
    · split at hl
      · exact ih cwd l (by simpa using hl)
      · exact ih q l hl
  | touch h cwd nombre n hc0 hcwd hs ih =>
    obtain ⟨s, _, _, _, hcase⟩ := crear_archivo_exito h cwd nombre n hs
    intro q l hl
    rcases hcase with ⟨hm, _⟩ | ⟨_, hm, _⟩
    · rw [hm] at hl; exact ih q l hl
    · rw [hm, leer_insertar h _ s cwd hcwd] at hl
      split at hl
      · simp at hl
      · split at hl
        · exact ih cwd l (by simpa using hl)
        · exact ih q l hl
  | mover h item np nn r hc0 hit hnp hnn hm hv ih =>
    have hb := construible_bien h hc0
    obtain ⟨op, hop, _, hopne, hne, _, _, _, _, _, _, _, hleer⟩ :=
      mover_exito h hb item np hit hnp nn hnn r hm hv
    intro q l hl
    rw [hleer q, (leer_movido_campos h item np op _ hne hopne q).2.1] at hl
    exact ih q l hl
  | anexar h f s t hc0 hf hft ht ih =>
    intro q l hl
    rw [(leer_anexar h f t q).2.2.2.2] at hl
    split at hl
    · simp only [List.mem_append, List.mem_singleton] at hl
      rcases hl with hl | rfl
      · exact ih q l hl
      · exact leer_linea_alloc_limpia s 1024 _ ht
    · exact ih q l hl

theorem cimas_vacias (b : Bosque) (hb : b.cimas = []) : b = .vacio := by
  cases b with
  | vacio => rfl
  | nodo _ _ _ _ _ _ => simp [Bosque.cimas] at hb

theorem representa_nombres_eq (h : Mem) :
    ∀ (b : Bosque) (p : Nat), Representa h p b →
      b.nombres = b.cimas.map (fun c => (leer h c).nombre) := by
  intro b
  induction b with
  | vacio => intro _ _; rfl
  | nodo id t nm ls hj hm _ ihm =>
    intro p hr
    obtain ⟨_, hleer, _, hrm⟩ := hr
    simp only [Bosque.nombres, Bosque.cimas, List.map_cons, ihm p hrm, hleer]

/-- A forest that represents part of a well-formed tree within the format bounds fits the
format. -/
theorem bosqueCabe_de_representa (h : Mem) (hb : Bien h) (hc : ArbolCabe h)
    (hlimp : ∀ n, ∀ l ∈ (leer h n).lineas, LineaLimpia l) :
    ∀ (b : Bosque) (p : Nat), Representa h p b →
      (b.cimas.map (fun c => (leer h c).nombre)).Nodup → BosqueCabe (prefijo h p) b := by
  obtain ⟨hnom, hruta, hlin, hcnt⟩ := hc
  intro b
  induction b with
  | vacio => intro _ _ _; trivial
  | nodo id t nm ls hj hm ihj ihm =>
    intro p hr hnd
    obtain ⟨hid, hleer, hrj, hrm⟩ := hr
    have hpad : (leer h id).padre = some p := by rw [hleer]
    have hid0 : id ≠ 0 := by
      rintro rfl
      rw [hb.raiz_padre] at hpad; cases hpad
    have hnm : (leer h id).nombre = nm := by rw [hleer]
    have htp : (leer h id).tipo = t := by rw [hleer]
    have hlsn : (leer h id).lineas = ls := by rw [hleer]
    have hkids : (leer h id).hijos = hj.cimas := by rw [hleer]
    have hval := (nombre_valido_some _).1 (hb.validos id hid hid0)
    have hcabe := hnom id hid hid0
    rw [hnm] at hval hcabe
    simp only [Bosque.cimas, List.map_cons, List.nodup_cons] at hnd
    refine ⟨⟨hval.1, hcabe.1, hval.2, hcabe.2⟩, ?_, ?_, ?_, ?_, ?_, ?_, ?_, ?_⟩
    · have := hruta id hid
      rw [construir_hijo h hb id p hid hpad, hnm] at this
      exact this
    · intro ht
      rw [← hlsn]
      exact hb.sin_lineas id hid (by rw [htp, ht])
    · intro ht
      apply cimas_vacias
      rw [← hkids]
      exact hb.sin_hijos id hid (by rw [htp, ht])
    · intro l hl
      have h1 := hlin id hid l (by rw [hlsn]; exact hl)
      have h2 := hlimp id l (by rw [hlsn]; exact hl)
      exact ⟨h1.1, h2, h1.2⟩
    · rw [← hlsn]; exact hcnt id hid
    · rw [representa_nombres_eq h hm p hrm, ← hnm]
      exact hnd.1
    · have := ihj id hrj (by rw [← hkids]; exact hb.nombres id hid)
      rw [prefijo_hijo h hb id p hid hpad, hnm] at this
      exact this
    · exact ihm p hrm hnd.2

/-- The entries of a represented forest are exactly the entries of its nodes. -/
theorem rutas_bosque_representa (h : Mem) (hb : Bien h) :
    ∀ (b : Bosque) (p : Nat), Representa h p b →
      ∀ e, e ∈ rutas_bosque (prefijo h p) b ↔ ∃ n ∈ b.ids, EntradaDe h n e := by
  intro b
  induction b with
  | vacio =>
    intro p _ e
    simp [rutas_bosque, Bosque.ids]
  | nodo id t nm ls hj hm ihj ihm =>
    intro p hr e
    obtain ⟨hid, hleer, hrj, hrm⟩ := hr
    have hpad : (leer h id).padre = some p := by rw [hleer]
    have hcon := construir_hijo h hb id p hid hpad
    have hpre := prefijo_hijo h hb id p hid hpad
    have hnm : (leer h id).nombre = nm := by rw [hleer]
    rw [hnm] at hcon hpre
    have hself : EntradaDe h id e ↔ e = (prefijo h p ++ '/' :: nm, t, ls) := by
      unfold EntradaDe
      rw [hcon, hleer]
      simp only [Option.some.injEq]
      constructor
      · rintro ⟨_, h1, h2, h3⟩
        exact Prod.ext h1.symm (Prod.ext h2.symm h3.symm)
      · rintro rfl
        exact ⟨hid, rfl, rfl, rfl⟩
    have i1 := ihj id hrj e
    rw [hpre] at i1
    have i2 := ihm p hrm e
    simp only [rutas_bosque, List.mem_cons, List.mem_append, i1, i2, Bosque.ids]
    constructor
    · rintro (h1 | ⟨n, hn, he⟩ | ⟨n, hn, he⟩)
      · exact ⟨id, Or.inl rfl, hself.2 h1⟩
      · exact ⟨n, Or.inr (Or.inl hn), he⟩
      · exact ⟨n, Or.inr (Or.inr hn), he⟩
    · rintro ⟨n, (rfl | hn | hn), he⟩
      · exact Or.inl (hself.1 he)
      · exact Or.inr (Or.inl ⟨n, hn, he⟩)
      · exact Or.inr (Or.inr ⟨n, hn, he⟩)

theorem forma_rutas :
    ∀ (b b1 : Bosque) (pre : Cadena), b1.forma = b.forma →
      rutas_bosque pre b1 = rutas_bosque pre b := by
  intro b
  induction b with
  | vacio =>
    intro b1 pre hf
    cases b1 with
    | vacio => rfl
    | nodo _ _ _ _ _ _ => simp [Bosque.forma] at hf
  | nodo id t nm ls hj hm ihj ihm =>
    intro b1 pre hf
    cases b1 with
    | vacio => simp [Bosque.forma] at hf
    | nodo id1 t1 nm1 ls1 hj1 hm1 =>
      simp only [Bosque.forma, Bosque.nodo.injEq, true_and] at hf
      obtain ⟨rfl, rfl, rfl, e1, e2⟩ := hf
      simp only [rutas_bosque, ihj hj1 _ e1, ihm hm1 _ e2]

/-- The entries of a well-formed tree: the root entry and the entries of the forest below
it. -/
theorem entradas_arbol (h : Mem) (hb : Bien h) (b : Bosque) (hr : Representa h 0 b)
    (hcub : ∀ n, n < h.length → n ≠ 0 → n ∈ b.ids)
    (e : Cadena × TipoNodo × List Cadena) :
    (∃ n, EntradaDe h n e) ↔ (e = (['/'], TipoNodo.NODO_DIR, []) ∨ e ∈ rutas_bosque [] b) := by
  have hrb := rutas_bosque_representa h hb b 0 hr e
  rw [prefijo_raiz] at hrb
  have hcon0 : construir_ruta_absoluta h (some 0) = some ['/'] := by
    obtain ⟨k, hk, hcon⟩ := construir_ruta_camino h hb 0 hb.raiz_len
    have : k = 0 := hb.subir_unico 0 0 hb.raiz_len k 0 hk rfl
    subst this
    rw [hcon]; rfl
  have hroot : EntradaDe h 0 e ↔ e = (['/'], TipoNodo.NODO_DIR, []) := by
    unfold EntradaDe
    rw [hcon0, hb.raiz_tipo, hb.sin_lineas 0 hb.raiz_len hb.raiz_tipo]
    simp only [Option.some.injEq]
    constructor
    · rintro ⟨_, h1, h2, h3⟩
      exact Prod.ext h1.symm (Prod.ext h2.symm h3.symm)
    · rintro rfl
      exact ⟨hb.raiz_len, rfl, rfl, rfl⟩
  rw [hrb]
  constructor
  · rintro ⟨n, he⟩
    by_cases hn0 : n = 0
    · subst hn0; exact Or.inl (hroot.1 he)
    · exact Or.inr ⟨n, hcub n he.1 hn0, he⟩
  · rintro (he | ⟨n, _, he⟩)
    · exact ⟨0, hroot.2 he⟩
    · exact ⟨n, he⟩

/-- The round trip: a constructible tree within the format bounds is serialized to the text
of its forest; loading that text into a fresh root succeeds and gives a well-formed tree
represented by a forest of the same shape. -/
theorem ida_y_vuelta (h : Mem) (hc : Construible h) (hcabe : ArbolCabe h) :
    ∃ b b1 h1, Bien h ∧ Representa h 0 b ∧
      (∀ n, n < h.length → n ≠ 0 → n ∈ b.ids) ∧
      serializar_arbol h (some 0) = some (true, serializar_bosque [] b) ∧
      deserializar_arbol memInicial (some 0) ⟨serializar_bosque [] b, false⟩ = ⟨h1, true, []⟩ ∧
      Bien h1 ∧ Representa h1 0 b1 ∧ b1.forma = b.forma ∧ (leer h1 0).hijos = b1.cimas ∧
      h1.length = 1 + b.tam ∧ (∀ x, x ∈ b1.ids ↔ (1 ≤ x ∧ x < h1.length)) := by
  have hb := construible_bien h hc
  obtain ⟨b, hr, hkids, htam, _, hcub, _⟩ := existe_bosque h hb
  have hser := serializar_arbol_bosque h hb b hr hkids htam
  have hbc : BosqueCabe (prefijo memInicial 0) b := by
    rw [prefijo_raiz, ← prefijo_raiz h]
    apply bosqueCabe_de_representa h hb hcabe (construible_lineas h hc) b 0 hr
    rw [← hkids]
    exact hb.nombres 0 hb.raiz_len
  have hpt0 : TodoPortable memInicial := by
    intro q hq hq0
    have : memInicial.length = 1 := rfl
    omega
  obtain ⟨h1, b1, eq1, hb1, _, hl1, hf1, hr1, hids1, hh1, _⟩ :=
    cargar_bosque b memInicial 0 [] bien_inicial hpt0 (by decide) (by decide) hbc
      (by intro c hc0; revert hc0; simp [memInicial, crear_nodo, leer])
  rw [prefijo_raiz, List.append_nil, deserializar_arbol_fin] at eq1
  refine ⟨b, b1, h1, hb, hr, hcub, hser, eq1, hb1, hr1, hf1, ?_, ?_, ?_⟩
  · rw [hh1]
    have : (leer memInicial 0).hijos = [] := by decide
    rw [this, List.append_nil]
  · rw [hl1]
    have : memInicial.length = 1 := rfl
    omega
  · intro x
    rw [hids1 x]
    have : memInicial.length = 1 := rfl
    rw [this]

theorem construible_arbolFXY : Construible arbolFXY :=
  Construible.anexar _ 1 ⟨"y\n".toList, false⟩ "y".toList
    (Construible.anexar _ 1 ⟨"x\n".toList, false⟩ "x".toList
      (Construible.touch memInicial 0 (some "f".toList) 1 Construible.inicial (by decide)
        (by decide))
      (by decide) (by decide) (by decide))
    (by decide) (by decide) (by decide)

/-- C6 (counterexample): a directory whose name is `a`, newline, `b` is built by a
successful create; its name has no space and fits every buffer; the tree serializes to
`D /a⏎b⏎`, and the tree loaded from that text serializes to `D /a⏎`. -/
theorem C6_contraejemplo :
    Construible arbolSalto ∧
    (' ' ∉ (leer arbolSalto 1).nombre ∧ (leer arbolSalto 1).nombre.length ≤ 255) ∧
    construir_ruta_absoluta arbolSalto (some 1) = some ['/', 'a', '\n', 'b'] ∧
    serializar_arbol arbolSalto (some 0) = some (true, ['D', ' ', '/', 'a', '\n', 'b', '\n']) ∧
    (recargado ['D', ' ', '/', 'a', '\n', 'b', '\n']).val = true ∧
    serializar_arbol (recargado ['D', ' ', '/', 'a', '\n', 'b', '\n']).mem (some 0) =
      some (true, ['D', ' ', '/', 'a', '\n']) :=
  ⟨Construible.mkdir memInicial 0 (some ['a', '\n', 'b']) 1 Construible.inicial (by decide)
      (by decide),
    by decide, by decide, by decide, by decide, by decide⟩

/-- C6 (amended): for a tree built by successful creates, moves with an absent or valid new
name, and line appends, whose names have no space, newline or NUL and at most 255
characters, whose absolute paths have at most 511 characters, whose lines have at most 1022
characters and do not end in a carriage return, and whose files have fewer than 2^31 lines:
the serializer returns a text; loading it into a fresh root succeeds without message; and
serializing the loaded tree gives exactly the same text. -/
theorem C6_reserializar (h : Mem) (hc : Construible h) (hcabe : ArbolCabe h) :
    ∃ txt, serializar_arbol h (some 0) = some (true, txt) ∧
      (recargado txt).val = true ∧ (recargado txt).out = [] ∧
      serializar_arbol (recargado txt).mem (some 0) = some (true, txt) := by
  obtain ⟨b, b1, h1, _, _, _, hser, hdes, hb1, hr1, hf1, hh1, hl1, _⟩ :=
    ida_y_vuelta h hc hcabe
  refine ⟨_, hser, ?_, ?_, ?_⟩
  · unfold recargado; rw [hdes]
  · unfold recargado; rw [hdes]
  · unfold recargado
    rw [hdes]
    simp only
    rw [serializar_arbol_bosque h1 hb1 b1 hr1 hh1 (by rw [forma_tam b b1 hf1]; omega),
      forma_serializar b b1 [] hf1]

/-- C6 (witness): `touch f` with the lines `x` and `y` serializes to `F /f 2`, `x`, `y` and
that text is a fixed point. -/
theorem C6_reserializar_testigo :
    Construible arbolFXY ∧ ArbolCabe arbolFXY ∧
    serializar_arbol arbolFXY (some 0) = some (true, "F /f 2\nx\ny\n".toList) ∧
    ∃ txt, serializar_arbol arbolFXY (some 0) = some (true, txt) ∧
      (recargado txt).val = true ∧ (recargado txt).out = [] ∧
      serializar_arbol (recargado txt).mem (some 0) = some (true, txt) :=
  ⟨construible_arbolFXY, by decide, by decide,
    C6_reserializar arbolFXY construible_arbolFXY (by decide)⟩

/-- C1 (counterexample): the tree `mkdir "a b"` is built by a successful create and holds a
node with absolute path `/a b`; it serializes to `D /a b⏎`; loading that text into a fresh
root succeeds, but no node of the loaded tree has the path `/a b` (it holds `/a`). -/
theorem C1_contraejemplo :
    Construible arbolEspacio ∧
    EntradaDe arbolEspacio 1 ("/a b".toList, TipoNodo.NODO_DIR, []) ∧
    serializar_arbol arbolEspacio (some 0) = some (true, "D /a b\n".toList) ∧
    (recargado "D /a b\n".toList).val = true ∧
    (∀ n, n < (recargado "D /a b\n".toList).mem.length →
      construir_ruta_absoluta (recargado "D /a b\n".toList).mem (some n) ≠
        some "/a b".toList) ∧
    construir_ruta_absoluta (recargado "D /a b\n".toList).mem (some 1) = some "/a".toList :=
  ⟨Construible.mkdir memInicial 0 (some "a b".toList) 1 Construible.inicial (by decide)
      (by decide),
    by unfold EntradaDe; decide, by decide, by decide, by decide, by decide⟩

/-- C1 (amended): for a tree built by successful creates, moves with an absent or valid new
name, and line appends, within the bounds of the persisted format (names without space,
newline or NUL and of at most 255 characters, absolute paths of at most 511 characters,
lines of at most 1022 characters not ending in a carriage return, fewer than 2^31 lines per
file): the serializer returns a text, loading it into a fresh root succeeds, and the loaded
tree has exactly the same entries, an entry being the absolute path, the kind and the line
sequence of a node. -/
theorem C1_ida_y_vuelta (h : Mem) (hc : Construible h) (hcabe : ArbolCabe h) :
    ∃ txt, serializar_arbol h (some 0) = some (true, txt) ∧
      (recargado txt).val = true ∧
      ∀ e, (∃ n, EntradaDe h n e) ↔ (∃ n, EntradaDe (recargado txt).mem n e) := by
  obtain ⟨b, b1, h1, hb, hr, hcub, hser, hdes, hb1, hr1, hf1, _, _, hids1⟩ :=
    ida_y_vuelta h hc hcabe
  refine ⟨_, hser, ?_, ?_⟩
  · unfold recargado; rw [hdes]
  · intro e
    unfold recargado
    rw [hdes]
    simp only
    rw [entradas_arbol h hb b hr hcub e,
      entradas_arbol h1 hb1 b1 hr1 (fun n hn hn0 => (hids1 n).2 ⟨by omega, hn⟩) e,
      forma_rutas b b1 [] hf1]

/-- C1 (witness): `touch f` with the lines `x` and `y`. -/
theorem C1_ida_y_vuelta_testigo :
    Construible arbolFXY ∧ ArbolCabe arbolFXY ∧
    ∃ txt, serializar_arbol arbolFXY (some 0) = some (true, txt) ∧
      (recargado txt).val = true ∧
      ∀ e, (∃ n, EntradaDe arbolFXY n e) ↔ (∃ n, EntradaDe (recargado txt).mem n e) :=
  ⟨construible_arbolFXY, by decide, C1_ida_y_vuelta arbolFXY construible_arbolFXY (by decide)⟩

/-! ## Tokens of the resolver -/

theorem leer_token_no_vacio (n : Nat) (c : Char) (r : Cadena) (hc : c ≠ '/') :
    (leer_token (n + 1) (c :: r)).1 ≠ [] := by
  simp [leer_token, hc]

theorem resolver_bucle_trocear (h : Mem) :
    ∀ (f cur : Nat) (r : Cadena), resolver_bucle h f cur r = recorrer h cur (trocear_con f r) := by
  intro f
  induction f with
  | zero => intro cur r; simp [resolver_bucle, trocear_con, recorrer]
  | succ f ih =>
    intro cur r
    cases hr : saltar_barras r with
    | nil => simp only [resolver_bucle, trocear_con, hr, recorrer]
    | cons c r1 =>
      have hc : c ≠ '/' := saltar_barras_cabeza r c r1 hr
      have hne : (leer_token 255 (c :: r1)).1 ≠ [] := leer_token_no_vacio 254 c r1 hc
      have hlen : (leer_token 255 (c :: r1)).1.length ≠ 0 := by
        intro h0; exact hne (List.length_eq_zero.mp h0)
      simp only [resolver_bucle, trocear_con, hr, recorrer, hlen, if_false, str_igual_some,
        decide_eq_true_eq]
      by_cases h1 : (leer_token 255 (c :: r1)).1 = ['.']
      · simp only [h1, if_true, ih]
      · simp only [h1, if_false]
        by_cases h2 : (leer_token 255 (c :: r1)).1 = ['.', '.']
        · simp only [h2, if_true]
          cases hp : (leer h cur).padre with
          | none => exact ih _ _
          | some p => exact ih _ _
        · simp only [h2, if_false]
          by_cases h3 : (leer h cur).tipo ≠ TipoNodo.NODO_DIR
          · rw [if_pos h3, if_pos h3]
          · rw [if_neg h3, if_neg h3]
            cases hb : buscar_hijo h (some cur) (some (leer_token 255 (c :: r1)).1) with
            | none => rfl
            | some nxt => simp only [ih]

theorem trocear_con_combustible :
    ∀ (f1 f2 : Nat) (r : Cadena), r.length < f1 → r.length < f2 →
      trocear_con f1 r = trocear_con f2 r := by
  intro f1
  induction f1 with
  | zero => intro f2 r h1; omega
  | succ f1 ih =>
    intro f2 r h1 h2
    cases f2 with
    | zero => omega
    | succ f2 =>
      cases hr : saltar_barras r with
      | nil => simp only [trocear_con, hr]
      | cons c r1 =>
        have hc : c ≠ '/' := saltar_barras_cabeza r c r1 hr
        have hlt : (leer_token 255 (c :: r1)).2.length < (c :: r1).length :=
          leer_token_resto_lt 254 c r1 hc
        have hle := saltar_barras_length r
        rw [hr] at hle
        simp only [trocear_con, hr]
        rw [ih f2 _ (by omega) (by omega)]

theorem trocear_con_eq (f : Nat) (r : Cadena) (hf : r.length < f) :
    trocear_con f r = trocear r :=
  trocear_con_combustible f (r.length + 1) r hf (by omega)

theorem trocear_con_segmentos :
    ∀ (f : Nat) (r : Cadena), r.length < f → (∀ s ∈ segmentos r, s.length ≤ 255) →
      trocear_con f r = segmentos r := by
  intro f
  induction f with
  | zero => intro r h1; omega
  | succ f ih =>
    intro r h1 hseg
    cases hr : saltar_barras r with
    | nil =>
      have := saltar_barras_segmentos r
      rw [hr, segmentos_nil] at this
      simp only [trocear_con, hr, ← this]
    | cons c r1 =>
      obtain ⟨t, d, htd, htne, hts, hd, hsr, hdl⟩ := primer_segmento r c r1 hr
      have htl : t.length ≤ 255 := hseg t (by rw [hsr]; exact List.mem_cons_self _ _)
      have hq : leer_token 255 (c :: r1) = (t, d) := by
        rw [htd]; exact leer_token_partido 255 t d hts hd htl
      simp only [trocear_con, hr, hq, hsr]
      rw [ih d (by omega) (fun s hs => hseg s (by rw [hsr]; exact List.mem_cons_of_mem _ hs))]

theorem trocear_nil : trocear [] = [] := by
  simp [trocear, trocear_con, saltar_barras]

theorem trocear_barra (r : Cadena) : trocear ('/' :: r) = trocear r := by
  have h1 : trocear ('/' :: r) = trocear_con (r.length + 2) r := by
    simp only [trocear, trocear_con, saltar_barras, List.length_cons, if_true]
  rw [h1, trocear_con_eq _ _ (by omega)]

theorem trocear_barras (k : Nat) (r : Cadena) :
    trocear (List.replicate k '/' ++ r) = trocear r := by
  induction k with
  | zero => simp
  | succ k ih => rw [List.replicate_succ, List.cons_append, trocear_barra, ih]

theorem trocear_segmentos (r : Cadena) (hseg : ∀ s ∈ segmentos r, s.length ≤ 255) :
    trocear r = segmentos r :=
  trocear_con_segmentos _ r (by omega) hseg

theorem resolver_ruta_recorrer (h : Mem) (raiz cwd : Option Nat) (ruta : Cadena) (ini : Nat)
    (hini : resolver_inicio raiz cwd (some ruta) = some ini) :
    resolver_ruta h raiz cwd (some ruta) = recorrer h ini (trocear ruta) := by
  cases ruta with
  | nil => simp only [resolver_ruta, hini, trocear_nil, recorrer]
  | cons c r =>
    by_cases hc : c = '/'
    · subst hc
      simp only [resolver_ruta, hini, if_true, resolver_bucle_trocear, trocear_barra]
      rw [trocear_con_eq _ _ (by omega)]
    · simp only [resolver_ruta, hini, hc, if_false, resolver_bucle_trocear]
      rw [trocear_con_eq _ _ (by simp)]

theorem leer_token_tramo :
    ∀ (n : Nat) (t d : Cadena), '/' ∉ t → (d = [] ∨ ∃ d1, d = '/' :: d1) →
      leer_token n (t ++ d) = (t.take n, t.drop n ++ d) := by
  intro n
  induction n with
  | zero => intro t d _ _; simp [leer_token]
  | succ n ih =>
    intro t d hs hd
    cases t with
    | nil =>
      rcases hd with rfl | ⟨d1, rfl⟩
      · simp [leer_token]
      · simp [leer_token]
    | cons c t =>
      have hc : c ≠ '/' := by
        intro hc; apply hs; rw [hc]; exact List.mem_cons_self _ _
      have ht : '/' ∉ t := fun hm => hs (List.mem_cons_of_mem _ hm)
      show leer_token (n + 1) (c :: (t ++ d)) = _
      simp only [leer_token, hc, if_false, ih t d ht hd, List.take_succ_cons, List.drop_succ_cons]

theorem trocear_no_barra (c : Char) (r : Cadena) (hc : c ≠ '/') :
    trocear (c :: r) =
      (leer_token 255 (c :: r)).1 :: trocear (leer_token 255 (c :: r)).2 := by
  have hlt : (leer_token 255 (c :: r)).2.length < (c :: r).length :=
    leer_token_resto_lt 254 c r hc
  simp only [List.length_cons] at hlt
  have h1 : trocear (c :: r) =
      (leer_token 255 (c :: r)).1 :: trocear_con (r.length + 1) (leer_token 255 (c :: r)).2 := by
    unfold trocear
    rw [List.length_cons, trocear_con, saltar_barras_no_barra c r hc]
  rw [h1, trocear_con_eq _ _ (by omega)]

theorem trocear_tramo :
    ∀ (n : Nat) (t d e : Cadena), t.length ≤ n → '/' ∉ t →
      (d = [] ∨ ∃ d1, d = '/' :: d1) → (e = [] ∨ ∃ e1, e = '/' :: e1) →
      trocear d = trocear e → trocear (t ++ d) = trocear (t ++ e) := by
  intro n
  induction n with
  | zero =>
    intro t d e hn _ _ _ hde
    have : t = [] := List.length_eq_zero.mp (by omega)
    subst this; simpa using hde
  | succ n ih =>
    intro t d e hn hs hd he hde
    cases t with
    | nil => simpa using hde
    | cons c t =>
      have hc : c ≠ '/' := by
        intro hc; apply hs; rw [hc]; exact List.mem_cons_self _ _
      have h1 : leer_token 255 (c :: (t ++ d)) = _ := leer_token_tramo 255 (c :: t) d hs hd
      have h2 : leer_token 255 (c :: (t ++ e)) = _ := leer_token_tramo 255 (c :: t) e hs he
      have hdrop : '/' ∉ (c :: t).drop 255 := fun hm => hs (List.mem_of_mem_drop hm)
      have hlen : ((c :: t).drop 255).length ≤ n := by
        simp only [List.length_drop, List.length_cons] at hn ⊢; omega
      show trocear (c :: (t ++ d)) = trocear (c :: (t ++ e))
      rw [trocear_no_barra c _ hc, trocear_no_barra c _ hc, h1, h2]
      simp only
      rw [ih _ d e hlen hdrop hd he hde]

theorem trocear_engrosada (p q : Cadena) (hpq : Engrosada p q) :
    ∀ t : Cadena, '/' ∉ t → trocear (t ++ p) = trocear (t ++ q) := by
  induction hpq with
  | fin k =>
    intro t ht
    apply trocear_tramo t.length t _ _ (Nat.le_refl _) ht (Or.inl rfl)
    · cases k with
      | zero => exact Or.inl rfl
      | succ k => exact Or.inr ⟨List.replicate k '/', rfl⟩
    · have := trocear_barras k []
      simp only [List.append_nil] at this
      rw [this]
  | letra c p q hc _ ih =>
    intro t ht
    have := ih (t ++ [c]) (by
      intro hm
      rcases List.mem_append.mp hm with hm | hm
      · exact ht hm
      · simp only [List.mem_singleton] at hm; exact hc hm.symm)
    simpa using this
  | barra k p q _ ih =>
    intro t ht
    apply trocear_tramo t.length t _ _ (Nat.le_refl _) ht (Or.inr ⟨_, rfl⟩) (Or.inr ⟨_, rfl⟩)
    rw [trocear_barra, trocear_barra, trocear_barras]
    simpa using ih [] (by simp)

theorem engrosada_inicio (raiz cwd : Option Nat) (p q : Cadena) (hp : p ≠ [])
    (hpq : Engrosada p q) :
    resolver_inicio raiz cwd (some q) = resolver_inicio raiz cwd (some p) := by
  cases hpq with
  | fin k => exact absurd rfl hp
  | letra c p q hc _ => simp [resolver_inicio, hc]
  | barra k p q _ => simp [resolver_inicio]

/-- C12: for every tree, start nodes and non-empty path `p`, `resolver_ruta` gives the same
result (the same node, or the same failure with the same message) on `p` and on every path
made from `p` by turning slashes into runs of several slashes and by adding slashes at the
end. -/
theorem C12_barras_repetidas (h : Mem) (raiz cwd : Option Nat) (p q : Cadena) (hp : p ≠ [])
    (hpq : Engrosada p q) :
    resolver_ruta h raiz cwd (some q) = resolver_ruta h raiz cwd (some p) := by
  have hini := engrosada_inicio raiz cwd p q hp hpq
  cases hi : resolver_inicio raiz cwd (some p) with
  | none =>
    rw [hi] at hini
    simp only [resolver_ruta, hi, hini]
  | some ini =>
    rw [hi] at hini
    rw [resolver_ruta_recorrer h raiz cwd q ini hini, resolver_ruta_recorrer h raiz cwd p ini hi]
    have := trocear_engrosada p q hpq [] (by simp)
    simp only [List.nil_append] at this
    rw [this]

theorem C12_barras_repetidas_testigo :
    Engrosada "a/b.txt".toList "a//b.txt/".toList ∧
      resolver_ruta arbolABtxt (some 0) (some 0) (some "a/b.txt".toList) = (some 2, []) ∧
      resolver_ruta arbolABtxt (some 0) (some 0) (some "a//b.txt/".toList) =
        resolver_ruta arbolABtxt (some 0) (some 0) (some "a/b.txt".toList) :=
  have e : Engrosada "a/b.txt".toList "a//b.txt/".toList :=
    Engrosada.letra 'a' _ _ (by decide)
      (Engrosada.barra 1 _ _
        (Engrosada.letra 'b' _ _ (by decide)
          (Engrosada.letra '.' _ _ (by decide)
            (Engrosada.letra 't' _ _ (by decide)
              (Engrosada.letra 'x' _ _ (by decide)
                (Engrosada.letra 't' _ _ (by decide) (Engrosada.fin 1)))))))
  ⟨e, by decide, C12_barras_repetidas arbolABtxt (some 0) (some 0) _ _ (by decide) e⟩

theorem recorrer_falla (h : Mem) :
    ∀ (segs : List Cadena) (cur : Nat) (msg : Cadena),
      recorrer h cur segs = (none, msg) ↔
        ∃ pre s post c, segs = pre ++ s :: post ∧ recorrer h cur pre = (some c, []) ∧
          s ≠ ['.'] ∧ s ≠ ['.', '.'] ∧
          (((leer h c).tipo ≠ TipoNodo.NODO_DIR ∧
              msg = "Error: ruta atraviesa archivo\n".toList) ∨
            ((leer h c).tipo = TipoNodo.NODO_DIR ∧ buscar_hijo h (some c) (some s) = none ∧
              msg = "Error: elemento no encontrado: ".toList ++ s ++ ['\n'])) := by
  intro segs
  induction segs with
  | nil =>
    intro cur msg
    constructor
    · intro hr; simp [recorrer] at hr
    · rintro ⟨pre, s, post, c, hseg, _⟩
      cases pre <;> simp at hseg
  | cons s rest ih =>
    intro cur msg
    -- a step that moves on to `nxt` passes the question to the rest of the segments
    have sigue : ∀ nxt, (∀ l, recorrer h cur (s :: l) = recorrer h nxt l) →
        (s = ['.'] ∨ s = ['.', '.'] ∨ ((leer h cur).tipo = TipoNodo.NODO_DIR ∧
          buscar_hijo h (some cur) (some s) = some nxt)) →
        (recorrer h cur (s :: rest) = (none, msg) ↔
          ∃ pre s1 post c, s :: rest = pre ++ s1 :: post ∧ recorrer h cur pre = (some c, []) ∧
            s1 ≠ ['.'] ∧ s1 ≠ ['.', '.'] ∧
            (((leer h c).tipo ≠ TipoNodo.NODO_DIR ∧
                msg = "Error: ruta atraviesa archivo\n".toList) ∨
              ((leer h c).tipo = TipoNodo.NODO_DIR ∧
                buscar_hijo h (some c) (some s1) = none ∧
                msg = "Error: elemento no encontrado: ".toList ++ s1 ++ ['\n']))) := by
      intro nxt hstep hwhy
      rw [hstep rest, ih nxt msg]
      constructor
      · rintro ⟨pre, s1, post, c, hseg, hpre, h1, h2, h3⟩
        exact ⟨s :: pre, s1, post, c, by rw [hseg]; rfl, by rw [hstep pre]; exact hpre, h1, h2, h3⟩
      · rintro ⟨pre, s1, post, c, hseg, hpre, h1, h2, h3⟩
        cases pre with
        | nil =>
          simp only [List.nil_append, List.cons.injEq] at hseg
          obtain ⟨rfl, rfl⟩ := hseg
          simp only [recorrer, Prod.mk.injEq, Option.some.injEq, and_true] at hpre
          subst hpre
          rcases hwhy with hw | hw | ⟨hw1, hw2⟩
          · exact absurd hw h1
          · exact absurd hw h2
          · rcases h3 with ⟨h3, _⟩ | ⟨_, h3, _⟩
            · exact absurd hw1 h3
            · rw [hw2] at h3; cases h3
        | cons s0 pre =>
          simp only [List.cons_append, List.cons.injEq] at hseg
          obtain ⟨rfl, hrest⟩ := hseg
          exact ⟨pre, s1, post, c, hrest, by rw [← hstep pre]; exact hpre, h1, h2, h3⟩
    by_cases h1 : s = ['.']
    · exact sigue cur (fun l => by simp only [recorrer, h1, if_true]) (Or.inl h1)
    by_cases h2 : s = ['.', '.']
    · refine sigue ((leer h cur).padre.getD cur) (fun l => ?_) (Or.inr (Or.inl h2))
      subst h2
      simp [recorrer]
    by_cases h3 : (leer h cur).tipo ≠ TipoNodo.NODO_DIR
    · have hr : ∀ l, recorrer h cur (s :: l) = (none, "Error: ruta atraviesa archivo\n".toList) := by
        intro l
        simp only [recorrer, h1, h2, if_false]
        rw [if_pos h3]
      rw [hr rest]
      constructor
      · intro hm
        simp only [Prod.mk.injEq, true_and] at hm
        exact ⟨[], s, rest, cur, rfl, rfl, h1, h2, Or.inl ⟨h3, hm.symm⟩⟩
      · rintro ⟨pre, s1, post, c, hseg, hpre, h1', h2', h3'⟩
        cases pre with
        | nil =>
          simp only [List.nil_append, List.cons.injEq] at hseg
          obtain ⟨rfl, rfl⟩ := hseg
          simp only [recorrer, Prod.mk.injEq, Option.some.injEq, and_true] at hpre
          subst hpre
          rcases h3' with ⟨_, hm⟩ | ⟨hd, _⟩
          · rw [hm]
          · exact absurd hd h3
        | cons s0 pre =>
          simp only [List.cons_append, List.cons.injEq] at hseg
          obtain ⟨rfl, _⟩ := hseg
          rw [hr pre] at hpre
          cases hpre
    have h3' : (leer h cur).tipo = TipoNodo.NODO_DIR := by
      by_contra hx; exact h3 hx
    cases hb : buscar_hijo h (some cur) (some s) with
    | some nxt =>
      refine sigue nxt (fun l => ?_) (Or.inr (Or.inr ⟨h3', hb⟩))
      simp only [recorrer, h1, h2, if_false]
      rw [if_neg h3, hb]
    | none =>
      have hr : ∀ l, recorrer h cur (s :: l) =
          (none, "Error: elemento no encontrado: ".toList ++ s ++ ['\n']) := by
        intro l
        simp only [recorrer, h1, h2, if_false]
        rw [if_neg h3, hb]
      rw [hr rest]
      constructor
      · intro hm
        simp only [Prod.mk.injEq, true_and] at hm
        exact ⟨[], s, rest, cur, rfl, rfl, h1, h2, Or.inr ⟨h3', hb, hm.symm⟩⟩
      · rintro ⟨pre, s1, post, c, hseg, hpre, h1', h2', h4⟩
        cases pre with
        | nil =>
          simp only [List.nil_append, List.cons.injEq] at hseg
          obtain ⟨rfl, rfl⟩ := hseg
          simp only [recorrer, Prod.mk.injEq, Option.some.injEq, and_true] at hpre
          subst hpre
          rcases h4 with ⟨hd, _⟩ | ⟨_, _, hm⟩
          · exact absurd h3' hd
          · rw [hm]
        | cons s0 pre =>
          simp only [List.cons_append, List.cons.injEq] at hseg
          obtain ⟨rfl, _⟩ := hseg
          rw [hr pre] at hpre
          cases hpre

/-- C11 (amended): when every segment of the path has at most 255 characters, `resolver_ruta`
with an absent start node fails with "punto de inicio inválido", and with a present start
node it is the left-to-right walk `recorrer` over the segments: it fails exactly when an
ordinary segment (neither `.` nor `..`) is reached while the current node is not a directory
("ruta atraviesa archivo") or is a directory without a child of exactly that name ("elemento
no encontrado" naming the segment), and otherwise returns the node reached after the last
segment. -/
theorem C11_clasificacion (h : Mem) (raiz cwd : Option Nat) (ruta : Cadena)
    (hseg : ∀ s ∈ segmentos ruta, s.length ≤ 255) :
    (resolver_inicio raiz cwd (some ruta) = none →
        resolver_ruta h raiz cwd (some ruta) =
          (none, "Error: punto de inicio inválido\n".toList)) ∧
      ∀ ini, resolver_inicio raiz cwd (some ruta) = some ini →
        resolver_ruta h raiz cwd (some ruta) = recorrer h ini (segmentos ruta) ∧
        ∀ msg, resolver_ruta h raiz cwd (some ruta) = (none, msg) ↔
          ∃ pre s post c, segmentos ruta = pre ++ s :: post ∧
            recorrer h ini pre = (some c, []) ∧ s ≠ ['.'] ∧ s ≠ ['.', '.'] ∧
            (((leer h c).tipo ≠ TipoNodo.NODO_DIR ∧
                msg = "Error: ruta atraviesa archivo\n".toList) ∨
              ((leer h c).tipo = TipoNodo.NODO_DIR ∧
                buscar_hijo h (some c) (some s) = none ∧
                msg = "Error: elemento no encontrado: ".toList ++ s ++ ['\n'])) := by
  refine ⟨fun hno => by simp only [resolver_ruta, hno], fun ini hini => ?_⟩
  have e : resolver_ruta h raiz cwd (some ruta) = recorrer h ini (segmentos ruta) := by
    rw [resolver_ruta_recorrer h raiz cwd ruta ini hini, trocear_segmentos ruta hseg]
  refine ⟨e, fun msg => ?_⟩
  rw [e]
  exact recorrer_falla h (segmentos ruta) ini msg

theorem C11_clasificacion_testigo :
    (∀ s ∈ segmentos "../a/c".toList, s.length ≤ 255) ∧
      resolver_inicio (some 0) (some 1) (some "../a/c".toList) = some 1 ∧
      resolver_ruta arbolABtxt (some 0) (some 1) (some "../a/c".toList) =
        (none, "Error: elemento no encontrado: c\n".toList) ∧
      ((resolver_inicio (some 0) (some 1) (some "../a/c".toList) = none →
          resolver_ruta arbolABtxt (some 0) (some 1) (some "../a/c".toList) =
            (none, "Error: punto de inicio inválido\n".toList)) ∧
        ∀ ini, resolver_inicio (some 0) (some 1) (some "../a/c".toList) = some ini →
          resolver_ruta arbolABtxt (some 0) (some 1) (some "../a/c".toList) =
            recorrer arbolABtxt ini (segmentos "../a/c".toList) ∧
          ∀ msg, resolver_ruta arbolABtxt (some 0) (some 1) (some "../a/c".toList) =
              (none, msg) ↔
            ∃ pre s post c, segmentos "../a/c".toList = pre ++ s :: post ∧
              recorrer arbolABtxt ini pre = (some c, []) ∧ s ≠ ['.'] ∧ s ≠ ['.', '.'] ∧
              (((leer arbolABtxt c).tipo ≠ TipoNodo.NODO_DIR ∧
                  msg = "Error: ruta atraviesa archivo\n".toList) ∨
                ((leer arbolABtxt c).tipo = TipoNodo.NODO_DIR ∧
                  buscar_hijo arbolABtxt (some c) (some s) = none ∧
                  msg = "Error: elemento no encontrado: ".toList ++ s ++ ['\n']))) :=
  ⟨by decide, by decide, by decide,
    C11_clasificacion arbolABtxt (some 0) (some 1) "../a/c".toList (by decide)⟩

set_option maxRecDepth 20000 in
/-- C11 (as stated) fails. In `arbolLargo` the path made of the 255-letter name followed by
`b` is one ordinary segment of 256 characters; the root is a directory without a child of
that name, yet `resolver_ruta` succeeds and returns node 2, because the token buffer cuts the
segment after 255 characters. And with an absent start node the call fails on the path `.`,
where no ordinary segment is ever reached. -/
theorem C11_contraejemplo :
    segmentos (nombreLargo ++ ['b']) = [nombreLargo ++ ['b']] ∧
      (leer arbolLargo 0).tipo = TipoNodo.NODO_DIR ∧
      buscar_hijo arbolLargo (some 0) (some (nombreLargo ++ ['b'])) = none ∧
      resolver_ruta arbolLargo (some 0) (some 0) (some (nombreLargo ++ ['b'])) = (some 2, []) ∧
      resolver_ruta arbolA (some 0) none (some ".".toList) =
        (none, "Error: punto de inicio inválido\n".toList) := by
  refine ⟨by decide, by decide, by decide, by decide, by decide⟩

/-! ## The format of absolute paths -/

theorem subir_raiz_unico (h : Mem) (n r k k1 : Nat) (hr : (leer h r).padre = none)
    (h1 : subir h k n = some r) (h2 : subir h k1 n = some r) : k = k1 := by
  have aux : ∀ a b : Nat, subir h a n = some r → subir h (a + b) n = some r → b = 0 := by
    intro a b ha hab
    cases b with
    | zero => rfl
    | succ b =>
      rw [subir_add, ha] at hab
      simp only [Option.bind] at hab
      rw [subir_succ_none h b r hr] at hab
      cases hab
  rcases Nat.le_total k k1 with hle | hle
  · obtain ⟨j, rfl⟩ := Nat.exists_eq_add_of_le hle
    have := aux k j h1 h2
    omega
  · obtain ⟨j, rfl⟩ := Nat.exists_eq_add_of_le hle
    have := aux k1 j h2 h1
    omega

theorem camino_length (h : Mem) :
    ∀ (k n r : Nat), subir h k n = some r → (camino h k n).length = k := by
  intro k
  induction k with
  | zero => intro n r _; rfl
  | succ k ih =>
    intro n r hs
    cases hp : (leer h n).padre with
    | none => rw [subir_succ_none h k n hp] at hs; cases hs
    | some p =>
      rw [subir_succ h k n p hp] at hs
      simp only [camino, hp, List.length_append, List.length_singleton, ih p r hs]

theorem unir_nombres_intercalar (h : Mem) :
    ∀ arr : List Nat,
      unir_nombres h arr = List.intercalate ['/'] (arr.map (fun x => (leer h x).nombre)) := by
  intro arr
  induction arr with
  | nil => rfl
  | cons x rest ih =>
    cases rest with
    | nil => simp [unir_nombres, List.intercalate, List.intersperse]
    | cons y rest =>
      simp only [unir_nombres, ih]
      simp [List.intercalate, List.intersperse]

/-- C13: `construir_ruta_absoluta` gives `/` for an absent node and for the root; for a node
`n` lying `k` levels below the root `r` it gives `/` followed by the names of the nodes on the
way down from just below the root to `n`, joined by single slashes. The nodes of that way are
`camino h k n`: `k` nodes forming a downward path from `r` that ends in `n` and does not
contain `r`, so the root's name is not used; and the text ends with `/` and the name of `n`
itself, without any slash added after it. -/
theorem C13_formato_ruta (h : Mem) (n k r : Nat) (hsub : subir h k n = some r)
    (hr : (leer h r).padre = none) :
    construir_ruta_absoluta h none = some ['/'] ∧
      construir_ruta_absoluta h (some r) = some ['/'] ∧
      construir_ruta_absoluta h (some n) =
        some ('/' :: List.intercalate ['/']
          ((camino h k n).map (fun x => (leer h x).nombre))) ∧
      (camino h k n).length = k ∧ EsCamino h r (camino h k n) ∧ r ∉ camino h k n ∧
      (0 < k → (camino h k n).getLast? = some n ∧
        ∃ pre, construir_ruta_absoluta h (some n) = some (pre ++ '/' :: (leer h n).nombre)) := by
  have hk : k ≤ h.length := by
    obtain ⟨k1, hk1, hs1⟩ := subir_corto h r n k hsub
    rw [subir_raiz_unico h n r k k1 hr hsub hs1]; exact hk1
  have hcad := cadena_hasta_raiz_camino h r hr k (h.length + 1) n [] hsub (by omega)
  have hlen := camino_length h k n r hsub
  have hcam := camino_esCamino h r k n hsub
  have hn : construir_ruta_absoluta h (some n) =
      some ('/' :: unir_nombres h (camino h k n)) := by
    simp only [construir_ruta_absoluta, hcad, List.append_nil]
    cases hc : camino h k n with
    | nil => rfl
    | cons a arr => rfl
  refine ⟨rfl, ?_, ?_, hlen, hcam.1, ?_, ?_⟩
  · simp [construir_ruta_absoluta, cadena_hasta_raiz, hr]
  · rw [hn, unir_nombres_intercalar]
  · intro hm
    exact (camino_mem h k n r hm).2 hr
  · intro hpos
    cases k with
    | zero => omega
    | succ k =>
      cases hp : (leer h n).padre with
      | none => rw [subir_succ_none h k n hp] at hsub; cases hsub
      | some p =>
        have hc : camino h (k + 1) n = camino h k p ++ [n] := by simp only [camino, hp]
        refine ⟨by rw [hc]; simp, ?_⟩
        rw [hn, hc]
        by_cases he : camino h k p = []
        · exact ⟨[], by rw [he]; rfl⟩
        · exact ⟨'/' :: unir_nombres h (camino h k p), by
            rw [unir_nombres_append h _ n he]; simp⟩

theorem C13_formato_ruta_testigo :
    construir_ruta_absoluta arbolABtxt (some 2) = some "/a/b.txt".toList ∧
      (construir_ruta_absoluta arbolABtxt none = some ['/'] ∧
      construir_ruta_absoluta arbolABtxt (some 0) = some ['/'] ∧
      construir_ruta_absoluta arbolABtxt (some 2) =
        some ('/' :: List.intercalate ['/']
          ((camino arbolABtxt 2 2).map (fun x => (leer arbolABtxt x).nombre))) ∧
      (camino arbolABtxt 2 2).length = 2 ∧ EsCamino arbolABtxt 0 (camino arbolABtxt 2 2) ∧
      0 ∉ camino arbolABtxt 2 2 ∧
      (0 < 2 → (camino arbolABtxt 2 2).getLast? = some 2 ∧
        ∃ pre, construir_ruta_absoluta arbolABtxt (some 2) =
          some (pre ++ '/' :: (leer arbolABtxt 2).nombre))) :=
  ⟨by decide, C13_formato_ruta arbolABtxt 2 2 0 (by decide) (by decide)⟩

/-! ## The records of the serializer and their order -/

theorem orden_perm (b : Bosque) : b.orden.Perm b.ids := by
  induction b with
  | vacio => exact List.Perm.refl _
  | nodo id t nm ls hj hm ihj ihm =>
    simp only [Bosque.orden, Bosque.ids]
    refine List.perm_middle.trans (List.Perm.cons _ ?_)
    exact (List.Perm.append ihm ihj).trans List.perm_append_comm

theorem mem_orden (b : Bosque) (x : Nat) : x ∈ b.orden ↔ x ∈ b.ids :=
  (orden_perm b).mem_iff

theorem serializar_bosque_orden (h : Mem) (hb : Bien h) :
    ∀ (b : Bosque) (p : Nat), Representa h p b →
      serializar_bosque (prefijo h p) b = (b.orden.map (registro_nodo h)).flatten := by
  intro b
  induction b with
  | vacio => intro p _; rfl
  | nodo id t nm ls hj hm ihj ihm =>
    intro p hr
    obtain ⟨hid, hleer, hrj, hrm⟩ := hr
    have hpad : (leer h id).padre = some p := by rw [hleer]
    have hnm : (leer h id).nombre = nm := by rw [hleer]
    have hpre : prefijo h id = prefijo h p ++ '/' :: nm := by
      rw [prefijo_hijo h hb id p hid hpad, hnm]
    have hcon : construir_ruta_absoluta h (some id) = some (prefijo h p ++ '/' :: nm) := by
      rw [construir_hijo h hb id p hid hpad, hnm]
    have hreg : registro_nodo h id = registro_de t (prefijo h p ++ '/' :: nm) ls := by
      simp only [registro_nodo, hcon, Option.getD, hleer]
    simp only [serializar_bosque, Bosque.orden, List.map_append, List.map_cons,
      List.flatten_append, List.flatten_cons, ihm p hrm, ← hpre, ihj id hrj, hreg]

theorem representa_bajo (h : Mem) (hb : Bien h) (b : Bosque) (p : Nat) (hr : Representa h p b)
    (hc : (leer h p).hijos = b.cimas) :
    ∀ (k n : Nat), n < h.length → n ≠ p → subir h k n = some p → n ∈ b.ids := by
  intro k
  induction k with
  | zero =>
    intro n _ hn0 hk
    simp only [subir, Option.some.injEq] at hk
    exact absurd hk hn0
  | succ k ih =>
    intro n hn hn0 hk
    cases hq : (leer h n).padre with
    | none => rw [subir_succ_none h k n hq] at hk; cases hk
    | some q =>
      rw [subir_succ h k n q hq] at hk
      obtain ⟨a1, a2, _⟩ := hb.padre_ok n q hn hq
      by_cases hqp : q = p
      · subst hqp
        rw [hc] at a2
        exact cimas_sub_ids b n a2
      · exact representa_hijos h b p hr q (ih q a1 hqp hk) n a2

theorem orden_bajo (h : Mem) (hb : Bien h) (id p : Nat) (t : TipoNodo) (nm : Cadena)
    (ls : List Cadena) (hj : Bosque) (hid : id < h.length)
    (hleer : leer h id = ⟨t, nm, some p, hj.cimas, ls⟩) (hrj : Representa h id hj) (x : Nat) :
    x ∈ hj.orden ↔ (x ≠ id ∧ Desciende h id x) := by
  rw [mem_orden]
  constructor
  · intro hx
    obtain ⟨hxl, c, hc, k, hk⟩ := representa_ids h hj id hrj x hx
    have hcp := (representa_cimas h hj id hrj c hc).2
    have hs : subir h (k + 1) x = some id := by
      rw [subir_add, hk]
      simp only [Option.bind, subir, hcp]
    refine ⟨?_, ⟨k + 1, hs⟩⟩
    intro hxe
    subst hxe
    exact hb.sin_vuelta x hxl k hs
  · rintro ⟨hne, k, hk⟩
    have hxl : x < h.length := by
      by_contra hge
      cases k with
      | zero => simp only [subir, Option.some.injEq] at hk; exact hne hk
      | succ k =>
        have : (leer h x).padre = none := by
          rw [leer_fuera h x (Nat.le_of_not_lt hge)]; rfl
        rw [subir_succ_none h k x this] at hk; cases hk
    exact representa_bajo h hb hj id hrj (by rw [hleer]) k x hxl hne hk

theorem orden_contiguo (h : Mem) (hb : Bien h) :
    ∀ (b : Bosque) (p : Nat), Representa h p b →
      ∀ n ∈ b.orden, ∃ a d c, b.orden = a ++ n :: (d ++ c) ∧
        ∀ x, x ∈ d ↔ (x ≠ n ∧ Desciende h n x) := by
  intro b
  induction b with
  | vacio => intro p _ n hn; simp [Bosque.orden] at hn
  | nodo id t nm ls hj hm ihj ihm =>
    intro p hr n hn
    obtain ⟨hid, hleer, hrj, hrm⟩ := hr
    simp only [Bosque.orden, List.mem_append, List.mem_cons] at hn
    rcases hn with hn | hn | hn
    · obtain ⟨a, d, c, he, hd⟩ := ihm p hrm n hn
      exact ⟨a, d, c ++ id :: hj.orden, by simp [Bosque.orden, he], hd⟩
    · subst hn
      exact ⟨hm.orden, hj.orden, [], by simp [Bosque.orden],
        orden_bajo h hb n p t nm ls hj hid hleer hrj⟩
    · obtain ⟨a, d, c, he, hd⟩ := ihj id hrj n hn
      exact ⟨hm.orden ++ id :: a, d, c, by simp [Bosque.orden, he], hd⟩

theorem antes_izquierda (l m : List Nat) (x y : Nat) (hxy : Antes l x y) : Antes (l ++ m) x y := by
  obtain ⟨a, b, c, he⟩ := hxy
  exact ⟨a, b, c ++ m, by simp [he]⟩

theorem antes_derecha (l m : List Nat) (x y : Nat) (hxy : Antes l x y) : Antes (m ++ l) x y := by
  obtain ⟨a, b, c, he⟩ := hxy
  exact ⟨m ++ a, b, c, by simp [he]⟩

theorem antes_de_mem (l m : List Nat) (x y : Nat) (hx : x ∈ l) : Antes (l ++ y :: m) x y := by
  obtain ⟨a, b, he⟩ := List.append_of_mem hx
  exact ⟨a, b, m, by simp [he]⟩

theorem orden_hermanos (h : Mem) :
    ∀ (b : Bosque) (p : Nat), Representa h p b →
      (∀ c1 c2, Antes b.cimas c1 c2 → Antes b.orden c2 c1) ∧
      (∀ x ∈ b.ids, ∀ c1 c2, Antes (leer h x).hijos c1 c2 → Antes b.orden c2 c1) := by
  intro b
  induction b with
  | vacio =>
    intro p _
    refine ⟨?_, ?_⟩
    · rintro c1 c2 ⟨a, b, c, he⟩
      simp [Bosque.cimas] at he
    · intro x hx; simp [Bosque.ids] at hx
  | nodo id t nm ls hj hm ihj ihm =>
    intro p hr
    obtain ⟨hid, hleer, hrj, hrm⟩ := hr
    refine ⟨?_, ?_⟩
    · rintro c1 c2 ⟨a, b, c, he⟩
      simp only [Bosque.cimas] at he
      cases a with
      | nil =>
        simp only [List.nil_append, List.cons.injEq] at he
        obtain ⟨rfl, he⟩ := he
        have hc2 : c2 ∈ hm.orden := by
          rw [mem_orden]; apply cimas_sub_ids; rw [he]; simp
        exact antes_de_mem hm.orden hj.orden c2 id hc2
      | cons a0 a =>
        simp only [List.cons_append, List.cons.injEq] at he
        have := (ihm p hrm).1 c1 c2 ⟨a, b, c, he.2⟩
        simpa [Bosque.orden] using antes_izquierda _ (id :: hj.orden) _ _ this
    · intro x hx c1 c2 hxy
      simp only [Bosque.ids, List.mem_cons, List.mem_append] at hx
      rcases hx with hx | hx | hx
      · subst hx
        have hh : (leer h x).hijos = hj.cimas := by rw [hleer]
        rw [hh] at hxy
        have := (ihj x hrj).1 c1 c2 hxy
        simpa [Bosque.orden] using antes_derecha _ (hm.orden ++ [x]) _ _ this
      · have := (ihj id hrj).2 x hx c1 c2 hxy
        simpa [Bosque.orden] using antes_derecha _ (hm.orden ++ [id]) _ _ this
      · have := (ihm p hrm).2 x hx c1 c2 hxy
        simpa [Bosque.orden] using antes_izquierda _ (id :: hj.orden) _ _ this

theorem serializar_arbol_orden (h : Mem) (hb : Bien h) :
    ∃ b, Representa h 0 b ∧ (leer h 0).hijos = b.cimas ∧
      serializar_arbol h (some 0) = some (true, (b.orden.map (registro_nodo h)).flatten) ∧
      b.orden.Nodup ∧ (∀ n, n ∈ b.orden ↔ (n < h.length ∧ n ≠ 0)) := by
  obtain ⟨b, hr, hc, ht, hnd, hcub, hids⟩ := existe_bosque h hb
  refine ⟨b, hr, hc, ?_, (orden_perm b).nodup_iff.mpr hnd, ?_⟩
  · rw [serializar_arbol_bosque h hb b hr hc ht, ← serializar_bosque_orden h hb b 0 hr,
      prefijo_raiz]
  · intro n
    rw [mem_orden]
    exact ⟨fun hn => hids n hn, fun hn => hcub n hn.1 hn.2⟩

theorem bien_arbolABtxt : Bien arbolABtxt :=
  construible_bien _ (Construible.touch arbolA 1 (some "b.txt".toList) 2
    (Construible.mkdir memInicial 0 (some "a".toList) 1 Construible.inicial (by decide)
      (by decide)) (by decide) (by decide))

theorem volcar_lineas_flatten (ls : List Cadena) :
    volcar_lineas ls = (ls.map (fun t => t ++ "\n".toList)).flatten := by
  induction ls with
  | nil => rfl
  | cons l ls ih =>
    simp only [volcar_lineas, List.map_cons, List.flatten_cons, ih]
    simp

/-- C14: for every well-formed tree whose line counts fit an `int`, the output of
`serializar_arbol` is the concatenation of exactly one record per non-root node and nothing
else: there is a list `l` without repetition of exactly the non-root nodes such that the text
written is, for the nodes of `l` one after another, the line `D <absolute path>` for a
directory and, for a file, the line `F <absolute path> <k>`, `k` being the number of its
lines in decimal, followed by each of its `k` lines in order, every one ended by a newline.
The root has no record. -/
theorem C14_formato_registros (h : Mem) (hb : Bien h)
    (_hk : ∀ n, n < h.length → (leer h n).lineas.length < 2 ^ 31) :
    ∃ l : List Nat, l.Nodup ∧ (∀ n, n ∈ l ↔ (n < h.length ∧ n ≠ 0)) ∧
      ∃ ruta : Nat → Cadena,
        (∀ n ∈ l, construir_ruta_absoluta h (some n) = some (ruta n)) ∧
        serializar_arbol h (some 0) =
          some (true, (l.map (fun n =>
            if (leer h n).tipo = TipoNodo.NODO_DIR then
              "D ".toList ++ ruta n ++ "\n".toList
            else
              "F ".toList ++ ruta n ++ " ".toList ++
                (Nat.repr (leer h n).lineas.length).toList ++ "\n".toList ++
                ((leer h n).lineas.map (fun t => t ++ "\n".toList)).flatten)).flatten) := by
  obtain ⟨b, _, _, hs, hnd, hmem⟩ := serializar_arbol_orden h hb
  refine ⟨b.orden, hnd, hmem, fun n => (construir_ruta_absoluta h (some n)).getD [], ?_, ?_⟩
  · intro n hn
    obtain ⟨hnl, hn0⟩ := (hmem n).mp hn
    obtain ⟨p, hp⟩ := hb.con_padre n hnl hn0
    show construir_ruta_absoluta h (some n) =
      some ((construir_ruta_absoluta h (some n)).getD [])
    rw [construir_hijo h hb n p hnl hp]; rfl
  · rw [hs]
    congr 4
    funext n
    simp only [registro_nodo, registro_de]
    by_cases ht : (leer h n).tipo = TipoNodo.NODO_DIR
    · simp [ht]
    · rw [if_neg ht, if_neg ht, volcar_lineas_flatten]
      have : decimal (leer h n).lineas.length = (Nat.repr (leer h n).lineas.length).toList := rfl
      rw [this]
      simp

/-- C14 (witness): `mkdir a; touch a/b.txt` gives exactly `D /a` then `F /a/b.txt 0`, and the
file `f` with the lines `x` and `y` gives `F /f 2` followed by the two lines. -/
theorem C14_formato_registros_testigo :
    (Bien arbolFXY ∧ ∀ n, n < arbolFXY.length → (leer arbolFXY n).lineas.length < 2 ^ 31) ∧
      serializar_arbol arbolABtxt (some 0) = some (true, "D /a\nF /a/b.txt 0\n".toList) ∧
      serializar_arbol arbolFXY (some 0) = some (true, "F /f 2\nx\ny\n".toList) ∧
      ∃ l : List Nat, l.Nodup ∧ (∀ n, n ∈ l ↔ (n < arbolFXY.length ∧ n ≠ 0)) ∧
        ∃ ruta : Nat → Cadena,
          (∀ n ∈ l, construir_ruta_absoluta arbolFXY (some n) = some (ruta n)) ∧
          serializar_arbol arbolFXY (some 0) =
            some (true, (l.map (fun n =>
              if (leer arbolFXY n).tipo = TipoNodo.NODO_DIR then
                "D ".toList ++ ruta n ++ "\n".toList
              else
                "F ".toList ++ ruta n ++ " ".toList ++
                  (Nat.repr (leer arbolFXY n).lineas.length).toList ++ "\n".toList ++
                  ((leer arbolFXY n).lineas.map (fun t => t ++ "\n".toList)).flatten)).flatten) :=
  ⟨⟨construible_bien _ construible_arbolFXY, by decide⟩, by decide, by decide,
    C14_formato_registros arbolFXY (construible_bien _ construible_arbolFXY) (by decide)⟩

/-- C15 (as stated) fails. After `mkdir a; mkdir b` the sibling list of the root is `b, a`
(node 2 before node 1, the most recently linked first), but the record of `a` is emitted
before the record of `b`. -/
theorem C15_contraejemplo :
    (leer arbolAB 0).hijos = [2, 1] ∧ (leer arbolAB 1).nombre = "a".toList ∧
      (leer arbolAB 2).nombre = "b".toList ∧
      serializar_arbol arbolAB (some 0) = some (true, "D /a\nD /b\n".toList) := by
  decide

/-- C15 (amended): for every well-formed tree the output of `serializar_arbol` is the records
of the non-root nodes in a pre-order: the record of every node is followed at once by the
records of exactly its descendants (so a directory comes before all its descendants and every
subtree is contiguous); and the children of every node are visited in the reverse of the
sibling-list order: of two children, the one that stands later in the list of its parent
(the one linked earlier) has its record first. -/
theorem C15_orden_registros (h : Mem) (hb : Bien h) :
    ∃ l : List Nat, (∀ n, n ∈ l ↔ (n < h.length ∧ n ≠ 0)) ∧
      serializar_arbol h (some 0) = some (true, (l.map (registro_nodo h)).flatten) ∧
      (∀ n ∈ l, ∃ a d c, l = a ++ n :: (d ++ c) ∧
        ∀ x, x ∈ d ↔ (x ≠ n ∧ Desciende h n x)) ∧
      (∀ p c1 c2, p < h.length → Antes (leer h p).hijos c1 c2 → Antes l c2 c1) := by
  obtain ⟨b, hr, hc, hs, _, hmem⟩ := serializar_arbol_orden h hb
  refine ⟨b.orden, hmem, hs, orden_contiguo h hb b 0 hr, ?_⟩
  intro p c1 c2 hp hxy
  by_cases hp0 : p = 0
  · subst hp0
    rw [hc] at hxy
    exact (orden_hermanos h b 0 hr).1 c1 c2 hxy
  · have : p ∈ b.ids := (mem_orden b p).mp ((hmem p).mpr ⟨hp, hp0⟩)
    exact (orden_hermanos h b 0 hr).2 p this c1 c2 hxy

theorem C15_orden_registros_testigo :
    Bien arbolAB ∧ Antes (leer arbolAB 0).hijos 2 1 ∧
      ∃ l : List Nat, (∀ n, n ∈ l ↔ (n < arbolAB.length ∧ n ≠ 0)) ∧
        serializar_arbol arbolAB (some 0) =
          some (true, (l.map (registro_nodo arbolAB)).flatten) ∧
        (∀ n ∈ l, ∃ a d c, l = a ++ n :: (d ++ c) ∧
          ∀ x, x ∈ d ↔ (x ≠ n ∧ Desciende arbolAB n x)) ∧
        (∀ p c1 c2, p < arbolAB.length → Antes (leer arbolAB p).hijos c1 c2 → Antes l c2 c1) :=
  ⟨bien_arbolAB, ⟨[], [], [], by decide⟩, C15_orden_registros arbolAB bien_arbolAB⟩

/-! ## Lines that the loader skips and lines that stop it -/

theorem extraer_fin (l : Cadena) (hl : '\n' ∉ l) :
    ∀ cap, l.length ≤ cap → extraer cap l = (l, [], false) := by
  induction l with
  | nil => intro cap _; cases cap <;> simp [extraer]
  | cons c t ih =>
    intro cap hcap
    have hc : c ≠ '\n' := by
      intro hc; apply hl; rw [hc]; exact List.mem_cons_self _ _
    have ht : '\n' ∉ t := fun hm => hl (List.mem_cons_of_mem _ hm)
    cases cap with
    | zero => simp at hcap
    | succ k =>
      simp only [List.length_cons] at hcap
      simp only [extraer, hc, if_false, ih ht k (by omega)]

theorem getline_cruda (l rest : Cadena) (hn : '\n' ∉ l) (hlen : l.length ≤ 1023) :
    getline ⟨l ++ '\n' :: rest, false⟩ 1024 = (some (c_str l), ⟨rest, false⟩) := by
  have he := extraer_linea l rest hn 1023 hlen
  cases hl : l ++ '\n' :: rest with
  | nil => simp at hl
  | cons c r =>
    rw [hl] at he
    simp [getline, he]

theorem getline_final (l : Cadena) (hne : l ≠ []) (hn : '\n' ∉ l) (hlen : l.length ≤ 1023) :
    getline ⟨l, false⟩ 1024 = (some (c_str l), ⟨[], false⟩) := by
  have he := extraer_fin l hn 1023 hlen
  cases l with
  | nil => exact absurd rfl hne
  | cons c r => simp [getline, he]

theorem c_str_cabeza (l : Cadena) (c : Char) (hc : (c_str l).head? = some c) :
    l.head? = some c := by
  cases l with
  | nil => simp [c_str] at hc
  | cons a t =>
    by_cases ha : a = Char.ofNat 0
    · simp [c_str, List.takeWhile, ha] at hc
    · simpa [c_str, List.takeWhile, ha] using hc

theorem deserializar_arbol_vacio (h : Mem) (raiz : Nat) :
    deserializar_arbol h (some raiz) ⟨[], false⟩ = ⟨h, true, []⟩ := by
  simp [deserializar_arbol, deserializar_bucle, getline]

theorem deserializar_paso (h : Mem) (raiz : Nat) (s : Flujo) :
    deserializar_arbol h (some raiz) s = deserializar_bucle raiz (s.resto.length + 1) h s := rfl

theorem deserializar_ignora (h : Mem) (raiz : Nat) (s s1 : Flujo) (t : Cadena)
    (hget : getline s 1024 = (some t, s1))
    (hign : ∀ c, t.head? = some c → c ≠ 'D' ∧ c ≠ 'F') :
    deserializar_arbol h (some raiz) s = deserializar_arbol h (some raiz) s1 := by
  have hlt : s1.resto.length < s.resto.length := by
    have := (getline_resto s 1024).2 t (by rw [hget])
    rw [hget] at this; exact this
  rw [deserializar_paso, deserializar_paso]
  cases t with
  | nil =>
    simp only [deserializar_bucle, hget]
    exact deserializar_bucle_combustible raiz s.resto.length (s1.resto.length + 1) h s1 hlt (by omega)
  | cons c t =>
    have hc := hign c rfl
    have hno : ¬ (c = 'D' ∨ c = 'F') := by
      intro hx; rcases hx with hx | hx
      · exact hc.1 hx
      · exact hc.2 hx
    simp only [deserializar_bucle, hget, hno, not_false_eq_true, if_true]
    exact deserializar_bucle_combustible raiz s.resto.length (s1.resto.length + 1) h s1 hlt (by omega)

theorem leer_ruta_cabeza (n : Nat) (r : Cadena) :
    (leer_ruta (n + 1) r).1.head? = some '/' ↔ r.head? = some '/' := by
  cases r with
  | nil => simp [leer_ruta]
  | cons c t =>
    by_cases hc : c = ' '
    · subst hc; simp [leer_ruta]
    · simp [leer_ruta, hc]

theorem deserializar_aborta (h : Mem) (raiz : Nat) (s s1 : Flujo) (tag : Char) (l : Cadena)
    (hget : getline s 1024 = (some (tag :: l), s1)) (htag : tag = 'D' ∨ tag = 'F')
    (hbad : l.head? ≠ some ' ' ∨ l.tail.head? ≠ some '/') :
    deserializar_arbol h (some raiz) s =
      ⟨h, false, if l.head? ≠ some ' ' then "Formato inválido\n".toList
        else "Ruta inválida\n".toList⟩ := by
  rw [deserializar_paso]
  have hyes : ¬ ¬ (tag = 'D' ∨ tag = 'F') := fun hx => hx htag
  by_cases h1 : l.head? ≠ some ' '
  · simp only [deserializar_bucle, hget]
    rw [if_neg hyes, if_pos h1, if_pos h1]
  · have h2 : l.tail.head? ≠ some '/' := by
      rcases hbad with hb | hb
      · exact absurd hb h1
      · exact hb
    have h3 : (leer_ruta 511 l.tail).1.head? ≠ some '/' := by
      intro hx; exact h2 ((leer_ruta_cabeza 510 l.tail).mp hx)
    simp only [deserializar_bucle, hget]
    rw [if_neg hyes, if_neg h1, if_neg h1, if_pos h3]

theorem enPosicion_dir_a : EnPosicion 0 memInicial "D /a\n".toList arbolA := by
  intro x
  have := cargar_registro_dir memInicial "/a".toList x (by decide) (by decide) (by decide)
  exact this

set_option maxRecDepth 100000 in
/-- C16 (as stated) fails. The line `Dx` does not begin with `D ` or `F `, yet it is not
ignored: loading it followed by `D /a` stops with "Formato inválido" and leaves the root
empty, while loading `D /a` alone succeeds and creates `a`. And a line of 1024 characters `#`
is not ignored either: it ends the load, so the `D /a` after it is never applied. -/
theorem C16_contraejemplo :
    deserializar_arbol memInicial (some 0) ⟨"Dx\nD /a\n".toList, false⟩ =
        ⟨memInicial, false, "Formato inválido\n".toList⟩ ∧
      deserializar_arbol memInicial (some 0) ⟨lineaLarga ++ "\nD /a\n".toList, false⟩ =
        ⟨memInicial, true, []⟩ ∧
      deserializar_arbol memInicial (some 0) ⟨"D /a\n".toList, false⟩ = ⟨arbolA, true, []⟩ ∧
      arbolA ≠ memInicial := by
  decide

/-- C16 (amended): a line of at most 1023 characters found at a record position whose first
character is neither `D` nor `F` (an empty line included) is ignored: the result of the load
(return value, tree and messages) is that of the stream without the line. The same holds for
such a line at the very end of the stream without a final newline. -/
theorem C16_lineas_ignoradas (raiz : Nat) (h0 h : Mem) (pre l post : Cadena)
    (hpos : EnPosicion raiz h0 pre h) (hn : '\n' ∉ l) (hlen : l.length ≤ 1023)
    (hign : ∀ c, l.head? = some c → c ≠ 'D' ∧ c ≠ 'F') :
    deserializar_arbol h0 (some raiz) ⟨pre ++ (l ++ '\n' :: post), false⟩ =
        deserializar_arbol h0 (some raiz) ⟨pre ++ post, false⟩ ∧
      deserializar_arbol h0 (some raiz) ⟨pre ++ l, false⟩ =
        deserializar_arbol h0 (some raiz) ⟨pre, false⟩ := by
  have hign1 : ∀ c, (c_str l).head? = some c → c ≠ 'D' ∧ c ≠ 'F' :=
    fun c hc => hign c (c_str_cabeza l c hc)
  refine ⟨?_, ?_⟩
  · rw [hpos, hpos]
    exact deserializar_ignora h raiz _ _ _ (getline_cruda l post hn hlen) hign1
  · by_cases hne : l = []
    · subst hne; simp
    · have := hpos []
      rw [List.append_nil] at this
      rw [hpos, this]
      exact deserializar_ignora h raiz _ _ _ (getline_final l hne hn hlen) hign1

theorem C16_lineas_ignoradas_testigo :
    EnPosicion 0 memInicial "D /a\n".toList arbolA ∧
      deserializar_arbol memInicial (some 0) ⟨"D /a\n".toList ++ "D /b\n".toList, false⟩ =
        ⟨arbolAB, true, []⟩ ∧
      (deserializar_arbol memInicial (some 0)
          ⟨"D /a\n".toList ++ ("# x".toList ++ '\n' :: "D /b\n".toList), false⟩ =
        deserializar_arbol memInicial (some 0) ⟨"D /a\n".toList ++ "D /b\n".toList, false⟩ ∧
      deserializar_arbol memInicial (some 0) ⟨"D /a\n".toList ++ "# x".toList, false⟩ =
        deserializar_arbol memInicial (some 0) ⟨"D /a\n".toList, false⟩) :=
  ⟨enPosicion_dir_a, by decide,
    C16_lineas_ignoradas 0 memInicial arbolA "D /a\n".toList "# x".toList "D /b\n".toList
      enPosicion_dir_a (by decide) (by decide) (by decide)⟩

theorem c_str_cons (c : Char) (l : Cadena) (hc : c ≠ NUL) : c_str (c :: l) = c :: c_str l := by
  have : c ≠ Char.ofNat 0 := hc
  simp [c_str, List.takeWhile, this]

theorem c_str_cabeza_iff (l : Cadena) (c : Char) (hc : c ≠ NUL) :
    (c_str l).head? = some c ↔ l.head? = some c := by
  refine ⟨c_str_cabeza l c, fun h => ?_⟩
  cases l with
  | nil => cases h
  | cons a t =>
    simp only [List.head?_cons, Option.some.injEq] at h
    subst h
    rw [c_str_cons _ _ hc]; rfl

theorem c_str_segundo (l : Cadena) (hn : (c_str l).tail.head? = some '/') :
    l.tail.head? = some '/' := by
  cases l with
  | nil => simp [c_str] at hn
  | cons a t =>
    by_cases ha : a = NUL
    · subst ha; simp [c_str, List.takeWhile, NUL] at hn
    · rw [c_str_cons _ _ ha] at hn
      exact c_str_cabeza t '/' hn

set_option maxRecDepth 100000 in
/-- C17 (as stated) fails. A record whose tag is not followed by a space, or whose path does
not begin with `/`, does not make the load return false when its line has 1024 characters or
more: the read of the line fails, the loop ends and the load returns true, here after the
record `D /a` has been applied. -/
theorem C17_contraejemplo :
    deserializar_arbol memInicial (some 0)
        ⟨"D /a\n".toList ++ ('D' :: lineaLarga ++ "\nD /b\n".toList), false⟩ =
        ⟨arbolA, true, []⟩ ∧
      deserializar_arbol memInicial (some 0)
        ⟨"D /a\n".toList ++ ('F' :: ' ' :: lineaLarga ++ "\nD /b\n".toList), false⟩ =
        ⟨arbolA, true, []⟩ ∧
      ('D' :: lineaLarga).tail.head? ≠ some ' ' ∧
      ('F' :: ' ' :: lineaLarga).tail.tail.head? ≠ some '/' := by
  decide

/-- C17 (amended): when the loader stands at a record position with the tree `h` after the
text `pre`, and the line that follows in the stream has at most 1023 characters, begins with
`D` or `F` and has no space as second character, or has a path (the text after `D ` or `F `)
that does not begin with `/`, the load returns false with "Formato inválido" or
"Ruta inválida"; nothing of the rest of the stream is applied, since the tree returned is
`h` whatever follows the line; and `h` is exactly the tree that the successful load of the
preceding text `pre` alone produces. The same holds when the line ends the stream without a
newline. -/
theorem C17_error_formato (raiz : Nat) (h0 h : Mem) (pre post : Cadena)
    (hpos : EnPosicion raiz h0 pre h) (tag : Char) (l : Cadena)
    (hn : '\n' ∉ l) (hlen : (tag :: l).length ≤ 1023) (htag : tag = 'D' ∨ tag = 'F')
    (hbad : l.head? ≠ some ' ' ∨ l.tail.head? ≠ some '/') :
    deserializar_arbol h0 (some raiz) ⟨pre ++ (tag :: l ++ '\n' :: post), false⟩ =
        ⟨h, false, if l.head? ≠ some ' ' then "Formato inválido\n".toList
          else "Ruta inválida\n".toList⟩ ∧
      deserializar_arbol h0 (some raiz) ⟨pre ++ tag :: l, false⟩ =
        ⟨h, false, if l.head? ≠ some ' ' then "Formato inválido\n".toList
          else "Ruta inválida\n".toList⟩ ∧
      deserializar_arbol h0 (some raiz) ⟨pre, false⟩ = ⟨h, true, []⟩ := by
  have htn : tag ≠ NUL := by
    rcases htag with rfl | rfl <;> decide
  have hn1 : '\n' ∉ tag :: l := by
    intro hm
    rcases List.mem_cons.mp hm with e | e
    · rcases htag with rfl | rfl <;> revert e <;> decide
    · exact hn e
  have hbad1 : (c_str l).head? ≠ some ' ' ∨ (c_str l).tail.head? ≠ some '/' := by
    rcases hbad with hb | hb
    · exact Or.inl (fun e => hb (c_str_cabeza l ' ' e))
    · exact Or.inr (fun e => hb (c_str_segundo l e))
  have hmsg : ((c_str l).head? ≠ some ' ') ↔ (l.head? ≠ some ' ') :=
    not_congr (c_str_cabeza_iff l ' ' (by decide))
  have hif : (if (c_str l).head? ≠ some ' ' then "Formato inválido\n".toList
      else "Ruta inválida\n".toList) =
      (if l.head? ≠ some ' ' then "Formato inválido\n".toList
        else "Ruta inválida\n".toList) := by
    by_cases hc : l.head? ≠ some ' '
    · rw [if_pos hc, if_pos (hmsg.mpr hc)]
    · rw [if_neg hc, if_neg (fun e => hc (hmsg.mp e))]
  refine ⟨?_, ?_, ?_⟩
  · rw [hpos]
    have hg := getline_cruda (tag :: l) post hn1 hlen
    rw [c_str_cons _ _ htn] at hg
    rw [← hif]
    exact deserializar_aborta h raiz _ _ tag (c_str l) hg htag hbad1
  · rw [hpos]
    have hg := getline_final (tag :: l) (by simp) hn1 hlen
    rw [c_str_cons _ _ htn] at hg
    rw [← hif]
    exact deserializar_aborta h raiz _ _ tag (c_str l) hg htag hbad1
  · have := hpos []
    rw [List.append_nil] at this
    rw [this, deserializar_arbol_vacio]

/-- C17 (witness): after `D /a`, the record `D b` stops the load with "Ruta inválida" and the
tree of `D /a` alone; the record `D /c` after it is not applied. -/
theorem C17_error_formato_testigo :
    (EnPosicion 0 memInicial "D /a\n".toList arbolA ∧ '\n' ∉ " b".toList ∧
        ('D' :: " b".toList).length ≤ 1023 ∧ " b".toList.tail.head? ≠ some '/') ∧
      deserializar_arbol memInicial (some 0)
          ⟨"D /a\n".toList ++ ('D' :: " b".toList ++ '\n' :: "D /c\n".toList), false⟩ =
        ⟨arbolA, false, "Ruta inválida\n".toList⟩ ∧
      deserializar_arbol memInicial (some 0) ⟨"D /a\n".toList, false⟩ = ⟨arbolA, true, []⟩ :=
  ⟨⟨enPosicion_dir_a, by decide, by decide, by decide⟩,
    (C17_error_formato 0 memInicial arbolA "D /a\n".toList "D /c\n".toList
      enPosicion_dir_a 'D' " b".toList (by decide) (by decide) (Or.inl rfl)
      (Or.inr (by decide))).1,
    (C17_error_formato 0 memInicial arbolA "D /a\n".toList "D /c\n".toList
      enPosicion_dir_a 'D' " b".toList (by decide) (by decide) (Or.inl rfl)
      (Or.inr (by decide))).2.2⟩

/-- C18 (failing input): in the tree `touch f`, loading the record `D /f/x` creates a
directory `x` as a child of the file `f` (node 2), and loading the same record again creates
a second directory `x` under `f` (node 3): the second application is not a no-op. -/
theorem C18_dir_bajo_archivo :
    (leer arbolF 1).tipo = TipoNodo.NODO_ARCHIVO ∧
      (deserializar_arbol arbolF (some 0) ⟨"D /f/x\n".toList, false⟩).val = true ∧
      (deserializar_arbol arbolF (some 0) ⟨"D /f/x\n".toList, false⟩).mem.length = 3 ∧
      (leer (deserializar_arbol arbolF (some 0) ⟨"D /f/x\n".toList, false⟩).mem 1).hijos = [2] ∧
      (deserializar_arbol (deserializar_arbol arbolF (some 0) ⟨"D /f/x\n".toList, false⟩).mem
        (some 0) ⟨"D /f/x\n".toList, false⟩).mem.length = 4 ∧
      (leer (deserializar_arbol
        (deserializar_arbol arbolF (some 0) ⟨"D /f/x\n".toList, false⟩).mem
        (some 0) ⟨"D /f/x\n".toList, false⟩).mem 1).hijos = [3, 2] ∧
      (deserializar_arbol arbolF (some 0) ⟨"D /f/x\nD /f/x\n".toList, false⟩).mem.length = 4 := by
  decide

/-- C20 (as stated) fails. The invariant of names holds in the empty root and in `arbolDAB`,
and is lost by the command `rename / x`, which gives the root the name `x`; by loading the
record `F / 0`, which creates a file with the empty name; and by `mover_nodo(a, d, "x/y")`,
which succeeds and leaves a node called `x/y`. -/
theorem C20_contraejemplo :
    NombresValidos arbolDAB ∧
      (mover_nodo arbolDAB (some 2) (some 1) (some "x/y".toList)).map
          (fun r => (r.val, (leer r.mem 2).nombre, decide (NombresValidos r.mem))) =
        some (true, "x/y".toList, false) ∧
      NombresValidos memInicial ∧
      (deserializar_arbol memInicial (some 0) ⟨"F / 0\n".toList, false⟩).val = true ∧
      leer (deserializar_arbol memInicial (some 0) ⟨"F / 0\n".toList, false⟩).mem 1 =
        ⟨TipoNodo.NODO_ARCHIVO, [], some 0, [], []⟩ ∧
      ¬ NombresValidos (deserializar_arbol memInicial (some 0) ⟨"F / 0\n".toList, false⟩).mem ∧
      (leer (comando_rename memInicial 0 0 "/".toList "x".toList).mem 0).nombre = "x".toList ∧
      ¬ NombresValidos (comando_rename memInicial 0 0 "/".toList "x".toList).mem := by
  decide

/-! ## The walk of the loader along a path of names -/

theorem ruta_de_append (a b : List Cadena) : ruta_de (a ++ b) = ruta_de a ++ ruta_de b := by
  induction a with
  | nil => rfl
  | cons s rest ih => simp [ruta_de, ih]

theorem ruta_de_frontera (ns : List Cadena) (d : Cadena)
    (hd : d = [] ∨ ∃ d1, d = '/' :: d1) :
    ruta_de ns ++ d = [] ∨ ∃ d1, ruta_de ns ++ d = '/' :: d1 := by
  cases ns with
  | nil => simpa [ruta_de] using hd
  | cons s rest => exact Or.inr ⟨s ++ (ruta_de rest ++ d), by simp [ruta_de]⟩

theorem asegurar_bucle_nombres :
    ∀ (ns : List Cadena) (h : Mem) (cur : Nat) (d : Cadena) (f : Nat),
      (∀ s ∈ ns, s ≠ [] ∧ '/' ∉ s ∧ s.length ≤ 255) →
      (d = [] ∨ ∃ d1, d = '/' :: d1) → (ruta_de ns ++ d).length < f →
      asegurar_bucle f h cur (ruta_de ns ++ d) =
        asegurar_bucle f (asegurar_nombres h cur ns).1 (asegurar_nombres h cur ns).2 d := by
  intro ns
  induction ns with
  | nil => intro h cur d f _ _ _; rfl
  | cons s rest ih =>
    intro h cur d f hns hd hf
    obtain ⟨hs1, hs2, hs3⟩ := hns s (List.mem_cons_self _ _)
    have hrest : ∀ x ∈ rest, x ≠ [] ∧ '/' ∉ x ∧ x.length ≤ 255 :=
      fun x hx => hns x (List.mem_cons_of_mem _ hx)
    have hfr := ruta_de_frontera rest d hd
    have he : ruta_de (s :: rest) ++ d = '/' :: (s ++ (ruta_de rest ++ d)) := by
      simp [ruta_de]
    rw [he] at hf ⊢
    simp only [List.length_cons, List.length_append] at hf
    cases f with
    | zero => omega
    | succ f =>
      rw [asegurar_bucle_barra,
        asegurar_bucle_paso h cur (f + 1) s (ruta_de rest ++ d) hs1 hs2 hs3 hfr
          (by simp only [List.length_append]; omega)]
      cases hb : buscar_hijo h (some cur) (some s) with
      | some nxt =>
        simp only [asegurar_nombres, hb]
        exact ih h nxt d (f + 1) hrest hd (by simp only [List.length_append]; omega)
      | none =>
        simp only [asegurar_nombres, hb]
        exact ih _ h.length d (f + 1) hrest hd (by simp only [List.length_append]; omega)

theorem asegurar_ruta_de (h : Mem) (ns : List Cadena) (hne : ns ≠ [])
    (hns : ∀ s ∈ ns, s ≠ [] ∧ '/' ∉ s ∧ s.length ≤ 255) :
    asegurar_directorio_absoluto h (some 0) (some (ruta_de ns)) =
      ((asegurar_nombres h 0 ns).1, some (asegurar_nombres h 0 ns).2) := by
  cases ns with
  | nil => exact absurd rfl hne
  | cons s rest =>
    have h1 := asegurar_bucle_nombres (s :: rest) h 0 [] ((s ++ ruta_de rest).length + 2) hns
      (Or.inl rfl) (by simp [ruta_de])
    simp only [List.append_nil, asegurar_bucle_fin] at h1
    have h2 : ruta_de (s :: rest) = '/' :: (s ++ ruta_de rest) := rfl
    rw [h2] at h1 ⊢
    rw [asegurar_bucle_barra] at h1
    simp only [asegurar_directorio_absoluto, ne_eq, not_true_eq_false, if_false]
    rw [asegurar_bucle_combustible _ ((s ++ ruta_de rest).length + 1 + 1) h 0 _ (by omega)
      (by omega), h1]

theorem asegurar_barra_sola (h : Mem) :
    asegurar_directorio_absoluto h (some 0) (some ['/']) = (h, some 0) := by
  simp [asegurar_directorio_absoluto, asegurar_bucle_fin]

theorem leer_numero_decimal (n : Nat) :
    leer_numero 0 (saltar_espacios (' ' :: decimal n)) = n := by
  rcases decimal_no_vacio_cabeza n [] with e | e
  · simp only [List.append_nil] at e
    rw [e]; exact (decimal_spec _).1
  · have := (decimal_spec n).1
    rw [e] at this ⊢
    simpa [saltar_espacios, leer_numero] using this

theorem ultima_barra_partes (pre nm : Cadena) (hnm : '/' ∉ nm) :
    buscar_ultima_barra (pre ++ '/' :: nm) (pre ++ '/' :: nm).length = some pre.length := by
  have := buscar_ultima_barra_eq pre nm hnm nm.length (Nat.le_refl _)
  have e : (pre ++ '/' :: nm).length = pre.length + 1 + nm.length := by
    simp; omega
  rw [e]; exact this

theorem cargar_archivo_partes (h : Mem) (raiz : Nat) (pre nm r : Cadena) (s : Flujo)
    (hnm : '/' ∉ nm) (hlen : nm.length ≤ 255) (ha : Mem) (d : Nat)
    (hase : asegurar_directorio_absoluto h (some raiz)
      (some (if pre = [] then ['/'] else pre)) = (ha, some d)) :
    (∀ f, buscar_hijo ha (some d) (some nm) = some f →
      cargar_archivo h raiz (pre ++ '/' :: nm) r s =
        some (leer_lineas (leer_numero 0 (saltar_espacios r)) ha f s)) ∧
    (buscar_hijo ha (some d) (some nm) = none →
      cargar_archivo h raiz (pre ++ '/' :: nm) r s =
        some (leer_lineas (leer_numero 0 (saltar_espacios r))
          (insertar ha TipoNodo.NODO_ARCHIVO nm d) ha.length s)) := by
  have hub := ultima_barra_partes pre nm hnm
  have hnombre : ((pre ++ '/' :: nm).drop (pre.length + 1)).take 255 = nm := by
    have : (pre ++ '/' :: nm).drop (pre.length + 1) = nm := by
      have e : pre ++ '/' :: nm = (pre ++ ['/']) ++ nm := by simp
      rw [e]
      exact List.drop_left' (by simp)
    rw [this]
    exact List.take_of_length_le hlen
  cases pre with
  | nil =>
    simp only [if_true] at hase
    simp only [List.nil_append, List.length_nil, Nat.zero_add] at hub hnombre
    refine ⟨?_, ?_⟩
    · intro f hf
      unfold cargar_archivo
      simp only [List.nil_append, hub, hase, hnombre, hf]
    · intro hf
      unfold cargar_archivo
      simp only [List.nil_append, hub, hase, hnombre, hf]
      rfl
  | cons c t =>
    simp only [reduceCtorEq, if_false] at hase
    simp only [List.length_cons] at hub hnombre
    have htake : List.take (t.length + 1) (c :: t ++ '/' :: nm) = c :: t :=
      @List.take_left' _ (c :: t) ('/' :: nm) (t.length + 1) (by simp)
    refine ⟨?_, ?_⟩
    · intro f hf
      unfold cargar_archivo
      simp only [hub, htake, hase, hnombre, hf]
    · intro hf
      unfold cargar_archivo
      simp only [hub, htake, hase, hnombre, hf]
      rfl

theorem buscar_hijo_sin_hijos (h : Mem) (d : Nat) (nm : Option Cadena)
    (hd : (leer h d).hijos = []) : buscar_hijo h (some d) nm = none := by
  by_cases ht : (leer h d).tipo = TipoNodo.NODO_DIR
  · rw [buscar_hijo_dir h d nm ht, hd]; rfl
  · exact buscar_hijo_no_dir h d nm ht

/-- In a well-formed tree, the walk along valid names from a directory, when no file lies on
the way, keeps the tree well formed, ends in a directory whose path prefix is the one of the
start followed by the names, and keeps the kind, name, parent and lines of every old node.
Either nothing was created, or the end node is new and has no children. -/
theorem asegurar_nombres_bien :
    ∀ (ns : List Cadena) (h : Mem) (cur : Nat), Bien h → cur < h.length →
      (leer h cur).tipo = TipoNodo.NODO_DIR →
      (∀ s ∈ ns, nombre_valido (some s) = true) →
      (∀ q, q < h.length → (leer h q).tipo = TipoNodo.NODO_ARCHIVO →
        ∀ a b, ns = a ++ b → a ≠ [] → prefijo h q ≠ prefijo h cur ++ ruta_de a) →
      Bien (asegurar_nombres h cur ns).1 ∧
      (asegurar_nombres h cur ns).2 < (asegurar_nombres h cur ns).1.length ∧
      (leer (asegurar_nombres h cur ns).1 (asegurar_nombres h cur ns).2).tipo =
        TipoNodo.NODO_DIR ∧
      prefijo (asegurar_nombres h cur ns).1 (asegurar_nombres h cur ns).2 =
        prefijo h cur ++ ruta_de ns ∧
      h.length ≤ (asegurar_nombres h cur ns).1.length ∧
      (∀ q, q < h.length →
        (leer (asegurar_nombres h cur ns).1 q).tipo = (leer h q).tipo ∧
        (leer (asegurar_nombres h cur ns).1 q).nombre = (leer h q).nombre ∧
        (leer (asegurar_nombres h cur ns).1 q).padre = (leer h q).padre ∧
        (leer (asegurar_nombres h cur ns).1 q).lineas = (leer h q).lineas) ∧
      ((asegurar_nombres h cur ns).1 = h ∨
        (leer (asegurar_nombres h cur ns).1 (asegurar_nombres h cur ns).2).hijos = []) ∧
      (∀ s rest, ns = s :: rest → buscar_hijo h (some cur) (some s) = none →
        (leer (asegurar_nombres h cur ns).1 (asegurar_nombres h cur ns).2).hijos = []) := by
  intro ns
  induction ns with
  | nil =>
    intro h cur hb hcur hdir _ _
    refine ⟨hb, hcur, hdir, by simp [asegurar_nombres, ruta_de], Nat.le_refl _,
      fun q _ => ⟨rfl, rfl, rfl, rfl⟩, Or.inl rfl, ?_⟩
    intro s rest he; cases he
  | cons s rest ih =>
    intro h cur hb hcur hdir hval hclear
    have hvs := hval s (List.mem_cons_self _ _)
    have hvrest : ∀ x ∈ rest, nombre_valido (some x) = true :=
      fun x hx => hval x (List.mem_cons_of_mem _ hx)
    have hbd := buscar_hijo_dir h cur (some s) hdir
    cases hbus : buscar_hijo h (some cur) (some s) with
    | some c =>
      rw [hbd] at hbus
      obtain ⟨hcm, hcn⟩ := buscar_en_some h s _ c hbus
      obtain ⟨hcl, hcp⟩ := hb.hijo_ok cur c hcur hcm
      have hpre : prefijo h c = prefijo h cur ++ '/' :: s := by
        rw [prefijo_hijo h hb c cur hcl hcp, hcn]
      have hcd : (leer h c).tipo = TipoNodo.NODO_DIR := by
        cases ht : (leer h c).tipo with
        | NODO_DIR => rfl
        | NODO_ARCHIVO =>
          exfalso
          apply hclear c hcl ht [s] rest rfl (by simp)
          rw [hpre]; simp [ruta_de]
      have hw : asegurar_nombres h cur (s :: rest) = asegurar_nombres h c rest := by
        simp only [asegurar_nombres, hbd, hbus]
      obtain ⟨i1, i2, i3, i4, i5, i6, i7, _⟩ := ih h c hb hcl hcd hvrest (by
        intro q hq hqt a b hab hane
        have := hclear q hq hqt (s :: a) b (by rw [hab]; rfl) (by simp)
        rw [hpre]
        simpa [ruta_de] using this)
      rw [hw]
      refine ⟨i1, i2, i3, ?_, i5, i6, i7, ?_⟩
      · rw [i4, hpre]; simp [ruta_de]
      · intro s1 rest1 he hno
        simp only [List.cons.injEq] at he
        obtain ⟨rfl, _⟩ := he
        rw [hbd, hbus] at hno; cases hno
    | none =>
      rw [hbd] at hbus
      have hno := (buscar_en_none_iff h s _).1 hbus
      have hb1 : Bien (insertar h TipoNodo.NODO_DIR s cur) :=
        bien_insertar h hb TipoNodo.NODO_DIR s cur hcur hdir hvs hno
      have hlen1 : (insertar h TipoNodo.NODO_DIR s cur).length = h.length + 1 :=
        length_insertar h _ s cur
      have hnew := leer_insertar_nuevo h TipoNodo.NODO_DIR s cur hcur
      have hold := leer_insertar_viejo h TipoNodo.NODO_DIR s cur hcur
      have hpc : ∀ q, q < h.length →
          prefijo (insertar h TipoNodo.NODO_DIR s cur) q = prefijo h q :=
        fun q hq => prefijo_congr h _ hb hb1 (by omega)
          (fun x hx => ⟨(hold x hx).2.1, (hold x hx).2.2.1⟩) q hq
      have hpre : prefijo (insertar h TipoNodo.NODO_DIR s cur) h.length =
          prefijo h cur ++ '/' :: s := by
        rw [prefijo_hijo _ hb1 h.length cur (by omega) (by rw [hnew]), hpc cur hcur, hnew]
      have hw : asegurar_nombres h cur (s :: rest) =
          asegurar_nombres (insertar h TipoNodo.NODO_DIR s cur) h.length rest := by
        simp only [asegurar_nombres, hbd, hbus]
      obtain ⟨i1, i2, i3, i4, i5, i6, i7, i8⟩ :=
        ih (insertar h TipoNodo.NODO_DIR s cur) h.length hb1 (by omega) (by rw [hnew])
          hvrest (by
            intro q hq hqt a b hab hane
            have hqo : q < h.length := by
              by_contra hge
              have : q = h.length := by omega
              rw [this, hnew] at hqt
              cases hqt
            rw [(hold q hqo).1] at hqt
            have := hclear q hqo hqt (s :: a) b (by rw [hab]; rfl) (by simp)
            rw [hpc q hqo, hpre]
            simpa [ruta_de] using this)
      have hsin : (leer (asegurar_nombres (insertar h TipoNodo.NODO_DIR s cur) h.length rest).1
          (asegurar_nombres (insertar h TipoNodo.NODO_DIR s cur) h.length rest).2).hijos = [] := by
        cases rest with
        | nil => simp only [asegurar_nombres, hnew]
        | cons s2 r2 =>
          exact i8 s2 r2 rfl (buscar_hijo_sin_hijos _ _ _ (by rw [hnew]))
      rw [hw]
      refine ⟨i1, i2, i3, ?_, by omega, ?_, Or.inr hsin, fun _ _ _ _ => hsin⟩
      · rw [i4, hpre]; simp [ruta_de]
      · intro q hq
        obtain ⟨a1, a2, a3, a4⟩ := i6 q (by omega)
        obtain ⟨b1, b2, b3, b4, _⟩ := hold q hq
        exact ⟨a1.trans b1, a2.trans b2, a3.trans b3, a4.trans b4⟩

/-! ## Paths as lists of names -/

theorem partir_unico :
    ∀ (s t x y : Cadena), '/' ∉ s → '/' ∉ t → (x = [] ∨ ∃ x1, x = '/' :: x1) →
      (y = [] ∨ ∃ y1, y = '/' :: y1) → s ++ x = t ++ y → s = t ∧ x = y := by
  intro s
  induction s with
  | nil =>
    intro t x y _ ht hx hy he
    cases t with
    | nil => exact ⟨rfl, by simpa using he⟩
    | cons c t =>
      exfalso
      simp only [List.nil_append, List.cons_append] at he
      rcases hx with rfl | ⟨x1, rfl⟩
      · cases he
      · simp only [List.cons.injEq] at he
        exact ht (by rw [← he.1]; exact List.mem_cons_self _ _)
  | cons c s ih =>
    intro t x y hs ht hx hy he
    cases t with
    | nil =>
      exfalso
      simp only [List.nil_append, List.cons_append] at he
      rcases hy with rfl | ⟨y1, rfl⟩
      · cases he
      · simp only [List.cons.injEq] at he
        exact hs (by rw [he.1]; exact List.mem_cons_self _ _)
    | cons c1 t =>
      simp only [List.cons_append, List.cons.injEq] at he
      obtain ⟨rfl, he⟩ := he
      obtain ⟨e1, e2⟩ := ih t x y (fun hm => hs (List.mem_cons_of_mem _ hm))
        (fun hm => ht (List.mem_cons_of_mem _ hm)) hx hy he
      exact ⟨by rw [e1], e2⟩

theorem ruta_de_borde (ns : List Cadena) : ruta_de ns = [] ∨ ∃ d, ruta_de ns = '/' :: d := by
  cases ns with
  | nil => exact Or.inl rfl
  | cons s rest => exact Or.inr ⟨s ++ ruta_de rest, rfl⟩

theorem ruta_de_iny :
    ∀ (xs ys : List Cadena), (∀ s ∈ xs, '/' ∉ s) → (∀ s ∈ ys, '/' ∉ s) →
      ruta_de xs = ruta_de ys → xs = ys := by
  intro xs
  induction xs with
  | nil =>
    intro ys _ _ he
    cases ys with
    | nil => rfl
    | cons s r => simp [ruta_de] at he
  | cons s r ih =>
    intro ys hx hy he
    cases ys with
    | nil => simp [ruta_de] at he
    | cons t q =>
      simp only [ruta_de, List.cons_append, List.cons.injEq, true_and] at he
      obtain ⟨e1, e2⟩ := partir_unico s t _ _ (hx s (List.mem_cons_self _ _))
        (hy t (List.mem_cons_self _ _)) (ruta_de_borde r) (ruta_de_borde q) he
      rw [e1, ih q (fun x hm => hx x (List.mem_cons_of_mem _ hm))
        (fun x hm => hy x (List.mem_cons_of_mem _ hm)) e2]

theorem unir_ruta_de (h : Mem) :
    ∀ arr : List Nat, arr ≠ [] →
      '/' :: unir_nombres h arr = ruta_de (arr.map (fun x => (leer h x).nombre)) := by
  intro arr
  induction arr with
  | nil => intro hne; exact absurd rfl hne
  | cons x rest ih =>
    intro _
    cases rest with
    | nil => simp [unir_nombres, ruta_de]
    | cons y r =>
      have := ih (by simp)
      simp only [unir_nombres, List.map_cons, ruta_de] at this ⊢
      rw [← this]
      simp

theorem ruta_de_final (ns : List Cadena) (nm : Cadena) :
    ruta_de (ns ++ [nm]) = ruta_de ns ++ '/' :: nm := by
  rw [ruta_de_append]; simp [ruta_de]

theorem ruta_de_limpia (ns : List Cadena) (hns : ∀ s ∈ ns, TextoLimpio s) :
    TextoLimpio (ruta_de ns) := by
  induction ns with
  | nil => intro c hc; simp [ruta_de] at hc
  | cons s rest ih =>
    intro c hc
    simp only [ruta_de, List.cons_append, List.mem_cons, List.mem_append] at hc
    rcases hc with rfl | hc | hc
    · decide
    · exact hns s (List.mem_cons_self _ _) c hc
    · exact ih (fun x hx => hns x (List.mem_cons_of_mem _ hx)) c hc

theorem cadena_hasta_raiz_congr (h h1 : Mem)
    (hs : ∀ q, (leer h1 q).padre = (leer h q).padre) :
    ∀ (f cur : Nat) (arr : List Nat),
      cadena_hasta_raiz h1 f cur arr = cadena_hasta_raiz h f cur arr := by
  intro f
  induction f with
  | zero => intro cur arr; rfl
  | succ f ih =>
    intro cur arr
    simp only [cadena_hasta_raiz, hs cur]
    cases (leer h cur).padre with
    | none => rfl
    | some p => exact ih p _

theorem construir_congr (h h1 : Mem) (hlen : h1.length = h.length)
    (hs : ∀ q, (leer h1 q).padre = (leer h q).padre ∧ (leer h1 q).nombre = (leer h q).nombre)
    (n : Option Nat) : construir_ruta_absoluta h1 n = construir_ruta_absoluta h n := by
  cases n with
  | none => rfl
  | some x =>
    simp only [construir_ruta_absoluta, hlen,
      cadena_hasta_raiz_congr h h1 (fun q => (hs q).1)]
    cases cadena_hasta_raiz h (h.length + 1) x [] with
    | none => rfl
    | some arr =>
      cases arr with
      | nil => rfl
      | cons a arr =>
        simp only
        rw [unir_nombres_congr h h1 (a :: arr) (fun y _ => (hs y).2)]

/-! ## Reading the content lines of an F record -/

theorem leer_linea_alloc_cruda (t rest : Cadena) (hlen : t.length ≤ 1023)
    (hl : LineaLimpia t) :
    leer_linea_alloc ⟨t ++ '\n' :: rest, false⟩ 1024 = (some (quitar_cr t), ⟨rest, false⟩) := by
  unfold leer_linea_alloc
  rw [getline_linea t rest (fun hm => (hl _ hm).1 rfl) (fun c hc => (hl c hc).2) hlen]
  by_cases hcr : t.getLast? = some '\r'
  · have hpos : 0 < str_longitud (some t) := by
      cases t with
      | nil => simp at hcr
      | cons c r => simp [str_longitud]
    simp [quitar_cr, hcr, hpos]
  · simp [quitar_cr, hcr]

theorem leer_anexar_mismo (h : Mem) (f : Nat) (t : Cadena) (hf : f < h.length) :
    leer (anexar_linea h f t) f = { leer h f with lineas := (leer h f).lineas ++ [t] } := by
  unfold anexar_linea
  rw [leer_set_eq _ _ _ hf]

theorem leer_anexar_otro (h : Mem) (f : Nat) (t : Cadena) (q : Nat) (hq : q ≠ f) :
    leer (anexar_linea h f t) q = leer h q := by
  unfold anexar_linea
  exact leer_set_ne _ _ _ _ (fun e => hq e.symm)

theorem leer_lineas_crudo (f : Nat) (resto : Cadena) :
    ∀ (ts : List Cadena) (h : Mem), (∀ t ∈ ts, t.length ≤ 1023 ∧ LineaLimpia t) →
      f < h.length →
      ∃ h1, leer_lineas ts.length h f ⟨volcar_lineas ts ++ resto, false⟩ =
          (h1, ⟨resto, false⟩) ∧
        h1.length = h.length ∧
        leer h1 f = { leer h f with lineas := (leer h f).lineas ++ ts.map quitar_cr } ∧
        (∀ q, q ≠ f → leer h1 q = leer h q) := by
  intro ts
  induction ts with
  | nil =>
    intro h _ _
    exact ⟨h, by simp [leer_lineas, volcar_lineas], rfl, by simp, fun _ _ => rfl⟩
  | cons t ts ih =>
    intro h hok hf
    obtain ⟨ht1, ht2⟩ := hok t (List.mem_cons_self _ _)
    have hf1 : f < (anexar_linea h f (quitar_cr t)).length := by rw [length_anexar]; exact hf
    obtain ⟨h1, e1, e2, e3, e4⟩ := ih (anexar_linea h f (quitar_cr t))
      (fun x hx => hok x (List.mem_cons_of_mem _ hx)) hf1
    refine ⟨h1, ?_, by rw [e2, length_anexar], ?_, ?_⟩
    · simp only [List.length_cons, leer_lineas, volcar_lineas, List.cons_append,
        List.append_assoc]
      rw [leer_linea_alloc_cruda t _ ht1 ht2]
      simpa using e1
    · rw [e3, leer_anexar_mismo h f _ hf]; simp
    · intro q hq
      rw [e4 q hq, leer_anexar_otro h f _ q hq]

theorem leer_linea_alloc_agotado (b : Bool) :
    leer_linea_alloc ⟨[], b⟩ 1024 = (none, ⟨[], true⟩) := by
  cases b <;> simp [leer_linea_alloc, getline]

theorem leer_lineas_agotado (f : Nat) :
    ∀ (j : Nat) (h : Mem) (b : Bool), f < h.length →
      ∃ h1 b1, leer_lineas j h f ⟨[], b⟩ = (h1, ⟨[], b1⟩) ∧ h1.length = h.length ∧
        leer h1 f = { leer h f with lineas := (leer h f).lineas ++ List.replicate j [] } ∧
        (∀ q, q ≠ f → leer h1 q = leer h q) := by
  intro j
  induction j with
  | zero =>
    intro h b _
    exact ⟨h, b, rfl, rfl, by simp, fun _ _ => rfl⟩
  | succ j ih =>
    intro h b hf
    have hf1 : f < (anexar_linea h f []).length := by rw [length_anexar]; exact hf
    obtain ⟨h1, b1, e1, e2, e3, e4⟩ := ih (anexar_linea h f []) true hf1
    refine ⟨h1, b1, ?_, by rw [e2, length_anexar], ?_, ?_⟩
    · simp only [leer_lineas, leer_linea_alloc_agotado, Option.getD]
      exact e1
    · rw [e3, leer_anexar_mismo h f _ hf]; simp [List.replicate_succ]
    · intro q hq
      rw [e4 q hq, leer_anexar_otro h f _ q hq]

theorem leer_lineas_suma (f : Nat) :
    ∀ (a b : Nat) (h : Mem) (s : Flujo),
      leer_lineas (a + b) h f s =
        leer_lineas b (leer_lineas a h f s).1 f (leer_lineas a h f s).2 := by
  intro a
  induction a with
  | zero => intro b h s; simp [leer_lineas]
  | succ a ih =>
    intro b h s
    rw [show a + 1 + b = (a + b) + 1 by omega]
    simp only [leer_lineas]
    exact ih b _ _

theorem deserializar_agotado (h : Mem) (raiz : Nat) (b : Bool) :
    deserializar_arbol h (some raiz) ⟨[], b⟩ = ⟨h, true, []⟩ := by
  cases b <;> simp [deserializar_arbol, deserializar_bucle, getline]

/-- After lines were appended to the file `f`, its absolute path, kind and the well-formed
shape are as before. -/
theorem ruta_tras_lineas (h h1 : Mem) (f : Nat) (p : Cadena) (x : List Cadena)
    (hp : construir_ruta_absoluta h (some f) = some p)
    (hlen : h1.length = h.length)
    (hf : leer h1 f = { leer h f with lineas := x })
    (hq : ∀ q, q ≠ f → leer h1 q = leer h q) :
    construir_ruta_absoluta h1 (some f) = some p ∧ (leer h1 f).tipo = (leer h f).tipo ∧
      (leer h1 f).lineas = x := by
  refine ⟨?_, by rw [hf], by rw [hf]⟩
  rw [construir_congr h h1 hlen (fun q => by
    by_cases hqf : q = f
    · subst hqf; rw [hf]; exact ⟨rfl, rfl⟩
    · rw [hq q hqf]; exact ⟨rfl, rfl⟩), hp]

/-! ## The F record: finding or creating the file -/

theorem prefijo_no_raiz (h : Mem) (hb : Bien h) (q : Nat) (hq : q < h.length) (hq0 : q ≠ 0) :
    construir_ruta_absoluta h (some q) = some (prefijo h q) := by
  obtain ⟨p, hp⟩ := hb.con_padre q hq hq0
  have := construir_hijo h hb q p hq hp
  simp only [prefijo, hq0, if_false, this, Option.getD]

theorem cargar_archivo_existente (h : Mem) (hb : Bien h) (ns : List Cadena) (nm : Cadena)
    (hport : ∀ s ∈ ns ++ [nm], Portable s) (f0 : Nat) (hf0 : f0 < h.length)
    (hp : construir_ruta_absoluta h (some f0) = some (ruta_de (ns ++ [nm])))
    (r : Cadena) (s : Flujo) :
    cargar_archivo h 0 (ruta_de (ns ++ [nm])) r s =
      some (leer_lineas (leer_numero 0 (saltar_espacios r)) h f0 s) := by
  have hnm : Portable nm := hport nm (by simp)
  obtain ⟨k, hk, hcon⟩ := construir_ruta_camino h hb f0 hf0
  rw [hp, ruta_de_final] at hcon
  simp only [Option.some.injEq] at hcon
  cases k with
  | zero =>
    exfalso
    simp only [camino, unir_nombres] at hcon
    have := congrArg List.length hcon
    simp only [List.length_append, List.length_cons, List.length_nil] at this
    have : nm.length = 0 := by omega
    exact hnm.1 (List.length_eq_zero.mp this)
  | succ j =>
    cases hpad : (leer h f0).padre with
    | none => rw [subir_succ_none h j f0 hpad] at hk; cases hk
    | some p0 =>
      rw [subir_succ h j f0 p0 hpad] at hk
      have hp0 : p0 < h.length := (hb.padre_ok f0 p0 hf0 hpad).1
      have hcam : camino h (j + 1) f0 = camino h j p0 ++ [f0] := by simp only [camino, hpad]
      have hdat := camino_datos h hb f0 (j + 1) hf0
      have hnom : (camino h j p0).map (fun x => (leer h x).nombre) ++ [(leer h f0).nombre] =
          ns ++ [nm] := by
        have e1 := unir_ruta_de h (camino h (j + 1) f0) (by rw [hcam]; simp)
        rw [← ruta_de_final, e1, hcam] at hcon
        have := ruta_de_iny _ _ (fun x hx => ((hport x hx).2.2.1)) (by
          intro x hx
          simp only [List.map_append, List.map_cons, List.map_nil, List.mem_append,
            List.mem_map, List.mem_singleton] at hx
          have hval : ∀ y, y ∈ camino h (j + 1) f0 → '/' ∉ (leer h y).nombre := by
            intro y hy
            obtain ⟨a1, a2⟩ := hdat y hy
            exact ((nombre_valido_some _).1 (hb.validos y a1 a2)).2
          rcases hx with ⟨y, hy, rfl⟩ | rfl
          · exact hval y (by rw [hcam]; exact List.mem_append_left _ hy)
          · exact hval f0 (by rw [hcam]; simp)) hcon
        simpa using this.symm
      obtain ⟨en, ef⟩ := List.append_inj' hnom (by simp)
      simp only [List.cons.injEq, and_true] at ef
      have hbus : buscar_hijo h (some p0) (some nm) = some f0 := by
        rw [← ef]; exact hb.buscar_hijo_padre f0 p0 hf0 hpad
      have hase : asegurar_directorio_absoluto h (some 0)
          (some (if ruta_de ns = [] then ['/'] else ruta_de ns)) = (h, some p0) := by
        by_cases hce : camino h j p0 = []
        · have hj : j = 0 := by
            have := camino_length h j p0 0 hk
            rw [hce] at this; simpa using this.symm
          subst hj
          simp only [subir, Option.some.injEq] at hk
          rw [hce] at en
          simp only [List.map_nil] at en
          rw [← en, hk]
          simp [ruta_de, asegurar_barra_sola]
        · have e2 := unir_ruta_de h (camino h j p0) hce
          rw [en] at e2
          obtain ⟨hes, hlast⟩ := camino_esCamino h 0 j p0 hk
          have hne : ruta_de ns ≠ [] := by rw [← e2]; simp
          simp only [hne, if_false]
          rw [← e2]
          simp only [asegurar_directorio_absoluto, ne_eq, not_true_eq_false, if_false]
          have := asegurar_bucle_camino_resto h hb [] (Or.inl rfl) (camino h j p0) 0
            ((unir_nombres h (camino h j p0)).length + 1) hce hes
            (fun y hy => by
              obtain ⟨a1, a2⟩ := camino_datos h hb p0 j hp0 y hy
              refine ⟨a1, a2, ?_⟩
              have : (leer h y).nombre ∈ ns := by
                rw [← en]; exact List.mem_map.mpr ⟨y, hy, rfl⟩
              exact (hport _ (List.mem_append_left _ this)).2.1) (by simp)
          simp only [List.append_nil] at this
          rw [this, hlast, asegurar_bucle_fin]
      rw [ruta_de_final]
      exact (cargar_archivo_partes h 0 (ruta_de ns) nm r s hnm.2.2.1 hnm.2.1 h p0 hase).1 f0 hbus

theorem cargar_archivo_ausente (h : Mem) (hb : Bien h) (ns : List Cadena) (nm : Cadena)
    (hport : ∀ s ∈ ns ++ [nm], Portable s)
    (hnada : ∀ q, q < h.length →
      construir_ruta_absoluta h (some q) ≠ some (ruta_de (ns ++ [nm])))
    (hclear : ∀ q, q < h.length → (leer h q).tipo = TipoNodo.NODO_ARCHIVO →
      ∀ a b, ns = a ++ b → construir_ruta_absoluta h (some q) ≠ some (ruta_de a)) :
    ∃ ha d, construir_ruta_absoluta (insertar ha TipoNodo.NODO_ARCHIVO nm d) (some ha.length) =
        some (ruta_de (ns ++ [nm])) ∧
      leer (insertar ha TipoNodo.NODO_ARCHIVO nm d) ha.length =
        ⟨TipoNodo.NODO_ARCHIVO, nm, some d, [], []⟩ ∧
      ∀ (r : Cadena) (s : Flujo), cargar_archivo h 0 (ruta_de (ns ++ [nm])) r s =
        some (leer_lineas (leer_numero 0 (saltar_espacios r))
          (insertar ha TipoNodo.NODO_ARCHIVO nm d) ha.length s) := by
  have hnm : Portable nm := hport nm (by simp)
  have hpns : ∀ x ∈ ns, Portable x := fun x hx => hport x (List.mem_append_left _ hx)
  obtain ⟨w1, w2, w3, w4, w5, _, w7, _⟩ := asegurar_nombres_bien ns h 0 hb hb.raiz_len
    hb.raiz_tipo (fun x hx => portable_valido x (hpns x hx)) (by
      intro q hq hqt a b hab _ hpre
      have hq0 : q ≠ 0 := by
        intro e; rw [e, hb.raiz_tipo] at hqt; cases hqt
      apply hclear q hq hqt a b hab
      rw [prefijo_no_raiz h hb q hq hq0, hpre, prefijo_raiz]; rfl)
  rw [prefijo_raiz, List.nil_append] at w4
  have hase : asegurar_directorio_absoluto h (some 0)
      (some (if ruta_de ns = [] then ['/'] else ruta_de ns)) =
      ((asegurar_nombres h 0 ns).1, some (asegurar_nombres h 0 ns).2) := by
    cases ns with
    | nil => simp [ruta_de, asegurar_barra_sola, asegurar_nombres]
    | cons x rest =>
      have hne : ruta_de (x :: rest) ≠ [] := by simp [ruta_de]
      simp only [hne, if_false]
      exact asegurar_ruta_de h (x :: rest) (by simp)
        (fun y hy => ⟨(hpns y hy).1, (hpns y hy).2.2.1, (hpns y hy).2.1⟩)
  have hbus : buscar_hijo (asegurar_nombres h 0 ns).1 (some (asegurar_nombres h 0 ns).2)
      (some nm) = none := by
    rw [buscar_hijo_dir _ _ _ w3]
    cases hx : buscar_en (asegurar_nombres h 0 ns).1 (some nm)
        (leer (asegurar_nombres h 0 ns).1 (asegurar_nombres h 0 ns).2).hijos with
    | none => rfl
    | some f =>
      exfalso
      obtain ⟨hfm, hfn⟩ := buscar_en_some _ nm _ f hx
      rcases w7 with e | e
      · obtain ⟨hfl, hfp⟩ := w1.hijo_ok _ f w2 hfm
        rw [e] at hfl
        apply hnada f hfl
        have := construir_hijo _ w1 f _ (by rw [e]; exact hfl) hfp
        rw [w4, hfn, ← ruta_de_final] at this
        rw [e] at this
        exact this
      · rw [e] at hfm; cases hfm
  have hno := (buscar_en_none_iff _ nm _).1 (by rw [← buscar_hijo_dir _ _ _ w3]; exact hbus)
  have hb2 := bien_insertar _ w1 TipoNodo.NODO_ARCHIVO nm _ w2 w3 (portable_valido nm hnm) hno
  have hnew := leer_insertar_nuevo (asegurar_nombres h 0 ns).1 TipoNodo.NODO_ARCHIVO nm _ w2
  have hold := leer_insertar_viejo (asegurar_nombres h 0 ns).1 TipoNodo.NODO_ARCHIVO nm _ w2
  refine ⟨(asegurar_nombres h 0 ns).1, (asegurar_nombres h 0 ns).2, ?_, hnew, ?_⟩
  · rw [construir_hijo _ hb2 _ (asegurar_nombres h 0 ns).2
      (by rw [length_insertar]; omega) (by rw [hnew]), hnew]
    rw [prefijo_congr _ _ w1 hb2 (by rw [length_insertar]; omega)
      (fun x hx => ⟨(hold x hx).2.1, (hold x hx).2.2.1⟩) _ w2, w4, ruta_de_final]
  · intro r s
    rw [ruta_de_final]
    exact (cargar_archivo_partes h 0 (ruta_de ns) nm r s hnm.2.2.1 hnm.2.1 _ _ hase).2 hbus

theorem cargar_archivo_caso (h : Mem) (hb : Bien h) (ns : List Cadena) (nm : Cadena)
    (L : List Cadena) (hport : ∀ s ∈ ns ++ [nm], Portable s)
    (hcaso :
      (∃ f, f < h.length ∧
        construir_ruta_absoluta h (some f) = some (ruta_de (ns ++ [nm])) ∧
        (leer h f).tipo = TipoNodo.NODO_ARCHIVO ∧ (leer h f).lineas = L) ∨
      (L = [] ∧
        (∀ q, q < h.length →
          construir_ruta_absoluta h (some q) ≠ some (ruta_de (ns ++ [nm]))) ∧
        (∀ q, q < h.length → (leer h q).tipo = TipoNodo.NODO_ARCHIVO →
          ∀ a b, ns = a ++ b → construir_ruta_absoluta h (some q) ≠ some (ruta_de a)))) :
    ∃ hx f, f < hx.length ∧
      construir_ruta_absoluta hx (some f) = some (ruta_de (ns ++ [nm])) ∧
      (leer hx f).tipo = TipoNodo.NODO_ARCHIVO ∧ (leer hx f).lineas = L ∧
      ∀ (r : Cadena) (s : Flujo), cargar_archivo h 0 (ruta_de (ns ++ [nm])) r s =
        some (leer_lineas (leer_numero 0 (saltar_espacios r)) hx f s) := by
  rcases hcaso with ⟨f, hf, hp, ht, hl⟩ | ⟨hL, hnada, hclear⟩
  · exact ⟨h, f, hf, hp, ht, hl, cargar_archivo_existente h hb ns nm hport f hf hp⟩
  · obtain ⟨ha, d, e1, e2, e3⟩ := cargar_archivo_ausente h hb ns nm hport hnada hclear
    refine ⟨insertar ha TipoNodo.NODO_ARCHIVO nm d, ha.length, ?_, e1, by rw [e2],
      by rw [e2, hL], e3⟩
    rw [length_insertar]; omega

set_option maxRecDepth 100000 in
/-- C19 (as stated) fails. In the tree `touch f`, loading `F /f 1` followed by the line `x`
with a final carriage return leaves the file with the line `x`, not that line; followed by a
line of 1024 characters it leaves the file with one empty line. And in the tree whose file is
called `a b`, at the path `/a b`, loading `F /a b 1` and the line `x` leaves that file
without lines and creates a file `a`. -/
theorem C19_contraejemplo :
    (leer (deserializar_arbol arbolF (some 0) ⟨"F /f 1\nx\r\n".toList, false⟩).mem 1).lineas =
        ["x".toList] ∧
      (leer (deserializar_arbol arbolF (some 0)
        ⟨"F /f 1\n".toList ++ lineaLarga ++ "\n".toList, false⟩).mem 1).lineas = [[]] ∧
      construir_ruta_absoluta arbolFEspacio (some 1) = some "/a b".toList ∧
      (leer arbolFEspacio 1).tipo = TipoNodo.NODO_ARCHIVO ∧
      (leer (deserializar_arbol arbolFEspacio (some 0)
        ⟨"F /a b 1\nx\n".toList, false⟩).mem 1).lineas = [] ∧
      leer (deserializar_arbol arbolFEspacio (some 0) ⟨"F /a b 1\nx\n".toList, false⟩).mem 2 =
        ⟨TipoNodo.NODO_ARCHIVO, "a".toList, some 0, [], []⟩ := by
  decide

theorem bien_arbolFXY : Bien arbolFXY := construible_bien _ construible_arbolFXY

/-! ## Names under the operations -/

theorem leer_set_campos (h : Mem) (p q : Nat) (v : Nodo)
    (hn : v.nombre = (leer h p).nombre) (ht : v.tipo = (leer h p).tipo) :
    (leer (h.set p v) q).nombre = (leer h q).nombre ∧
      (leer (h.set p v) q).tipo = (leer h q).tipo := by
  rw [leer_set]
  by_cases hc : p = q ∧ p < h.length
  · rw [if_pos hc, ← hc.1]; exact ⟨hn, ht⟩
  · rw [if_neg hc]; exact ⟨rfl, rfl⟩

theorem enlazar_campos (h : Mem) (p c q : Nat) :
    (leer (enlazar_hijo_al_frente h p c) q).nombre = (leer h q).nombre ∧
      (leer (enlazar_hijo_al_frente h p c) q).tipo = (leer h q).tipo := by
  unfold enlazar_hijo_al_frente
  have a := leer_set_campos h c q { leer h c with padre := some p } rfl rfl
  have b := leer_set_campos (h.set c { leer h c with padre := some p }) p q
    { leer (h.set c { leer h c with padre := some p }) p with
      hijos := c :: (leer (h.set c { leer h c with padre := some p }) p).hijos } rfl rfl
  exact ⟨b.1.trans a.1, b.2.trans a.2⟩

theorem crear_enlazar_campos (h : Mem) (t : TipoNodo) (nm : Option Cadena) (p : Nat) :
    (enlazar_hijo_al_frente (crear_nodo h t nm (some p)).1 p
        (crear_nodo h t nm (some p)).2).length = h.length + 1 ∧
      (∀ q, q < h.length →
        (leer (enlazar_hijo_al_frente (crear_nodo h t nm (some p)).1 p
          (crear_nodo h t nm (some p)).2) q).nombre = (leer h q).nombre ∧
        (leer (enlazar_hijo_al_frente (crear_nodo h t nm (some p)).1 p
          (crear_nodo h t nm (some p)).2) q).tipo = (leer h q).tipo) ∧
      (leer (enlazar_hijo_al_frente (crear_nodo h t nm (some p)).1 p
        (crear_nodo h t nm (some p)).2) h.length).nombre = nm.getD [] ∧
      (leer (enlazar_hijo_al_frente (crear_nodo h t nm (some p)).1 p
        (crear_nodo h t nm (some p)).2) h.length).tipo = t := by
  refine ⟨by simp [length_enlazar, crear_nodo], ?_, ?_, ?_⟩
  · intro q hq
    obtain ⟨e1, e2⟩ := enlazar_campos (crear_nodo h t nm (some p)).1 p
      (crear_nodo h t nm (some p)).2 q
    rw [e1, e2]
    simp only [crear_nodo, leer_append_lt h _ q hq, and_self]
  · rw [(enlazar_campos _ _ _ _).1]
    simp only [crear_nodo, leer_append_length]
  · rw [(enlazar_campos _ _ _ _).2]
    simp only [crear_nodo, leer_append_length]

theorem nombresValidos_crear (h : Mem) (hv : NombresValidos h) (h0 : 0 < h.length)
    (t : TipoNodo) (nm : Option Cadena) (hnm : nombre_valido nm = true) (p : Nat) :
    NombresValidos (enlazar_hijo_al_frente (crear_nodo h t nm (some p)).1 p
      (crear_nodo h t nm (some p)).2) := by
  obtain ⟨c1, c2, c3, _⟩ := crear_enlazar_campos h t nm p
  refine ⟨by rw [(c2 0 h0).1]; exact hv.1, ?_⟩
  intro n hn hn0
  rw [c1] at hn
  by_cases hq : n < h.length
  · rw [(c2 n hq).1]; exact hv.2 n hq hn0
  · have : n = h.length := by omega
    subst this
    rw [c3]
    cases nm with
    | none => simp [nombre_valido] at hnm
    | some s => exact (nombre_valido_some s).1 hnm

theorem nombresValidos_crear_directorio (h : Mem) (hv : NombresValidos h) (h0 : 0 < h.length)
    (cwd : Option Nat) (nombre : Option Cadena) :
    NombresValidos (crear_directorio h cwd nombre).mem := by
  unfold crear_directorio
  cases cwd with
  | none => exact hv
  | some c =>
    simp only
    split
    · exact hv
    · split
      · exact hv
      · rename_i hval
        split
        · exact hv
        · exact nombresValidos_crear h hv h0 _ nombre (by simpa using hval) c

theorem nombresValidos_crear_archivo (h : Mem) (hv : NombresValidos h) (h0 : 0 < h.length)
    (cwd : Option Nat) (nombre : Option Cadena) :
    NombresValidos (crear_archivo h cwd nombre).mem := by
  unfold crear_archivo
  cases cwd with
  | none => exact hv
  | some c =>
    simp only
    split
    · exact hv
    · split
      · exact hv
      · rename_i hval
        split
        · split
          · exact hv
          · exact hv
        · exact nombresValidos_crear h hv h0 _ nombre (by simpa using hval) c

theorem bien_nombresValidos (h : Mem) (hb : Bien h) : NombresValidos h :=
  ⟨hb.raiz_nombre, fun n hn hn0 => (nombre_valido_some _).1 (hb.validos n hn hn0)⟩

theorem comando_rename_nombres (h : Mem) (hv : NombresValidos h) (raiz cwd : Nat)
    (arg1 arg2 : Cadena) :
    (comando_rename h raiz cwd arg1 arg2).mem.length = h.length ∧
      (∀ n, n < h.length → n ≠ 0 →
        (leer (comando_rename h raiz cwd arg1 arg2).mem n).nombre ≠ [] ∧
        '/' ∉ (leer (comando_rename h raiz cwd arg1 arg2).mem n).nombre) ∧
      ((resolver_ruta h (some raiz) (some cwd) (some arg1)).1 ≠ some 0 →
        (leer (comando_rename h raiz cwd arg1 arg2).mem 0).nombre = []) := by
  unfold comando_rename
  split
  · exact ⟨rfl, hv.2, fun _ => hv.1⟩
  · cases hres : resolver_ruta h (some raiz) (some cwd) (some arg1) with
    | mk tgt out =>
      cases tgt with
      | none => exact ⟨rfl, hv.2, fun _ => hv.1⟩
      | some tgt =>
        simp only
        split
        · exact ⟨rfl, hv.2, fun _ => hv.1⟩
        · rename_i hval
          split
          · exact ⟨rfl, hv.2, fun _ => hv.1⟩
          · have hval2 : nombre_valido (some arg2) = true := by simpa using hval
            refine ⟨by simp, ?_, ?_⟩
            · intro n hn hn0
              simp only [leer_set]
              by_cases hc : tgt = n ∧ tgt < h.length
              · rw [if_pos hc]
                exact (nombre_valido_some arg2).1 hval2
              · rw [if_neg hc]
                exact hv.2 n hn hn0
            · intro hne
              have : tgt ≠ 0 := fun e => hne (by rw [e])
              rw [leer_set_ne _ _ _ _ this]
              exact hv.1

/-! ## Names under the loader -/

theorem leer_token_sin_barra : ∀ (n : Nat) (r : Cadena), '/' ∉ (leer_token n r).1 := by
  intro n
  induction n with
  | zero => intro r; simp [leer_token]
  | succ n ih =>
    intro r
    cases r with
    | nil => simp [leer_token]
    | cons c t =>
      by_cases hc : c = '/'
      · simp [leer_token, hc]
      · simp only [leer_token, hc, if_false, List.mem_cons, not_or]
        exact ⟨fun e => hc e.symm, ih t⟩

theorem ultima_barra_props (path : Cadena) :
    ∀ n, (buscar_ultima_barra path n = none → ∀ i, i < n → path.getD i ' ' ≠ '/') ∧
      (∀ k, buscar_ultima_barra path n = some k →
        k < n ∧ ∀ i, k < i → i < n → path.getD i ' ' ≠ '/') := by
  intro n
  induction n with
  | zero =>
    refine ⟨fun _ i hi => by omega, fun k hk => ?_⟩
    simp [buscar_ultima_barra] at hk
  | succ n ih =>
    by_cases hc : path.getD n ' ' = '/'
    · refine ⟨fun hno => ?_, fun k hk => ?_⟩
      · simp only [buscar_ultima_barra, hc, if_true, reduceCtorEq] at hno
      · simp only [buscar_ultima_barra, hc, if_true, Option.some.injEq] at hk
        subst hk
        exact ⟨by omega, fun i h1 h2 => by omega⟩
    · refine ⟨fun hno i hi => ?_, fun k hk => ?_⟩
      · simp only [buscar_ultima_barra, hc, if_false] at hno
        by_cases hin : i = n
        · rw [hin]; exact hc
        · exact ih.1 hno i (by omega)
      · simp only [buscar_ultima_barra, hc, if_false] at hk
        obtain ⟨a1, a2⟩ := ih.2 k hk
        refine ⟨by omega, fun i h1 h2 => ?_⟩
        by_cases hin : i = n
        · rw [hin]; exact hc
        · exact a2 i h1 (by omega)

theorem nombre_de_ruta_sin_barra (path : Cadena) :
    (buscar_ultima_barra path path.length = none → '/' ∉ path.take 255) ∧
      (∀ k, buscar_ultima_barra path path.length = some k →
        '/' ∉ (path.drop (k + 1)).take 255) := by
  obtain ⟨p1, p2⟩ := ultima_barra_props path path.length
  refine ⟨fun hno hm => ?_, fun k hk hm => ?_⟩
  · have hm1 := List.mem_of_mem_take hm
    obtain ⟨i, hi, he⟩ := List.mem_iff_getElem.mp hm1
    apply p1 hno i hi
    rw [List.getD_eq_getElem _ _ hi, he]
  · have hm1 := List.mem_of_mem_take hm
    obtain ⟨i, hi, he⟩ := List.mem_iff_getElem.mp hm1
    rw [List.getElem_drop] at he
    simp only [List.length_drop] at hi
    obtain ⟨a1, a2⟩ := p2 k hk
    apply a2 (k + 1 + i) (by omega) (by omega)
    rw [List.getD_eq_getElem _ _ (by omega), he]

theorem ultima_barra_es_barra (path : Cadena) :
    ∀ n k, buscar_ultima_barra path n = some k → path.getD k ' ' = '/' := by
  intro n
  induction n with
  | zero => intro k hk; simp [buscar_ultima_barra] at hk
  | succ n ih =>
    intro k hk
    by_cases hc : path.getD n ' ' = '/'
    · simp only [buscar_ultima_barra, hc, if_true, Option.some.injEq] at hk
      subst hk; exact hc
    · simp only [buscar_ultima_barra, hc, if_false] at hk
      exact ih k hk

/-- The file name that `cargar_archivo` cuts from a non-empty path that does not end in a
slash is not empty. -/
theorem nombre_de_ruta_no_vacio (path : Cadena) (hne : path ≠ [])
    (hfin : path.getLast? ≠ some '/') :
    (buscar_ultima_barra path path.length = none → path.take 255 ≠ []) ∧
      (∀ k, buscar_ultima_barra path path.length = some k →
        (path.drop (k + 1)).take 255 ≠ []) := by
  have hpos : 0 < path.length := List.length_pos.mpr hne
  refine ⟨fun _ he => ?_, fun k hk he => ?_⟩
  · have := congrArg List.length he
    simp only [List.length_take, List.length_nil] at this
    omega
  · have hlt := ((ultima_barra_props path path.length).2 k hk).1
    have hb := ultima_barra_es_barra path path.length k hk
    have hl := congrArg List.length he
    simp only [List.length_take, List.length_drop, List.length_nil] at hl
    have hk1 : k = path.length - 1 := by omega
    apply hfin
    rw [List.getLast?_eq_getElem?, ← hk1, List.getElem?_eq_getElem hlt]
    rw [List.getD_eq_getElem _ _ hlt] at hb
    rw [hb]

/-- The shape of a successful `cargar_archivo`: a parent path and a slash-free name cut from
the path, not empty when the path is not empty and does not end in a slash, the parent found
or created by `asegurar_directorio_absoluto`, and the lines read into the child of that
name, found or created as a file. -/
theorem cargar_archivo_forma_nombre (h : Mem) (raiz : Nat) (path r : Cadena) (s : Flujo) :
    ∃ pp nm, ('/' ∉ nm ∧ (path ≠ [] → path.getLast? ≠ some '/' → nm ≠ [])) ∧
      ∀ a, cargar_archivo h raiz path r s = some a →
      ∃ padre, (asegurar_directorio_absoluto h (some raiz) (some pp)).2 = some padre ∧
        ((∃ f, buscar_hijo (asegurar_directorio_absoluto h (some raiz) (some pp)).1
              (some padre) (some nm) = some f ∧
            a = leer_lineas (leer_numero 0 (saltar_espacios r))
              (asegurar_directorio_absoluto h (some raiz) (some pp)).1 f s) ∨
          (buscar_hijo (asegurar_directorio_absoluto h (some raiz) (some pp)).1
              (some padre) (some nm) = none ∧
            a = leer_lineas (leer_numero 0 (saltar_espacios r))
              (enlazar_hijo_al_frente
                (crear_nodo (asegurar_directorio_absoluto h (some raiz) (some pp)).1
                  TipoNodo.NODO_ARCHIVO (some nm) (some padre)).1 padre
                (crear_nodo (asegurar_directorio_absoluto h (some raiz) (some pp)).1
                  TipoNodo.NODO_ARCHIVO (some nm) (some padre)).2)
              (crear_nodo (asegurar_directorio_absoluto h (some raiz) (some pp)).1
                TipoNodo.NODO_ARCHIVO (some nm) (some padre)).2 s)) := by
  obtain ⟨q1, q2⟩ := nombre_de_ruta_sin_barra path
  have fin : ∀ (pp nm : Cadena) (a : Mem × Flujo),
      (∀ padre, (asegurar_directorio_absoluto h (some raiz) (some pp)).2 = some padre →
        ∀ f, buscar_hijo (asegurar_directorio_absoluto h (some raiz) (some pp)).1
            (some padre) (some nm) = some f →
          a = leer_lineas (leer_numero 0 (saltar_espacios r))
            (asegurar_directorio_absoluto h (some raiz) (some pp)).1 f s) →
      (∀ padre, (asegurar_directorio_absoluto h (some raiz) (some pp)).2 = some padre →
        buscar_hijo (asegurar_directorio_absoluto h (some raiz) (some pp)).1
            (some padre) (some nm) = none →
          a = leer_lineas (leer_numero 0 (saltar_espacios r))
            (enlazar_hijo_al_frente
              (crear_nodo (asegurar_directorio_absoluto h (some raiz) (some pp)).1
                TipoNodo.NODO_ARCHIVO (some nm) (some padre)).1 padre
              (crear_nodo (asegurar_directorio_absoluto h (some raiz) (some pp)).1
                TipoNodo.NODO_ARCHIVO (some nm) (some padre)).2)
            (crear_nodo (asegurar_directorio_absoluto h (some raiz) (some pp)).1
              TipoNodo.NODO_ARCHIVO (some nm) (some padre)).2 s) →
      (asegurar_directorio_absoluto h (some raiz) (some pp)).2 ≠ none →
      ∃ padre, (asegurar_directorio_absoluto h (some raiz) (some pp)).2 = some padre ∧
        ((∃ f, buscar_hijo (asegurar_directorio_absoluto h (some raiz) (some pp)).1
              (some padre) (some nm) = some f ∧
            a = leer_lineas (leer_numero 0 (saltar_espacios r))
              (asegurar_directorio_absoluto h (some raiz) (some pp)).1 f s) ∨
          (buscar_hijo (asegurar_directorio_absoluto h (some raiz) (some pp)).1
              (some padre) (some nm) = none ∧
            a = leer_lineas (leer_numero 0 (saltar_espacios r))
              (enlazar_hijo_al_frente
                (crear_nodo (asegurar_directorio_absoluto h (some raiz) (some pp)).1
                  TipoNodo.NODO_ARCHIVO (some nm) (some padre)).1 padre
                (crear_nodo (asegurar_directorio_absoluto h (some raiz) (some pp)).1
                  TipoNodo.NODO_ARCHIVO (some nm) (some padre)).2)
              (crear_nodo (asegurar_directorio_absoluto h (some raiz) (some pp)).1
                TipoNodo.NODO_ARCHIVO (some nm) (some padre)).2 s)) := by
    intro pp nm a g1 g2 g3
    cases hp : (asegurar_directorio_absoluto h (some raiz) (some pp)).2 with
    | none => exact absurd hp g3
    | some padre =>
      refine ⟨padre, rfl, ?_⟩
      cases hf : buscar_hijo (asegurar_directorio_absoluto h (some raiz) (some pp)).1
          (some padre) (some nm) with
      | some f => exact Or.inl ⟨f, rfl, g1 padre hp f hf⟩
      | none => exact Or.inr ⟨rfl, g2 padre hp hf⟩
  cases hb : buscar_ultima_barra path path.length with
  | none =>
    refine ⟨['/'], path.take 255,
      ⟨q1 hb, fun e1 e2 => (nombre_de_ruta_no_vacio path e1 e2).1 hb⟩, fun a ha => ?_⟩
    unfold cargar_archivo at ha
    simp only [hb] at ha
    apply fin
    · intro padre hp f hf
      rw [hp] at ha; simp only [hf, Option.some.injEq] at ha; exact ha.symm
    · intro padre hp hf
      rw [hp] at ha; simp only [hf, Option.some.injEq] at ha; exact ha.symm
    · intro hp; rw [hp] at ha; cases ha
  | some k =>
    cases k with
    | zero =>
      refine ⟨['/'], (path.drop 1).take 255,
        ⟨q2 0 hb, fun e1 e2 => (nombre_de_ruta_no_vacio path e1 e2).2 0 hb⟩, fun a ha => ?_⟩
      unfold cargar_archivo at ha
      simp only [hb] at ha
      apply fin
      · intro padre hp f hf
        rw [hp] at ha; simp only [Nat.zero_add, hf, Option.some.injEq] at ha; exact ha.symm
      · intro padre hp hf
        rw [hp] at ha; simp only [Nat.zero_add, hf, Option.some.injEq] at ha; exact ha.symm
      · intro hp; rw [hp] at ha; cases ha
    | succ k =>
      refine ⟨path.take (k + 1), (path.drop (k + 1 + 1)).take 255,
        ⟨q2 (k + 1) hb, fun e1 e2 => (nombre_de_ruta_no_vacio path e1 e2).2 (k + 1) hb⟩,
        fun a ha => ?_⟩
      unfold cargar_archivo at ha
      simp only [hb] at ha
      apply fin
      · intro padre hp f hf
        rw [hp] at ha; simp only [hf, Option.some.injEq] at ha; exact ha.symm
      · intro padre hp hf
        rw [hp] at ha; simp only [hf, Option.some.injEq] at ha; exact ha.symm
      · intro hp; rw [hp] at ha; cases ha

/-- The shape of a successful `cargar_archivo`: a parent path and a slash-free name cut from
the path, the parent found or created by `asegurar_directorio_absoluto`, and the lines read
into the child of that name, found or created as a file. -/
theorem cargar_archivo_forma (h : Mem) (raiz : Nat) (path r : Cadena) (s : Flujo) :
    ∃ pp nm, '/' ∉ nm ∧ ∀ a, cargar_archivo h raiz path r s = some a →
      ∃ padre, (asegurar_directorio_absoluto h (some raiz) (some pp)).2 = some padre ∧
        ((∃ f, buscar_hijo (asegurar_directorio_absoluto h (some raiz) (some pp)).1
              (some padre) (some nm) = some f ∧
            a = leer_lineas (leer_numero 0 (saltar_espacios r))
              (asegurar_directorio_absoluto h (some raiz) (some pp)).1 f s) ∨
          (buscar_hijo (asegurar_directorio_absoluto h (some raiz) (some pp)).1
              (some padre) (some nm) = none ∧
            a = leer_lineas (leer_numero 0 (saltar_espacios r))
              (enlazar_hijo_al_frente
                (crear_nodo (asegurar_directorio_absoluto h (some raiz) (some pp)).1
                  TipoNodo.NODO_ARCHIVO (some nm) (some padre)).1 padre
                (crear_nodo (asegurar_directorio_absoluto h (some raiz) (some pp)).1
                  TipoNodo.NODO_ARCHIVO (some nm) (some padre)).2)
              (crear_nodo (asegurar_directorio_absoluto h (some raiz) (some pp)).1
                TipoNodo.NODO_ARCHIVO (some nm) (some padre)).2 s)) := by
  obtain ⟨pp, nm, ⟨h1, _⟩, h2⟩ := cargar_archivo_forma_nombre h raiz path r s
  exact ⟨pp, nm, h1, h2⟩

theorem sinBarra_crear (h : Mem) (h0 : 0 < h.length) (hc : NombresSinBarra h) (t : TipoNodo)
    (s : Cadena) (hs : '/' ∉ s) (p : Nat) :
    NombresSinBarra (enlazar_hijo_al_frente (crear_nodo h t (some s) (some p)).1 p
      (crear_nodo h t (some s) (some p)).2) := by
  obtain ⟨c1, c2, c3, _⟩ := crear_enlazar_campos h t (some s) p
  refine ⟨by rw [(c2 0 h0).1]; exact hc.1, ?_⟩
  intro n hn hne
  rw [c1] at hn
  by_cases hq : n < h.length
  · rw [(c2 n hq).1]; exact hc.2 n hq hne
  · have : n = h.length := by omega
    subst this
    rw [c3]
    exact hs

theorem sinBarra_anexar (h : Mem) (hc : NombresSinBarra h) (f : Nat) (t : Cadena) :
    NombresSinBarra (anexar_linea h f t) := by
  refine ⟨by rw [(leer_anexar h f t 0).2.1]; exact hc.1, ?_⟩
  intro n hn hne
  rw [length_anexar] at hn
  rw [(leer_anexar h f t n).2.1]
  exact hc.2 n hn hne

theorem asegurar_bucle_sinBarra :
    ∀ (f : Nat) (h : Mem) (cur : Nat) (r : Cadena), 0 < h.length → NombresSinBarra h →
      0 < (asegurar_bucle f h cur r).1.length ∧
        NombresSinBarra (asegurar_bucle f h cur r).1 := by
  intro f
  induction f with
  | zero => intro h cur r h0 hc; exact ⟨h0, hc⟩
  | succ f ih =>
    intro h cur r h0 hc
    cases hr : saltar_barras r with
    | nil => simp only [asegurar_bucle, hr]; exact ⟨h0, hc⟩
    | cons c r1 =>
      simp only [asegurar_bucle, hr]
      by_cases hl : (leer_token 255 (c :: r1)).1.length = 0
      · rw [if_pos hl]; exact ih h cur _ h0 hc
      · rw [if_neg hl]
        cases hb : buscar_hijo h (some cur) (some (leer_token 255 (c :: r1)).1) with
        | some nxt => exact ih h nxt _ h0 hc
        | none =>
          simp only
          have hlen := (crear_enlazar_campos h TipoNodo.NODO_DIR
            (some (leer_token 255 (c :: r1)).1) cur).1
          apply ih
          · rw [hlen]; omega
          · exact sinBarra_crear h h0 hc _ _ (leer_token_sin_barra _ _) cur

theorem asegurar_sinBarra (h : Mem) (raiz : Option Nat) (ruta : Option Cadena)
    (h0 : 0 < h.length) (hc : NombresSinBarra h) :
    0 < (asegurar_directorio_absoluto h raiz ruta).1.length ∧
      NombresSinBarra (asegurar_directorio_absoluto h raiz ruta).1 := by
  unfold asegurar_directorio_absoluto
  split
  · split
    · exact ⟨h0, hc⟩
    · exact asegurar_bucle_sinBarra _ h _ _ h0 hc
  · exact ⟨h0, hc⟩

theorem leer_lineas_sinBarra :
    ∀ (j : Nat) (h : Mem) (f : Nat) (s : Flujo), 0 < h.length → NombresSinBarra h →
      0 < (leer_lineas j h f s).1.length ∧ NombresSinBarra (leer_lineas j h f s).1 := by
  intro j
  induction j with
  | zero => intro h f s h0 hc; exact ⟨h0, hc⟩
  | succ j ih =>
    intro h f s h0 hc
    simp only [leer_lineas]
    apply ih
    · rw [length_anexar]; exact h0
    · exact sinBarra_anexar h hc f _

theorem cargar_archivo_sinBarra (h : Mem) (raiz : Nat) (path r : Cadena)
    (s : Flujo) (a : Mem × Flujo) (ha : cargar_archivo h raiz path r s = some a)
    (h0 : 0 < h.length) (hc : NombresSinBarra h) :
    0 < a.1.length ∧ NombresSinBarra a.1 := by
  obtain ⟨pp, nm, hsin, hforma⟩ := cargar_archivo_forma h raiz path r s
  obtain ⟨padre, _, hcaso⟩ := hforma a ha
  obtain ⟨b1, b2⟩ := asegurar_sinBarra h (some raiz) (some pp) h0 hc
  rcases hcaso with ⟨f, _, rfl⟩ | ⟨_, rfl⟩
  · exact leer_lineas_sinBarra _ _ _ _ b1 b2
  · have hlen := (crear_enlazar_campos (asegurar_directorio_absoluto h (some raiz)
      (some pp)).1 TipoNodo.NODO_ARCHIVO (some nm) padre).1
    apply leer_lineas_sinBarra
    · rw [hlen]; omega
    · exact sinBarra_crear _ b1 b2 _ _ hsin padre

theorem deserializar_bucle_sinBarra (raiz : Nat) :
    ∀ (f : Nat) (h : Mem) (s : Flujo), 0 < h.length →
      NombresSinBarra h → NombresSinBarra (deserializar_bucle raiz f h s).mem := by
  intro f
  induction f with
  | zero => intro h s _ hc; exact hc
  | succ f ih =>
    intro h s h0 hc
    unfold deserializar_bucle
    cases hg : getline s 1024 with
    | mk o s1 =>
      cases o with
      | none => exact hc
      | some l =>
        cases l with
        | nil => exact ih h s1 h0 hc
        | cons type l =>
          simp only
          split
          · exact ih h s1 h0 hc
          · split
            · exact hc
            · split
              · exact hc
              · split
                · obtain ⟨b1, b2⟩ := asegurar_sinBarra h (some raiz)
                    (some (leer_ruta 511 l.tail).1) h0 hc
                  exact ih _ s1 b1 b2
                · cases hca : cargar_archivo h raiz (leer_ruta 511 l.tail).1
                      (leer_ruta 511 l.tail).2 s1 with
                  | none => exact hc
                  | some a =>
                    obtain ⟨b1, b2⟩ := cargar_archivo_sinBarra h raiz _ _ s1 a hca h0 hc
                    exact ih a.1 a.2 b1 b2

theorem deserializar_sinBarra (h : Mem) (hv : NombresValidos h) (h0 : 0 < h.length)
    (raiz : Option Nat) (s : Flujo) :
    NombresSinBarra (deserializar_arbol h raiz s).mem := by
  have hc : NombresSinBarra h := ⟨hv.1, fun n hn hne => (hv.2 n hn hne).2⟩
  cases raiz with
  | none => exact hc
  | some rz => exact deserializar_bucle_sinBarra rz _ h s h0 hc

theorem mover_falla (h : Mem) (item nuevoPadre : Option Nat) (nn : Option Cadena)
    (r : Res Bool) (hm : mover_nodo h item nuevoPadre nn = some r) (hv : r.val = false) :
    r.mem = h := by
  unfold mover_nodo at hm
  split at hm
  · split at hm
    · simp only [Option.some.injEq] at hm; rw [← hm]
    · split at hm
      · cases hm
      · simp only [Option.some.injEq] at hm; rw [← hm]
      · dsimp only at hm
        split_ifs at hm
        all_goals
          simp only [Option.some.injEq] at hm
          subst hm
          first
            | rfl
            | cases hv
  · simp only [Option.some.injEq] at hm; rw [← hm]

/-! ## Record positions -/

theorem enPosicion_vacio (raiz : Nat) (h : Mem) : EnPosicion raiz h [] h := by
  intro x; rfl

theorem enPosicion_trans (raiz : Nat) (h0 h1 h2 : Mem) (a b : Cadena)
    (ha : EnPosicion raiz h0 a h1) (hb : EnPosicion raiz h1 b h2) :
    EnPosicion raiz h0 (a ++ b) h2 := by
  intro x
  rw [List.append_assoc, ha, hb]

theorem enPosicion_ignorada (raiz : Nat) (h : Mem) (l : Cadena) (hn : '\n' ∉ l)
    (hlen : l.length ≤ 1023) (hign : ∀ c, l.head? = some c → c ≠ 'D' ∧ c ≠ 'F') :
    EnPosicion raiz h (l ++ ['\n']) h := by
  intro x
  have hign1 : ∀ c, (c_str l).head? = some c → c ≠ 'D' ∧ c ≠ 'F' :=
    fun c hc => hign c (c_str_cabeza l c hc)
  have := deserializar_ignora h raiz _ _ _ (getline_cruda l x hn hlen) hign1
  simpa using this

theorem enPosicion_dir (h : Mem) (path : Cadena) (hl : TextoLimpio path)
    (hlen : path.length ≤ 511) (hcab : path.head? = some '/') :
    EnPosicion 0 h ('D' :: ' ' :: path ++ ['\n'])
      (asegurar_directorio_absoluto h (some 0) (some path)).1 := by
  intro x
  have := cargar_registro_dir h path x hl hlen hcab
  simpa using this

theorem leer_linea_alloc_final (t : Cadena) (hne : t ≠ []) (hlen : t.length ≤ 1023)
    (hl : LineaLimpia t) :
    leer_linea_alloc ⟨t, false⟩ 1024 = (some (quitar_cr t), ⟨[], false⟩) := by
  unfold leer_linea_alloc
  rw [getline_final t hne (fun hm => (hl _ hm).1 rfl) hlen,
    c_str_limpio t (fun c hc => (hl c hc).2)]
  by_cases hcr : t.getLast? = some '\r'
  · have hpos : 0 < str_longitud (some t) := by
      cases t with
      | nil => simp at hcr
      | cons c r => simp [str_longitud]
    simp [quitar_cr, hcr, hpos]
  · simp [quitar_cr, hcr]

/-- The lines that the reads of an F record store once the terminated lines of the stream
are used up and the stream ends with the text `u`: the unterminated last line `u`, if there
is one, and then empty lines, `j` lines in all. -/
theorem leer_lineas_cola (f : Nat) (u : Cadena) (hu : '\n' ∉ u) (hlen : u.length ≤ 1023)
    (hl : LineaLimpia u) :
    ∀ (j : Nat) (h : Mem), f < h.length →
      ∃ h1 b, leer_lineas (j + 1) h f ⟨u, false⟩ = (h1, ⟨[], b⟩) ∧ h1.length = h.length ∧
        leer h1 f = { leer h f with lineas := (leer h f).lineas ++
          (if u = [] then List.replicate (j + 1) []
            else quitar_cr u :: List.replicate j []) } ∧
        (∀ q, q ≠ f → leer h1 q = leer h q) := by
  intro j h hf
  by_cases hue : u = []
  · subst hue
    obtain ⟨h1, b, d1, d2, d3, d4⟩ := leer_lineas_agotado f (j + 1) h false hf
    exact ⟨h1, b, d1, d2, by rw [d3]; simp, d4⟩
  · have hf1 : f < (anexar_linea h f (quitar_cr u)).length := by rw [length_anexar]; exact hf
    obtain ⟨h1, b, d1, d2, d3, d4⟩ :=
      leer_lineas_agotado f j (anexar_linea h f (quitar_cr u)) false hf1
    refine ⟨h1, b, ?_, by rw [d2, length_anexar], ?_, ?_⟩
    · simp only [leer_lineas, leer_linea_alloc_final u hue hlen hl, Option.getD]
      exact d1
    · rw [d3, leer_anexar_mismo h f _ hf]; simp [hue]
    · intro q hq
      rw [d4 q hq, leer_anexar_otro h f _ q hq]

/-- C19 (amended): in a well-formed tree let `p` be the absolute path made of the portable
names `ns` and `nm` (at most 511 characters), naming an existing file with lines `L`, or
naming nothing (`L` empty) while no file lies on the way. Load the record `F p N`
(`N < 2^31`) followed by the newline-terminated lines `ts`, at most `N` of them, each of at
most 1023 characters without NUL, and then the text `resto`. The file at `p` then has the
lines `L`, then the lines `ts` each without its final carriage return, and, when `ts` has
fewer than `N` lines, the stream ending there with `resto` as an unterminated last line: that
last line if it is not empty, then empty lines up to `N` lines in all. The load does not fail
at the record: with `N` terminated lines it goes on with `resto` at a record position, and
when the stream ends within the record it returns true. -/
theorem C19_registro_archivo (h : Mem) (hb : Bien h) (ns : List Cadena) (nm : Cadena)
    (L : List Cadena) (hport : ∀ s ∈ ns ++ [nm], Portable s)
    (hlen : (ruta_de (ns ++ [nm])).length ≤ 511)
    (hcaso :
      (∃ f, f < h.length ∧
        construir_ruta_absoluta h (some f) = some (ruta_de (ns ++ [nm])) ∧
        (leer h f).tipo = TipoNodo.NODO_ARCHIVO ∧ (leer h f).lineas = L) ∨
      (L = [] ∧
        (∀ q, q < h.length →
          construir_ruta_absoluta h (some q) ≠ some (ruta_de (ns ++ [nm]))) ∧
        (∀ q, q < h.length → (leer h q).tipo = TipoNodo.NODO_ARCHIVO →
          ∀ a b, ns = a ++ b → construir_ruta_absoluta h (some q) ≠ some (ruta_de a))))
    (N : Nat) (hN : N < 2 ^ 31) (ts : List Cadena)
    (hts : ∀ t ∈ ts, t.length ≤ 1023 ∧ LineaLimpia t) (hm : ts.length ≤ N)
    (resto : Cadena)
    (hfin : ts.length < N → resto.length ≤ 1023 ∧ LineaLimpia resto) :
    ∃ h1 f,
      (ts.length = N →
        deserializar_arbol h (some 0)
          ⟨'F' :: ' ' :: ruta_de (ns ++ [nm]) ++ ' ' :: decimal N ++
            '\n' :: (volcar_lineas ts ++ resto), false⟩ =
          deserializar_arbol h1 (some 0) ⟨resto, false⟩) ∧
      (ts.length < N ∨ resto = [] →
        deserializar_arbol h (some 0)
          ⟨'F' :: ' ' :: ruta_de (ns ++ [nm]) ++ ' ' :: decimal N ++
            '\n' :: (volcar_lineas ts ++ resto), false⟩ = ⟨h1, true, []⟩) ∧
      f < h1.length ∧
      construir_ruta_absoluta h1 (some f) = some (ruta_de (ns ++ [nm])) ∧
      (leer h1 f).tipo = TipoNodo.NODO_ARCHIVO ∧
      (leer h1 f).lineas = L ++ ts.map quitar_cr ++
        (if ts.length < N ∧ resto ≠ [] then
          quitar_cr resto :: List.replicate (N - ts.length - 1) []
        else List.replicate (N - ts.length) []) := by
  obtain ⟨hx, f, hf, hp, ht, hl, hcar⟩ := cargar_archivo_caso h hb ns nm L hport hcaso
  have hlimpia : TextoLimpio (ruta_de (ns ++ [nm])) :=
    ruta_de_limpia _ (fun s hs => (hport s hs).2.2.2)
  have hcab : (ruta_de (ns ++ [nm])).head? = some '/' := by
    rw [ruta_de_final]
    cases ns with
    | nil => rfl
    | cons x r => rfl
  obtain ⟨j, rfl⟩ := Nat.exists_eq_add_of_le hm
  obtain ⟨h2, c1, c2, c3, c4⟩ := leer_lineas_crudo f resto ts hx hts hf
  -- the memory and the stream after the `N` reads
  have hfinal : ∃ h3 s3, leer_lineas (ts.length + j) hx f ⟨volcar_lineas ts ++ resto, false⟩ =
        (h3, s3) ∧ (j = 0 → s3 = ⟨resto, false⟩) ∧ (0 < j → s3.resto = []) ∧
      h3.length = hx.length ∧
      leer h3 f = { leer hx f with
        lineas := (leer hx f).lineas ++ ts.map quitar_cr ++
          (if ts.length < ts.length + j ∧ resto ≠ [] then
            quitar_cr resto :: List.replicate (ts.length + j - ts.length - 1) []
          else List.replicate (ts.length + j - ts.length) []) } ∧
      (∀ q, q ≠ f → leer h3 q = leer hx q) := by
    rw [leer_lineas_suma, c1]
    cases j with
    | zero =>
      refine ⟨h2, ⟨resto, false⟩, rfl, fun _ => rfl, fun hj => absurd hj (by omega), c2, ?_, c4⟩
      rw [c3]; simp
    | succ j =>
      obtain ⟨hr1, hr2⟩ := hfin (by omega)
      obtain ⟨h3, b, d1, d2, d3, d4⟩ := leer_lineas_cola f resto (fun hm => (hr2 _ hm).1 rfl)
        hr1 hr2 j h2 (by omega)
      refine ⟨h3, ⟨[], b⟩, d1, fun hj => by omega, fun _ => rfl, by omega, ?_, ?_⟩
      · rw [d3, c3]
        by_cases hre : resto = []
        · simp [hre]
        · simp [hre]
      · intro q hq; rw [d4 q hq, c4 q hq]
  obtain ⟨h3, s3, g1, g2, g3, g4, g5, g6⟩ := hfinal
  have hcar1 := hcar (' ' :: decimal (ts.length + j)) ⟨volcar_lineas ts ++ resto, false⟩
  rw [leer_numero_decimal, g1] at hcar1
  have hreg := cargar_registro_archivo h (ruta_de (ns ++ [nm])) (volcar_lineas ts ++ resto)
    (ts.length + j) hlimpia hlen hcab hN _ hcar1
  simp only at hreg
  obtain ⟨r1, r2, r3⟩ := ruta_tras_lineas hx h3 f _ _ hp g4 g5 g6
  refine ⟨h3, f, ?_, ?_, by omega, r1, by rw [r2, ht], ?_⟩
  · intro hj
    have hj0 : j = 0 := by omega
    rw [hreg, g2 hj0]
  · intro hcase
    rw [hreg]
    by_cases hj0 : j = 0
    · have hre : resto = [] := by
        rcases hcase with hc | hc
        · omega
        · exact hc
      rw [g2 hj0, hre, deserializar_agotado]
    · have hs3 := g3 (by omega)
      cases s3 with
      | mk r3 b3 =>
        simp only at hs3
        subst hs3
        rw [deserializar_agotado]
  · rw [r3, hl]

theorem C19_registro_archivo_testigo :
    Bien arbolFXY ∧ (leer arbolFXY 1).lineas = ["x".toList, "y".toList] ∧
      ∃ h1 f,
        ([("p\r".toList)].length = 3 →
          deserializar_arbol arbolFXY (some 0)
            ⟨'F' :: ' ' :: ruta_de ([] ++ ["f".toList]) ++ ' ' :: decimal 3 ++
              '\n' :: (volcar_lineas ["p\r".toList] ++ "q".toList), false⟩ =
            deserializar_arbol h1 (some 0) ⟨"q".toList, false⟩) ∧
        ([("p\r".toList)].length < 3 ∨ "q".toList = [] →
          deserializar_arbol arbolFXY (some 0)
            ⟨'F' :: ' ' :: ruta_de ([] ++ ["f".toList]) ++ ' ' :: decimal 3 ++
              '\n' :: (volcar_lineas ["p\r".toList] ++ "q".toList), false⟩ =
            ⟨h1, true, []⟩) ∧
        f < h1.length ∧
        construir_ruta_absoluta h1 (some f) = some (ruta_de ([] ++ ["f".toList])) ∧
        (leer h1 f).tipo = TipoNodo.NODO_ARCHIVO ∧
        (leer h1 f).lineas = ["x".toList, "y".toList] ++ ["p\r".toList].map quitar_cr ++
          (if [("p\r".toList)].length < 3 ∧ "q".toList ≠ [] then
            quitar_cr "q".toList :: List.replicate (3 - [("p\r".toList)].length - 1) []
          else List.replicate (3 - [("p\r".toList)].length) []) :=
  ⟨bien_arbolFXY, by decide,
    C19_registro_archivo arbolFXY bien_arbolFXY [] "f".toList ["x".toList, "y".toList]
      (by
        intro s hs
        simp only [List.nil_append, List.mem_singleton] at hs
        subst hs
        exact ⟨by decide, by decide, by decide, by decide⟩)
      (by decide)
      (Or.inl ⟨1, by decide, by decide, by decide, by decide⟩)
      3 (by decide) ["p\r".toList]
      (by
        intro t ht
        simp only [List.mem_singleton] at ht
        subst ht
        exact ⟨by decide, by unfold LineaLimpia; decide⟩)
      (by decide) "q".toList (fun _ => ⟨by decide, by unfold LineaLimpia; decide⟩)⟩

/-- C24 (failing inputs): in the tree `touch f`, whose kinds are consistent, loading the
record `D /f/x` succeeds and hangs the new directory `x` (node 2) from the file `f`; in the
tree `mkdir a`, loading the record `F /a 1` and the line `x` succeeds and appends the line to
the directory `a`. -/
theorem C24_tipos_rotos :
    TiposConsistentes arbolF ∧ (leer arbolF 1).tipo = TipoNodo.NODO_ARCHIVO ∧
      (deserializar_arbol arbolF (some 0) ⟨"D /f/x\n".toList, false⟩).val = true ∧
      leer (deserializar_arbol arbolF (some 0) ⟨"D /f/x\n".toList, false⟩).mem 1 =
        ⟨TipoNodo.NODO_ARCHIVO, "f".toList, some 0, [2], []⟩ ∧
      ¬ TiposConsistentes (deserializar_arbol arbolF (some 0) ⟨"D /f/x\n".toList, false⟩).mem ∧
      TiposConsistentes arbolA ∧ (leer arbolA 1).tipo = TipoNodo.NODO_DIR ∧
      (deserializar_arbol arbolA (some 0) ⟨"F /a 1\nx\n".toList, false⟩).val = true ∧
      leer (deserializar_arbol arbolA (some 0) ⟨"F /a 1\nx\n".toList, false⟩).mem 1 =
        ⟨TipoNodo.NODO_DIR, "a".toList, some 0, [], ["x".toList]⟩ ∧
      ¬ TiposConsistentes
        (deserializar_arbol arbolA (some 0) ⟨"F /a 1\nx\n".toList, false⟩).mem := by
  decide

/-! ## Segments longer than the token buffer -/

/-- C22 (failing input): in the tree `mkdir a; touch a/b.txt` with `a` (node 1) as current
directory, `resolver_padre_para_nuevo` on the relative path `x` leaves `x` as name but
returns the root, node 0, not the current directory, which is what `resolver_ruta` gives for
the path without its last component. The command `mv b.txt x` therefore moves the file out
of `a` into the root. -/
theorem C22_padre_es_raiz :
    resolver_padre_para_nuevo arbolABtxt (some 0) (some 1) "x".toList =
        ((some 0, []), "x".toList) ∧
      resolver_ruta arbolABtxt (some 0) (some 1) (some []) = (some 1, []) ∧
      (leer arbolABtxt 2).padre = some 1 ∧
      (comando_mv arbolABtxt 0 1 "b.txt".toList "x".toList).map
          (fun r => ((leer r.mem 2).nombre, (leer r.mem 2).padre, (leer r.mem 1).hijos,
            (leer r.mem 0).hijos)) =
        some ("x".toList, some 0, [], [2, 1]) := by
  decide

/-- The first backward loop of `resolver_padre_para_nuevo` stops right after the last
character that is not a slash. -/
theorem retroceder_barras_cola (a : Cadena) (c : Char) (hc : c ≠ '/') (k : Nat) (x : Cadena) :
    retroceder_barras (a ++ [c] ++ List.replicate k '/' ++ x) (a.length + 1 + k) =
      a.length + 1 := by
  induction k generalizing x with
  | zero =>
    simp only [List.replicate_zero, List.append_nil, Nat.add_zero, retroceder_barras]
    have : (a ++ [c] ++ x).getD a.length ' ' = c := by
      rw [List.getD_eq_getElem?_getD, List.append_assoc,
        List.getElem?_append_right (Nat.le_refl _)]
      simp
    rw [this, if_neg hc]
  | succ k ih =>
    have e : a ++ [c] ++ List.replicate (k + 1) '/' ++ x =
        a ++ [c] ++ List.replicate k '/' ++ ('/' :: x) := by
      rw [List.replicate_succ']; simp
    rw [e, ← Nat.add_assoc, retroceder_barras]
    have : (a ++ [c] ++ List.replicate k '/' ++ '/' :: x).getD (a.length + 1 + k) ' ' = '/' := by
      have hl : (a ++ [c] ++ List.replicate k '/').length = a.length + 1 + k := by
        simp; omega
      rw [List.getD_eq_getElem?_getD, ← hl, List.getElem?_append_right (Nat.le_refl _)]
      simp
    rw [this, if_pos rfl]
    exact ih _

/-- The second backward loop of `resolver_padre_para_nuevo` runs over the characters of the
last component and stops right after the slash before it. -/
theorem retroceder_nombre_cola (pre nm x : Cadena) (hsb : '/' ∉ nm) (m : Nat)
    (hm : m ≤ nm.length) :
    retroceder_nombre (pre ++ '/' :: nm ++ x) (pre.length + 1 + m) = pre.length + 1 := by
  induction m with
  | zero =>
    simp only [Nat.add_zero, retroceder_nombre]
    have : (pre ++ '/' :: nm ++ x).getD pre.length ' ' = '/' := by
      rw [List.getD_eq_getElem?_getD, List.append_assoc,
        List.getElem?_append_right (Nat.le_refl _)]
      simp
    rw [this]; simp
  | succ m ih =>
    rw [← Nat.add_assoc, retroceder_nombre]
    have hlt : m < nm.length := hm
    have : (pre ++ '/' :: nm ++ x).getD (pre.length + 1 + m) ' ' = nm[m] := by
      rw [List.getD_eq_getElem?_getD, List.append_assoc,
        List.getElem?_append_right (by omega)]
      have e : pre.length + 1 + m - pre.length = m + 1 := by omega
      rw [e, List.cons_append, List.getElem?_cons_succ, List.getElem?_append_left hlt,
        List.getElem?_eq_getElem hlt]
      rfl
    have hne : nm[m] ≠ '/' := fun e => hsb (e ▸ List.getElem_mem hlt)
    rw [this, if_pos hne]
    exact ih (by omega)

/-- The second backward loop on a path without any slash runs to the start. -/
theorem retroceder_nombre_sin_barra (nm x : Cadena) (hsb : '/' ∉ nm) (m : Nat)
    (hm : m ≤ nm.length) : retroceder_nombre (nm ++ x) m = 0 := by
  induction m with
  | zero => rfl
  | succ m ih =>
    rw [retroceder_nombre]
    have hlt : m < nm.length := hm
    have : (nm ++ x).getD m ' ' = nm[m] := by
      rw [List.getD_eq_getElem?_getD, List.getElem?_append_left hlt,
        List.getElem?_eq_getElem hlt]
      rfl
    have hne : nm[m] ≠ '/' := fun e => hsb (e ▸ List.getElem_mem hlt)
    rw [this, if_pos hne]
    exact ih (by omega)

/-- Where the last component follows a slash, `resolver_padre_para_nuevo` does split the
path: for a path `pre/nm` followed by any number of slashes, with `nm` a non-empty name of
at most 255 characters and `pre` a non-empty prefix of at most 511 characters, the name is
`nm` and the parent is what `resolver_ruta` gives for `pre`. -/
theorem resolver_padre_con_barra (h : Mem) (raiz cwd : Option Nat) (pre nm : Cadena) (k : Nat)
    (hnm : nm ≠ []) (hsb : '/' ∉ nm) (hl : nm.length ≤ 255) (hpre : pre ≠ [])
    (hp : pre.length ≤ 511) :
    resolver_padre_para_nuevo h raiz cwd (pre ++ '/' :: nm ++ List.replicate k '/') =
      (resolver_ruta h raiz cwd (some pre), nm) := by
  obtain ⟨a, c, rfl⟩ : ∃ a c, nm = a ++ [c] := by
    rcases List.eq_nil_or_concat nm with e | ⟨a, c, e⟩
    · exact absurd e hnm
    · exact ⟨a, c, by simpa using e⟩
  have hc : c ≠ '/' := fun e => hsb (by simp [e])
  have hlen : (pre ++ '/' :: (a ++ [c]) ++ List.replicate k '/').length =
      (pre ++ '/' :: a).length + 1 + k := by simp; omega
  have e1 : pre ++ '/' :: (a ++ [c]) ++ List.replicate k '/' =
      (pre ++ '/' :: a) ++ [c] ++ List.replicate k '/' ++ [] := by simp
  have hfin : retroceder_barras (pre ++ '/' :: (a ++ [c]) ++ List.replicate k '/')
      (pre ++ '/' :: (a ++ [c]) ++ List.replicate k '/').length =
        pre.length + 1 + (a ++ [c]).length := by
    rw [hlen]
    conv_lhs => rw [e1]
    rw [retroceder_barras_cola _ c hc k []]
    simp; omega
  have hj : retroceder_nombre (pre ++ '/' :: (a ++ [c]) ++ List.replicate k '/')
      (pre.length + 1 + (a ++ [c]).length) = pre.length + 1 :=
    retroceder_nombre_cola pre (a ++ [c]) _ hsb _ (Nat.le_refl _)
  have hpos : 0 < pre.length := List.length_pos.mpr hpre
  unfold resolver_padre_para_nuevo
  simp only [hfin, hj]
  have e2 : ¬ pre.length + 1 ≤ 1 := by omega
  rw [if_neg e2]
  have e3 : min (pre.length + 1 - 1) 511 = pre.length := by omega
  have e4 : min (pre.length + 1 + (a ++ [c]).length - (pre.length + 1)) 255 =
      (a ++ [c]).length := by omega
  rw [e3, e4]
  congr 1
  · congr 2
    rw [List.append_assoc, List.take_left]
  · have : List.drop (pre.length + 1) (pre ++ '/' :: (a ++ [c]) ++ List.replicate k '/') =
        (a ++ [c]) ++ List.replicate k '/' := by
      have : pre ++ '/' :: (a ++ [c]) ++ List.replicate k '/' =
          (pre ++ ['/']) ++ ((a ++ [c]) ++ List.replicate k '/') := by simp
      rw [this]
      have hl2 : (pre ++ ['/']).length = pre.length + 1 := by simp
      rw [← hl2, List.drop_left]
    rw [this, List.take_left]

/-- For an absolute path `/nm` followed by any number of slashes, with `nm` a non-empty name
of at most 255 characters, the name is `nm` and the parent is what `resolver_ruta` gives for
`/`. -/
theorem resolver_padre_absoluto (h : Mem) (raiz cwd : Option Nat) (nm : Cadena) (k : Nat)
    (hnm : nm ≠ []) (hsb : '/' ∉ nm) (hl : nm.length ≤ 255) :
    resolver_padre_para_nuevo h raiz cwd ('/' :: nm ++ List.replicate k '/') =
      (resolver_ruta h raiz cwd (some ['/']), nm) := by
  obtain ⟨a, c, rfl⟩ : ∃ a c, nm = a ++ [c] := by
    rcases List.eq_nil_or_concat nm with e | ⟨a, c, e⟩
    · exact absurd e hnm
    · exact ⟨a, c, by simpa using e⟩
  have hc : c ≠ '/' := fun e => hsb (by simp [e])
  have hlen : ('/' :: (a ++ [c]) ++ List.replicate k '/').length =
      ('/' :: a).length + 1 + k := by simp; omega
  have e1 : '/' :: (a ++ [c]) ++ List.replicate k '/' =
      ('/' :: a) ++ [c] ++ List.replicate k '/' ++ [] := by simp
  have hfin : retroceder_barras ('/' :: (a ++ [c]) ++ List.replicate k '/')
      ('/' :: (a ++ [c]) ++ List.replicate k '/').length = 0 + 1 + (a ++ [c]).length := by
    rw [hlen]
    conv_lhs => rw [e1]
    rw [retroceder_barras_cola _ c hc k []]
    simp; omega
  have hj : retroceder_nombre ('/' :: (a ++ [c]) ++ List.replicate k '/')
      (0 + 1 + (a ++ [c]).length) = 0 + 1 := by
    have := retroceder_nombre_cola [] (a ++ [c]) (List.replicate k '/') hsb _ (Nat.le_refl _)
    simpa using this
  unfold resolver_padre_para_nuevo
  simp only [hfin, hj]
  rw [if_pos (by omega)]
  have e4 : min (0 + 1 + (a ++ [c]).length - (0 + 1)) 255 = (a ++ [c]).length := by omega
  rw [e4]
  congr 1
  show List.take (a ++ [c]).length (List.drop 1 ('/' :: ((a ++ [c]) ++ List.replicate k '/'))) = _
  rw [List.drop_one, List.tail_cons, List.take_left]

/-- For a relative path made of a single name, followed by any number of slashes, the parent
is what `resolver_ruta` gives for `/`: the root and not the current directory. -/
theorem resolver_padre_sin_barra (h : Mem) (raiz cwd : Option Nat) (nm : Cadena) (k : Nat)
    (hnm : nm ≠ []) (hsb : '/' ∉ nm) (hl : nm.length ≤ 255) :
    resolver_padre_para_nuevo h raiz cwd (nm ++ List.replicate k '/') =
      (resolver_ruta h raiz cwd (some ['/']), nm) := by
  obtain ⟨a, c, rfl⟩ : ∃ a c, nm = a ++ [c] := by
    rcases List.eq_nil_or_concat nm with e | ⟨a, c, e⟩
    · exact absurd e hnm
    · exact ⟨a, c, by simpa using e⟩
  have hc : c ≠ '/' := fun e => hsb (by simp [e])
  have hlen : (a ++ [c] ++ List.replicate k '/').length = a.length + 1 + k := by
    simp; omega
  have hfin : retroceder_barras (a ++ [c] ++ List.replicate k '/')
      (a ++ [c] ++ List.replicate k '/').length = (a ++ [c]).length := by
    rw [hlen]
    have := retroceder_barras_cola a c hc k []
    simp only [List.append_nil] at this
    rw [this]; simp
  have hj : retroceder_nombre (a ++ [c] ++ List.replicate k '/') (a ++ [c]).length = 0 :=
    retroceder_nombre_sin_barra (a ++ [c]) _ hsb _ (Nat.le_refl _)
  unfold resolver_padre_para_nuevo
  simp only [hfin, hj]
  rw [if_pos (by omega)]
  have e4 : min ((a ++ [c]).length - 0) 255 = (a ++ [c]).length := by
    rw [Nat.sub_zero]; omega
  rw [e4, List.drop_zero, List.take_left]

theorem getline_buf_cruda (l rest buf : Cadena) (hn : '\n' ∉ l) (hlen : l.length ≤ 1023) :
    getline_buf ⟨l ++ '\n' :: rest, false⟩ 1024 buf =
      (some (l ++ NUL :: buf.drop (l.length + 1)), ⟨rest, false⟩) := by
  have he := extraer_linea l rest hn 1023 hlen
  unfold getline_buf
  simp only [Bool.false_eq_true, if_false]
  cases hl : l ++ '\n' :: rest with
  | nil => cases l <;> simp at hl
  | cons c r =>
    simp only
    rw [hl] at he
    rw [show 1024 - 1 = 1023 from rfl, he]
    simp

theorem getline_buf_resto (s : Flujo) (n : Nat) (buf : Cadena) :
    (getline_buf s n buf).2.resto.length ≤ s.resto.length ∧
    (∀ x, (getline_buf s n buf).1 = some x →
      (getline_buf s n buf).2.resto.length < s.resto.length) := by
  unfold getline_buf
  by_cases hf : s.falla = true
  · simp [hf]
  · simp only [hf, Bool.false_eq_true, if_false]
    cases hr : s.resto with
    | nil => simp
    | cons c r =>
      simp only
      by_cases hq : (extraer (n - 1) (c :: r)).2.2 = true
      · simp only [hq, if_true]
        refine ⟨extraer_resto_le _ _, ?_⟩
        intro x hx; cases hx
      · simp only [hq, Bool.false_eq_true, if_false]
        have := extraer_resto_lt c r (n - 1) (by simpa using hq)
        exact ⟨Nat.le_of_lt this, fun _ _ => this⟩

theorem leer_linea_alloc_resto_par (s : Flujo) (a : Option Cadena) (s2 : Flujo)
    (hx : leer_linea_alloc s 1024 = (a, s2)) : s2.resto.length ≤ s.resto.length := by
  have := leer_linea_alloc_resto s 1024
  rw [hx] at this; exact this

theorem comando_a_consume (f : Nat) (e : Editor) :
    (comando_a f e).flujo.resto.length ≤ e.flujo.resto.length := by
  unfold comando_a
  split <;> exact leer_linea_alloc_resto_par _ _ _ (by assumption)

theorem comando_i_consume (f : Nat) (e : Editor) :
    (comando_i f e).flujo.resto.length ≤ e.flujo.resto.length := by
  unfold comando_i
  dsimp only
  split
  · exact Nat.le_refl _
  · split
    · exact leer_linea_alloc_resto_par _ _ _ (by assumption)
    · split
      · exact leer_linea_alloc_resto_par _ _ _ (by assumption)
      · split <;> exact leer_linea_alloc_resto_par _ _ _ (by assumption)

theorem comando_r_consume (f : Nat) (e : Editor) :
    (comando_r f e).flujo.resto.length ≤ e.flujo.resto.length := by
  unfold comando_r
  dsimp only
  split
  · exact Nat.le_refl _
  · split <;> exact leer_linea_alloc_resto_par _ _ _ (by assumption)

theorem comando_d_consume (f : Nat) (e : Editor) :
    (comando_d f e).flujo.resto.length ≤ e.flujo.resto.length := by
  unfold comando_d
  dsimp only
  split
  · exact Nat.le_refl _
  · split
    · exact Nat.le_refl _
    · split <;> exact Nat.le_refl _

theorem ejecutar_comando_consume (f : Nat) (e : Editor) :
    (ejecutar_comando f e).1.flujo.resto.length ≤ e.flujo.resto.length := by
  unfold ejecutar_comando
  split_ifs
  · exact Nat.le_refl _
  · exact Nat.le_refl _
  · exact Nat.le_refl _
  · exact comando_a_consume f e
  · exact comando_i_consume f e
  · exact comando_r_consume f e
  · exact comando_d_consume f e
  · exact Nat.le_refl _
  · exact Nat.le_refl _

/-- A turn of the editor never gives text back to the stream, and a turn after which the
loop goes on has taken at least one character. -/
theorem editar_paso_consume (f : Nat) (e : Editor) :
    (editar_paso f e).1.flujo.resto.length ≤ e.flujo.resto.length ∧
    ((editar_paso f e).2 = none →
      (editar_paso f e).1.flujo.resto.length < e.flujo.resto.length) := by
  have hg := getline_buf_resto e.flujo 1024 e.buf
  unfold editar_paso
  cases hq : getline_buf e.flujo 1024 e.buf with
  | mk a s1 =>
    rw [hq] at hg
    cases a with
    | none => exact ⟨hg.1, fun hc => by cases hc⟩
    | some buf =>
      have h1 : s1.resto.length < e.flujo.resto.length := hg.2 buf rfl
      have h2 := ejecutar_comando_consume f ⟨e.mem, buf, s1, e.out ++ "> ".toList⟩
      exact ⟨Nat.le_trans h2 (Nat.le_of_lt h1), fun _ => Nat.lt_of_le_of_lt h2 h1⟩

/-- The fuel of `editar_bucle` is enough: with the length of the unread text plus one, or
any more, the loop has returned before the fuel ends. -/
theorem editar_bucle_combustible (f : Nat) :
    ∀ (k1 k2 : Nat) (e : Editor), e.flujo.resto.length < k1 → e.flujo.resto.length < k2 →
      editar_bucle f k1 e = editar_bucle f k2 e := by
  intro k1
  induction k1 with
  | zero => intro k2 e h1 _; omega
  | succ k1 ih =>
    intro k2 e h1 h2
    cases k2 with
    | zero => omega
    | succ k2 =>
      have hc := editar_paso_consume f e
      simp only [editar_bucle]
      cases hq : editar_paso f e with
      | mk e1 b =>
        rw [hq] at hc
        cases b with
        | some b => rfl
        | none =>
          have := hc.2 rfl
          exact ih k2 e1 (by simp only at this; omega) (by simp only at this; omega)

/-- A turn that goes on is one more turn of the loop. -/
theorem editar_bucle_sigue (f k : Nat) (e e1 : Editor) (hp : editar_paso f e = (e1, none)) :
    editar_bucle f (k + 1) e = editar_bucle f k e1 := by
  simp only [editar_bucle, hp]

/-- A turn that returns ends the loop. -/
theorem editar_bucle_retorna (f k : Nat) (e e1 : Editor) (b : Bool)
    (hp : editar_paso f e = (e1, some b)) : editar_bucle f (k + 1) e = (e1, b) := by
  simp only [editar_bucle, hp]

theorem numero_de_comando_digitos :
    ∀ (l : Cadena) (acc : Nat) (x : Cadena),
      (∀ c ∈ l, '0'.toNat ≤ c.toNat ∧ c.toNat ≤ '9'.toNat) →
      numero_de_comando acc (l ++ NUL :: x) = leer_numero acc l := by
  intro l
  induction l with
  | nil => intro acc x _; simp [numero_de_comando, leer_numero]
  | cons c l ih =>
    intro acc x hd
    have hc := hd c (List.mem_cons_self _ _)
    have hn : c ≠ NUL := by
      rintro rfl
      revert hc; decide
    simp only [List.cons_append, numero_de_comando, leer_numero, if_neg hn, hc, and_self,
      if_true]
    exact ih _ _ (fun d hd1 => hd d (List.mem_cons_of_mem _ hd1))

theorem insertar_tras_dentro :
    ∀ (k : Nat) (L : List Cadena) (t : Cadena), k < L.length →
      insertar_tras k L t = some (L.take (k + 1) ++ t :: L.drop (k + 1)) := by
  intro k
  induction k with
  | zero =>
    intro L t hk
    cases L with
    | nil => simp at hk
    | cons l ls => simp [insertar_tras]
  | succ k ih =>
    intro L t hk
    cases L with
    | nil => simp at hk
    | cons l ls =>
      have := ih ls t (by simpa using hk)
      simp [insertar_tras, this]

theorem insertar_tras_fuera :
    ∀ (k : Nat) (L : List Cadena) (t : Cadena), L.length ≤ k → insertar_tras k L t = none := by
  intro k
  induction k with
  | zero =>
    intro L t hk
    cases L with
    | nil => rfl
    | cons l ls => simp at hk
  | succ k ih =>
    intro L t hk
    cases L with
    | nil => rfl
    | cons l ls =>
      have := ih ls t (by simpa using hk)
      simp [insertar_tras, this]

/-- The array after the command line `:i N` has been read into it. -/
theorem numero_de_comando_i (N : Nat) (x : Cadena) :
    numero_de_comando 0 ((":i ".toList ++ decimal N ++ NUL :: x).drop 3) = N := by
  have : (":i ".toList ++ decimal N ++ NUL :: x).drop 3 = decimal N ++ NUL :: x := rfl
  rw [this, numero_de_comando_digitos _ _ _ (decimal_spec N).2.2]
  exact (decimal_spec N).1

/-- The command `:i N` with the text line `t` next in the stream. -/
theorem comando_i_linea (f : Nat) (h : Mem) (buf out t x : Cadena) (N : Nat)
    (hb : numero_de_comando 0 (buf.drop 3) = N)
    (ht : t.length ≤ 1023) (htl : LineaLimpia t) :
    let L := (leer h f).lineas
    let e : Editor := ⟨h, buf, ⟨t ++ '\n' :: x, false⟩, out⟩
    (1 ≤ N → N ≤ L.length + 1 →
      comando_i f e =
        ⟨poner_lineas h f (L.take (N - 1) ++ quitar_cr t :: L.drop (N - 1)), buf, ⟨x, false⟩,
          out ++ "texto: ".toList⟩) ∧
    (L.length + 1 < N →
      comando_i f e =
        ⟨h, buf, ⟨x, false⟩, out ++ "texto: ".toList ++ "línea fuera de rango\n".toList⟩) ∧
    (N = 0 → comando_i f e = ⟨h, buf, ⟨t ++ '\n' :: x, false⟩, out ++ "N inválido\n".toList⟩) := by
  intro L e
  have hl := leer_linea_alloc_cruda t x ht htl
  refine ⟨?_, ?_, ?_⟩
  · intro h1 h2
    unfold comando_i
    simp only [e, hb, hl]
    rw [if_neg (by omega)]
    by_cases hN : N = 1
    · subst hN
      simp [L]
    · rw [if_neg hN]
      have hk : N - 2 < L.length := by omega
      rw [insertar_tras_dentro (N - 2) L _ hk]
      have e1 : N - 2 + 1 = N - 1 := by omega
      simp only [e1]
  · intro h1
    unfold comando_i
    simp only [e, hb, hl]
    rw [if_neg (by omega), if_neg (by omega)]
    rw [insertar_tras_fuera (N - 2) L _ (by omega)]
  · intro h1
    unfold comando_i
    simp only [e, hb]
    rw [if_pos h1]

/-- The command line `:i N` in the array selects the command `:i`. -/
theorem ejecutar_comando_i (f : Nat) (h : Mem) (s : Flujo) (out x : Cadena) (N : Nat) :
    ejecutar_comando f ⟨h, ":i ".toList ++ decimal N ++ NUL :: x, s, out⟩ =
      (comando_i f ⟨h, ":i ".toList ++ decimal N ++ NUL :: x, s, out⟩, none) := by
  have hb : ":i ".toList ++ decimal N ++ NUL :: x = ':' :: 'i' :: ' ' :: (decimal N ++ NUL :: x) :=
    rfl
  have hc : c_str (':' :: 'i' :: ' ' :: (decimal N ++ NUL :: x)) =
      ':' :: 'i' :: c_str (' ' :: (decimal N ++ NUL :: x)) := by
    simp [c_str, List.takeWhile]
  unfold ejecutar_comando
  simp only [hb, hc]
  have h0 : (':' :: 'i' :: ' ' :: (decimal N ++ NUL :: x)).getD 0 NUL = ':' := rfl
  have h1 : (':' :: 'i' :: ' ' :: (decimal N ++ NUL :: x)).getD 1 NUL = 'i' := rfl
  have p1 : str_igual (some (':' :: 'i' :: c_str (' ' :: (decimal N ++ NUL :: x))))
      (some ":p".toList) = false := by
    simp [str_igual, str_igual_desde]
  have p2 : str_igual (some (':' :: 'i' :: c_str (' ' :: (decimal N ++ NUL :: x))))
      (some ":wq".toList) = false := by
    simp [str_igual, str_igual_desde]
  have p3 : str_igual (some (':' :: 'i' :: c_str (' ' :: (decimal N ++ NUL :: x))))
      (some ":q!".toList) = false := by
    simp [str_igual, str_igual_desde]
  rw [if_pos h0, p1, p2, p3]
  simp only [Bool.false_eq_true, if_false]
  rw [h1, if_neg (by decide), if_pos rfl]

/-- The command line `:wq` ends the editor with `true`. -/
theorem editar_paso_wq (f : Nat) (h : Mem) (buf out x : Cadena) :
    editar_paso f ⟨h, buf, ⟨":wq".toList ++ '\n' :: x, false⟩, out⟩ =
      (⟨h, ":wq".toList ++ NUL :: buf.drop 4, ⟨x, false⟩, out ++ "> ".toList⟩, some true) := by
  unfold editar_paso
  rw [getline_buf_cruda ":wq".toList x buf (by decide) (by decide)]
  simp only []
  unfold ejecutar_comando
  have hc : c_str (":wq".toList ++ NUL :: buf.drop (":wq".toList.length + 1)) = ":wq".toList := by
    simp [c_str, List.takeWhile, NUL]
  simp only [hc]
  have h0 : (":wq".toList ++ NUL :: buf.drop (":wq".toList.length + 1)).getD 0 NUL = ':' := rfl
  rw [if_pos h0]
  have p1 : str_igual (some ":wq".toList) (some ":p".toList) = false := by decide
  have p2 : str_igual (some ":wq".toList) (some ":wq".toList) = true := by decide
  rw [p1, p2]
  simp only [Bool.false_eq_true, if_false, if_true]
  rfl

/-- One turn of the editor on the command line `:i N` followed by the text line `t`. -/
theorem editar_paso_i (f : Nat) (h : Mem) (buf out t x : Cadena) (N : Nat) (hN : N < 2 ^ 31) :
    editar_paso f ⟨h, buf, ⟨":i ".toList ++ decimal N ++ '\n' :: (t ++ '\n' :: x), false⟩, out⟩ =
      (comando_i f
        ⟨h, ":i ".toList ++ decimal N ++ NUL :: buf.drop ((":i ".toList ++ decimal N).length + 1),
          ⟨t ++ '\n' :: x, false⟩, out ++ "> ".toList⟩, none) := by
  have hn : '\n' ∉ ":i ".toList ++ decimal N := by
    intro hm
    rcases List.mem_append.mp hm with hm | hm
    · revert hm; decide
    · exact (decimal_limpio N _ hm).2.1 rfl
  have hlen : (":i ".toList ++ decimal N).length ≤ 1023 := by
    have := decimal_corto N hN
    simp only [List.length_append]
    have : ":i ".toList.length = 3 := rfl
    omega
  unfold editar_paso
  rw [getline_buf_cruda _ _ buf hn hlen]
  simp only []
  exact ejecutar_comando_i f h _ _ _ N

theorem leer_poner_lineas (h : Mem) (f : Nat) (ls : List Cadena) (hf : f < h.length) :
    (leer (poner_lineas h f ls) f).lineas = ls := by
  unfold poner_lineas
  rw [leer_set_eq _ _ _ hf]

/-- C23 (counterexample): on the File `f` with the lines `x` and `y`, the command `:i -1`
followed by the text `z` does not leave the lines unchanged: the sign is passed over, `N` is
1 and `z` becomes the first line. After `:i 1` the text line `z` with a final carriage
return is stored as `z`, not as the text line itself. After `:i 0` no text line is read: the
line that follows, `:d 1`, is run as a command and takes the first line away. Each session
ends with `:wq` and returns `true`. -/
theorem C23_contraejemplo :
    (leer arbolFXY 1).tipo = TipoNodo.NODO_ARCHIVO ∧
      (leer arbolFXY 1).lineas = ["x".toList, "y".toList] ∧
      (editar_archivo arbolFXY (some 1) [] ⟨":i -1\nz\n:wq\n".toList, false⟩).2 = true ∧
      (leer (editar_archivo arbolFXY (some 1) [] ⟨":i -1\nz\n:wq\n".toList, false⟩).1.mem
          1).lineas = ["z".toList, "x".toList, "y".toList] ∧
      (editar_archivo arbolFXY (some 1) [] ⟨":i 1\nz\r\n:wq\n".toList, false⟩).2 = true ∧
      (leer (editar_archivo arbolFXY (some 1) [] ⟨":i 1\nz\r\n:wq\n".toList, false⟩).1.mem
          1).lineas = ["z".toList, "x".toList, "y".toList] ∧
      (editar_archivo arbolFXY (some 1) [] ⟨":i 0\n:d 1\n:wq\n".toList, false⟩).2 = true ∧
      (leer (editar_archivo arbolFXY (some 1) [] ⟨":i 0\n:d 1\n:wq\n".toList, false⟩).1.mem
          1).lineas = ["y".toList] := by
  decide

/-- C23 (amended): for a File `f` with the lines `L`, a number `N` below `2^31` written in
decimal after `:i ` and a text line `t` of at most 1023 characters, one turn of the editor
on the command line `:i N` followed by `t` gives, when `1 ≤ N ≤ len + 1`, the lines whose
first `N - 1` are those of `L`, whose `N`-th is `t` without its final carriage return, and
whose rest are the lines `N..len` of `L`; when `N > len + 1` it reads `t`, writes
`línea fuera de rango` and leaves the lines as they are; when `N = 0` it writes
`N inválido`, leaves the lines as they are and leaves `t` unread in the stream. In the first
two cases the session that goes on with `:wq` returns `true` with those lines. -/
theorem C23_insertar_antes (h : Mem) (f : Nat) (buf out t x : Cadena) (N : Nat)
    (hf : f < h.length) (harch : (leer h f).tipo = TipoNodo.NODO_ARCHIVO)
    (hN : N < 2 ^ 31) (ht : t.length ≤ 1023) (htl : LineaLimpia t) :
    (1 ≤ N → N ≤ (leer h f).lineas.length + 1 →
      editar_paso f
          ⟨h, buf, ⟨":i ".toList ++ decimal N ++ '\n' :: (t ++ '\n' :: x), false⟩, out⟩ =
        (⟨poner_lineas h f
            ((leer h f).lineas.take (N - 1) ++ quitar_cr t :: (leer h f).lineas.drop (N - 1)),
          ":i ".toList ++ decimal N ++ NUL :: buf.drop ((":i ".toList ++ decimal N).length + 1),
          ⟨x, false⟩, out ++ "> ".toList ++ "texto: ".toList⟩, none) ∧
      (editar_archivo h (some f) buf
          ⟨":i ".toList ++ decimal N ++ '\n' :: (t ++ '\n' :: (":wq".toList ++ '\n' :: x)),
            false⟩).2 = true ∧
      (leer (editar_archivo h (some f) buf
          ⟨":i ".toList ++ decimal N ++ '\n' :: (t ++ '\n' :: (":wq".toList ++ '\n' :: x)),
            false⟩).1.mem f).lineas =
        (leer h f).lineas.take (N - 1) ++ quitar_cr t :: (leer h f).lineas.drop (N - 1)) ∧
    ((leer h f).lineas.length + 1 < N →
      editar_paso f
          ⟨h, buf, ⟨":i ".toList ++ decimal N ++ '\n' :: (t ++ '\n' :: x), false⟩, out⟩ =
        (⟨h,
          ":i ".toList ++ decimal N ++ NUL :: buf.drop ((":i ".toList ++ decimal N).length + 1),
          ⟨x, false⟩,
          out ++ "> ".toList ++ "texto: ".toList ++ "línea fuera de rango\n".toList⟩, none) ∧
      (editar_archivo h (some f) buf
          ⟨":i ".toList ++ decimal N ++ '\n' :: (t ++ '\n' :: (":wq".toList ++ '\n' :: x)),
            false⟩).2 = true ∧
      (editar_archivo h (some f) buf
          ⟨":i ".toList ++ decimal N ++ '\n' :: (t ++ '\n' :: (":wq".toList ++ '\n' :: x)),
            false⟩).1.mem = h) ∧
    (N = 0 →
      editar_paso f
          ⟨h, buf, ⟨":i ".toList ++ decimal N ++ '\n' :: (t ++ '\n' :: x), false⟩, out⟩ =
        (⟨h,
          ":i ".toList ++ decimal N ++ NUL :: buf.drop ((":i ".toList ++ decimal N).length + 1),
          ⟨t ++ '\n' :: x, false⟩, out ++ "> ".toList ++ "N inválido\n".toList⟩, none)) := by
  have hnum := numero_de_comando_i N (buf.drop ((":i ".toList ++ decimal N).length + 1))
  have hstep := fun o y => editar_paso_i f h buf o t y N hN
  have hci := fun o y => comando_i_linea f h
    (":i ".toList ++ decimal N ++ NUL :: buf.drop ((":i ".toList ++ decimal N).length + 1))
    o t y N hnum ht htl
  simp only [] at hci
  have hses : ∀ (m : Mem) (o1 : Cadena),
      editar_paso f
          ⟨h, buf,
            ⟨":i ".toList ++ decimal N ++ '\n' :: (t ++ '\n' :: (":wq".toList ++ '\n' :: x)),
              false⟩,
            "Editor (:p mostrar, :a append, :i N, :r N, :d N, :wq guardar, :q! salir)\n".toList⟩ =
        (⟨m,
          ":i ".toList ++ decimal N ++ NUL :: buf.drop ((":i ".toList ++ decimal N).length + 1),
          ⟨":wq".toList ++ '\n' :: x, false⟩, o1⟩, none) →
      (editar_archivo h (some f) buf
          ⟨":i ".toList ++ decimal N ++ '\n' :: (t ++ '\n' :: (":wq".toList ++ '\n' :: x)),
            false⟩).2 = true ∧
        (editar_archivo h (some f) buf
          ⟨":i ".toList ++ decimal N ++ '\n' :: (t ++ '\n' :: (":wq".toList ++ '\n' :: x)),
            false⟩).1.mem = m := by
    intro m o1 hp
    have hq := editar_paso_wq f m
      (":i ".toList ++ decimal N ++ NUL :: buf.drop ((":i ".toList ++ decimal N).length + 1))
      o1 x
    obtain ⟨k, hk⟩ : ∃ k,
        (":i ".toList ++ decimal N ++
          '\n' :: (t ++ '\n' :: (":wq".toList ++ '\n' :: x))).length = k + 1 :=
      ⟨_, by simp only [List.length_append, List.length_cons]; rfl⟩
    unfold editar_archivo
    simp only [harch, ne_eq, not_true_eq_false, if_false]
    rw [editar_bucle_sigue f _ _ _ hp, hk, editar_bucle_retorna f k _ _ true hq]
    exact ⟨rfl, rfl⟩
  refine ⟨?_, ?_, ?_⟩
  · intro h1 h2
    have e1 := fun o y => (hci o y).1 h1 h2
    refine ⟨?_, ?_⟩
    · rw [hstep, e1]
    · have := hses _ _ (by rw [hstep, e1])
      refine ⟨this.1, ?_⟩
      rw [this.2, leer_poner_lineas _ _ _ hf]
  · intro h1
    have e1 := fun o y => (hci o y).2.1 h1
    refine ⟨?_, ?_⟩
    · rw [hstep, e1]
    · exact hses _ _ (by rw [hstep, e1])
  · intro h1
    rw [hstep, ((hci _ _).2.2 h1)]

/-- C23 (witness): the command `:i 2` with the text `z` on the File with the lines `x` and
`y`. -/
theorem C23_insertar_antes_testigo :
    (1 < arbolFXY.length ∧ (leer arbolFXY 1).tipo = TipoNodo.NODO_ARCHIVO ∧ 2 < 2 ^ 31 ∧
        "z".toList.length ≤ 1023 ∧ LineaLimpia "z".toList ∧
        1 ≤ 2 ∧ 2 ≤ (leer arbolFXY 1).lineas.length + 1) ∧
      (editar_archivo arbolFXY (some 1) []
          ⟨":i ".toList ++ decimal 2 ++ '\n' :: ("z".toList ++ '\n' :: (":wq".toList ++ '\n' :: [])),
            false⟩).2 = true ∧
      (leer (editar_archivo arbolFXY (some 1) []
          ⟨":i ".toList ++ decimal 2 ++ '\n' :: ("z".toList ++ '\n' :: (":wq".toList ++ '\n' :: [])),
            false⟩).1.mem 1).lineas =
        (leer arbolFXY 1).lineas.take (2 - 1) ++
          quitar_cr "z".toList :: (leer arbolFXY 1).lineas.drop (2 - 1) ∧
      (leer arbolFXY 1).lineas.take (2 - 1) ++
          quitar_cr "z".toList :: (leer arbolFXY 1).lineas.drop (2 - 1) =
        ["x".toList, "z".toList, "y".toList] :=
  ⟨⟨by decide, by decide, by decide, by decide, by unfold LineaLimpia; decide, by decide,
      by decide⟩,
    ((C23_insertar_antes arbolFXY 1 [] [] "z".toList [] 2 (by decide) (by decide) (by decide)
      (by decide) (by unfold LineaLimpia; decide)).1 (by decide) (by decide)).2.1,
    ((C23_insertar_antes arbolFXY 1 [] [] "z".toList [] 2 (by decide) (by decide) (by decide)
      (by decide) (by unfold LineaLimpia; decide)).1 (by decide) (by decide)).2.2,
    by decide⟩

theorem leer_ruta_fst : ∀ (n : Nat) (r : Cadena),
    (leer_ruta n r).1 = (r.takeWhile (fun c => c ≠ ' ')).take n := by
  intro n
  induction n with
  | zero => intro r; simp [leer_ruta]
  | succ n ih =>
    intro r
    cases r with
    | nil => simp [leer_ruta]
    | cons c t =>
      by_cases hc : c = ' '
      · simp [leer_ruta, hc, List.takeWhile]
      · simp [leer_ruta, hc, List.takeWhile, ih]

theorem takeWhile_c_str (x : Cadena) :
    (c_str x).takeWhile (fun c => c ≠ ' ') = x.takeWhile (fun c => c ≠ ' ' ∧ c ≠ NUL) := by
  induction x with
  | nil => simp [c_str]
  | cons a t ih =>
    by_cases ha : a = NUL
    · subst ha
      simp [c_str, List.takeWhile, NUL]
    · rw [c_str_cons _ _ ha]
      by_cases hs : a = ' '
      · simp [List.takeWhile, hs]
      · rw [List.takeWhile_cons_of_pos (by simp [hs]),
          List.takeWhile_cons_of_pos (by simp [hs, ha]), ih]

theorem c_str_drop2 (l r : Cadena) (h : c_str l = 'F' :: ' ' :: r) :
    l.take 2 = "F ".toList ∧ r = c_str (l.drop 2) := by
  cases l with
  | nil => simp [c_str] at h
  | cons a t =>
    by_cases ha : a = NUL
    · subst ha; simp [c_str, List.takeWhile, NUL] at h
    · rw [c_str_cons _ _ ha] at h
      simp only [List.cons.injEq] at h
      obtain ⟨rfl, h2⟩ := h
      cases t with
      | nil => simp [c_str] at h2
      | cons b u =>
        by_cases hb : b = NUL
        · subst hb; simp [c_str, List.takeWhile, NUL] at h2
        · rw [c_str_cons _ _ hb] at h2
          simp only [List.cons.injEq] at h2
          obtain ⟨rfl, h3⟩ := h2
          exact ⟨rfl, h3.symm⟩

/-- The path that the loader copies from an `F` line is the path of that line. -/
theorem leer_ruta_de_linea (l r : Cadena) (h : c_str l = 'F' :: ' ' :: r) :
    l.take 2 = "F ".toList ∧ (leer_ruta 511 r).1 = ruta_de_linea l := by
  obtain ⟨h1, h2⟩ := c_str_drop2 l r h
  refine ⟨h1, ?_⟩
  rw [leer_ruta_fst, h2, takeWhile_c_str]; rfl

theorem extraer_forma : ∀ (x : Cadena) (cap : Nat) (a rest : Cadena),
    extraer cap x = (a, rest, false) →
      '\n' ∉ a ∧ (x = a ++ '\n' :: rest ∨ (x = a ∧ rest = [])) := by
  intro x
  induction x with
  | nil =>
    intro cap a rest h
    simp only [extraer, Prod.mk.injEq] at h
    obtain ⟨rfl, rfl, _⟩ := h
    exact ⟨by simp, Or.inr ⟨rfl, rfl⟩⟩
  | cons c r ih =>
    intro cap a rest h
    by_cases hc : c = '\n'
    · subst hc
      have h1 : extraer cap ('\n' :: r) = ([], r, false) := by
        cases cap <;> simp [extraer]
      rw [h1] at h
      simp only [Prod.mk.injEq] at h
      obtain ⟨rfl, rfl, _⟩ := h
      exact ⟨by simp, Or.inl rfl⟩
    · cases cap with
      | zero => simp [extraer, hc] at h
      | succ k =>
        simp only [extraer, hc, if_false, Prod.mk.injEq] at h
        obtain ⟨rfl, h2, h3⟩ := h
        have := ih k (extraer k r).1 rest (by
          rw [← h2, ← h3])
        obtain ⟨g1, g2⟩ := this
        refine ⟨?_, ?_⟩
        · intro hm
          rcases List.mem_cons.mp hm with e | e
          · exact hc e.symm
          · exact g1 e
        · rcases g2 with e | ⟨e1, e2⟩
          · left; rw [List.cons_append, ← e]
          · right; exact ⟨by rw [← e1], e2⟩

theorem splitOn_salto_linea (a rest : Cadena) (ha : '\n' ∉ a) :
    (a ++ '\n' :: rest).splitOn '\n' = a :: rest.splitOn '\n' := by
  unfold List.splitOn
  apply List.splitOnP_first
  · intro x hx hxe
    simp only [beq_iff_eq] at hxe
    exact ha (hxe ▸ hx)
  · simp

theorem splitOn_sin_salto (a : Cadena) (ha : '\n' ∉ a) : a.splitOn '\n' = [a] := by
  unfold List.splitOn
  apply List.splitOnP_eq_single
  intro x hx hxe
  simp only [beq_iff_eq] at hxe
  exact ha (hxe ▸ hx)

theorem sinNombreVacio_nil : SinNombreVacio [] := by
  intro l hl
  rw [splitOn_sin_salto [] (by simp)] at hl
  simp only [List.mem_singleton] at hl
  subst hl
  intro h; cases h

/-- What a successful `getline` has read: a first line of the unread text, and what is left
is the text after it, whose lines are lines of the text before. -/
theorem getline_forma (s s1 : Flujo) (n : Nat) (t : Cadena)
    (hg : getline s n = (some t, s1)) :
    ∃ a, t = c_str a ∧ s1.falla = false ∧
      (SinNombreVacio s.resto →
        SinNombreVacio s1.resto ∧
          (a.take 2 = "F ".toList → (ruta_de_linea a).getLast? ≠ some '/')) := by
  unfold getline at hg
  by_cases hf : s.falla = true
  · simp [hf] at hg
  · simp only [hf, Bool.false_eq_true, if_false] at hg
    cases hr : s.resto with
    | nil => rw [hr] at hg; simp at hg
    | cons c r =>
      rw [hr] at hg
      simp only at hg
      generalize hex : extraer (n - 1) (c :: r) = q at hg
      obtain ⟨a, rest, b⟩ := q
      cases b with
      | true => simp at hg
      | false =>
        simp only [Bool.false_eq_true, if_false, Prod.mk.injEq, Option.some.injEq] at hg
        obtain ⟨rfl, rfl⟩ := hg
        obtain ⟨g1, g2⟩ := extraer_forma (c :: r) (n - 1) a rest hex
        refine ⟨a, rfl, rfl, ?_⟩
        intro hs
        rcases g2 with e | ⟨e1, e2⟩
        · have hsp := splitOn_salto_linea a rest g1
          rw [← e] at hsp
          refine ⟨fun l hl => hs l (by rw [hsp]; exact List.mem_cons_of_mem _ hl),
            hs _ (by rw [hsp]; exact List.mem_cons_self _ _)⟩
        · refine ⟨by simp only; rw [e2]; exact sinNombreVacio_nil, ?_⟩
          apply hs
          rw [e1, splitOn_sin_salto a g1]
          exact List.mem_singleton_self _

theorem getline_falla (s s1 : Flujo) (n : Nat) (hg : getline s n = (none, s1)) :
    s1.falla = true := by
  unfold getline at hg
  by_cases hf : s.falla = true
  · simp only [hf, if_true, Prod.mk.injEq] at hg
    rw [← hg.2]; exact hf
  · simp only [hf, Bool.false_eq_true, if_false] at hg
    cases hr : s.resto with
    | nil => rw [hr] at hg; simp only [Prod.mk.injEq] at hg; rw [← hg.2]
    | cons c r =>
      rw [hr] at hg
      simp only at hg
      by_cases hq : (extraer (n - 1) (c :: r)).2.2 = true
      · simp only [hq, if_true, Prod.mk.injEq] at hg; rw [← hg.2]
      · simp [hq] at hg

/-- The stream invariant of the load: the stream has failed, or no `F` line of its unread
text has an empty file name. -/
theorem leer_linea_alloc_sin (s : Flujo) (n : Nat)
    (hs : s.falla = true ∨ SinNombreVacio s.resto) :
    (leer_linea_alloc s n).2.falla = true ∨ SinNombreVacio (leer_linea_alloc s n).2.resto := by
  unfold leer_linea_alloc
  cases hg : getline s n with
  | mk o s1 =>
    cases o with
    | none => exact Or.inl (getline_falla s s1 n hg)
    | some t =>
      obtain ⟨a, _, hf, hsin⟩ := getline_forma s s1 n t hg
      have : s.falla = false := by
        unfold getline at hg
        by_cases hf0 : s.falla = true
        · simp [hf0] at hg
        · simpa using hf0
      rcases hs with e | e
      · rw [this] at e; cases e
      · simp only
        split <;> exact Or.inr (hsin e).1

theorem leer_lineas_sin :
    ∀ (j : Nat) (h : Mem) (f : Nat) (s : Flujo),
      (s.falla = true ∨ SinNombreVacio s.resto) →
      ((leer_lineas j h f s).2.falla = true ∨ SinNombreVacio (leer_lineas j h f s).2.resto) := by
  intro j
  induction j with
  | zero => intro h f s hs; exact hs
  | succ j ih =>
    intro h f s hs
    simp only [leer_lineas]
    exact ih _ _ _ (leer_linea_alloc_sin s 1024 hs)

theorem nombresValidos_anexar (h : Mem) (hv : NombresValidos h) (f : Nat) (t : Cadena) :
    NombresValidos (anexar_linea h f t) := by
  refine ⟨by rw [(leer_anexar h f t 0).2.1]; exact hv.1, ?_⟩
  intro n hn hne
  rw [length_anexar] at hn
  rw [(leer_anexar h f t n).2.1]
  exact hv.2 n hn hne

theorem asegurar_bucle_validos :
    ∀ (f : Nat) (h : Mem) (cur : Nat) (r : Cadena), 0 < h.length → NombresValidos h →
      0 < (asegurar_bucle f h cur r).1.length ∧ NombresValidos (asegurar_bucle f h cur r).1 := by
  intro f
  induction f with
  | zero => intro h cur r h0 hv; exact ⟨h0, hv⟩
  | succ f ih =>
    intro h cur r h0 hv
    cases hr : saltar_barras r with
    | nil => simp only [asegurar_bucle, hr]; exact ⟨h0, hv⟩
    | cons c r1 =>
      simp only [asegurar_bucle, hr]
      by_cases hl : (leer_token 255 (c :: r1)).1.length = 0
      · rw [if_pos hl]; exact ih h cur _ h0 hv
      · rw [if_neg hl]
        cases hb : buscar_hijo h (some cur) (some (leer_token 255 (c :: r1)).1) with
        | some nxt => exact ih h nxt _ h0 hv
        | none =>
          simp only
          have hlen := (crear_enlazar_campos h TipoNodo.NODO_DIR
            (some (leer_token 255 (c :: r1)).1) cur).1
          apply ih
          · rw [hlen]; omega
          · exact nombresValidos_crear h hv h0 _ _
              ((nombre_valido_some _).mpr
                ⟨fun he => absurd (by rw [he]; rfl) hl, leer_token_sin_barra _ _⟩) cur

theorem asegurar_validos (h : Mem) (raiz : Option Nat) (ruta : Option Cadena)
    (h0 : 0 < h.length) (hv : NombresValidos h) :
    0 < (asegurar_directorio_absoluto h raiz ruta).1.length ∧
      NombresValidos (asegurar_directorio_absoluto h raiz ruta).1 := by
  unfold asegurar_directorio_absoluto
  split
  · split
    · exact ⟨h0, hv⟩
    · exact asegurar_bucle_validos _ h _ _ h0 hv
  · exact ⟨h0, hv⟩

theorem leer_lineas_validos :
    ∀ (j : Nat) (h : Mem) (f : Nat) (s : Flujo), 0 < h.length → NombresValidos h →
      0 < (leer_lineas j h f s).1.length ∧ NombresValidos (leer_lineas j h f s).1 := by
  intro j
  induction j with
  | zero => intro h f s h0 hv; exact ⟨h0, hv⟩
  | succ j ih =>
    intro h f s h0 hv
    simp only [leer_lineas]
    apply ih
    · rw [length_anexar]; exact h0
    · exact nombresValidos_anexar h hv f _

theorem cargar_archivo_validos (h : Mem) (raiz : Nat) (path r : Cadena)
    (s : Flujo) (a : Mem × Flujo) (ha : cargar_archivo h raiz path r s = some a)
    (h0 : 0 < h.length) (hv : NombresValidos h) (hne : path ≠ [])
    (hfin : path.getLast? ≠ some '/')
    (hs : s.falla = true ∨ SinNombreVacio s.resto) :
    0 < a.1.length ∧ NombresValidos a.1 ∧ (a.2.falla = true ∨ SinNombreVacio a.2.resto) := by
  obtain ⟨pp, nm, ⟨hsin, hnv⟩, hforma⟩ := cargar_archivo_forma_nombre h raiz path r s
  obtain ⟨padre, _, hcaso⟩ := hforma a ha
  obtain ⟨b1, b2⟩ := asegurar_validos h (some raiz) (some pp) h0 hv
  rcases hcaso with ⟨f, _, rfl⟩ | ⟨_, rfl⟩
  · obtain ⟨c1, c2⟩ := leer_lineas_validos _ _ f s b1 b2
    exact ⟨c1, c2, leer_lineas_sin _ _ _ _ hs⟩
  · have hlen := (crear_enlazar_campos (asegurar_directorio_absoluto h (some raiz)
      (some pp)).1 TipoNodo.NODO_ARCHIVO (some nm) padre).1
    have hc := nombresValidos_crear _ b2 b1 TipoNodo.NODO_ARCHIVO (some nm)
      ((nombre_valido_some nm).mpr ⟨hnv hne hfin, hsin⟩) padre
    obtain ⟨c1, c2⟩ := leer_lineas_validos (leer_numero 0 (saltar_espacios r)) _
      (crear_nodo (asegurar_directorio_absoluto h (some raiz) (some pp)).1
        TipoNodo.NODO_ARCHIVO (some nm) (some padre)).2 s (by rw [hlen]; omega) hc
    exact ⟨c1, c2, leer_lineas_sin _ _ _ _ hs⟩

theorem getline_exito (s s1 : Flujo) (n : Nat) (t : Cadena)
    (hg : getline s n = (some t, s1)) : s.falla = false := by
  unfold getline at hg
  by_cases hf0 : s.falla = true
  · simp [hf0] at hg
  · simpa using hf0

/-- The loop of the loader keeps the invariant of names when no `F` line of the unread text
has an empty file name. -/
theorem deserializar_bucle_validos (raiz : Nat) :
    ∀ (f : Nat) (h : Mem) (s : Flujo), 0 < h.length → NombresValidos h →
      (s.falla = true ∨ SinNombreVacio s.resto) →
      NombresValidos (deserializar_bucle raiz f h s).mem := by
  intro f
  induction f with
  | zero => intro h s _ hv _; exact hv
  | succ f ih =>
    intro h s h0 hv hs
    unfold deserializar_bucle
    cases hg : getline s 1024 with
    | mk o s1 =>
      cases o with
      | none => exact hv
      | some t =>
        obtain ⟨a, hta, hf1, hsin⟩ := getline_forma s s1 1024 t hg
        have hs0 : SinNombreVacio s.resto := by
          rcases hs with e | e
          · rw [getline_exito s s1 1024 t hg] at e; cases e
          · exact e
        obtain ⟨hs1, hlin⟩ := hsin hs0
        cases t with
        | nil => exact ih h s1 h0 hv (Or.inr hs1)
        | cons type l =>
          simp only
          split
          · exact ih h s1 h0 hv (Or.inr hs1)
          · rename_i htipo
            split
            · exact hv
            · rename_i hesp
              split
              · exact hv
              · rename_i hcab
                split
                · obtain ⟨b1, b2⟩ := asegurar_validos h (some raiz)
                    (some (leer_ruta 511 l.tail).1) h0 hv
                  exact ih _ s1 b1 b2 (Or.inr hs1)
                · rename_i hd
                  cases hca : cargar_archivo h raiz (leer_ruta 511 l.tail).1
                      (leer_ruta 511 l.tail).2 s1 with
                  | none => exact hv
                  | some r =>
                    have htF : type = 'F' := by
                      rcases not_not.mp htipo with e | e
                      · exact absurd e hd
                      · exact e
                    have hl : l = ' ' :: l.tail := by
                      cases l with
                      | nil => simp at hesp
                      | cons c u =>
                        simp only [List.head?_cons, ne_eq, Option.some.injEq,
                          not_not] at hesp
                        rw [hesp]; rfl
                    have hca1 : c_str a = 'F' :: ' ' :: l.tail := by
                      rw [← hta, htF]; congr 1
                    obtain ⟨e1, e2⟩ := leer_ruta_de_linea a l.tail hca1
                    have hfin : (leer_ruta 511 l.tail).1.getLast? ≠ some '/' := by
                      rw [e2]; exact hlin e1
                    have hne : (leer_ruta 511 l.tail).1 ≠ [] := by
                      intro he
                      rw [he] at hcab
                      simp at hcab
                    obtain ⟨b1, b2, b3⟩ := cargar_archivo_validos h raiz _ _ s1 r hca h0 hv
                      hne hfin (Or.inr hs1)
                    exact ih r.1 r.2 b1 b2 b3

theorem deserializar_validos (h : Mem) (hv : NombresValidos h) (h0 : 0 < h.length)
    (raiz : Option Nat) (s : Flujo) (hs : SinNombreVacio s.resto) :
    NombresValidos (deserializar_arbol h raiz s).mem := by
  cases raiz with
  | none => exact hv
  | some rz => exact deserializar_bucle_validos rz _ h s h0 hv (Or.inr hs)

theorem deserializar_nombres_sin_barra (h : Mem) (hv : NombresValidos h) (h0 : 0 < h.length)
    (raiz : Option Nat) (s : Flujo) :
    (leer (deserializar_arbol h raiz s).mem 0).nombre = [] ∧
      ∀ n, n < (deserializar_arbol h raiz s).mem.length →
        '/' ∉ (leer (deserializar_arbol h raiz s).mem n).nombre := by
  obtain ⟨c1, c2⟩ := deserializar_sinBarra h hv h0 raiz s
  refine ⟨c1, fun n hn => ?_⟩
  by_cases h0n : n = 0
  · subst h0n; rw [c1]; simp
  · exact c2 n hn h0n

/-- C20 (amended): in a tree whose root has the empty name and whose other names are
non-empty without slash, the same holds after `crear_directorio` and `crear_archivo`
(whatever the arguments), after `mover_nodo` with an absent or valid new name, the tree being
well formed, and after `deserializar_arbol` on a stream none of whose lines beginning with
`F ` has a path that ends in a slash. After the command `rename` every name other than the
root's is valid, and the root's name is empty unless the command's target is the root. After
`deserializar_arbol` on any stream the root's name is empty and no name has a slash. -/
theorem C20_nombres_validos (h : Mem) (hv : NombresValidos h) (h0 : 0 < h.length) :
    (∀ cwd nombre, NombresValidos (crear_directorio h cwd nombre).mem) ∧
      (∀ cwd nombre, NombresValidos (crear_archivo h cwd nombre).mem) ∧
      (Bien h → ∀ it np nn r, it < h.length → np < h.length →
        (nn = none ∨ nombre_valido nn = true) →
        mover_nodo h (some it) (some np) nn = some r → NombresValidos r.mem) ∧
      (∀ raiz cwd arg1 arg2,
        (comando_rename h raiz cwd arg1 arg2).mem.length = h.length ∧
        (∀ n, n < h.length → n ≠ 0 →
          (leer (comando_rename h raiz cwd arg1 arg2).mem n).nombre ≠ [] ∧
          '/' ∉ (leer (comando_rename h raiz cwd arg1 arg2).mem n).nombre) ∧
        ((resolver_ruta h (some raiz) (some cwd) (some arg1)).1 ≠ some 0 →
          (leer (comando_rename h raiz cwd arg1 arg2).mem 0).nombre = [])) ∧
      (∀ raiz s,
        (SinNombreVacio s.resto → NombresValidos (deserializar_arbol h raiz s).mem) ∧
        (leer (deserializar_arbol h raiz s).mem 0).nombre = [] ∧
        ∀ n, n < (deserializar_arbol h raiz s).mem.length →
          '/' ∉ (leer (deserializar_arbol h raiz s).mem n).nombre) := by
  refine ⟨nombresValidos_crear_directorio h hv h0, nombresValidos_crear_archivo h hv h0, ?_,
    comando_rename_nombres h hv,
    fun raiz s => ⟨deserializar_validos h hv h0 raiz s, deserializar_nombres_sin_barra h hv h0 raiz s⟩⟩
  intro hb it np nn r hit hnp hnn hm
  cases hval : r.val with
  | true => exact bien_nombresValidos _ (bien_mover h hb it np hit hnp nn hnn r hm hval)
  | false => rw [mover_falla h _ _ nn r hm hval]; exact hv

/-- C20 (witness): the tree `arbolDAB`; loading `D /d/x` and the file `F /d/f 1` with its
line keeps the names valid. -/
theorem C20_nombres_validos_testigo :
    (NombresValidos arbolDAB ∧ 0 < arbolDAB.length ∧
        SinNombreVacio "D /d/x\nF /d/f 1\nt\n".toList) ∧
      NombresValidos
        (deserializar_arbol arbolDAB (some 0) ⟨"D /d/x\nF /d/f 1\nt\n".toList, false⟩).mem ∧
      (leer (deserializar_arbol arbolDAB (some 0)
        ⟨"D /d/x\nF /d/f 1\nt\n".toList, false⟩).mem 0).nombre = [] :=
  ⟨⟨by decide, by decide, by decide⟩,
    ((C20_nombres_validos arbolDAB (by decide) (by decide)).2.2.2.2 (some 0)
      ⟨"D /d/x\nF /d/f 1\nt\n".toList, false⟩).1 (by decide),
    ((C20_nombres_validos arbolDAB (by decide) (by decide)).2.2.2.2 (some 0)
      ⟨"D /d/x\nF /d/f 1\nt\n".toList, false⟩).2.1⟩

end FS
